import Mathlib

/-!
Advent of Code 2022.  The main part is day 24 "Blizzard Basin"
(`src/24 - Blizzard Basin/part1.cpp`): a shallow embedding of the grid, the obstacle
motion, the snapshot cache and the time-expanded breadth-first search.  Smaller
embeddings of days 4, 6, 9, 13 and 25 follow it.  All definitions come first, then the
theorems about them, day 24 first.

Conventions of the embedding.

* `Int` (`std::int64_t`) and `Size` (`std::size_t`) are modelled by the unbounded `Int`
  and `Nat`.  Every number the program computes is bounded by `5 * W * H` (minutes) or
  by `W + H + 5 * W * H` (coordinates), so the model is exact for every input whose
  size fits a 64-bit address space.
* `std::unordered_set` and `std::unordered_map` are modelled by lists without
  repetition, in insertion order.  The program asks these containers for membership
  only, so their iteration order never reaches a result.
* `std::sort` leaves the order of elements that compare equal open.  The search takes
  the sorting function as the argument `sortBy`; theorems assume of it only that the
  result is a rearrangement of the input (`SortContract`) and, where the order matters,
  that it is ordered by the key (`SortOrders`); `stableSortBy` is one executable
  instance.
* The member functions that change the board (`getBlizzardsByMinute`,
  `breadthFirstSearch`) take the board and return the new board next to their result.
  They return `none` exactly where the C++ run does not come back with a value
  (see `getBlizzardsByMinute`); on a board built by the constructor they always
  return a value.
-/

namespace Day24

/-! ## `CoordinatePair` -/

/-- Grid cell: `class CoordinatePair : public std::pair<Int, Int>`. -/
structure CoordinatePair where
  first : Int
  second : Int
deriving DecidableEq, Repr

/-- Accessor `x()`. -/
def CoordinatePair.x (c : CoordinatePair) : Int := c.first

/-- Accessor `y()`. -/
def CoordinatePair.y (c : CoordinatePair) : Int := c.second

/-- Rendering `CoordinatePair::toString`, the text "(x,y)". -/
def CoordinatePair.toString (c : CoordinatePair) : String :=
  "(" ++ ToString.toString c.x ++ "," ++ ToString.toString c.y ++ ")"

/-- Comparison `CoordinatePair::operator==`. -/
def CoordinatePair.eqOp (a b : CoordinatePair) : Bool :=
  if a.x ≠ b.x then false
  else if a.y ≠ b.y then false
  else true

/-- Sum `CoordinatePair::operator+`. -/
def CoordinatePair.add (a b : CoordinatePair) : CoordinatePair :=
  ⟨a.first + b.first, a.second + b.second⟩

/-- The text "x,y" that `std::hash<CoordinatePair>` builds and hashes. -/
def CoordinatePair.hashText (c : CoordinatePair) : String :=
  ToString.toString c.x ++ "," ++ ToString.toString c.y

/-- Hash `std::hash<CoordinatePair>`; `strHash` stands for `std::hash<std::string>`. -/
def CoordinatePair.hash (strHash : String → Nat) (c : CoordinatePair) : Nat :=
  strHash c.hashText

/-- Manhattan distance `CoordinatePair::distance`. -/
def CoordinatePair.distance (a b : CoordinatePair) : Int :=
  ((a.x - b.x).natAbs : Int) + ((a.y - b.y).natAbs : Int)

/-! ## `Direction` -/

/-- Heading: `enum class Direction`. -/
inductive Direction where
  | Up
  | Down
  | Left
  | Right
deriving DecidableEq, Repr

/-- Translation `charToDirection`; `none` is the `std::terminate` exit. -/
def charToDirection (c : Char) : Option Direction :=
  if c = '^' then some Direction.Up
  else if c = 'v' then some Direction.Down
  else if c = '<' then some Direction.Left
  else if c = '>' then some Direction.Right
  else none

/-- The array returned by `allDirections`. -/
def allDirections : List Direction :=
  [Direction.Up, Direction.Down, Direction.Left, Direction.Right]

/-- Unit vector `directionToForceVector`. -/
def directionToForceVector (direction : Direction) : CoordinatePair :=
  match direction with
  | Direction.Up => ⟨0, -1⟩
  | Direction.Down => ⟨0, 1⟩
  | Direction.Left => ⟨-1, 0⟩
  | Direction.Right => ⟨1, 0⟩

/-! ## Walls and obstacles -/

/-- Wall set: `using WallSet = std::unordered_set<CoordinatePair>`. -/
abbrev WallSet := List CoordinatePair

/-- Membership test `WallSet::contains`. -/
def WallSet.contains (walls : WallSet) (c : CoordinatePair) : Bool :=
  walls.any (fun w => w.eqOp c)

/-- Insertion `WallSet::insert`: an element already present is not added again. -/
def WallSet.insert (walls : WallSet) (c : CoordinatePair) : WallSet :=
  if walls.contains c then walls else walls ++ [c]

/-- Obstacle: `class Blizzard`. -/
structure Blizzard where
  _coord : CoordinatePair
  _direction : Direction
deriving DecidableEq, Repr

/-- Accessor `x()`. -/
def Blizzard.x (b : Blizzard) : Int := b._coord.x

/-- Accessor `y()`. -/
def Blizzard.y (b : Blizzard) : Int := b._coord.y

/-- Accessor `direction()`. -/
def Blizzard.direction (b : Blizzard) : Direction := b._direction

/-- One step of an obstacle, `Blizzard::move`. -/
def Blizzard.move (b : Blizzard) (height width : Int) (walls : WallSet) : Blizzard :=
  let newCoord := b._coord.add (directionToForceVector b._direction)
  if !walls.contains newCoord then
    { b with _coord := newCoord }
  else
    match b._direction with
    | Direction.Up => { b with _coord := ⟨b.x, height - 2⟩ }
    | Direction.Down => { b with _coord := ⟨b.x, 1⟩ }
    | Direction.Left => { b with _coord := ⟨width - 2, b.y⟩ }
    | Direction.Right => { b with _coord := ⟨1, b.y⟩ }

/-- Comparison `Blizzard::operator==`. -/
def Blizzard.eqOp (a b : Blizzard) : Bool :=
  a._coord.eqOp b._coord && decide (a._direction = b._direction)

/-- Snapshot: `using BlizzardMap = std::unordered_map<CoordinatePair, std::unordered_set<Blizzard>>`. -/
abbrev BlizzardMap := List (CoordinatePair × List Blizzard)

/-- Membership test `BlizzardMap::contains`: is there an entry under this key. -/
def BlizzardMap.contains (m : BlizzardMap) (c : CoordinatePair) : Bool :=
  m.any (fun e => e.1.eqOp c)

/-- Insertion into a `std::unordered_set<Blizzard>`. -/
def blizzardSetInsert (s : List Blizzard) (b : Blizzard) : List Blizzard :=
  if s.any (fun a => a.eqOp b) then s else s ++ [b]

/-- The statement `(*map)[key].insert(b)`: `operator[]` creates an empty set under a
missing key, then the obstacle is inserted into the set under the key. -/
def BlizzardMap.insertAt : BlizzardMap → CoordinatePair → Blizzard → BlizzardMap
  | [], key, b => [(key, blizzardSetInsert [] b)]
  | e :: rest, key, b =>
    if e.1.eqOp key then (e.1, blizzardSetInsert e.2 b) :: rest
    else e :: BlizzardMap.insertAt rest key b

/-! ## `State` -/

/-- Search state: `class State`.  The two shared pointers are modelled by the values
they point to. -/
structure State where
  _minute : Nat
  _playerPosition : CoordinatePair
  _walls : WallSet
  _blizzards : BlizzardMap
  _numWaited : Int

/-- Accessor `minute()`. -/
def State.minute (s : State) : Nat := s._minute

/-- Accessor `playerPosition()`. -/
def State.playerPosition (s : State) : CoordinatePair := s._playerPosition

/-- Rendering `State::toString`, the text "(x,y,minute)". -/
def State.toString (s : State) : String :=
  "(" ++ ToString.toString s._playerPosition.x
    ++ "," ++ ToString.toString s._playerPosition.y
    ++ "," ++ ToString.toString s._minute
    ++ ")"

/-- Comparison `State::operator==`: equality of the renderings. -/
def State.eqOp (a b : State) : Bool :=
  decide (a.toString = b.toString)

/-- Hash `std::hash<State>`; `strHash` stands for `std::hash<std::string>`. -/
def State.hash (strHash : String → Nat) (s : State) : Nat :=
  strHash s.toString

/-- Heuristic `State::score`: distance from the player to `end`. -/
def State.score (s : State) (goal : CoordinatePair) : Int :=
  s._playerPosition.distance goal

/-! ## `GameBoard` -/

/-- Snapshot cache: `std::unordered_map<Size, std::shared_ptr<BlizzardMap>>`. -/
abbrev SnapshotCache := List (Nat × BlizzardMap)

/-- Lookup in the cache: `contains(minute)` followed by `operator[]`. -/
def SnapshotCache.find : SnapshotCache → Nat → Option BlizzardMap
  | [], _ => none
  | e :: rest, minute => if e.1 = minute then some e.2 else SnapshotCache.find rest minute

/-- Assignment `cache[minute] = snapshot`. -/
def SnapshotCache.assign : SnapshotCache → Nat → BlizzardMap → SnapshotCache
  | [], minute, snapshot => [(minute, snapshot)]
  | e :: rest, minute, snapshot =>
    if e.1 = minute then (minute, snapshot) :: rest
    else e :: SnapshotCache.assign rest minute snapshot

/-- The board: `class GameBoard`. -/
structure GameBoard where
  _start : CoordinatePair
  _end : CoordinatePair
  _width : Int
  _height : Int
  _walls : WallSet
  _blizzardsByTimeMap : SnapshotCache

/-- What the constructor has collected while it reads the characters: `_start`,
`_walls` and `initBlizzards`. -/
structure ParseState where
  start : CoordinatePair
  walls : WallSet
  initBlizzards : BlizzardMap

/-- Body of the inner loop of the constructor: the character `c` at column `x` of
line `y`. -/
def parseCell (x y : Int) (c : Char) (st : ParseState) : ParseState :=
  if y = 0 ∧ c = '.' then
    { st with start := ⟨x, y⟩ }
  else if c = '#' then
    { st with walls := st.walls.insert ⟨x, y⟩ }
  else if h : c = '^' ∨ c = 'v' ∨ c = '<' ∨ c = '>' then
    match hd : charToDirection c with
    | some d => { st with initBlizzards := st.initBlizzards.insertAt ⟨x, y⟩ ⟨⟨x, y⟩, d⟩ }
    | none => absurd hd (by rcases h with h | h | h | h <;> subst h <;> decide)
  else
    st

/-- Inner loop of the constructor, `for (Int x = 0; x < lineLength; ++x)`, from
column `x` on. -/
def parseLine (y : Int) : List Char → Int → ParseState → ParseState
  | [], _, st => st
  | c :: cs, x, st => parseLine y cs (x + 1) (parseCell x y c st)

/-- Outer loop of the constructor, `for (String line; std::getline(is, line);)`, from
line `y` on; returns the collected data, `prevLine` and the final `y`. -/
def parseLines : List String → Int → String → ParseState → ParseState × String × Int
  | [], y, prevLine, st => (st, prevLine, y)
  | line :: rest, y, _, st => parseLines rest (y + 1) line (parseLine y line.data 0 st)

/-- Last loop of the constructor: the last `.` of `prevLine` becomes `_end`. -/
def scanEnd (y : Int) : List Char → Int → CoordinatePair → CoordinatePair
  | [], _, e => e
  | c :: cs, x, e => scanEnd y cs (x + 1) (if c = '.' then ⟨x, y⟩ else e)

/-- Constructor `GameBoard::GameBoard(std::istream &)`; the stream is given as the
list of its lines. -/
def GameBoard.parse (lines : List String) : GameBoard :=
  let r := parseLines lines 0 "" ⟨⟨0, 0⟩, [], []⟩
  let st := r.1
  let prevLine := r.2.1
  let y := r.2.2
  { _start := st.start
    _end := scanEnd (y - 1) prevLine.data 0 ⟨0, 0⟩
    _width := (prevLine.length : Int)
    _height := y
    _walls := st.walls
    _blizzardsByTimeMap := SnapshotCache.assign [] 0 st.initBlizzards }

/-- Test `GameBoard::isValidPlayerPosition`. -/
def GameBoard.isValidPlayerPosition (g : GameBoard) (playerPosition : CoordinatePair)
    (blizzardMap : BlizzardMap) : Bool :=
  if playerPosition.x < 0 ∨ playerPosition.x > g._width - 1 ∨
      playerPosition.y < 0 ∨ playerPosition.y > g._height - 1 then false
  else if g._walls.contains playerPosition then false
  else if blizzardMap.contains playerPosition then false
  else true

/-- The two nested loops of `getBlizzardsByMinute`: every obstacle of the old snapshot
is moved and inserted into a new snapshot under its new cell. -/
def GameBoard.moveAll (g : GameBoard) (oldBlizzards : BlizzardMap) : BlizzardMap :=
  oldBlizzards.foldl
    (fun acc entry =>
      entry.2.foldl
        (fun acc2 blizzard =>
          let newBlizzard := blizzard.move g._height g._width g._walls
          acc2.insertAt ⟨newBlizzard.x, newBlizzard.y⟩ newBlizzard)
        acc)
    []

/-- Memoised snapshot `GameBoard::getBlizzardsByMinute`.  The result is the snapshot
and the board with its cache extended.  At `minute = 0` with key `0` missing from the
cache the C++ code computes `minute - 1` on an unsigned value and descends from
`2^64 - 1`; no run comes back from that, and the model returns `none`. -/
def GameBoard.getBlizzardsByMinute (g : GameBoard) : Nat → Option (BlizzardMap × GameBoard)
  | 0 =>
    match g._blizzardsByTimeMap.find 0 with
    | some snapshot => some (snapshot, g)
    | none => none
  | minute + 1 =>
    match g._blizzardsByTimeMap.find (minute + 1) with
    | some snapshot => some (snapshot, g)
    | none =>
      match GameBoard.getBlizzardsByMinute g minute with
      | none => none
      | some (oldBlizzards, g1) =>
        let newBlizzards := g1.moveAll oldBlizzards
        some (newBlizzards,
          { g1 with _blizzardsByTimeMap :=
              g1._blizzardsByTimeMap.assign (minute + 1) newBlizzards })

/-- Bound `GameBoard::getSearchMinuteLimit`, an `Int` product converted to `Size`; on a
board built by the constructor the product is not negative. -/
def GameBoard.getSearchMinuteLimit (g : GameBoard) : Nat :=
  ((g._height * g._width) * 5).toNat

/-- The constant `sizeLimit` of `breadthFirstSearch`. -/
def sizeLimit : Nat := 100000000

/-- Successors of one state: the loop over `allDirections()` and the "don't move"
case, appended to `next`. -/
def GameBoard.expandState (g : GameBoard) (state : State) (newBlizzards : BlizzardMap)
    (next : List State) : List State :=
  let newMinute := state.minute + 1
  let moved := allDirections.foldl
    (fun acc direction =>
      let newPlayerPosition := state.playerPosition.add (directionToForceVector direction)
      if !g.isValidPlayerPosition newPlayerPosition newBlizzards then acc
      else acc ++ [State.mk newMinute newPlayerPosition g._walls newBlizzards 0])
    next
  if g.isValidPlayerPosition state.playerPosition newBlizzards then
    moved ++ [State.mk newMinute state.playerPosition g._walls newBlizzards 0]
  else moved

/-- Loop `for (const auto & state : states)` of `breadthFirstSearch`: returns `next`,
`visited` and the board after the loop. -/
def GameBoard.expandLayer : List State → GameBoard → List State → List State →
    Option (List State × List State × GameBoard)
  | [], g, next, visited => some (next, visited, g)
  | state :: rest, g, next, visited =>
    if visited.any (fun v => v.eqOp state) then
      GameBoard.expandLayer rest g next visited
    else
      match g.getBlizzardsByMinute (state.minute + 1) with
      | none => none
      | some (newBlizzards, g1) =>
        GameBoard.expandLayer rest g1 (g1.expandState state newBlizzards next)
          (visited ++ [state])

/-- The trim step of `breadthFirstSearch` with cap `K`: when `next` holds more than
`K` states it is sorted by `score` and cut after `K` states.  `sortBy` stands for
`std::sort`, which is given the comparison `a.score(_end) < b.score(_end)`. -/
def GameBoard.trim (sortBy : (State → State → Bool) → List State → List State)
    (K : Nat) (g : GameBoard) (next : List State) : List State :=
  if next.length > K then
    (sortBy (fun a b => decide (a.score g._end < b.score g._end)) next).take K
  else next

/-- Loop `for (Size minute = 0; minute < getSearchMinuteLimit(); ++minute)` of
`breadthFirstSearch`.  The loop variable is only compared with the limit, so the
loop is a recursion on the number of iterations that are left. -/
def GameBoard.searchLoop (sortBy : (State → State → Bool) → List State → List State) :
    Nat → GameBoard → List State → List State → Option (Int × GameBoard)
  | 0, g, _, _ => some (-1, g)
  | left + 1, g, states, visited =>
    match GameBoard.expandLayer states g [] visited with
    | none => none
    | some (next, visited1, g1) =>
      let next1 := g1.trim sortBy sizeLimit next
      match next1.find? (fun state => state.playerPosition.eqOp g1._end) with
      | some found => some ((found.minute : Int), g1)
      | none => GameBoard.searchLoop sortBy left g1 next1 visited1

/-- Search `GameBoard::breadthFirstSearch`: the returned number and the board after the
search.  The initial state reads `_blizzardsByTimeMap[0]`, which the constructor has
always filled; the model returns `none` for a board value without it. -/
def GameBoard.breadthFirstSearch (sortBy : (State → State → Bool) → List State → List State)
    (g : GameBoard) : Option (Int × GameBoard) :=
  match g._blizzardsByTimeMap.find 0 with
  | none => none
  | some snapshot0 =>
    GameBoard.searchLoop sortBy g.getSearchMinuteLimit g
      [State.mk 0 g._start g._walls snapshot0 0] []

/-- A stable sort by the given strict comparison, one admissible `std::sort`. -/
def stableSortBy (lt : State → State → Bool) (l : List State) : List State :=
  l.insertionSort (fun a b => lt b a = false)

/-- The number returned by `breadthFirstSearch`, without the board. -/
def GameBoard.searchValue (sortBy : (State → State → Bool) → List State → List State)
    (g : GameBoard) : Option Int :=
  (g.breadthFirstSearch sortBy).map Prod.fst

/-- The number printed by `main` for the given input lines. -/
def answer (lines : List String) : Option Int :=
  (GameBoard.parse lines).searchValue stableSortBy

/-! ## Auxiliary definitions used by the theorems -/

/-- Value of a string of decimal digits, most significant digit first. -/
def digitsValue (l : List Char) : Nat :=
  l.foldl (fun acc c => 10 * acc + (c.toNat - 48)) 0

/-- Characters that occur in the rendering of a natural number. -/
def IsDigitChar (c : Char) : Prop := c ≠ ',' ∧ c ≠ '-' ∧ c ≠ ')'

/-- Value of the rendering of an integer: an optional `-` and decimal digits. -/
def intValue (l : List Char) : Int :=
  match l with
  | [] => 0
  | c :: r => if c = '-' then -((digitsValue r : Nat) : Int) else ((digitsValue (c :: r) : Nat) : Int)

/-- Obstacle `b` is stored under key `c` of the snapshot. -/
def BlizzardMap.Holds (m : BlizzardMap) (c : CoordinatePair) (b : Blizzard) : Prop :=
  ∃ e ∈ m, e.1 = c ∧ b ∈ e.2

/-- Cell `c` is occupied in the snapshot: some obstacle is stored under key `c`. -/
def BlizzardMap.Occupied (m : BlizzardMap) (c : CoordinatePair) : Prop :=
  ∃ e ∈ m, e.1 = c ∧ e.2 ≠ []

/-- Every key of the snapshot holds at least one obstacle. -/
def BlizzardMap.SetsNonempty (m : BlizzardMap) : Prop :=
  ∀ e ∈ m, e.2 ≠ []

/-- The snapshot of minute `t` computed without the cache: `t` rounds of the two
nested loops of `getBlizzardsByMinute`, starting from the snapshot `init` of minute 0. -/
def GameBoard.snapshot (g : GameBoard) (init : BlizzardMap) : Nat → BlizzardMap
  | 0 => init
  | t + 1 => g.moveAll (GameBoard.snapshot g init t)

/-- The cache holds minute 0, and under every key the snapshot of that minute. -/
def GameBoard.CacheOK (g : GameBoard) (init : BlizzardMap) : Prop :=
  g._blizzardsByTimeMap.find 0 = some init ∧
    ∀ k m, g._blizzardsByTimeMap.find k = some m → m = g.snapshot init k

/-- The board with another cache. -/
def GameBoard.withCache (g : GameBoard) (cache : SnapshotCache) : GameBoard :=
  { g with _blizzardsByTimeMap := cache }

/-- Cell `b` is one of the four orthogonal neighbours of cell `a`. -/
def Adjacent (a b : CoordinatePair) : Prop :=
  (b.x = a.x ∧ (b.y = a.y - 1 ∨ b.y = a.y + 1)) ∨
    (b.y = a.y ∧ (b.x = a.x - 1 ∨ b.x = a.x + 1))

/-- What `std::sort` guarantees about its output, as far as the search depends on it:
the sorted vector is a rearrangement of the given one. -/
def SortContract (sortBy : (State → State → Bool) → List State → List State) : Prop :=
  ∀ lt l, (sortBy lt l).Perm l

/-- The state that the search builds for cell `p` at minute `t`. -/
def GameBoard.stateAt (g : GameBoard) (init : BlizzardMap) (t : Nat) (p : CoordinatePair) :
    State :=
  State.mk t p g._walls (g.snapshot init t) 0

/-- State `s2` is one of the states that `expandState` builds from state `s`. -/
def GameBoard.IsSuccessor (g : GameBoard) (init : BlizzardMap) (s s2 : State) : Prop :=
  ∃ p, (p = s.playerPosition ∨ Adjacent s.playerPosition p) ∧
    g.isValidPlayerPosition p (g.snapshot init (s.minute + 1)) = true ∧
    s2 = g.stateAt init (s.minute + 1) p

/-- Cell `p` can be reached at minute `t`: from `_start` at minute 0 by waits and
orthogonal steps, every cell entered at minute `i` passing `isValidPlayerPosition`
against the snapshot of minute `i`. -/
inductive GameBoard.Reach (g : GameBoard) (init : BlizzardMap) : Nat → CoordinatePair → Prop
  | start : GameBoard.Reach g init 0 g._start
  | step (t : Nat) (p q : CoordinatePair) :
      GameBoard.Reach g init t p → (q = p ∨ Adjacent p q) →
      g.isValidPlayerPosition q (g.snapshot init (t + 1)) = true →
      GameBoard.Reach g init (t + 1) q

/-- The variables `states`, `visited` and the board at the start of iteration
`minute` of the loop of `breadthFirstSearch`, when the loop has not returned before:
`states` is the frontier layer of that minute, as built and trimmed by the loop. -/
def GameBoard.loopStateAt (sortBy : (State → State → Bool) → List State → List State)
    (g : GameBoard) : Nat → Option (List State × List State × GameBoard)
  | 0 =>
    match g._blizzardsByTimeMap.find 0 with
    | none => none
    | some snapshot0 => some ([State.mk 0 g._start g._walls snapshot0 0], [], g)
  | minute + 1 =>
    match GameBoard.loopStateAt sortBy g minute with
    | none => none
    | some (states, visited, g1) =>
      match GameBoard.expandLayer states g1 [] visited with
      | none => none
      | some (next, visited1, g2) => some (g2.trim sortBy sizeLimit next, visited1, g2)

/-- The frontier layer of minute `t`, as built and trimmed by the loop. -/
def GameBoard.frontier (sortBy : (State → State → Bool) → List State → List State)
    (g : GameBoard) (t : Nat) : List State :=
  match g.loopStateAt sortBy t with
  | none => []
  | some r => r.1

/-- The size of `next` before the trim step in iteration `minute` of the loop. -/
def GameBoard.nextSize (sortBy : (State → State → Bool) → List State → List State)
    (g : GameBoard) (minute : Nat) : Option Nat :=
  match g.loopStateAt sortBy minute with
  | none => none
  | some (states, visited, g1) =>
    match GameBoard.expandLayer states g1 [] visited with
    | none => none
    | some r => some r.1.length

/-- The frontier layer of minute `t` contains a state whose position is the goal. -/
def GameBoard.Hits (sortBy : (State → State → Bool) → List State → List State)
    (g : GameBoard) (t : Nat) : Prop :=
  ∃ s ∈ g.frontier sortBy t, s.playerPosition = g._end

/-- The snapshot of minute 0 held by the board (empty when the cache has no key 0). -/
def GameBoard.initial (g : GameBoard) : BlizzardMap :=
  match g._blizzardsByTimeMap.find 0 with
  | some m => m
  | none => []

/-- Cell `p` is open at minute `i`: in bounds, not a wall, and not occupied by any
obstacle of the snapshot `getBlizzardsByMinute(i)`. -/
def GameBoard.OpenAt (g : GameBoard) (i : Nat) (p : CoordinatePair) : Prop :=
  0 ≤ p.x ∧ p.x ≤ g._width - 1 ∧ 0 ≤ p.y ∧ p.y ≤ g._height - 1 ∧ p ∉ g._walls ∧
    ∃ m g2, g.getBlizzardsByMinute i = some (m, g2) ∧ ¬ m.Occupied p

/-- The sequence `p 0, ..., p t` leads from the start to the goal in `t` steps, every
step a wait or a move to an orthogonal neighbour, every cell `p i` with `i ≥ 1` open
at its arrival minute `i`. -/
def GameBoard.IsWalk (g : GameBoard) (t : Nat) (p : Nat → CoordinatePair) : Prop :=
  p 0 = g._start ∧ p t = g._end ∧
    ∀ i, i < t → (p (i + 1) = p i ∨ Adjacent (p i) (p (i + 1))) ∧ g.OpenAt (i + 1) (p (i + 1))

/-- Cell `p` is in bounds and not a wall. -/
def GameBoard.WallFree (g : GameBoard) (p : CoordinatePair) : Prop :=
  0 ≤ p.x ∧ p.x ≤ g._width - 1 ∧ 0 ≤ p.y ∧ p.y ≤ g._height - 1 ∧ p ∉ g._walls

/-- Some sequence of orthogonally adjacent cells leads from `a` to `b`, every cell
entered being in bounds and not a wall. -/
def GameBoard.Connected (g : GameBoard) (a b : CoordinatePair) : Prop :=
  Relation.ReflTransGen (fun c d => Adjacent c d ∧ g.WallFree d) a b

instance (a b : CoordinatePair) : Decidable (Adjacent a b) := by
  unfold Adjacent; infer_instance

instance (g : GameBoard) (p : CoordinatePair) : Decidable (g.WallFree p) := by
  unfold GameBoard.WallFree; infer_instance

instance (m : BlizzardMap) (c : CoordinatePair) : Decidable (m.Occupied c) := by
  unfold BlizzardMap.Occupied; infer_instance

/-- The character at column `x` of line `y` of the input (a blank outside the input). -/
def charAt (lines : List String) (x y : Nat) : Char :=
  ((lines.getD y "").data).getD x ' '

/-- The common line length of a rectangular input, read off its last line. -/
def gridWidth (lines : List String) : Nat :=
  ((lines.getLast?).getD "").length

/-- A validated grid: at least three lines of one common length of at least three; the
first and the last line are `#` except for exactly one `.` (the start and the goal
opening); every other line starts and ends with `#` and has no `#` in between. -/
def ValidGrid (lines : List String) : Prop :=
  3 ≤ lines.length ∧ 3 ≤ gridWidth lines ∧
    (∀ y, y < lines.length → (lines.getD y "").length = gridWidth lines) ∧
    (∃ sx, sx < gridWidth lines ∧
      ∀ x, x < gridWidth lines → charAt lines x 0 = if x = sx then '.' else '#') ∧
    (∃ gx, gx < gridWidth lines ∧
      ∀ x, x < gridWidth lines →
        charAt lines x (lines.length - 1) = if x = gx then '.' else '#') ∧
    (∀ y, y < lines.length - 1 → 0 < y →
      charAt lines 0 y = '#' ∧ charAt lines (gridWidth lines - 1) y = '#' ∧
        ∀ x, x < gridWidth lines - 1 → 0 < x → charAt lines x y ≠ '#')

instance (lines : List String) : Decidable (ValidGrid lines) := by
  unfold ValidGrid; infer_instance

/-- The walls of the board are exactly its one-cell border without the two openings:
the start in the top row and the goal in the bottom row. -/
def GameBoard.BorderWalls (g : GameBoard) : Prop :=
  3 ≤ g._width ∧ 3 ≤ g._height ∧
    g._start.y = 0 ∧ 0 ≤ g._start.x ∧ g._start.x ≤ g._width - 1 ∧
    g._end.y = g._height - 1 ∧ 0 ≤ g._end.x ∧ g._end.x ≤ g._width - 1 ∧
    ∀ c : CoordinatePair, c ∈ g._walls ↔
      (0 ≤ c.x ∧ c.x ≤ g._width - 1 ∧ 0 ≤ c.y ∧ c.y ≤ g._height - 1 ∧
        (c.x = 0 ∨ c.x = g._width - 1 ∨ c.y = 0 ∨ c.y = g._height - 1) ∧
        c ≠ g._start ∧ c ≠ g._end)

/-- The obstacle is in the interior rectangle `1 ≤ x ≤ W-2`, `1 ≤ y ≤ H-2`. -/
def GameBoard.InInterior (g : GameBoard) (c : CoordinatePair) : Prop :=
  1 ≤ c.x ∧ c.x ≤ g._width - 2 ∧ 1 ≤ c.y ∧ c.y ≤ g._height - 2

instance (g : GameBoard) (c : CoordinatePair) : Decidable (g.InInterior c) := by
  unfold GameBoard.InInterior; infer_instance

/-- The cell one unit along the heading of the obstacle. -/
def Blizzard.ahead (b : Blizzard) : CoordinatePair :=
  b._coord.add (directionToForceVector b._direction)

/-- The cell on the opposite interior edge of the axis of the heading: `Up` wraps to
`y = H-2`, `Down` to `y = 1`, `Left` to `x = W-2`, `Right` to `x = 1`. -/
def GameBoard.wrapTarget (g : GameBoard) (b : Blizzard) : CoordinatePair :=
  match b._direction with
  | Direction.Up => ⟨b.x, g._height - 2⟩
  | Direction.Down => ⟨b.x, 1⟩
  | Direction.Left => ⟨g._width - 2, b.y⟩
  | Direction.Right => ⟨1, b.y⟩

/-- The obstacle heads for an opening of the border: it moves `Up` in the column of
the start or `Down` in the column of the goal. -/
def GameBoard.Escapes (g : GameBoard) (b : Blizzard) : Prop :=
  (b._direction = Direction.Up ∧ b.x = g._start.x) ∨
    (b._direction = Direction.Down ∧ b.x = g._end.x)

instance (g : GameBoard) (b : Blizzard) : Decidable (g.Escapes b) := by
  unfold GameBoard.Escapes; infer_instance

/-- No obstacle of the snapshot of minute 0 heads for an opening of the border. -/
def GameBoard.NoEscape (g : GameBoard) : Prop :=
  ∀ e ∈ g.initial, ∀ b ∈ e.2, ¬ g.Escapes b

instance (g : GameBoard) : Decidable g.NoEscape := by
  unfold GameBoard.NoEscape; infer_instance

instance (m : BlizzardMap) (c : CoordinatePair) (b : Blizzard) : Decidable (m.Holds c b) := by
  unfold BlizzardMap.Holds; infer_instance

/-- The obstacle after `t` incremental applications of `Blizzard::move`. -/
def GameBoard.moveN (g : GameBoard) (b : Blizzard) : Nat → Blizzard
  | 0 => b
  | t + 1 => (GameBoard.moveN g b t).move g._height g._width g._walls

/-- The closed form of the spec: `pos(t) = start + t * heading`, each axis reduced
modulo the interior extent (non-negative remainder) and re-offset into the interior. -/
def GameBoard.closedFormPosition (g : GameBoard) (b : Blizzard) (t : Nat) : CoordinatePair :=
  ⟨1 + (b.x - 1 + (t : Int) * (directionToForceVector b._direction).x) % (g._width - 2),
    1 + (b.y - 1 + (t : Int) * (directionToForceVector b._direction).y) % (g._height - 2)⟩

/-- The board after the snapshots of the minutes `ts` have been requested one after
the other with `getBlizzardsByMinute`. -/
def GameBoard.afterRequests : GameBoard → List Nat → Option GameBoard
  | g, [] => some g
  | g, t :: ts =>
    match g.getBlizzardsByMinute t with
    | none => none
    | some r => GameBoard.afterRequests r.2 ts

/-- The heading that the input symbol stands for: `^` is `Up`, `v` is `Down`, `<` is
`Left`, `>` is `Right`. -/
def SymbolHeading (ch : Char) (d : Direction) : Prop :=
  (ch = '^' ∧ d = Direction.Up) ∨ (ch = 'v' ∧ d = Direction.Down) ∨
    (ch = '<' ∧ d = Direction.Left) ∨ (ch = '>' ∧ d = Direction.Right)

instance (ch : Char) (d : Direction) : Decidable (SymbolHeading ch d) := by
  unfold SymbolHeading; infer_instance

/-- In the snapshot no key occurs twice and no set holds an obstacle twice. -/
def BlizzardMap.NoRepetition (m : BlizzardMap) : Prop :=
  (m.map Prod.fst).Nodup ∧ ∀ e ∈ m, e.2.Nodup

instance (m : BlizzardMap) : Decidable m.SetsNonempty := by
  unfold BlizzardMap.SetsNonempty; infer_instance

/-- What `std::sort` guarantees about the order of its output when the comparison is
"smaller key first": in the sorted vector no element has a larger key than a later
one. -/
def SortOrders (sortBy : (State → State → Bool) → List State → List State) : Prop :=
  ∀ (key : State → Int) (l : List State),
    (sortBy (fun a b => decide (key a < key b)) l).Pairwise (fun a b => key a ≤ key b)

/-- The loop of `breadthFirstSearch` with the cap `K` in place of the constant
`sizeLimit`: the same statements, the trim step comparing and cutting with `K`. -/
def GameBoard.searchLoopWithCap (sortBy : (State → State → Bool) → List State → List State)
    (K : Nat) : Nat → GameBoard → List State → List State → Option (Int × GameBoard)
  | 0, g, _, _ => some (-1, g)
  | left + 1, g, states, visited =>
    match GameBoard.expandLayer states g [] visited with
    | none => none
    | some (next, visited1, g1) =>
      let next1 := g1.trim sortBy K next
      match next1.find? (fun state => state.playerPosition.eqOp g1._end) with
      | some found => some ((found.minute : Int), g1)
      | none => GameBoard.searchLoopWithCap sortBy K left g1 next1 visited1

/-- Board `g2` is board `g` with entries appended to the snapshot cache under keys that
`g` does not hold: nothing else differs, no entry of `g` is removed or changed. -/
def GameBoard.ExtendsCache (g g2 : GameBoard) : Prop :=
  ∃ added : SnapshotCache, g2 = g.withCache (g._blizzardsByTimeMap ++ added) ∧
    ∀ e ∈ added, g._blizzardsByTimeMap.find e.1 = none

/-- The boards that a run of the program can hold: the board built by the constructor,
and the board left by a call of `getBlizzardsByMinute` or of `breadthFirstSearch` on
such a board. -/
inductive GameBoard.Reachable (lines : List String) : GameBoard → Prop
  | constructed : GameBoard.Reachable lines (GameBoard.parse lines)
  | afterSnapshot (g : GameBoard) (t : Nat) (m : BlizzardMap) (g2 : GameBoard) :
      GameBoard.Reachable lines g → g.getBlizzardsByMinute t = some (m, g2) →
      GameBoard.Reachable lines g2
  | afterSearch (sortBy : (State → State → Bool) → List State → List State)
      (g : GameBoard) (r : Int) (g2 : GameBoard) :
      GameBoard.Reachable lines g → g.breadthFirstSearch sortBy = some (r, g2) →
      GameBoard.Reachable lines g2

/-- The key set of the cache is `{0, 1, ..., n}`. -/
def GameBoard.KeysUpTo (g : GameBoard) (n : Nat) : Prop :=
  ∀ k, g._blizzardsByTimeMap.find k ≠ none ↔ k ≤ n

/-- The number of recursive calls that `getBlizzardsByMinute(minute)` makes before it
finds a cached key; `none` when the recursion arrives at minute 0 with key 0 missing,
where the C++ code would compute `minute - 1`. -/
def GameBoard.recursionDepth (g : GameBoard) : Nat → Option Nat
  | 0 =>
    match g._blizzardsByTimeMap.find 0 with
    | some _ => some 0
    | none => none
  | minute + 1 =>
    match g._blizzardsByTimeMap.find (minute + 1) with
    | some _ => some 0
    | none =>
      match GameBoard.recursionDepth g minute with
      | none => none
      | some depth => some (depth + 1)

/-- All obstacles of the snapshot, cell after cell. -/
def BlizzardMap.obstacles (m : BlizzardMap) : List Blizzard :=
  m.flatMap (fun e => e.2)

/-- The number of obstacles of the snapshot: the sizes of the sets of all cells, added
up. -/
def BlizzardMap.total (m : BlizzardMap) : Nat :=
  (m.map (fun e => e.2.length)).sum

/-- The character is one of the four obstacle symbols that the constructor tests
for. -/
def isObstacleSymbol (c : Char) : Bool :=
  decide (c = '^') || decide (c = 'v') || decide (c = '<') || decide (c = '>')

/-- The number of obstacle symbols in the input. -/
def obstacleSymbolCount (lines : List String) : Nat :=
  (lines.map (fun l => l.data.countP isObstacleSymbol)).sum

/-- The loop of `breadthFirstSearch` together with the layers it builds: the same
statements as `searchLoop`, and in addition the list of the values of `next` (after
the trim step), one for every iteration that was executed, in the order of building. -/
def GameBoard.searchLoopLayers (sortBy : (State → State → Bool) → List State → List State) :
    Nat → GameBoard → List State → List State → Option (Int × GameBoard × List (List State))
  | 0, g, _, _ => some (-1, g, [])
  | left + 1, g, states, visited =>
    match GameBoard.expandLayer states g [] visited with
    | none => none
    | some (next, visited1, g1) =>
      let next1 := g1.trim sortBy sizeLimit next
      match next1.find? (fun state => state.playerPosition.eqOp g1._end) with
      | some found => some ((found.minute : Int), g1, [next1])
      | none =>
        match GameBoard.searchLoopLayers sortBy left g1 next1 visited1 with
        | none => none
        | some (r, g2, layers) => some (r, g2, next1 :: layers)

/-- Search `breadthFirstSearch` together with the layers it builds. -/
def GameBoard.searchLayers (sortBy : (State → State → Bool) → List State → List State)
    (g : GameBoard) : Option (Int × GameBoard × List (List State)) :=
  match g._blizzardsByTimeMap.find 0 with
  | none => none
  | some snapshot0 =>
    GameBoard.searchLoopLayers sortBy g.getSearchMinuteLimit g
      [State.mk 0 g._start g._walls snapshot0 0] []

end Day24

/-! # Day 4 "Camp Cleanup" (`src/04 - Camp Cleanup/part2.cpp`)

The section numbers are `int`s that the program only compares; they are modelled by
`Int`. -/

namespace Day04

/-- Range of sections: `class Range`. -/
structure Range where
  _first : Int
  _last : Int

/-- Test `Range::inRange`. -/
def Range.inRange (r : Range) (num : Int) : Bool :=
  decide (num ≥ r._first) && decide (num ≤ r._last)

/-- Test `Range::overlaps`. -/
def Range.overlaps (r other : Range) : Bool :=
  r.inRange other._first || r.inRange other._last

/-- The condition under which `main` counts a line:
`rangeA.overlaps(rangeB) || rangeB.overlaps(rangeA)`. -/
def countedByMain (rangeA rangeB : Range) : Bool :=
  rangeA.overlaps rangeB || rangeB.overlaps rangeA

end Day04

/-! # Day 6 "Tuning Trouble" (`src/06 - Tuning Trouble/part2.cpp`)

A `std::string` is modelled by the list of its characters, an iterator by its distance
from `signal.begin()`. -/

namespace Day06

/-- The constant `markerSize`. -/
def markerSize : Nat := 14

/-- Loop `for (auto iter = std::next(signal.begin(), markerSize); iter < signal.end();
++iter)` of `findStartOfPacketMarker`, as a recursion on the number of iterations that
are left.  `std::set unique(begin, iter)` holds the distinct characters of the window
`[iter - markerSize, iter)`. -/
def searchLoop (signal : List Char) : Nat → Nat → Option (String × Nat)
  | 0, _ => none
  | left + 1, iter =>
    let window := (signal.drop (iter - markerSize)).take markerSize
    if window.dedup.length = markerSize then some (String.mk window, iter)
    else searchLoop signal left (iter + 1)

/-- Search `findStartOfPacketMarker`.  The loop starts at `iter = markerSize` and runs
while `iter < signal.end()`, which is `signal.size() - markerSize` iterations. -/
def findStartOfPacketMarker (signal : String) : Option (String × Nat) :=
  if signal.length < markerSize then none
  else searchLoop signal.data (signal.length - markerSize) markerSize

end Day06

/-! # Day 9 "Rope Bridge" (`src/09 - Rope Bridge/part2.cpp`)

`Distance` (`long long`) is modelled by the unbounded `Int`, `std::vector<Position>` by
a list, and `std::map<CoordinatePair, Distance>` by a list of pairs without repeated
keys (the program reads only its key set).  A call that ends in `std::terminate`, or
that takes `front()` or `back()` of an empty vector, is modelled by `none`. -/

namespace Day09

/-- Heading: `enum class Direction`. -/
inductive Direction where
  | up
  | down
  | left
  | right
deriving DecidableEq, Repr

/-- One motion of the head: `using Motion = std::pair<Direction, Distance>`. -/
abbrev Motion := Direction × Int

/-- Pair of coordinates: `using CoordinatePair = std::pair<Distance, Distance>`. -/
abbrev CoordinatePair := Int × Int

/-- Position of a knot: `class Position`. -/
structure Position where
  _x : Int
  _y : Int
deriving DecidableEq, Repr

/-- Default constructor `Position()`. -/
def Position.origin : Position := ⟨0, 0⟩

/-- Accessor `getCoordinatePair()`. -/
def Position.getCoordinatePair (p : Position) : CoordinatePair := (p._x, p._y)

/-- Test `Position::touching`. -/
def Position.touching (p other : Position) : Bool :=
  if p._x = other._x - 1 ∨ p._x = other._x ∨ p._x = other._x + 1 then
    if p._y = other._y - 1 ∨ p._y = other._y ∨ p._y = other._y + 1 then true
    else false
  else false

/-- Test `Position::sameRowOrCol`. -/
def Position.sameRowOrCol (p other : Position) : Bool :=
  decide (p._x = other._x) || decide (p._y = other._y)

/-- Step `Position::applyDirection`. -/
def Position.applyDirection (p : Position) (direction : Direction) : Position :=
  match direction with
  | Direction.up => { p with _y := p._y + 1 }
  | Direction.down => { p with _y := p._y - 1 }
  | Direction.left => { p with _x := p._x - 1 }
  | Direction.right => { p with _x := p._x + 1 }

/-- Loop of `Position::reconnect` over the directions that are left; `none` is the
`std::terminate` after the loop. -/
def Position.reconnectLoop (p other : Position) : List Direction → Option Position
  | [] => none
  | direction :: rest =>
    let candidate := p.applyDirection direction
    if candidate.touching other then some (p.applyDirection direction)
    else Position.reconnectLoop p other rest

/-- Move `Position::reconnect`: the new position of the knot. -/
def Position.reconnect (p other : Position) : Option Position :=
  p.reconnectLoop other [Direction.up, Direction.down, Direction.left, Direction.right]

/-- Inner loop of `Position::reconnectDiag`, over `directionB`; `none` when the loop
ends without a `return`. -/
def Position.reconnectDiagInner (p other : Position) (directionA : Direction) :
    List Direction → Option Position
  | [] => none
  | directionB :: rest =>
    let candidate := (p.applyDirection directionA).applyDirection directionB
    if candidate.touching other then
      some ((p.applyDirection directionA).applyDirection directionB)
    else Position.reconnectDiagInner p other directionA rest

/-- Outer loop of `Position::reconnectDiag`, over `directionA`; `none` is the
`std::terminate` after the loops. -/
def Position.reconnectDiagOuter (p other : Position) : List Direction → Option Position
  | [] => none
  | directionA :: rest =>
    match p.reconnectDiagInner other directionA [Direction.left, Direction.right] with
    | some q => some q
    | none => Position.reconnectDiagOuter p other rest

/-- Move `Position::reconnectDiag`: the new position of the knot. -/
def Position.reconnectDiag (p other : Position) : Option Position :=
  p.reconnectDiagOuter other [Direction.up, Direction.down]

/-- The statement `++_tailPositions[key]`. -/
def mapIncrement : List (CoordinatePair × Int) → CoordinatePair → List (CoordinatePair × Int)
  | [], key => [(key, 1)]
  | e :: rest, key =>
    if e.1 = key then (e.1, e.2 + 1) :: rest else e :: mapIncrement rest key

/-- The rope: `class Rope`. -/
structure Rope where
  _knots : List Position
  _tailPositions : List (CoordinatePair × Int)

/-- Bookkeeping `Rope::recordTail`; `tail()` is `_knots.back()`. -/
def Rope.recordTail (r : Rope) : Option Rope :=
  match r._knots.getLast? with
  | none => none
  | some tail =>
    some { r with _tailPositions := mapIncrement r._tailPositions tail.getCoordinatePair }

/-- Constructor `Rope(int size)`: `size` knots at the origin, then `recordTail()`. -/
def Rope.new (size : Nat) : Option Rope :=
  Rope.recordTail ⟨List.replicate size Position.origin, []⟩

/-- Inner loop of `applyMotion`, `for (auto curr = std::next(_knots.begin()); ...)`:
`prev` is the knot before `curr`, already in its new position. -/
def Rope.propagate (prev : Position) : List Position → Option (List Position)
  | [] => some []
  | curr :: rest =>
    let moved : Option Position :=
      if !curr.touching prev then
        if curr.sameRowOrCol prev then curr.reconnect prev
        else curr.reconnectDiag prev
      else some curr
    match moved with
    | none => none
    | some curr2 =>
      match Rope.propagate curr2 rest with
      | none => none
      | some rest2 => some (curr2 :: rest2)

/-- Body of the outer loop of `applyMotion`: one step of the head, the other knots
following, and `recordTail()`. -/
def Rope.applyStep (r : Rope) (direction : Direction) : Option Rope :=
  match r._knots with
  | [] => none
  | head :: rest =>
    let head2 := head.applyDirection direction
    match Rope.propagate head2 rest with
    | none => none
    | some rest2 => Rope.recordTail { r with _knots := head2 :: rest2 }

/-- Outer loop of `applyMotion`, `for (decltype(steps) i = 0; i < steps; ++i)`, as a
recursion on the number of iterations that are left. -/
def Rope.applySteps (direction : Direction) : Nat → Rope → Option Rope
  | 0, r => some r
  | left + 1, r =>
    match r.applyStep direction with
    | none => none
    | some r2 => Rope.applySteps direction left r2

/-- Motion `Rope::applyMotion`; the loop runs `steps` times, not at all for
`steps ≤ 0`. -/
def Rope.applyMotion (r : Rope) (motion : Motion) : Option Rope :=
  Rope.applySteps motion.1 motion.2.toNat r

/-- The `std::for_each` of `main`: all motions, one after the other. -/
def Rope.applyMotions : Rope → List Motion → Option Rope
  | r, [] => some r
  | r, motion :: rest =>
    match r.applyMotion motion with
    | none => none
    | some r2 => Rope.applyMotions r2 rest

/-- Key set `Rope::tailPositions`. -/
def Rope.tailPositions (r : Rope) : List CoordinatePair :=
  r._tailPositions.map Prod.fst

/-- The number printed by `main` for a rope of `size` knots and the given motions
(`main` uses `size = 10`). -/
def answer (size : Nat) (motions : List Motion) : Option Nat :=
  match Rope.new size with
  | none => none
  | some rope => (rope.applyMotions motions).map (fun r => r.tailPositions.length)

/-- The two positions differ by at most 1 on each axis. -/
def Position.Near (p other : Position) : Prop :=
  -1 ≤ p._x - other._x ∧ p._x - other._x ≤ 1 ∧ -1 ≤ p._y - other._y ∧ p._y - other._y ≤ 1

instance (p other : Position) : Decidable (p.Near other) := by
  unfold Position.Near; infer_instance

/-- Every knot after the first is touching the knot before it. -/
def Rope.Connected (r : Rope) : Prop :=
  r._knots.Chain' (fun prev curr => curr.touching prev = true)

instance (r : Rope) : Decidable r.Connected := by
  unfold Rope.Connected; infer_instance

end Day09

/-! # Day 13 "Distress Signal" (`src/13 - Distress Signal/part1.cpp`, `part2.cpp`)

`PacketInteger` (`std::int32_t`) is only compared and is modelled by `Int`.  A
`PacketArray` is a `std::deque<PacketData>`, modelled by a list; `front()` and
`pop_front()` are the head and the tail.  The function `isRightOrder` is the same text
in both parts. -/

namespace Day13

/-- One packet value: `using PacketData = std::variant<PacketInteger, PacketArray>`. -/
inductive PacketData where
  | integer (value : Int) : PacketData
  | array (items : List PacketData) : PacketData

/-- A packet: `class PacketArray : public std::deque<PacketData>`. -/
abbrev PacketArray := List PacketData

/-- Result of a comparison: `enum class TriBool`. -/
inductive TriBool where
  | False
  | True
  | Indeterminate
deriving DecidableEq, Repr

/-- Comparison `isRightOrder`.  The `while (true)` loop is the recursion on the two
tails; the last `else` branch of the C++ text (`std::terminate`) needs a value that is
neither an integer nor an array, which `std::variant<PacketInteger, PacketArray>` does
not have. -/
def isRightOrder (left right : PacketArray) : TriBool :=
  match left, right with
  | [], _ :: _ => TriBool.True
  | _ :: _, [] => TriBool.False
  | [], [] => TriBool.Indeterminate
  | leftCurr :: leftRest, rightCurr :: rightRest =>
    match leftCurr, rightCurr with
    | PacketData.integer leftInt, PacketData.integer rightInt =>
      if leftInt < rightInt then TriBool.True
      else if leftInt > rightInt then TriBool.False
      else isRightOrder leftRest rightRest
    | PacketData.array leftArr, PacketData.array rightArr =>
      let result := isRightOrder leftArr rightArr
      if result ≠ TriBool.Indeterminate then result
      else isRightOrder leftRest rightRest
    | PacketData.integer leftInt, PacketData.array rightArr =>
      let result := isRightOrder [PacketData.integer leftInt] rightArr
      if result ≠ TriBool.Indeterminate then result
      else isRightOrder leftRest rightRest
    | PacketData.array leftArr, PacketData.integer rightInt =>
      let result := isRightOrder leftArr [PacketData.integer rightInt]
      if result ≠ TriBool.Indeterminate then result
      else isRightOrder leftRest rightRest
termination_by sizeOf left + sizeOf right
decreasing_by
  all_goals simp_wf
  all_goals omega

/-- The comparison that `processPackets` of part 2 hands to `std::sort`:
`isRightOrder(left, right) == TriBool::True`. -/
def sortComparator (left right : PacketArray) : Bool :=
  decide (isRightOrder left right = TriBool.True)

/-- The opposite answer: `True` and `False` exchanged. -/
def TriBool.opposite : TriBool → TriBool
  | TriBool.False => TriBool.True
  | TriBool.True => TriBool.False
  | TriBool.Indeterminate => TriBool.Indeterminate

end Day13

/-! # Day 25 "Full of Hot Air" (`src/25 - Full of Hot Air/part1.cpp`)

`Int` is `std::int64_t`.  The program computes `std::pow(5, i) * digit`, the sum
`value += ...` and `std::floor(...)` in `double`, and converts the results back to
`Int`.  All the numbers involved are integers, so the value of a `double` is modelled
by an `Int`, and a conversion to `double` by `toDouble`: the nearest number with 53
significant bits, ties to the even one (IEEE 754 binary64, round to nearest).
`std::pow(5, i)` is taken as the `double` nearest to `5 ^ i`.  A `double` of magnitude
`2 ^ 1024` or more stands for an infinite value.  The conversion of a `double` outside
the range of `Int` back to `Int` is undefined in C++ and is modelled by `none`, as is a
call that ends in `std::terminate`.  Integer `/` and `%` truncate toward zero:
`Int.tdiv` and `Int.tmod`. -/

namespace Day25

/-- The spacing of the `double` values at the magnitude `m`: the least power of two
`u` with `m / u < 2 ^ 53`, searched from `u` upward in at most `fuel` doublings. -/
def doubleSpacing : Nat → Nat → Nat → Nat
  | 0, _, u => u
  | fuel + 1, m, u => if m / u < 2 ^ 53 then u else doubleSpacing fuel m (2 * u)

/-- The magnitude `m` rounded to a `double`: the nearest multiple of the spacing, a tie
going to the even multiple.  The largest spacing of finite `double` values is
`2 ^ 971`. -/
def roundNat (m : Nat) : Nat :=
  let ulp := doubleSpacing 971 m 1
  let q := m / ulp
  let r := m % ulp
  if 2 * r < ulp then q * ulp
  else if ulp < 2 * r then (q + 1) * ulp
  else if q % 2 = 0 then q * ulp
  else (q + 1) * ulp

/-- The number `2 ^ 1024`: a `double` of this magnitude or more is infinite. -/
def doubleInfinity : Int := ((2 ^ 256 * 2 ^ 256 * 2 ^ 256 * 2 ^ 256 : Nat) : Int)

/-- The value of the `double` that the integer `v` converts to, and the value of a
`double` operation whose exact result is `v`. -/
def toDouble (v : Int) : Int :=
  if v < 0 then -((roundNat v.natAbs : Nat) : Int) else ((roundNat v.natAbs : Nat) : Int)

/-- One SNAFU digit: `class SnafuDigit`. -/
structure SnafuDigit where
  _digit : Char
deriving DecidableEq, Repr

/-- The array `SnafuDigit::snafuDigits`. -/
def SnafuDigit.snafuDigits : List Char := ['0', '1', '2', '=', '-']

/-- Test `SnafuDigit::isValidSnafuDigit`: `std::find` over `snafuDigits`. -/
def SnafuDigit.isValidSnafuDigit (c : Char) : Bool :=
  match SnafuDigit.snafuDigits.find? (fun d => d = c) with
  | none => false
  | some _ => true

/-- Default constructor `SnafuDigit()`. -/
def SnafuDigit.zero : SnafuDigit := ⟨'0'⟩

/-- Constructor `SnafuDigit(const char c)`; `none` is the `std::terminate` exit. -/
def SnafuDigit.ofChar (c : Char) : Option SnafuDigit :=
  if !SnafuDigit.isValidSnafuDigit c then none else some ⟨c⟩

/-- Accessor `digit()`. -/
def SnafuDigit.digit (d : SnafuDigit) : Char := d._digit

/-- Value `SnafuDigit::decimalValue`; `none` is the `std::terminate` exit after the
`switch`. -/
def SnafuDigit.decimalValue (d : SnafuDigit) : Option Int :=
  if d._digit = '2' then some 2
  else if d._digit = '1' then some 1
  else if d._digit = '0' then some 0
  else if d._digit = '-' then some (-1)
  else if d._digit = '=' then some (-2)
  else none

/-- A SNAFU number: `class SnafuNumber`, most significant digit first. -/
structure SnafuNumber where
  _snafuDigits : List SnafuDigit
deriving DecidableEq, Repr

/-- The `std::transform` of the constructor `SnafuNumber(String str)`: every character
goes through `SnafuDigit(c)` and is appended to the digits. -/
def SnafuNumber.transformChars : List Char → Option (List SnafuDigit)
  | [] => some []
  | c :: cs =>
    match SnafuDigit.ofChar c with
    | none => none
    | some d =>
      match SnafuNumber.transformChars cs with
      | none => none
      | some ds => some (d :: ds)

/-- Constructor `SnafuNumber(String str)`. -/
def SnafuNumber.ofString (str : String) : Option SnafuNumber :=
  (SnafuNumber.transformChars str.data).map SnafuNumber.mk

/-- Rendering `SnafuNumber::toString`. -/
def SnafuNumber.toString (s : SnafuNumber) : String :=
  String.mk (s._snafuDigits.map SnafuDigit.digit)

/-- Loop of `toDecimal` over the digits from the last to the first, with the
variables `value` and `i`.  The statement `value += std::pow(5, i) * digit` multiplies
two `double` values, adds the product to `value` converted to `double`, and converts
the sum back to `Int`. -/
def SnafuNumber.toDecimalLoop : List SnafuDigit → Int → Int → Option Int
  | [], value, _ => some value
  | d :: rest, value, i =>
    match d.decimalValue with
    | none => none
    | some v =>
      let power := toDouble (5 ^ i.toNat)
      let sum := toDouble (toDouble value + toDouble (power * toDouble v))
      if doubleInfinity ≤ power ∨ sum < -(2 ^ 63) ∨ 2 ^ 63 ≤ sum then none
      else SnafuNumber.toDecimalLoop rest sum (i + 1)

/-- Conversion `SnafuNumber::toDecimal`. -/
def SnafuNumber.toDecimal (s : SnafuNumber) : Option Int :=
  SnafuNumber.toDecimalLoop s._snafuDigits.reverse 0 0

/-- Body of the loop of `fromDecimal` for the current `n`: the new digit and the new
value of `n`.  In `n = std::floor((n - x) / 5)` the quotient of the integer division
is converted to `double` and back. -/
def SnafuNumber.fromDecimalStep (n : Int) : Option (SnafuDigit × Int) :=
  let x := n.tmod 5
  if x = 3 then
    match SnafuDigit.ofChar '=' with
    | none => none
    | some newDigit => some (newDigit, toDouble ((n - (-2)).tdiv 5))
  else if x = 4 then
    match SnafuDigit.ofChar '-' with
    | none => none
    | some newDigit => some (newDigit, toDouble ((n - (-1)).tdiv 5))
  else
    match SnafuDigit.ofChar ((ToString.toString x).get 0) with
    | none => none
    | some newDigit => some (newDigit, toDouble ((n - x).tdiv 5))

/-- Loop `while (n > 0)` of `fromDecimal`; `digits.push_front` puts the new digit in
front.  The loop ends because the new value of `n` is smaller than `n`: it is the
rounded value of a quotient `q` with `5 * q ≤ n + 2`, and rounding changes a
magnitude by no more than the magnitude itself. -/
def SnafuNumber.fromDecimalLoop (n : Int) (digits : List SnafuDigit) :
    Option (List SnafuDigit) :=
  if hn : n > 0 then
    match h : SnafuNumber.fromDecimalStep n with
    | none => none
    | some (newDigit, n2) => SnafuNumber.fromDecimalLoop n2 (newDigit :: digits)
  else some digits
termination_by n.toNat
decreasing_by
  have h5 : (0 : Int) ≤ 5 := by decide
  have hx : n.tmod 5 = n % 5 := Int.tmod_eq_emod (le_of_lt hn) h5
  have hspacing : ∀ (fuel m u : Nat), 1 ≤ u → u ≤ m ∨ u = 1 →
      1 ≤ doubleSpacing fuel m u ∧ (doubleSpacing fuel m u ≤ m ∨ doubleSpacing fuel m u = 1) := by
    intro fuel
    induction fuel with
    | zero => intro m u h1 h2; exact ⟨h1, h2⟩
    | succ fuel ih =>
      intro m u h1 h2
      simp only [doubleSpacing]
      split_ifs with hlt
      · exact ⟨h1, h2⟩
      · refine ih m (2 * u) (by omega) (Or.inl ?_)
        have h2le : 2 ≤ m / u := by
          have : (2 : Nat) ≤ 2 ^ 53 := by decide
          omega
        calc 2 * u ≤ (m / u) * u := Nat.mul_le_mul_right u h2le
          _ ≤ m := Nat.div_mul_le_self m u
  have hround : ∀ m : Nat, roundNat m ≤ 2 * m := by
    intro m
    have hsp := hspacing 971 m 1 (le_refl 1) (Or.inr rfl)
    have hq : m / doubleSpacing 971 m 1 * doubleSpacing 971 m 1 ≤ m := Nat.div_mul_le_self _ _
    have hmod := Nat.div_add_mod m (doubleSpacing 971 m 1)
    have hq1 : (m / doubleSpacing 971 m 1 + 1) * doubleSpacing 971 m 1
        = m / doubleSpacing 971 m 1 * doubleSpacing 971 m 1 + doubleSpacing 971 m 1 := by ring
    have hmodlt : m % doubleSpacing 971 m 1 < doubleSpacing 971 m 1 :=
      Nat.mod_lt _ (by omega)
    rw [Nat.mul_comm] at hmod
    simp only [roundNat]
    split_ifs <;> omega
  have hdouble : ∀ q : Int, 0 ≤ q → toDouble q ≤ 2 * q := by
    intro q hq
    have := hround q.natAbs
    simp only [toDouble, not_lt.2 hq, if_false]
    omega
  have hlt : n2 < n := by
    unfold SnafuNumber.fromDecimalStep at h
    simp only at h
    split_ifs at h with h3 h4
    · cases hd : SnafuDigit.ofChar '=' with
      | none => simp [hd] at h
      | some nd =>
        simp only [hd, Option.some.injEq, Prod.mk.injEq] at h
        have hq := hdouble ((n - (-2)).tdiv 5) (by rw [Int.tdiv_eq_ediv (by omega) h5]; omega)
        rw [Int.tdiv_eq_ediv (by omega) h5] at h hq
        omega
    · cases hd : SnafuDigit.ofChar '-' with
      | none => simp [hd] at h
      | some nd =>
        simp only [hd, Option.some.injEq, Prod.mk.injEq] at h
        have hq := hdouble ((n - (-1)).tdiv 5) (by rw [Int.tdiv_eq_ediv (by omega) h5]; omega)
        rw [Int.tdiv_eq_ediv (by omega) h5] at h hq
        omega
    · cases hd : SnafuDigit.ofChar ((ToString.toString (n.tmod 5)).get 0) with
      | none => simp [hd] at h
      | some nd =>
        simp only [hd, Option.some.injEq, Prod.mk.injEq] at h
        have hq := hdouble ((n - n.tmod 5).tdiv 5)
          (by rw [hx, Int.tdiv_eq_ediv (by omega) h5]; omega)
        rw [hx, Int.tdiv_eq_ediv (by omega) h5] at h hq
        omega
  omega

/-- Conversion `SnafuNumber::fromDecimal`. -/
def SnafuNumber.fromDecimal (n : Int) : Option SnafuNumber :=
  (SnafuNumber.fromDecimalLoop n []).map SnafuNumber.mk

end Day25

namespace Day25

/-- The character is one of the five SNAFU digits. -/
def IsSnafuChar (c : Char) : Prop :=
  c = '=' ∨ c = '-' ∨ c = '0' ∨ c = '1' ∨ c = '2'

instance (c : Char) : Decidable (IsSnafuChar c) := by
  unfold IsSnafuChar; infer_instance

/-- The value of a SNAFU digit character: `=` is -2, `-` is -1, `0`, `1`, `2` are
themselves. -/
def charValue (c : Char) : Int :=
  if c = '=' then -2 else if c = '-' then -1 else if c = '1' then 1 else if c = '2' then 2
  else 0

/-- The value of a digit sequence in base 5, most significant digit first. -/
def snafuValue (ds : List SnafuDigit) : Int :=
  ds.foldl (fun acc d => 5 * acc + charValue d._digit) 0

end Day25

namespace Day24


/-! ## Elementary facts about the comparisons -/

theorem coordinatePair_eqOp_iff (a b : CoordinatePair) : a.eqOp b = true ↔ a = b := by
  cases a; cases b
  simp only [CoordinatePair.eqOp, CoordinatePair.x, CoordinatePair.y, CoordinatePair.mk.injEq]
  by_cases h1 : ‹Int› = ‹Int› <;> simp_all

theorem blizzard_eqOp_iff (a b : Blizzard) : a.eqOp b = true ↔ a = b := by
  cases a; cases b
  simp [Blizzard.eqOp, coordinatePair_eqOp_iff]

theorem wallSet_contains_iff (walls : WallSet) (c : CoordinatePair) :
    walls.contains c = true ↔ c ∈ walls := by
  simp only [WallSet.contains, List.any_eq_true, coordinatePair_eqOp_iff]
  constructor
  · rintro ⟨w, hw, rfl⟩; exact hw
  · intro h; exact ⟨c, h, rfl⟩

/-! ## The decimal rendering of numbers is injective -/

theorem digitsValue_append_singleton (l : List Char) (c : Char) :
    digitsValue (l ++ [c]) = 10 * digitsValue l + (c.toNat - 48) := by
  simp [digitsValue, List.foldl_append]

theorem digitChar_toNat (d : Nat) (h : d < 10) : (Nat.digitChar d).toNat = 48 + d := by
  interval_cases d <;> rfl

theorem digitChar_ne_sep (d : Nat) (h : d < 10) :
    Nat.digitChar d ≠ ',' ∧ Nat.digitChar d ≠ '-' ∧ Nat.digitChar d ≠ ')' := by
  interval_cases d <;> decide

theorem toDigitsCore_spec (fuel : Nat) : ∀ (n : Nat) (ds : List Char), n < fuel →
    ∃ l, Nat.toDigitsCore 10 fuel n ds = l ++ ds ∧ l ≠ [] ∧
      (∀ c ∈ l, IsDigitChar c) ∧ digitsValue l = n := by
  induction fuel with
  | zero => intro n ds h; omega
  | succ fuel ih =>
    intro n ds h
    have hd : n % 10 < 10 := Nat.mod_lt _ (by decide)
    by_cases h0 : n / 10 = 0
    · refine ⟨[Nat.digitChar (n % 10)], ?_, by simp, ?_, ?_⟩
      · simp [Nat.toDigitsCore, h0]
      · intro c hc
        simp only [List.mem_singleton] at hc
        subst hc
        exact digitChar_ne_sep _ hd
      · simp only [digitsValue, List.foldl_cons, List.foldl_nil, digitChar_toNat _ hd]
        omega
    · have hlt : n / 10 < fuel := by omega
      obtain ⟨l, hl, -, hdig, hval⟩ := ih (n / 10) (Nat.digitChar (n % 10) :: ds) hlt
      refine ⟨l ++ [Nat.digitChar (n % 10)], ?_, by simp, ?_, ?_⟩
      · simp [Nat.toDigitsCore, h0, hl]
      · intro c hc
        rcases List.mem_append.1 hc with hc | hc
        · exact hdig c hc
        · simp only [List.mem_singleton] at hc
          subst hc
          exact digitChar_ne_sep _ hd
      · rw [digitsValue_append_singleton, hval, digitChar_toNat _ hd]
        omega

theorem natRepr_spec (n : Nat) :
    ∃ l, (ToString.toString n : String) = String.mk l ∧ l ≠ [] ∧
      (∀ c ∈ l, IsDigitChar c) ∧ digitsValue l = n := by
  obtain ⟨l, hl, hne, hdig, hval⟩ := toDigitsCore_spec (n + 1) n [] (Nat.lt_succ_self n)
  refine ⟨l, ?_, hne, hdig, hval⟩
  show Nat.repr n = _
  simp [Nat.repr, Nat.toDigits, hl, List.asString]

theorem intRepr_spec (z : Int) :
    ∃ l, (ToString.toString z : String) = String.mk l ∧ (∀ c ∈ l, c ≠ ',' ∧ c ≠ ')') ∧
      intValue l = z := by
  cases z with
  | ofNat m =>
    obtain ⟨l, hl, hne, hdig, hval⟩ := natRepr_spec m
    refine ⟨l, hl, fun c hc => ⟨(hdig c hc).1, (hdig c hc).2.2⟩, ?_⟩
    cases l with
    | nil => exact absurd rfl hne
    | cons c r =>
      have hc : c ≠ '-' := (hdig c (List.mem_cons_self _ _)).2.1
      simp only [intValue, hc, if_false, hval]
      rfl
  | negSucc m =>
    obtain ⟨l, hl, -, hdig, hval⟩ := natRepr_spec (m + 1)
    refine ⟨'-' :: l, ?_, ?_, ?_⟩
    · show "-" ++ (ToString.toString (m + 1) : String) = _
      rw [hl]; rfl
    · intro c hc
      rcases List.mem_cons.1 hc with hc | hc
      · subst hc; decide
      · exact ⟨(hdig c hc).1, (hdig c hc).2.2⟩
    · simp only [intValue, if_true, hval]
      rfl

theorem append_sep_inj {c : Char} : ∀ (l1 l2 r1 r2 : List Char), c ∉ l1 → c ∉ l2 →
    l1 ++ c :: r1 = l2 ++ c :: r2 → l1 = l2 ∧ r1 = r2 := by
  intro l1
  induction l1 with
  | nil =>
    intro l2 r1 r2 _ h2 h
    cases l2 with
    | nil => simpa using h
    | cons a l2 =>
      simp only [List.nil_append, List.cons_append, List.cons.injEq] at h
      exact absurd (h.1 ▸ List.mem_cons_self _ _) h2
  | cons a l1 ih =>
    intro l2 r1 r2 h1 h2 h
    cases l2 with
    | nil =>
      simp only [List.nil_append, List.cons_append, List.cons.injEq] at h
      exact absurd (h.1 ▸ List.mem_cons_self _ _) h1
    | cons b l2 =>
      simp only [List.cons_append, List.cons.injEq] at h
      obtain ⟨h3, h4⟩ := ih l2 r1 r2 (fun hc => h1 (List.mem_cons_of_mem _ hc))
        (fun hc => h2 (List.mem_cons_of_mem _ hc)) h.2
      exact ⟨by rw [h.1, h3], h4⟩

/-- The rendering "(x,y,minute)" determines the three numbers. -/
theorem State.toString_inj (a b : State) (h : a.toString = b.toString) :
    a._playerPosition = b._playerPosition ∧ a._minute = b._minute := by
  obtain ⟨lx, hlx, hcx, hvx⟩ := intRepr_spec a._playerPosition.x
  obtain ⟨ly, hly, hcy, hvy⟩ := intRepr_spec a._playerPosition.y
  obtain ⟨lm, hlm, -, hdm, hvm⟩ := natRepr_spec a._minute
  obtain ⟨lx2, hlx2, hcx2, hvx2⟩ := intRepr_spec b._playerPosition.x
  obtain ⟨ly2, hly2, hcy2, hvy2⟩ := intRepr_spec b._playerPosition.y
  obtain ⟨lm2, hlm2, -, hdm2, hvm2⟩ := natRepr_spec b._minute
  simp only [State.toString, hlx, hly, hlm, hlx2, hly2, hlm2] at h
  have h1 : '(' :: (lx ++ ',' :: (ly ++ ',' :: (lm ++ [')'])))
      = '(' :: (lx2 ++ ',' :: (ly2 ++ ',' :: (lm2 ++ [')']))) := by
    have := congrArg String.data h
    simpa [String.data_append] using this
  simp only [List.cons.injEq, true_and] at h1
  obtain ⟨e1, h2⟩ := append_sep_inj lx lx2 _ _ (fun hc => (hcx _ hc).1 rfl)
    (fun hc => (hcx2 _ hc).1 rfl) h1
  obtain ⟨e2, h3⟩ := append_sep_inj ly ly2 _ _ (fun hc => (hcy _ hc).1 rfl)
    (fun hc => (hcy2 _ hc).1 rfl) h2
  obtain ⟨e3, -⟩ := append_sep_inj lm lm2 [] [] (fun hc => (hdm _ hc).2.2 rfl)
    (fun hc => (hdm2 _ hc).2.2 rfl) h3
  have ex : a._playerPosition.x = b._playerPosition.x := by rw [← hvx, ← hvx2, e1]
  have ey : a._playerPosition.y = b._playerPosition.y := by rw [← hvy, ← hvy2, e2]
  have em : a._minute = b._minute := by rw [← hvm, ← hvm2, e3]
  refine ⟨?_, em⟩
  cases hp : a._playerPosition
  cases hq : b._playerPosition
  simp only [hp, hq, CoordinatePair.x, CoordinatePair.y] at ex ey
  rw [ex, ey]

theorem state_eqOp_iff (a b : State) :
    a.eqOp b = true ↔ a._playerPosition = b._playerPosition ∧ a._minute = b._minute := by
  constructor
  · intro h
    exact State.toString_inj a b (of_decide_eq_true h)
  · rintro ⟨h1, h2⟩
    simp [State.eqOp, State.toString, h1, h2]

/-! ## Snapshots as sets of obstacles -/

theorem blizzardSetInsert_mem (s : List Blizzard) (b b2 : Blizzard) :
    b2 ∈ blizzardSetInsert s b ↔ b2 ∈ s ∨ b2 = b := by
  unfold blizzardSetInsert
  split
  · rename_i h
    obtain ⟨a, ha, hab⟩ := List.any_eq_true.1 h
    have : a = b := (blizzard_eqOp_iff a b).1 hab
    subst this
    constructor
    · exact Or.inl
    · rintro (h | h)
      · exact h
      · subst h; exact ha
  · simp

theorem blizzardSetInsert_ne_nil (s : List Blizzard) (b : Blizzard) :
    blizzardSetInsert s b ≠ [] := by
  intro h
  have := (blizzardSetInsert_mem s b b).2 (Or.inr rfl)
  rw [h] at this
  exact absurd this (List.not_mem_nil _)

theorem BlizzardMap.holds_insertAt (m : BlizzardMap) (key : CoordinatePair) (b : Blizzard)
    (c : CoordinatePair) (b2 : Blizzard) :
    BlizzardMap.Holds (m.insertAt key b) c b2 ↔ BlizzardMap.Holds m c b2 ∨ (c = key ∧ b2 = b) := by
  induction m with
  | nil =>
    simp only [BlizzardMap.insertAt, BlizzardMap.Holds, List.mem_singleton, List.not_mem_nil,
      false_and, exists_false, false_or]
    constructor
    · rintro ⟨e, rfl, h1, h2⟩
      exact ⟨h1.symm, ((blizzardSetInsert_mem [] b b2).1 h2).resolve_left (List.not_mem_nil _)⟩
    · rintro ⟨rfl, rfl⟩
      exact ⟨_, rfl, rfl, (blizzardSetInsert_mem [] _ _).2 (Or.inr rfl)⟩
  | cons e rest ih =>
    unfold BlizzardMap.insertAt
    split
    · rename_i hk
      have hk2 : e.1 = key := (coordinatePair_eqOp_iff _ _).1 hk
      simp only [BlizzardMap.Holds, List.mem_cons]
      constructor
      · rintro ⟨e2, he2 | he2, h1, h2⟩
        · subst he2
          rcases (blizzardSetInsert_mem _ _ _).1 h2 with h | h
          · exact Or.inl ⟨e, Or.inl rfl, h1, h⟩
          · exact Or.inr ⟨by rw [← h1, ← hk2], h⟩
        · exact Or.inl ⟨e2, Or.inr he2, h1, h2⟩
      · rintro (⟨e2, he2 | he2, h1, h2⟩ | ⟨h1, h2⟩)
        · subst he2
          exact ⟨_, Or.inl rfl, h1, (blizzardSetInsert_mem _ _ _).2 (Or.inl h2)⟩
        · exact ⟨e2, Or.inr he2, h1, h2⟩
        · exact ⟨_, Or.inl rfl, by rw [h1, ← hk2], (blizzardSetInsert_mem _ _ _).2 (Or.inr h2)⟩
    · have key1 : ∀ (l : BlizzardMap), BlizzardMap.Holds (e :: l) c b2 ↔
          (e.1 = c ∧ b2 ∈ e.2) ∨ BlizzardMap.Holds l c b2 := by
        intro l
        simp only [BlizzardMap.Holds, List.mem_cons]
        constructor
        · rintro ⟨e2, he2 | he2, h1, h2⟩
          · subst he2; exact Or.inl ⟨h1, h2⟩
          · exact Or.inr ⟨e2, he2, h1, h2⟩
        · rintro (⟨h1, h2⟩ | ⟨e2, he2, h1, h2⟩)
          · exact ⟨e, Or.inl rfl, h1, h2⟩
          · exact ⟨e2, Or.inr he2, h1, h2⟩
      rw [key1, key1, ih]
      tauto

theorem BlizzardMap.setsNonempty_insertAt (m : BlizzardMap) (key : CoordinatePair)
    (b : Blizzard) (h : m.SetsNonempty) : (m.insertAt key b).SetsNonempty := by
  induction m with
  | nil =>
    intro e he
    simp only [BlizzardMap.insertAt, List.mem_singleton] at he
    subst he
    exact blizzardSetInsert_ne_nil [] b
  | cons e rest ih =>
    unfold BlizzardMap.insertAt
    split
    · intro e2 he2
      rcases List.mem_cons.1 he2 with he2 | he2
      · subst he2; exact blizzardSetInsert_ne_nil e.2 b
      · exact h e2 (List.mem_cons_of_mem _ he2)
    · intro e2 he2
      rcases List.mem_cons.1 he2 with he2 | he2
      · subst he2; exact h _ (List.mem_cons_self _ _)
      · exact ih (fun e3 he3 => h e3 (List.mem_cons_of_mem _ he3)) e2 he2

theorem blizzardMap_contains_iff (m : BlizzardMap) (c : CoordinatePair) :
    m.contains c = true ↔ ∃ e ∈ m, e.1 = c := by
  simp [BlizzardMap.contains, List.any_eq_true, coordinatePair_eqOp_iff]

theorem blizzardMap_contains_iff_occupied (m : BlizzardMap) (h : m.SetsNonempty)
    (c : CoordinatePair) : m.contains c = true ↔ m.Occupied c := by
  rw [blizzardMap_contains_iff]
  constructor
  · rintro ⟨e, he, hc⟩; exact ⟨e, he, hc, h e he⟩
  · rintro ⟨e, he, hc, -⟩; exact ⟨e, he, hc⟩

theorem BlizzardMap.occupied_iff_holds (m : BlizzardMap) (c : CoordinatePair) :
    m.Occupied c ↔ ∃ b, m.Holds c b := by
  constructor
  · rintro ⟨e, he, hc, hne⟩
    obtain ⟨b, hb⟩ := List.exists_mem_of_ne_nil _ hne
    exact ⟨b, e, he, hc, hb⟩
  · rintro ⟨b, e, he, hc, hb⟩
    exact ⟨e, he, hc, List.ne_nil_of_mem hb⟩

/-- The inner loop of `moveAll`, over the obstacles of one cell. -/
theorem moveAll_inner (g : GameBoard) (s : List Blizzard) : ∀ (acc : BlizzardMap),
    (acc.SetsNonempty →
      (s.foldl (fun acc2 blizzard =>
        BlizzardMap.insertAt acc2
          ⟨(blizzard.move g._height g._width g._walls).x,
            (blizzard.move g._height g._width g._walls).y⟩
          (blizzard.move g._height g._width g._walls)) acc).SetsNonempty) ∧
    ∀ c b, BlizzardMap.Holds
      (s.foldl (fun acc2 blizzard =>
        BlizzardMap.insertAt acc2
          ⟨(blizzard.move g._height g._width g._walls).x,
            (blizzard.move g._height g._width g._walls).y⟩
          (blizzard.move g._height g._width g._walls)) acc) c b ↔
      BlizzardMap.Holds acc c b ∨
        ∃ b1 ∈ s, b = b1.move g._height g._width g._walls ∧ c = b._coord := by
  induction s with
  | nil => intro acc; simp
  | cons b0 s ih =>
    intro acc
    simp only [List.foldl_cons]
    refine ⟨fun h => (ih _).1 (BlizzardMap.setsNonempty_insertAt _ _ _ h), ?_⟩
    intro c b
    rw [(ih _).2, BlizzardMap.holds_insertAt]
    simp only [List.mem_cons, exists_eq_or_imp]
    constructor
    · rintro ((h | ⟨h1, h2⟩) | h)
      · exact Or.inl h
      · subst h2
        exact Or.inr (Or.inl ⟨rfl, h1⟩)
      · exact Or.inr (Or.inr h)
    · rintro (h | ⟨h1, h2⟩ | h)
      · exact Or.inl (Or.inl h)
      · subst h1
        exact Or.inl (Or.inr ⟨h2, rfl⟩)
      · exact Or.inr h

theorem moveAll_outer (g : GameBoard) (old : BlizzardMap) : ∀ (acc : BlizzardMap),
    (acc.SetsNonempty →
      (old.foldl (fun acc entry =>
        entry.2.foldl (fun acc2 blizzard =>
          BlizzardMap.insertAt acc2
            ⟨(blizzard.move g._height g._width g._walls).x,
              (blizzard.move g._height g._width g._walls).y⟩
            (blizzard.move g._height g._width g._walls)) acc) acc).SetsNonempty) ∧
    ∀ c b, BlizzardMap.Holds
      (old.foldl (fun acc entry =>
        entry.2.foldl (fun acc2 blizzard =>
          BlizzardMap.insertAt acc2
            ⟨(blizzard.move g._height g._width g._walls).x,
              (blizzard.move g._height g._width g._walls).y⟩
            (blizzard.move g._height g._width g._walls)) acc) acc) c b ↔
      BlizzardMap.Holds acc c b ∨
        ∃ c1 b1, BlizzardMap.Holds old c1 b1 ∧
          b = b1.move g._height g._width g._walls ∧ c = b._coord := by
  induction old with
  | nil => intro acc; simp [BlizzardMap.Holds]
  | cons e old ih =>
    intro acc
    simp only [List.foldl_cons]
    refine ⟨fun h => (ih _).1 ((moveAll_inner g e.2 acc).1 h), ?_⟩
    intro c b
    rw [(ih _).2, (moveAll_inner g e.2 acc).2]
    constructor
    · rintro ((h | ⟨b1, hb1, h1, h2⟩) | ⟨c1, b1, ⟨e1, he1, h3, h4⟩, h1, h2⟩)
      · exact Or.inl h
      · exact Or.inr ⟨e.1, b1, ⟨e, List.mem_cons_self _ _, rfl, hb1⟩, h1, h2⟩
      · exact Or.inr ⟨c1, b1, ⟨e1, List.mem_cons_of_mem _ he1, h3, h4⟩, h1, h2⟩
    · rintro (h | ⟨c1, b1, ⟨e1, he1, h3, h4⟩, h1, h2⟩)
      · exact Or.inl (Or.inl h)
      · rcases List.mem_cons.1 he1 with he1 | he1
        · subst he1
          exact Or.inl (Or.inr ⟨b1, h4, h1, h2⟩)
        · exact Or.inr ⟨c1, b1, ⟨e1, he1, h3, h4⟩, h1, h2⟩

/-- Content of the snapshot built by the two loops of `getBlizzardsByMinute`. -/
theorem GameBoard.holds_moveAll (g : GameBoard) (old : BlizzardMap) (c : CoordinatePair)
    (b : Blizzard) :
    BlizzardMap.Holds (g.moveAll old) c b ↔
      ∃ c1 b1, BlizzardMap.Holds old c1 b1 ∧
        b = b1.move g._height g._width g._walls ∧ c = b._coord := by
  have h := (moveAll_outer g old []).2 c b
  have h0 : ¬ BlizzardMap.Holds [] c b := by simp [BlizzardMap.Holds]
  simpa [GameBoard.moveAll, h0] using h

theorem GameBoard.setsNonempty_moveAll (g : GameBoard) (old : BlizzardMap) :
    (g.moveAll old).SetsNonempty := by
  have h := (moveAll_outer g old []).1 (by intro e he; exact absurd he (List.not_mem_nil _))
  simpa [GameBoard.moveAll] using h

theorem GameBoard.setsNonempty_snapshot (g : GameBoard) (init : BlizzardMap)
    (h : init.SetsNonempty) (t : Nat) : (g.snapshot init t).SetsNonempty := by
  cases t with
  | zero => exact h
  | succ t => exact GameBoard.setsNonempty_moveAll g _

/-! ## The cache -/

theorem SnapshotCache.find_assign (cache : SnapshotCache) (k : Nat) (v : BlizzardMap)
    (k2 : Nat) : (cache.assign k v).find k2 = if k2 = k then some v else cache.find k2 := by
  induction cache with
  | nil =>
    simp only [SnapshotCache.assign, SnapshotCache.find]
    by_cases h : k2 = k
    · simp [h]
    · have : ¬ k = k2 := fun h2 => h h2.symm
      simp [h, this]
  | cons e rest ih =>
    unfold SnapshotCache.assign
    by_cases he : e.1 = k
    · simp only [he, if_true, SnapshotCache.find]
      by_cases h : k2 = k
      · simp [h]
      · have : ¬ k = k2 := fun h2 => h h2.symm
        simp [h, this]
    · simp only [he, if_false, SnapshotCache.find, ih]
      by_cases h : k2 = k
      · have : ¬ e.1 = k2 := by rw [h]; exact he
        simp [h, he]
      · simp [h]

theorem GameBoard.withCache_self (g : GameBoard) : g.withCache g._blizzardsByTimeMap = g := by
  cases g; rfl

theorem GameBoard.snapshot_withCache (g : GameBoard) (cache : SnapshotCache)
    (init : BlizzardMap) (t : Nat) : (g.withCache cache).snapshot init t = g.snapshot init t := by
  induction t with
  | zero => rfl
  | succ t ih =>
    show (g.withCache cache).moveAll _ = g.moveAll _
    rw [ih]; rfl

theorem GameBoard.cacheOK_withCache (g : GameBoard) (cache : SnapshotCache)
    (init : BlizzardMap) :
    (g.withCache cache).CacheOK init ↔
      cache.find 0 = some init ∧ ∀ k m, cache.find k = some m → m = g.snapshot init k := by
  simp only [GameBoard.CacheOK, GameBoard.snapshot_withCache]
  rfl

/-- With a sound cache, `getBlizzardsByMinute` returns the snapshot of the minute and
leaves a sound cache; the rest of the board is unchanged. -/
theorem GameBoard.getBlizzardsByMinute_spec (g : GameBoard) (init : BlizzardMap)
    (h : g.CacheOK init) (t : Nat) :
    ∃ cache, g.getBlizzardsByMinute t = some (g.snapshot init t, g.withCache cache) ∧
      (g.withCache cache).CacheOK init := by
  induction t with
  | zero =>
    refine ⟨g._blizzardsByTimeMap, ?_, ?_⟩
    · simp only [GameBoard.getBlizzardsByMinute, h.1, GameBoard.withCache_self]
      rfl
    · rw [GameBoard.withCache_self]; exact h
  | succ t ih =>
    cases hf : g._blizzardsByTimeMap.find (t + 1) with
    | some m =>
      refine ⟨g._blizzardsByTimeMap, ?_, ?_⟩
      · simp only [GameBoard.getBlizzardsByMinute, hf, GameBoard.withCache_self]
        rw [h.2 _ _ hf]
      · rw [GameBoard.withCache_self]; exact h
    | none =>
      obtain ⟨c1, hc1, hok⟩ := ih
      rw [GameBoard.cacheOK_withCache] at hok
      refine ⟨c1.assign (t + 1) (g.snapshot init (t + 1)), ?_, ?_⟩
      · simp only [GameBoard.getBlizzardsByMinute, hf, hc1]
        rfl
      · rw [GameBoard.cacheOK_withCache]
        refine ⟨?_, ?_⟩
        · rw [SnapshotCache.find_assign]
          simpa using hok.1
        · intro k m hk
          rw [SnapshotCache.find_assign] at hk
          by_cases hkt : k = t + 1
          · simp only [hkt, if_true, Option.some.injEq] at hk
            rw [← hk, hkt]
          · simp only [hkt, if_false] at hk
            exact hok.2 k m hk

/-! ## One layer of the search -/

theorem adjacent_iff (a b : CoordinatePair) :
    Adjacent a b ↔ ∃ d ∈ allDirections, b = a.add (directionToForceVector d) := by
  cases a with | mk ax ay => ?_
  cases b with | mk bx b_y => ?_
  simp only [Adjacent, allDirections, CoordinatePair.x, CoordinatePair.y, CoordinatePair.add,
    List.mem_cons, List.mem_singleton, List.not_mem_nil, or_false, exists_eq_or_imp,
    exists_eq_left, directionToForceVector, CoordinatePair.mk.injEq]
  constructor
  · rintro (⟨h1, h2 | h2⟩ | ⟨h1, h2 | h2⟩) <;> subst h1 <;> subst h2 <;> simp <;> omega
  · rintro (⟨h1, h2⟩ | ⟨h1, h2⟩ | ⟨h1, h2⟩ | ⟨h1, h2⟩) <;> subst h1 <;> subst h2 <;> simp <;> omega

theorem expandState_moves (g : GameBoard) (state : State) (nb : BlizzardMap) (s2 : State)
    (ds : List Direction) : ∀ (next : List State),
    s2 ∈ ds.foldl
      (fun acc direction =>
        if !g.isValidPlayerPosition
            (state.playerPosition.add (directionToForceVector direction)) nb then acc
        else acc ++ [State.mk (state.minute + 1)
            (state.playerPosition.add (directionToForceVector direction)) g._walls nb 0])
      next ↔
    s2 ∈ next ∨ ∃ d ∈ ds,
      g.isValidPlayerPosition (state.playerPosition.add (directionToForceVector d)) nb = true ∧
      s2 = State.mk (state.minute + 1)
        (state.playerPosition.add (directionToForceVector d)) g._walls nb 0 := by
  induction ds with
  | nil => intro next; simp
  | cons d ds ih =>
    intro next
    simp only [List.foldl_cons, ih, List.mem_cons, exists_eq_or_imp]
    by_cases hv : g.isValidPlayerPosition
        (state.playerPosition.add (directionToForceVector d)) nb = true
    · simp only [hv, Bool.not_true, Bool.false_eq_true, if_false, List.mem_append,
        List.mem_singleton, true_and]
      tauto
    · simp only [hv, Bool.not_eq_true] at hv ⊢
      simp [hv]

theorem GameBoard.mem_expandState (g : GameBoard) (state : State) (nb : BlizzardMap)
    (next : List State) (s2 : State) :
    s2 ∈ g.expandState state nb next ↔
      s2 ∈ next ∨ ∃ p, (p = state.playerPosition ∨ Adjacent state.playerPosition p) ∧
        g.isValidPlayerPosition p nb = true ∧
        s2 = State.mk (state.minute + 1) p g._walls nb 0 := by
  unfold GameBoard.expandState
  simp only []
  have hm := expandState_moves g state nb s2 allDirections next
  by_cases hv : g.isValidPlayerPosition state.playerPosition nb = true
  · rw [if_pos hv, List.mem_append, List.mem_singleton, hm]
    constructor
    · rintro ((h | ⟨d, hd, h1, h2⟩) | h)
      · exact Or.inl h
      · exact Or.inr ⟨_, Or.inr ((adjacent_iff _ _).2 ⟨d, hd, rfl⟩), h1, h2⟩
      · exact Or.inr ⟨_, Or.inl rfl, hv, h⟩
    · rintro (h | ⟨p, hp | hp, h1, h2⟩)
      · exact Or.inl (Or.inl h)
      · subst hp; exact Or.inr h2
      · obtain ⟨d, hd, rfl⟩ := (adjacent_iff _ _).1 hp
        exact Or.inl (Or.inr ⟨d, hd, h1, h2⟩)
  · rw [if_neg hv, hm]
    constructor
    · rintro (h | ⟨d, hd, h1, h2⟩)
      · exact Or.inl h
      · exact Or.inr ⟨_, Or.inr ((adjacent_iff _ _).2 ⟨d, hd, rfl⟩), h1, h2⟩
    · rintro (h | ⟨p, hp | hp, h1, h2⟩)
      · exact Or.inl h
      · subst hp; exact absurd h1 hv
      · obtain ⟨d, hd, rfl⟩ := (adjacent_iff _ _).1 hp
        exact Or.inr ⟨d, hd, h1, h2⟩

theorem GameBoard.withCache_withCache (g : GameBoard) (c1 c2 : SnapshotCache) :
    (g.withCache c1).withCache c2 = g.withCache c2 := rfl

theorem GameBoard.isValid_withCache (g : GameBoard) (c1 : SnapshotCache)
    (p : CoordinatePair) (m : BlizzardMap) :
    (g.withCache c1).isValidPlayerPosition p m = g.isValidPlayerPosition p m := rfl

theorem GameBoard.isSuccessor_congr (g : GameBoard) (init : BlizzardMap) (s1 s2 s3 : State)
    (hp : s1._playerPosition = s2._playerPosition) (hm : s1._minute = s2._minute) :
    g.IsSuccessor init s1 s3 ↔ g.IsSuccessor init s2 s3 := by
  simp only [GameBoard.IsSuccessor, State.playerPosition, State.minute, hp, hm]

/-- The loop over `states`: every state that is not in `visited` is expanded, and
`next` receives exactly the successors of those states. -/
theorem GameBoard.expandLayer_spec (g : GameBoard) (init : BlizzardMap) (states : List State) :
    ∀ (cache : SnapshotCache) (next visited : List State),
    (g.withCache cache).CacheOK init →
    ∃ next2 visited2 cache2,
      GameBoard.expandLayer states (g.withCache cache) next visited
        = some (next2, visited2, g.withCache cache2) ∧
      (g.withCache cache2).CacheOK init ∧
      (∀ s2, s2 ∈ next2 ↔ s2 ∈ next ∨
        ∃ s ∈ states, (∀ v ∈ visited, v.eqOp s = false) ∧ g.IsSuccessor init s s2) ∧
      (∀ v, v ∈ visited2 → v ∈ visited ∨ v ∈ states) ∧
      (∀ v, v ∈ visited → v ∈ visited2) := by
  induction states with
  | nil =>
    intro cache next visited hok
    exact ⟨next, visited, cache, rfl, hok, by simp, fun v hv => Or.inl hv, fun v hv => hv⟩
  | cons s0 rest ih =>
    intro cache next visited hok
    by_cases hvis : visited.any (fun v => v.eqOp s0) = true
    · obtain ⟨next2, visited2, cache2, h1, h2, h3, h4, h5⟩ := ih cache next visited hok
      refine ⟨next2, visited2, cache2, ?_, h2, ?_, ?_, h5⟩
      · simp only [GameBoard.expandLayer, hvis, if_true, h1]
      · intro s2
        rw [h3 s2]
        constructor
        · rintro (h | ⟨s, hs, hn, hsucc⟩)
          · exact Or.inl h
          · exact Or.inr ⟨s, List.mem_cons_of_mem _ hs, hn, hsucc⟩
        · rintro (h | ⟨s, hs, hn, hsucc⟩)
          · exact Or.inl h
          · rcases List.mem_cons.1 hs with hs | hs
            · subst hs
              obtain ⟨v, hv, hveq⟩ := List.any_eq_true.1 hvis
              rw [hn v hv] at hveq
              exact absurd hveq (by decide)
            · exact Or.inr ⟨s, hs, hn, hsucc⟩
      · intro v hv
        rcases h4 v hv with h | h
        · exact Or.inl h
        · exact Or.inr (List.mem_cons_of_mem _ h)
    · obtain ⟨c1, hget, hok1⟩ :=
        GameBoard.getBlizzardsByMinute_spec (g.withCache cache) init hok (s0.minute + 1)
      rw [GameBoard.withCache_withCache] at hget hok1
      rw [GameBoard.snapshot_withCache] at hget
      obtain ⟨next2, visited2, cache2, h1, h2, h3, h4, h5⟩ :=
        ih c1 ((g.withCache c1).expandState s0 (g.snapshot init (s0.minute + 1)) next)
          (visited ++ [s0]) hok1
      refine ⟨next2, visited2, cache2, ?_, h2, ?_, ?_, ?_⟩
      · simp only [GameBoard.expandLayer, hvis, hget, h1]
        simp
      · have hnv : ∀ v ∈ visited, v.eqOp s0 = false := by
          intro v hv
          cases hveq : v.eqOp s0 with
          | false => rfl
          | true => exact absurd (List.any_eq_true.2 ⟨v, hv, hveq⟩) hvis
        have hexp : ∀ s2, s2 ∈ (g.withCache c1).expandState s0
            (g.snapshot init (s0.minute + 1)) next ↔ s2 ∈ next ∨ g.IsSuccessor init s0 s2 := by
          intro s2
          rw [GameBoard.mem_expandState]
          rfl
        intro s2
        rw [h3 s2, hexp s2]
        constructor
        · rintro ((h | h) | ⟨s, hs, hn, hsucc⟩)
          · exact Or.inl h
          · exact Or.inr ⟨s0, List.mem_cons_self _ _, hnv, h⟩
          · exact Or.inr ⟨s, List.mem_cons_of_mem _ hs,
              fun v hv => hn v (List.mem_append_left _ hv), hsucc⟩
        · rintro (h | ⟨s, hs, hn, hsucc⟩)
          · exact Or.inl (Or.inl h)
          · rcases List.mem_cons.1 hs with hs | hs
            · subst hs
              exact Or.inl (Or.inr hsucc)
            · cases heq : s0.eqOp s with
              | true =>
                obtain ⟨hp, hm⟩ := (state_eqOp_iff s0 s).1 heq
                exact Or.inl (Or.inr ((GameBoard.isSuccessor_congr g init s0 s s2 hp hm).2 hsucc))
              | false =>
                refine Or.inr ⟨s, hs, ?_, hsucc⟩
                intro v hv
                rcases List.mem_append.1 hv with hv | hv
                · exact hn v hv
                · rw [List.mem_singleton.1 hv]; exact heq
      · intro v hv
        rcases h4 v hv with h | h
        · rcases List.mem_append.1 h with h | h
          · exact Or.inl h
          · rw [List.mem_singleton.1 h]; exact Or.inr (List.mem_cons_self _ _)
        · exact Or.inr (List.mem_cons_of_mem _ h)
      · intro v hv
        exact h5 v (List.mem_append_left _ hv)

/-! ## The layers of the search -/

theorem GameBoard.mem_trim (sortBy : (State → State → Bool) → List State → List State)
    (hsort : SortContract sortBy) (K : Nat) (g : GameBoard) (next : List State) (s : State)
    (h : s ∈ g.trim sortBy K next) : s ∈ next := by
  unfold GameBoard.trim at h
  split at h
  · exact (hsort _ _).subset (List.mem_of_mem_take h)
  · exact h

theorem GameBoard.trim_of_le (sortBy : (State → State → Bool) → List State → List State)
    (K : Nat) (g : GameBoard) (next : List State) (h : next.length ≤ K) :
    g.trim sortBy K next = next := by
  unfold GameBoard.trim
  rw [if_neg (by omega)]

theorem GameBoard.reach_of_isSuccessor (g : GameBoard) (init : BlizzardMap) (t : Nat)
    (p : CoordinatePair) (s2 : State) (hr : g.Reach init t p)
    (h : g.IsSuccessor init (g.stateAt init t p) s2) :
    ∃ q, s2 = g.stateAt init (t + 1) q ∧ g.Reach init (t + 1) q := by
  obtain ⟨q, hq, hv, hs⟩ := h
  exact ⟨q, hs, GameBoard.Reach.step t p q hr hq hv⟩

/-- Invariant of the loop of `breadthFirstSearch`.  At the start of iteration `t` the
loop state exists, its cache is sound, every state of the frontier is the state of a
cell reachable at minute `t`, `visited` holds earlier minutes only, and, as long as no
layer has been trimmed, the frontier holds every cell reachable at minute `t`. -/
theorem GameBoard.loopStateAt_spec (sortBy : (State → State → Bool) → List State → List State)
    (hsort : SortContract sortBy) (g : GameBoard) (init : BlizzardMap) (hok : g.CacheOK init)
    (t : Nat) :
    ∃ states visited cache,
      g.loopStateAt sortBy t = some (states, visited, g.withCache cache) ∧
      (g.withCache cache).CacheOK init ∧
      (∀ s ∈ states, ∃ p, s = g.stateAt init t p ∧ g.Reach init t p) ∧
      (∀ v ∈ visited, v._minute < t) ∧
      ((∀ k, k < t → ∀ n, g.nextSize sortBy k = some n → n ≤ sizeLimit) →
        ∀ p, g.Reach init t p → g.stateAt init t p ∈ states) := by
  induction t with
  | zero =>
    refine ⟨[g.stateAt init 0 g._start], [], g._blizzardsByTimeMap, ?_, ?_, ?_, ?_, ?_⟩
    · simp only [GameBoard.loopStateAt, hok.1, GameBoard.withCache_self]
      rfl
    · rw [GameBoard.withCache_self]; exact hok
    · intro s hs
      rw [List.mem_singleton] at hs
      exact ⟨g._start, hs, GameBoard.Reach.start⟩
    · intro v hv; exact absurd hv (List.not_mem_nil _)
    · intro _ p hp
      cases hp
      exact List.mem_singleton.2 rfl
  | succ t ih =>
    obtain ⟨states, visited, cache, hls, hok1, hsound, hvis, hcomplete⟩ := ih
    obtain ⟨next2, visited2, cache2, h1, h2, h3, h4, h5⟩ :=
      GameBoard.expandLayer_spec g init states cache [] visited hok1
    have hnovis : ∀ s ∈ states, ∀ v ∈ visited, v.eqOp s = false := by
      intro s hs v hv
      cases heq : v.eqOp s with
      | false => rfl
      | true =>
        obtain ⟨p, hp, -⟩ := hsound s hs
        have hm := ((state_eqOp_iff v s).1 heq).2
        have hlt := hvis v hv
        rw [hm, hp] at hlt
        exact absurd hlt (Nat.lt_irrefl _)
    refine ⟨(g.withCache cache2).trim sortBy sizeLimit next2, visited2, cache2, ?_, h2,
      ?_, ?_, ?_⟩
    · simp only [GameBoard.loopStateAt, hls, h1]
    · intro s2 hs2
      have hs2n := GameBoard.mem_trim sortBy hsort _ _ _ _ hs2
      rcases (h3 s2).1 hs2n with h | ⟨s, hs, -, hsucc⟩
      · exact absurd h (List.not_mem_nil _)
      · obtain ⟨p, hp, hr⟩ := hsound s hs
        rw [hp] at hsucc
        exact GameBoard.reach_of_isSuccessor g init t p s2 hr hsucc
    · intro v hv
      rcases h4 v hv with h | h
      · exact Nat.lt_succ_of_lt (hvis v h)
      · obtain ⟨p, hp, -⟩ := hsound v h
        rw [hp]
        exact Nat.lt_succ_self t
    · intro hno q hq
      have hsize : next2.length ≤ sizeLimit := by
        apply hno t (Nat.lt_succ_self t)
        simp only [GameBoard.nextSize, hls, h1]
      rw [GameBoard.trim_of_le _ _ _ _ hsize]
      cases hq with
      | step _ p _ hr hstep hvalid =>
        have hin := hcomplete (fun k hk n hn => hno k (Nat.lt_succ_of_lt hk) n hn) p hr
        exact (h3 _).2 (Or.inr ⟨_, hin, hnovis _ hin, ⟨q, hstep, hvalid, rfl⟩⟩)

theorem GameBoard.frontier_eq (sortBy : (State → State → Bool) → List State → List State)
    (g : GameBoard) (t : Nat) (r : List State × List State × GameBoard)
    (h : g.loopStateAt sortBy t = some r) : g.frontier sortBy t = r.1 := by
  simp only [GameBoard.frontier, h]

/-- The loop of `breadthFirstSearch`, started in the loop state of iteration `k` with
`left` iterations to go, returns the minute of the first later layer that contains
the goal, and `-1` when none of these layers does. -/
theorem GameBoard.searchLoop_spec (sortBy : (State → State → Bool) → List State → List State)
    (hsort : SortContract sortBy) (g : GameBoard) (init : BlizzardMap) (hok : g.CacheOK init)
    (left : Nat) : ∀ (k : Nat) (states visited : List State) (g1 : GameBoard),
    g.loopStateAt sortBy k = some (states, visited, g1) →
    ∃ r g2, GameBoard.searchLoop sortBy left g1 states visited = some (r, g2) ∧
      ((r = -1 ∧ ∀ j, k < j → j ≤ k + left → ¬ g.Hits sortBy j) ∨
        (∃ j, k < j ∧ j ≤ k + left ∧ r = (j : Int) ∧ g.Hits sortBy j ∧
          ∀ i, k < i → i < j → ¬ g.Hits sortBy i)) := by
  induction left with
  | zero =>
    intro k states visited g1 _
    refine ⟨-1, g1, rfl, Or.inl ⟨rfl, ?_⟩⟩
    intro j h1 h2
    omega
  | succ left ih =>
    intro k states visited g1 hls
    obtain ⟨st2, vis2, c2, hls2, -, hsound, -, -⟩ :=
      GameBoard.loopStateAt_spec sortBy hsort g init hok (k + 1)
    have hfr : g.frontier sortBy (k + 1) = st2 := GameBoard.frontier_eq sortBy g _ _ hls2
    have hunf := hls2
    simp only [GameBoard.loopStateAt, hls] at hunf
    cases hexp : GameBoard.expandLayer states g1 [] visited with
    | none => simp [hexp] at hunf
    | some res =>
      obtain ⟨next, visited1, g2⟩ := res
      simp only [hexp, Option.some.injEq, Prod.mk.injEq] at hunf
      obtain ⟨e1, e2, e3⟩ := hunf
      have hend : g2._end = g._end := by rw [e3]; rfl
      cases hfind : (g2.trim sortBy sizeLimit next).find?
          (fun state => state.playerPosition.eqOp g2._end) with
      | some found =>
        have hmem : found ∈ st2 := by
          rw [← e1]; exact List.mem_of_find?_eq_some hfind
        have hgoal : found.playerPosition = g._end := by
          have := List.find?_some hfind
          rw [← hend]
          exact (coordinatePair_eqOp_iff _ _).1 this
        obtain ⟨p, hp, -⟩ := hsound found hmem
        have hmin : found.minute = k + 1 := by rw [hp]; rfl
        refine ⟨(found.minute : Int), g2, ?_, Or.inr ⟨k + 1, Nat.lt_succ_self k, by omega, ?_, ?_, ?_⟩⟩
        · simp only [GameBoard.searchLoop, hexp, hfind]
        · rw [hmin]
        · exact ⟨found, by rw [hfr]; exact hmem, hgoal⟩
        · intro i h1 h2; omega
      | none =>
        have hmiss : ¬ g.Hits sortBy (k + 1) := by
          rintro ⟨s, hs, hsg⟩
          rw [hfr, ← e1] at hs
          have := List.find?_eq_none.1 hfind s hs
          rw [hend, hsg] at this
          exact this ((coordinatePair_eqOp_iff _ _).2 rfl)
        have hls3 : g.loopStateAt sortBy (k + 1)
            = some (g2.trim sortBy sizeLimit next, visited1, g2) := by
          rw [hls2, e1, e2, e3]
        obtain ⟨r, g3, hr, hcase⟩ := ih (k + 1) _ _ _ hls3
        refine ⟨r, g3, ?_, ?_⟩
        · simp only [GameBoard.searchLoop, hexp, hfind, hr]
        · rcases hcase with ⟨h1, h2⟩ | ⟨j, h1, h2, h3, h4, h5⟩
          · refine Or.inl ⟨h1, ?_⟩
            intro j hj1 hj2
            by_cases hj : j = k + 1
            · rw [hj]; exact hmiss
            · exact h2 j (by omega) (by omega)
          · refine Or.inr ⟨j, by omega, by omega, h3, h4, ?_⟩
            intro i hi1 hi2
            by_cases hi : i = k + 1
            · rw [hi]; exact hmiss
            · exact h5 i (by omega) hi2

/-- Result of `breadthFirstSearch` in terms of the frontier layers. -/
theorem GameBoard.breadthFirstSearch_spec
    (sortBy : (State → State → Bool) → List State → List State)
    (hsort : SortContract sortBy) (g : GameBoard) (init : BlizzardMap) (hok : g.CacheOK init) :
    ∃ r g2, g.breadthFirstSearch sortBy = some (r, g2) ∧
      ((r = -1 ∧ ∀ j, 0 < j → j ≤ g.getSearchMinuteLimit → ¬ g.Hits sortBy j) ∨
        (∃ j, 0 < j ∧ j ≤ g.getSearchMinuteLimit ∧ r = (j : Int) ∧ g.Hits sortBy j ∧
          ∀ i, 0 < i → i < j → ¬ g.Hits sortBy i)) := by
  have hls : g.loopStateAt sortBy 0
      = some ([State.mk 0 g._start g._walls init 0], [], g) := by
    simp only [GameBoard.loopStateAt, hok.1]
  obtain ⟨r, g2, hr, hcase⟩ :=
    GameBoard.searchLoop_spec sortBy hsort g init hok g.getSearchMinuteLimit 0 _ _ _ hls
  refine ⟨r, g2, ?_, ?_⟩
  · simp only [GameBoard.breadthFirstSearch, hok.1, hr]
  · simpa using hcase

/-! ## Walks and reachable cells -/

theorem SnapshotCache.find_singleton (k : Nat) (v : BlizzardMap) (k2 : Nat) (m : BlizzardMap)
    (h : SnapshotCache.find [(k, v)] k2 = some m) : k2 = k ∧ m = v := by
  simp only [SnapshotCache.find] at h
  by_cases hk : k = k2
  · simp only [hk, if_true, Option.some.injEq] at h
    exact ⟨hk.symm, h.symm⟩
  · simp [hk] at h

/-- The board built by the constructor has a sound cache. -/
theorem GameBoard.parse_cacheOK (lines : List String) :
    (GameBoard.parse lines).CacheOK (GameBoard.parse lines).initial := by
  constructor
  · simp [GameBoard.parse, GameBoard.initial, SnapshotCache.assign, SnapshotCache.find]
  · intro k m hk
    have h1 : (GameBoard.parse lines)._blizzardsByTimeMap
        = [(0, (GameBoard.parse lines).initial)] := by
      simp [GameBoard.parse, GameBoard.initial, SnapshotCache.assign, SnapshotCache.find]
    rw [h1] at hk
    obtain ⟨h2, h3⟩ := SnapshotCache.find_singleton _ _ _ _ hk
    rw [h2, h3]; rfl

theorem GameBoard.isValidPlayerPosition_iff (g : GameBoard) (p : CoordinatePair)
    (m : BlizzardMap) :
    g.isValidPlayerPosition p m = true ↔ g.WallFree p ∧ m.contains p = false := by
  unfold GameBoard.isValidPlayerPosition GameBoard.WallFree
  by_cases hb : p.x < 0 ∨ p.x > g._width - 1 ∨ p.y < 0 ∨ p.y > g._height - 1
  · rw [if_pos hb]
    constructor
    · intro h; exact absurd h (by decide)
    · rintro ⟨⟨h1, h2, h3, h4, -⟩, -⟩
      omega
  · rw [if_neg hb]
    have hb2 : 0 ≤ p.x ∧ p.x ≤ g._width - 1 ∧ 0 ≤ p.y ∧ p.y ≤ g._height - 1 := by omega
    by_cases hw : g._walls.contains p = true
    · rw [if_pos hw]
      have := (wallSet_contains_iff _ _).1 hw
      constructor
      · intro h; exact absurd h (by decide)
      · rintro ⟨⟨-, -, -, -, h5⟩, -⟩
        exact absurd this h5
    · rw [if_neg hw]
      have hw2 : p ∉ g._walls := fun h => hw ((wallSet_contains_iff _ _).2 h)
      by_cases hc : m.contains p = true
      · rw [if_pos hc]
        simp [hc]
      · rw [if_neg hc]
        simp only [Bool.not_eq_true] at hc
        simp [hc, hb2, hw2]

theorem GameBoard.openAt_iff (g : GameBoard) (init : BlizzardMap) (hok : g.CacheOK init)
    (i : Nat) (p : CoordinatePair) :
    g.OpenAt (i + 1) p ↔ g.isValidPlayerPosition p (g.snapshot init (i + 1)) = true := by
  obtain ⟨c, hget, -⟩ := GameBoard.getBlizzardsByMinute_spec g init hok (i + 1)
  have hne : (g.snapshot init (i + 1)).SetsNonempty := GameBoard.setsNonempty_moveAll g _
  rw [GameBoard.isValidPlayerPosition_iff]
  have hocc : (g.snapshot init (i + 1)).contains p = false ↔
      ¬ (g.snapshot init (i + 1)).Occupied p := by
    rw [← blizzardMap_contains_iff_occupied _ hne]
    simp
  rw [hocc]
  unfold GameBoard.OpenAt GameBoard.WallFree
  constructor
  · rintro ⟨h1, h2, h3, h4, h5, m, g2, h6, h7⟩
    rw [hget] at h6
    simp only [Option.some.injEq, Prod.mk.injEq] at h6
    rw [← h6.1] at h7
    exact ⟨⟨h1, h2, h3, h4, h5⟩, h7⟩
  · rintro ⟨⟨h1, h2, h3, h4, h5⟩, h7⟩
    exact ⟨h1, h2, h3, h4, h5, _, _, hget, h7⟩

/-- A cell is reachable at minute `t` exactly when a sequence of `t` steps leads to it. -/
theorem GameBoard.reach_iff_walk (g : GameBoard) (init : BlizzardMap) (hok : g.CacheOK init)
    (t : Nat) : ∀ (q : CoordinatePair), g.Reach init t q ↔
      ∃ p : Nat → CoordinatePair, p 0 = g._start ∧ p t = q ∧
        ∀ i, i < t → (p (i + 1) = p i ∨ Adjacent (p i) (p (i + 1))) ∧
          g.OpenAt (i + 1) (p (i + 1)) := by
  induction t with
  | zero =>
    intro q
    constructor
    · intro h
      cases h
      exact ⟨fun _ => g._start, rfl, rfl, fun i hi => absurd hi (Nat.not_lt_zero i)⟩
    · rintro ⟨p, h0, h1, -⟩
      rw [← h1, h0]
      exact GameBoard.Reach.start
  | succ t ih =>
    intro q
    constructor
    · intro h
      cases h with
      | step _ p0 _ hr hstep hvalid =>
        obtain ⟨p, h0, h1, h2⟩ := (ih p0).1 hr
        refine ⟨fun i => if i ≤ t then p i else q, ?_, ?_, ?_⟩
        · simp [h0]
        · simp
        · intro i hi
          by_cases hit : i < t
          · have e1 : i + 1 ≤ t := hit
            have e2 : i ≤ t := Nat.le_of_lt hit
            simp only [e1, e2, if_true]
            exact h2 i hit
          · have e0 : i = t := by omega
            subst e0
            simp only [Nat.le_refl, if_true, Nat.not_succ_le_self, if_false, h1]
            exact ⟨hstep, (GameBoard.openAt_iff g init hok i q).2 hvalid⟩
    · rintro ⟨p, h0, h1, h2⟩
      have hr : g.Reach init t (p t) :=
        (ih (p t)).2 ⟨p, h0, rfl, fun i hi => h2 i (Nat.lt_succ_of_lt hi)⟩
      obtain ⟨hstep, hopen⟩ := h2 t (Nat.lt_succ_self t)
      rw [h1] at hstep hopen
      exact GameBoard.Reach.step t (p t) q hr hstep
        ((GameBoard.openAt_iff g init hok t q).1 hopen)

theorem GameBoard.hits_sound (sortBy : (State → State → Bool) → List State → List State)
    (hsort : SortContract sortBy) (g : GameBoard) (init : BlizzardMap) (hok : g.CacheOK init)
    (t : Nat) (h : g.Hits sortBy t) : g.Reach init t g._end := by
  obtain ⟨states, visited, cache, hls, -, hsound, -, -⟩ :=
    GameBoard.loopStateAt_spec sortBy hsort g init hok t
  obtain ⟨s, hs, hgoal⟩ := h
  rw [GameBoard.frontier_eq sortBy g t _ hls] at hs
  obtain ⟨p, hp, hr⟩ := hsound s hs
  have : p = g._end := by rw [← hgoal, hp]; rfl
  rw [← this]; exact hr

theorem GameBoard.hits_complete (sortBy : (State → State → Bool) → List State → List State)
    (hsort : SortContract sortBy) (g : GameBoard) (init : BlizzardMap) (hok : g.CacheOK init)
    (t : Nat) (hno : ∀ k, k < t → ∀ n, g.nextSize sortBy k = some n → n ≤ sizeLimit)
    (h : g.Reach init t g._end) : g.Hits sortBy t := by
  obtain ⟨states, visited, cache, hls, -, -, -, hcomplete⟩ :=
    GameBoard.loopStateAt_spec sortBy hsort g init hok t
  refine ⟨g.stateAt init t g._end, ?_, rfl⟩
  rw [GameBoard.frontier_eq sortBy g t _ hls]
  exact hcomplete hno _ h

theorem stableSortBy_contract : SortContract stableSortBy := by
  intro lt l
  exact List.perm_insertionSort _ l

/-! ## The constructor: width, height and the search bound -/

theorem parseLines_height (lines : List String) : ∀ (y : Int) (prev : String) (st : ParseState),
    (parseLines lines y prev st).2.2 = y + (lines.length : Int) := by
  induction lines with
  | nil => intro y prev st; simp [parseLines]
  | cons l rest ih =>
    intro y prev st
    simp only [parseLines, ih, List.length_cons]
    push_cast
    ring

theorem parseLines_prevLine (lines : List String) : ∀ (y : Int) (prev : String) (st : ParseState),
    (parseLines lines y prev st).2.1 = (lines.getLast?).getD prev := by
  induction lines with
  | nil => intro y prev st; simp [parseLines]
  | cons l rest ih =>
    intro y prev st
    simp only [parseLines, ih]
    cases rest with
    | nil => simp
    | cons l2 rest2 =>
      rw [List.getLast?_cons_cons]
      simp [List.getLast?_eq_getLast]

theorem GameBoard.parse_height (lines : List String) :
    (GameBoard.parse lines)._height = (lines.length : Int) := by
  simp [GameBoard.parse, parseLines_height]

theorem GameBoard.parse_width (lines : List String) :
    (GameBoard.parse lines)._width = ((((lines.getLast?).getD "").length : Nat) : Int) := by
  simp [GameBoard.parse, parseLines_prevLine]

theorem GameBoard.parse_limit (lines : List String) :
    ((GameBoard.parse lines).getSearchMinuteLimit : Int)
      = 5 * (GameBoard.parse lines)._width * (GameBoard.parse lines)._height := by
  unfold GameBoard.getSearchMinuteLimit
  rw [GameBoard.parse_height, GameBoard.parse_width]
  have h : (0 : Int) ≤ (lines.length : Int) * ((((lines.getLast?).getD "").length : Nat) : Int) * 5 := by
    positivity
  rw [Int.toNat_of_nonneg h]
  ring

/-! ## The search: the claims -/

theorem GameBoard.searchValue_spec (sortBy : (State → State → Bool) → List State → List State)
    (hsort : SortContract sortBy) (lines : List String) :
    ∃ r, (GameBoard.parse lines).searchValue sortBy = some r ∧
      ((r = -1 ∧ ∀ j, 0 < j → j ≤ (GameBoard.parse lines).getSearchMinuteLimit →
          ¬ (GameBoard.parse lines).Hits sortBy j) ∨
        (∃ j, 0 < j ∧ j ≤ (GameBoard.parse lines).getSearchMinuteLimit ∧ r = (j : Int) ∧
          (GameBoard.parse lines).Hits sortBy j ∧
          ∀ i, 0 < i → i < j → ¬ (GameBoard.parse lines).Hits sortBy i)) := by
  obtain ⟨r, g2, h1, h2⟩ := GameBoard.breadthFirstSearch_spec sortBy hsort
    (GameBoard.parse lines) _ (GameBoard.parse_cacheOK lines)
  exact ⟨r, by simp [GameBoard.searchValue, h1], h2⟩

theorem GameBoard.connected_of_reach (g : GameBoard) (init : BlizzardMap) (t : Nat)
    (q : CoordinatePair) (h : g.Reach init t q) : g.Connected g._start q := by
  induction h with
  | start => exact Relation.ReflTransGen.refl
  | step t p q _ hstep hvalid ih =>
    rcases hstep with hstep | hstep
    · rw [hstep]; exact ih
    · exact Relation.ReflTransGen.tail ih
        ⟨hstep, ((GameBoard.isValidPlayerPosition_iff g q _).1 hvalid).1⟩

/-- C1 (optimality absent pruning).  For every input grid, if `T ≥ 1` is the least
number of steps of a walk from the start to the goal (every step a wait or a move to
an orthogonal neighbour, every cell entered at minute `i` in bounds, not a wall and
not occupied in `getBlizzardsByMinute(i)`), `T ≤ 5 * W * H`, and `next` never holds
more than `sizeLimit` states in the iterations that build the layers `1 .. T`, then
`breadthFirstSearch` returns exactly `T`. -/
theorem bfs_returns_least_walk_time_without_pruning
    (sortBy : (State → State → Bool) → List State → List State) (lines : List String) (T : Nat)
    (hsort : SortContract sortBy)
    (hT : 1 ≤ T)
    (hwalk : ∃ p, (GameBoard.parse lines).IsWalk T p)
    (hleast : ∀ t, 1 ≤ t → t < T → ¬ ∃ p, (GameBoard.parse lines).IsWalk t p)
    (hbound : (T : Int) ≤ 5 * (GameBoard.parse lines)._width * (GameBoard.parse lines)._height)
    (hsize : ∀ k, k < T → ∀ n, (GameBoard.parse lines).nextSize sortBy k = some n →
      n ≤ sizeLimit) :
    (GameBoard.parse lines).searchValue sortBy = some (T : Int) := by
  have hok := GameBoard.parse_cacheOK lines
  have hlim : T ≤ (GameBoard.parse lines).getSearchMinuteLimit := by
    have := GameBoard.parse_limit lines
    omega
  have hhitT : (GameBoard.parse lines).Hits sortBy T := by
    apply GameBoard.hits_complete sortBy hsort _ _ hok T hsize
    obtain ⟨p, h0, h1, h2⟩ := hwalk
    exact (GameBoard.reach_iff_walk _ _ hok T _).2 ⟨p, h0, h1, h2⟩
  obtain ⟨r, hr, hcase⟩ := GameBoard.searchValue_spec sortBy hsort lines
  rcases hcase with ⟨-, hnone⟩ | ⟨j, hj0, -, hrj, hhit, hfirst⟩
  · exact absurd hhitT (hnone T hT hlim)
  · have hjT : j ≤ T := by
      by_contra hgt
      exact hfirst T hT (by omega) hhitT
    have hTj : ¬ j < T := by
      intro hlt
      have hreach := GameBoard.hits_sound sortBy hsort _ _ hok j hhit
      obtain ⟨p, h0, h1, h2⟩ := (GameBoard.reach_iff_walk _ _ hok j _).1 hreach
      exact hleast j hj0 hlt ⟨p, h0, h1, h2⟩
    have : j = T := by omega
    rw [hr, hrj, this]

/-- C2 (soundness of the answer).  For every input grid, whenever `breadthFirstSearch`
returns a value `r` other than `-1`, trimmed frontier or not, `r` is a number of steps
`t` for which a sequence `p 0 = start, ..., p t = goal` exists whose steps are waits or
moves to an orthogonal neighbour and whose cells `p i`, `i ≥ 1`, satisfy
`isValidPlayerPosition` against `getBlizzardsByMinute(i)`, that is, are in bounds, not
walls and free of obstacles at minute `i`. -/
theorem bfs_result_is_length_of_valid_walk
    (sortBy : (State → State → Bool) → List State → List State) (lines : List String) (r : Int)
    (hsort : SortContract sortBy)
    (hres : (GameBoard.parse lines).searchValue sortBy = some r)
    (hne : r ≠ -1) :
    ∃ (t : Nat) (p : Nat → CoordinatePair), r = (t : Int) ∧
      (GameBoard.parse lines).IsWalk t p ∧
      ∀ i, i < t → ∃ m g2,
        (GameBoard.parse lines).getBlizzardsByMinute (i + 1) = some (m, g2) ∧
        (GameBoard.parse lines).isValidPlayerPosition (p (i + 1)) m = true := by
  have hok := GameBoard.parse_cacheOK lines
  obtain ⟨r2, hr, hcase⟩ := GameBoard.searchValue_spec sortBy hsort lines
  rw [hres] at hr
  have hrr : r = r2 := Option.some.inj hr
  subst hrr
  rcases hcase with ⟨h, -⟩ | ⟨j, -, -, hrj, hhit, -⟩
  · exact absurd h hne
  · have hreach := GameBoard.hits_sound sortBy hsort _ _ hok j hhit
    obtain ⟨p, h0, h1, h2⟩ := (GameBoard.reach_iff_walk _ _ hok j _).1 hreach
    refine ⟨j, p, hrj, ⟨h0, h1, h2⟩, ?_⟩
    intro i hi
    obtain ⟨c, hget, -⟩ := GameBoard.getBlizzardsByMinute_spec _ _ hok (i + 1)
    exact ⟨_, _, hget, (GameBoard.openAt_iff _ _ hok i _).1 (h2 i hi).2⟩

/-- C3 (failure is an explicit value).  For every input grid `breadthFirstSearch`
returns a value; the value is `-1` if and only if none of the frontier layers of the
minutes `1 .. getSearchMinuteLimit()`, as built and trimmed by the loop, contains a
state whose position is the goal; otherwise it is the minute of the first layer that
contains the goal. -/
theorem bfs_returns_minus_one_iff_no_layer_has_goal
    (sortBy : (State → State → Bool) → List State → List State) (lines : List String)
    (hsort : SortContract sortBy) :
    ∃ r, (GameBoard.parse lines).searchValue sortBy = some r ∧
      (r = -1 ↔ ∀ t, 1 ≤ t → t ≤ (GameBoard.parse lines).getSearchMinuteLimit →
        ¬ (GameBoard.parse lines).Hits sortBy t) ∧
      (r ≠ -1 → ∃ t, 1 ≤ t ∧ t ≤ (GameBoard.parse lines).getSearchMinuteLimit ∧
        r = (t : Int) ∧ (GameBoard.parse lines).Hits sortBy t ∧
        ∀ i, 1 ≤ i → i < t → ¬ (GameBoard.parse lines).Hits sortBy i) := by
  obtain ⟨r, hr, hcase⟩ := GameBoard.searchValue_spec sortBy hsort lines
  refine ⟨r, hr, ?_, ?_⟩
  · rcases hcase with ⟨h1, h2⟩ | ⟨j, hj0, hjl, hrj, hhit, -⟩
    · exact ⟨fun _ => h2, fun _ => h1⟩
    · constructor
      · intro h; omega
      · intro h; exact absurd hhit (h j hj0 hjl)
  · intro hne
    rcases hcase with ⟨h1, -⟩ | ⟨j, hj0, hjl, hrj, hhit, hfirst⟩
    · exact absurd h1 hne
    · exact ⟨j, hj0, hjl, hrj, hhit, hfirst⟩

/-! ## The layers built by the search -/

/-- The loop with the record of its layers returns what the loop returns. -/
theorem GameBoard.searchLoopLayers_result
    (sortBy : (State → State → Bool) → List State → List State) (left : Nat) :
    ∀ (g : GameBoard) (states visited : List State),
    (GameBoard.searchLoopLayers sortBy left g states visited).map (fun x => (x.1, x.2.1))
      = GameBoard.searchLoop sortBy left g states visited := by
  induction left with
  | zero => intro g states visited; rfl
  | succ left ih =>
    intro g states visited
    simp only [GameBoard.searchLoopLayers, GameBoard.searchLoop]
    cases hexp : GameBoard.expandLayer states g [] visited with
    | none => rfl
    | some res =>
      obtain ⟨next, visited1, g1⟩ := res
      simp only []
      cases hfind : (g1.trim sortBy sizeLimit next).find?
          (fun state => state.playerPosition.eqOp g1._end) with
      | some found => rfl
      | none =>
        simp only []
        rw [← ih g1 _ visited1]
        cases GameBoard.searchLoopLayers sortBy left g1 (g1.trim sortBy sizeLimit next)
          visited1 with
        | none => rfl
        | some r => rfl

theorem GameBoard.searchLayers_result
    (sortBy : (State → State → Bool) → List State → List State) (g : GameBoard) :
    (g.searchLayers sortBy).map (fun x => (x.1, x.2.1)) = g.breadthFirstSearch sortBy := by
  unfold GameBoard.searchLayers GameBoard.breadthFirstSearch
  cases g._blizzardsByTimeMap.find 0 with
  | none => rfl
  | some snapshot0 => exact GameBoard.searchLoopLayers_result sortBy _ _ _ _

/-- The loop of `breadthFirstSearch`, started in the loop state of iteration `k` with
`left` iterations to go, builds the layers `k + 1, k + 2, ...` and no more than `left`
of them: all `left` when it returns `-1`, and the layers up to the returned minute
otherwise. -/
theorem GameBoard.searchLoopLayers_spec
    (sortBy : (State → State → Bool) → List State → List State)
    (hsort : SortContract sortBy) (g : GameBoard) (init : BlizzardMap) (hok : g.CacheOK init)
    (left : Nat) : ∀ (k : Nat) (states visited : List State) (g1 : GameBoard),
    g.loopStateAt sortBy k = some (states, visited, g1) →
    ∃ r g2 layers, GameBoard.searchLoopLayers sortBy left g1 states visited
        = some (r, g2, layers) ∧
      layers.length ≤ left ∧
      (∀ i, i < layers.length → layers[i]? = some (g.frontier sortBy (k + 1 + i))) ∧
      (r = -1 → layers.length = left) ∧
      (r ≠ -1 → r = ((k + layers.length : Nat) : Int) ∧ 1 ≤ layers.length ∧
        g.Hits sortBy (k + layers.length)) := by
  induction left with
  | zero =>
    intro k states visited g1 _
    refine ⟨-1, g1, [], rfl, le_refl _, ?_, fun _ => rfl, fun h => absurd rfl h⟩
    intro i hi
    exact absurd hi (by simp)
  | succ left ih =>
    intro k states visited g1 hls
    obtain ⟨st2, vis2, c2, hls2, -, hsound, -, -⟩ :=
      GameBoard.loopStateAt_spec sortBy hsort g init hok (k + 1)
    have hfr : g.frontier sortBy (k + 1) = st2 := GameBoard.frontier_eq sortBy g _ _ hls2
    have hunf := hls2
    simp only [GameBoard.loopStateAt, hls] at hunf
    cases hexp : GameBoard.expandLayer states g1 [] visited with
    | none => simp [hexp] at hunf
    | some res =>
      obtain ⟨next, visited1, g2⟩ := res
      simp only [hexp, Option.some.injEq, Prod.mk.injEq] at hunf
      obtain ⟨e1, e2, e3⟩ := hunf
      have hend : g2._end = g._end := by rw [e3]; rfl
      cases hfind : (g2.trim sortBy sizeLimit next).find?
          (fun state => state.playerPosition.eqOp g2._end) with
      | some found =>
        have hmem : found ∈ st2 := by
          rw [← e1]; exact List.mem_of_find?_eq_some hfind
        have hgoal : found.playerPosition = g._end := by
          have := List.find?_some hfind
          rw [← hend]
          exact (coordinatePair_eqOp_iff _ _).1 this
        obtain ⟨p, hp, -⟩ := hsound found hmem
        have hmin : found.minute = k + 1 := by rw [hp]; rfl
        refine ⟨(found.minute : Int), g2, [g2.trim sortBy sizeLimit next], ?_, ?_, ?_, ?_, ?_⟩
        · simp only [GameBoard.searchLoopLayers, hexp, hfind]
        · simp
        · intro i hi
          have hi0 : i = 0 := by simpa using hi
          subst hi0
          rw [Nat.add_zero, hfr, ← e1]
          rfl
        · intro h
          rw [hmin] at h
          omega
        · intro _
          have hh : g.Hits sortBy (k + 1) := ⟨found, by rw [hfr]; exact hmem, hgoal⟩
          exact ⟨by rw [hmin]; rfl, by simp, hh⟩
      | none =>
        have hls3 : g.loopStateAt sortBy (k + 1)
            = some (g2.trim sortBy sizeLimit next, visited1, g2) := by
          rw [hls2, e1, e2, e3]
        obtain ⟨r, g3, layers, hr, hlen, hlay, hfail, hhit⟩ := ih (k + 1) _ _ _ hls3
        refine ⟨r, g3, g2.trim sortBy sizeLimit next :: layers, ?_, ?_, ?_, ?_, ?_⟩
        · simp only [GameBoard.searchLoopLayers, hexp, hfind, hr]
        · simp only [List.length_cons]; omega
        · intro i hi
          cases i with
          | zero =>
            rw [Nat.add_zero, hfr, ← e1, List.getElem?_cons_zero]
          | succ i =>
            simp only [List.length_cons] at hi
            have := hlay i (by omega)
            rw [List.getElem?_cons_succ, this]
            congr 2
            omega
        · intro h
          simp only [List.length_cons]
          rw [hfail h]
        · intro h
          obtain ⟨h1, h2, h3⟩ := hhit h
          simp only [List.length_cons]
          have e : k + (layers.length + 1) = k + 1 + layers.length := by omega
          rw [e]
          exact ⟨h1, by omega, h3⟩

/-- Every state of the frontier layer of minute `t` carries the minute `t`. -/
theorem GameBoard.frontier_minute (sortBy : (State → State → Bool) → List State → List State)
    (hsort : SortContract sortBy) (g : GameBoard) (init : BlizzardMap) (hok : g.CacheOK init)
    (t : Nat) : ∀ s ∈ g.frontier sortBy t, s.minute = t := by
  obtain ⟨st, vis, c, hls, -, hsound, -, -⟩ := GameBoard.loopStateAt_spec sortBy hsort g init hok t
  rw [GameBoard.frontier_eq sortBy g _ _ hls]
  intro s hs
  obtain ⟨p, hp, -⟩ := hsound s hs
  rw [hp]; rfl

/-- C4 (safety bound).  For every input grid `getSearchMinuteLimit()` equals
`5 * W * H`, where `W` is the parsed width (the length of the last line) and `H` the
parsed height (the number of lines).  `breadthFirstSearch` returns, and the layers it
builds are, in order, the layers of the minutes `t = 1, 2, ..., n` for an
`n ≤ 5 * W * H`, every state of the layer of minute `t` carrying the minute `t`: all
`5 * W * H` layers when the result is `-1`, and the layers up to the minute `t = r`
when the result `r` is not `-1`, in which case `1 ≤ r ≤ 5 * W * H`. -/
theorem bfs_result_within_search_minute_limit
    (sortBy : (State → State → Bool) → List State → List State) (lines : List String)
    (hsort : SortContract sortBy) :
    ((GameBoard.parse lines).getSearchMinuteLimit : Int)
        = 5 * (GameBoard.parse lines)._width * (GameBoard.parse lines)._height ∧
      (GameBoard.parse lines)._width = ((((lines.getLast?).getD "").length : Nat) : Int) ∧
      (GameBoard.parse lines)._height = (lines.length : Int) ∧
      ∃ r g2 layers,
        (GameBoard.parse lines).searchLayers sortBy = some (r, g2, layers) ∧
        (GameBoard.parse lines).breadthFirstSearch sortBy = some (r, g2) ∧
        layers.length ≤ (GameBoard.parse lines).getSearchMinuteLimit ∧
        (∀ i, i < layers.length →
          layers[i]? = some ((GameBoard.parse lines).frontier sortBy (i + 1)) ∧
          ∀ s ∈ (GameBoard.parse lines).frontier sortBy (i + 1), s.minute = i + 1) ∧
        (r = -1 → layers.length = (GameBoard.parse lines).getSearchMinuteLimit) ∧
        (r ≠ -1 → r = (layers.length : Int) ∧ 1 ≤ r ∧
          r ≤ 5 * (GameBoard.parse lines)._width * (GameBoard.parse lines)._height ∧
          (GameBoard.parse lines).Hits sortBy layers.length) := by
  have hlim := GameBoard.parse_limit lines
  have hok := GameBoard.parse_cacheOK lines
  have hls : (GameBoard.parse lines).loopStateAt sortBy 0
      = some ([State.mk 0 (GameBoard.parse lines)._start (GameBoard.parse lines)._walls
          (GameBoard.parse lines).initial 0], [], GameBoard.parse lines) := by
    simp only [GameBoard.loopStateAt, hok.1]
  obtain ⟨r, g2, layers, hr, hlen, hlay, hfail, hhit⟩ :=
    GameBoard.searchLoopLayers_spec sortBy hsort (GameBoard.parse lines) _ hok
      (GameBoard.parse lines).getSearchMinuteLimit 0 _ _ _ hls
  have hsl : (GameBoard.parse lines).searchLayers sortBy = some (r, g2, layers) := by
    simp only [GameBoard.searchLayers, hok.1, hr]
  refine ⟨hlim, GameBoard.parse_width lines, GameBoard.parse_height lines, r, g2, layers, hsl,
    ?_, hlen, ?_, hfail, ?_⟩
  · rw [← GameBoard.searchLayers_result, hsl]
    rfl
  · intro i hi
    refine ⟨?_, GameBoard.frontier_minute sortBy hsort _ _ hok (i + 1)⟩
    have := hlay i hi
    rw [this]
    congr 2
    omega
  · intro hne
    obtain ⟨h1, h2, h3⟩ := hhit hne
    simp only [Nat.zero_add] at h1 h3
    refine ⟨h1, by omega, ?_, h3⟩
    rw [← hlim, h1]
    exact_mod_cast hlen

/-- C5 (no-solution detection).  For every input grid whose walls separate the start
from the goal (no sequence of orthogonally adjacent cells leads from the start to the
goal through cells that are in bounds and not walls), with or without obstacles,
`breadthFirstSearch` returns `-1`. -/
theorem bfs_returns_minus_one_when_walls_separate
    (sortBy : (State → State → Bool) → List State → List State) (lines : List String)
    (hsort : SortContract sortBy)
    (hsep : ¬ (GameBoard.parse lines).Connected (GameBoard.parse lines)._start
      (GameBoard.parse lines)._end) :
    (GameBoard.parse lines).searchValue sortBy = some (-1) := by
  have hok := GameBoard.parse_cacheOK lines
  obtain ⟨r, hr, hcase⟩ := GameBoard.searchValue_spec sortBy hsort lines
  rcases hcase with ⟨h, -⟩ | ⟨j, -, -, -, hhit, -⟩
  · rw [hr, h]
  · have hreach := GameBoard.hits_sound sortBy hsort _ _ hok j hhit
    exact absurd (GameBoard.connected_of_reach _ _ _ _ hreach) hsep

theorem bfs_returns_least_walk_time_without_pruning_witness :
    (GameBoard.parse ["#.#", "#.#", "#.#"]).searchValue stableSortBy = some ((2 : Nat) : Int) :=
  bfs_returns_least_walk_time_without_pruning stableSortBy ["#.#", "#.#", "#.#"] 2
    stableSortBy_contract
    (by decide)
    ⟨fun i => if i = 0 then ⟨1, 0⟩ else if i = 1 then ⟨1, 1⟩ else ⟨1, 2⟩, by decide, by decide,
      by
        intro i hi
        have hi2 : i = 0 ∨ i = 1 := by omega
        rcases hi2 with rfl | rfl
        · exact ⟨by decide, by decide, by decide, by decide, by decide, by decide,
            _, _, rfl, by decide⟩
        · exact ⟨by decide, by decide, by decide, by decide, by decide, by decide,
            _, _, rfl, by decide⟩⟩
    (by
      intro t h1 h2
      have ht : t = 1 := by omega
      subst ht
      rintro ⟨p, h0, hend, hstep⟩
      have h := (hstep 0 (by decide)).1
      rw [h0] at h
      have hend2 : p (0 + 1) = (GameBoard.parse ["#.#", "#.#", "#.#"])._end := hend
      rw [hend2] at h
      revert h
      decide)
    (by decide)
    (by
      intro k hk n hn
      have hk2 : k = 0 ∨ k = 1 := by omega
      rcases hk2 with rfl | rfl
      · have : (GameBoard.parse ["#.#", "#.#", "#.#"]).nextSize stableSortBy 0 = some 2 := by
          decide
        rw [this] at hn
        rw [← Option.some.inj hn]
        decide
      · have : (GameBoard.parse ["#.#", "#.#", "#.#"]).nextSize stableSortBy 1 = some 5 := by
          decide
        rw [this] at hn
        rw [← Option.some.inj hn]
        decide)

theorem bfs_result_is_length_of_valid_walk_witness :
    ∃ (t : Nat) (p : Nat → CoordinatePair), (5 : Int) = (t : Int) ∧
      (GameBoard.parse ["#.###", "#>.<#", "#.^.#", "###.#"]).IsWalk t p ∧
      ∀ i, i < t → ∃ m g2,
        (GameBoard.parse ["#.###", "#>.<#", "#.^.#", "###.#"]).getBlizzardsByMinute (i + 1)
          = some (m, g2) ∧
        (GameBoard.parse ["#.###", "#>.<#", "#.^.#", "###.#"]).isValidPlayerPosition
          (p (i + 1)) m = true :=
  bfs_result_is_length_of_valid_walk stableSortBy ["#.###", "#>.<#", "#.^.#", "###.#"] 5
    stableSortBy_contract (by decide) (by decide)

theorem bfs_returns_minus_one_iff_no_layer_has_goal_witness :
    ∃ r, (GameBoard.parse ["#.#", "#<#", "#.#"]).searchValue stableSortBy = some r ∧
      (r = -1 ↔ ∀ t, 1 ≤ t → t ≤ (GameBoard.parse ["#.#", "#<#", "#.#"]).getSearchMinuteLimit →
        ¬ (GameBoard.parse ["#.#", "#<#", "#.#"]).Hits stableSortBy t) ∧
      (r ≠ -1 → ∃ t, 1 ≤ t ∧ t ≤ (GameBoard.parse ["#.#", "#<#", "#.#"]).getSearchMinuteLimit ∧
        r = (t : Int) ∧ (GameBoard.parse ["#.#", "#<#", "#.#"]).Hits stableSortBy t ∧
        ∀ i, 1 ≤ i → i < t → ¬ (GameBoard.parse ["#.#", "#<#", "#.#"]).Hits stableSortBy i) :=
  bfs_returns_minus_one_iff_no_layer_has_goal stableSortBy ["#.#", "#<#", "#.#"]
    stableSortBy_contract

theorem bfs_result_within_search_minute_limit_witness :
    ((GameBoard.parse ["#.#", "#<#", "#.#"]).searchLayers stableSortBy).map
        (fun x => (x.1, x.2.2.length)) = some (-1, 45) ∧
      ((GameBoard.parse ["#.##", "#..#", "##.#"]).searchLayers stableSortBy).map
        (fun x => (x.1, x.2.2.length)) = some (3, 3) ∧
      ((GameBoard.parse ["#.##", "#..#", "##.#"]).getSearchMinuteLimit : Int)
        = 5 * (GameBoard.parse ["#.##", "#..#", "##.#"])._width
            * (GameBoard.parse ["#.##", "#..#", "##.#"])._height ∧
      (GameBoard.parse ["#.##", "#..#", "##.#"])._width
        = ((((["#.##", "#..#", "##.#"].getLast?).getD "").length : Nat) : Int) ∧
      (GameBoard.parse ["#.##", "#..#", "##.#"])._height
        = ((["#.##", "#..#", "##.#"].length : Nat) : Int) ∧
      ∃ r g2 layers,
        (GameBoard.parse ["#.##", "#..#", "##.#"]).searchLayers stableSortBy
          = some (r, g2, layers) ∧
        (GameBoard.parse ["#.##", "#..#", "##.#"]).breadthFirstSearch stableSortBy
          = some (r, g2) ∧
        layers.length ≤ (GameBoard.parse ["#.##", "#..#", "##.#"]).getSearchMinuteLimit ∧
        (∀ i, i < layers.length →
          layers[i]? = some ((GameBoard.parse ["#.##", "#..#", "##.#"]).frontier stableSortBy
            (i + 1)) ∧
          ∀ s ∈ (GameBoard.parse ["#.##", "#..#", "##.#"]).frontier stableSortBy (i + 1),
            s.minute = i + 1) ∧
        (r = -1 → layers.length
          = (GameBoard.parse ["#.##", "#..#", "##.#"]).getSearchMinuteLimit) ∧
        (r ≠ -1 → r = (layers.length : Int) ∧ 1 ≤ r ∧
          r ≤ 5 * (GameBoard.parse ["#.##", "#..#", "##.#"])._width
            * (GameBoard.parse ["#.##", "#..#", "##.#"])._height ∧
          (GameBoard.parse ["#.##", "#..#", "##.#"]).Hits stableSortBy layers.length) :=
  ⟨by decide, by decide,
    bfs_result_within_search_minute_limit stableSortBy ["#.##", "#..#", "##.#"]
      stableSortBy_contract⟩

theorem bfs_returns_minus_one_when_walls_separate_witness :
    (GameBoard.parse ["#.#", "###", "#.#"]).searchValue stableSortBy = some (-1) :=
  bfs_returns_minus_one_when_walls_separate stableSortBy ["#.#", "###", "#.#"]
    stableSortBy_contract
    (by
      have hs : (GameBoard.parse ["#.#", "###", "#.#"])._start = ⟨1, 0⟩ := by decide
      have he : (GameBoard.parse ["#.#", "###", "#.#"])._end = ⟨1, 2⟩ := by decide
      rw [hs, he]
      have hinv : ∀ b, (GameBoard.parse ["#.#", "###", "#.#"]).Connected ⟨1, 0⟩ b →
          b = ⟨1, 0⟩ := by
        intro b hb
        induction hb with
        | refl => rfl
        | @tail c d _ hstep ih =>
          obtain ⟨hadj, hfree⟩ := hstep
          rw [ih] at hadj
          obtain ⟨dx, dy⟩ := d
          simp only [Adjacent, CoordinatePair.x, CoordinatePair.y] at hadj
          rcases hadj with ⟨h1, h2 | h2⟩ | ⟨h1, h2 | h2⟩ <;> subst h1 <;> subst h2 <;>
            exact absurd hfree (by decide)
      intro hcon
      exact absurd (hinv _ hcon) (by decide))

/-! ## The constructor: what it collects -/

theorem parseCell_walls (x y : Int) (c : Char) (st : ParseState) :
    (parseCell x y c st).walls = if c = '#' then st.walls.insert ⟨x, y⟩ else st.walls := by
  unfold parseCell
  by_cases h1 : y = 0 ∧ c = '.'
  · have : c ≠ '#' := by rw [h1.2]; decide
    simp [h1, this]
  · rw [if_neg h1]
    by_cases h2 : c = '#'
    · simp [h2]
    · rw [if_neg h2, if_neg h2]
      split
      · split
        · rfl
        · rename_i h hd; exact absurd hd (by rcases h with h | h | h | h <;> subst h <;> decide)
      · rfl

theorem parseCell_start (x y : Int) (c : Char) (st : ParseState) :
    (parseCell x y c st).start = if y = 0 ∧ c = '.' then ⟨x, y⟩ else st.start := by
  unfold parseCell
  by_cases h1 : y = 0 ∧ c = '.'
  · simp [h1]
  · rw [if_neg h1, if_neg h1]
    split
    · rfl
    · split
      · split
        · rfl
        · rename_i h hd; exact absurd hd (by rcases h with h | h | h | h <;> subst h <;> decide)
      · rfl

theorem parseCell_initBlizzards (x y : Int) (c : Char) (st : ParseState) :
    (parseCell x y c st).initBlizzards =
      match charToDirection c with
      | some d => st.initBlizzards.insertAt ⟨x, y⟩ ⟨⟨x, y⟩, d⟩
      | none => st.initBlizzards := by
  unfold parseCell
  by_cases h1 : y = 0 ∧ c = '.'
  · obtain ⟨h1a, h1b⟩ := h1
    subst h1b
    have : charToDirection '.' = none := by decide
    simp [h1a, this]
  · rw [if_neg h1]
    by_cases h2 : c = '#'
    · subst h2
      have : charToDirection '#' = none := by decide
      simp [this]
    · rw [if_neg h2]
      split
      · split
        · rename_i h d hd; simp [hd]
        · rename_i h hd; exact absurd hd (by rcases h with h | h | h | h <;> subst h <;> decide)
      · rename_i h
        have : charToDirection c = none := by
          simp only [not_or] at h
          simp [charToDirection, h.1, h.2.1, h.2.2.1, h.2.2.2]
        simp [this]

theorem wallSet_mem_insert (walls : WallSet) (c c0 : CoordinatePair) :
    c0 ∈ walls.insert c ↔ c0 ∈ walls ∨ c0 = c := by
  unfold WallSet.insert
  split
  · rename_i h
    have hc := (wallSet_contains_iff _ _).1 h
    constructor
    · exact Or.inl
    · rintro (h1 | h1)
      · exact h1
      · rw [h1]; exact hc
  · simp

theorem exists_index_cons {α : Type} (c : α) (cs : List α) (P : Nat → α → Prop) :
    (∃ i ch, (c :: cs)[i]? = some ch ∧ P i ch) ↔
      P 0 c ∨ ∃ i ch, cs[i]? = some ch ∧ P (i + 1) ch := by
  constructor
  · rintro ⟨i, ch, h1, h2⟩
    cases i with
    | zero =>
      simp only [List.getElem?_cons_zero, Option.some.injEq] at h1
      subst h1
      exact Or.inl h2
    | succ i =>
      simp only [List.getElem?_cons_succ] at h1
      exact Or.inr ⟨i, ch, h1, h2⟩
  · rintro (h | ⟨i, ch, h1, h2⟩)
    · exact ⟨0, c, by simp, h⟩
    · exact ⟨i + 1, ch, by simpa using h1, h2⟩

theorem mem_walls_parseLine (y : Int) (cs : List Char) : ∀ (x : Int) (st : ParseState)
    (c0 : CoordinatePair),
    c0 ∈ (parseLine y cs x st).walls ↔
      c0 ∈ st.walls ∨ ∃ (i : Nat) (ch : Char), cs[i]? = some ch ∧
        (ch = '#' ∧ c0 = ⟨x + (i : Int), y⟩) := by
  induction cs with
  | nil => intro x st c0; simp [parseLine]
  | cons c cs ih =>
    intro x st c0
    rw [exists_index_cons c cs (fun i ch => ch = '#' ∧ c0 = ⟨x + (i : Int), y⟩)]
    simp only [parseLine, ih, parseCell_walls]
    have hidx : ∀ (i : Nat), x + 1 + (i : Int) = x + ((i + 1 : Nat) : Int) := by
      intro i; push_cast; ring
    simp only [hidx]
    by_cases hc : c = '#'
    · simp only [hc, if_true, wallSet_mem_insert, true_and]
      simp only [Nat.cast_zero, add_zero]
      tauto
    · simp only [hc, if_false, false_and, false_or]

theorem holds_parseLine (y : Int) (cs : List Char) : ∀ (x : Int) (st : ParseState)
    (k : CoordinatePair) (b : Blizzard),
    BlizzardMap.Holds (parseLine y cs x st).initBlizzards k b ↔
      BlizzardMap.Holds st.initBlizzards k b ∨ ∃ (i : Nat) (ch : Char), cs[i]? = some ch ∧
        (∃ d, charToDirection ch = some d ∧ k = ⟨x + (i : Int), y⟩ ∧
          b = ⟨⟨x + (i : Int), y⟩, d⟩) := by
  induction cs with
  | nil => intro x st k b; simp [parseLine]
  | cons c cs ih =>
    intro x st k b
    rw [exists_index_cons c cs (fun i ch => ∃ d, charToDirection ch = some d ∧
      k = ⟨x + (i : Int), y⟩ ∧ b = ⟨⟨x + (i : Int), y⟩, d⟩)]
    simp only [parseLine, ih, parseCell_initBlizzards]
    have hidx : ∀ (i : Nat), x + 1 + (i : Int) = x + ((i + 1 : Nat) : Int) := by
      intro i; push_cast; ring
    simp only [hidx]
    cases hd : charToDirection c with
    | none => simp
    | some d =>
      simp only [BlizzardMap.holds_insertAt, Option.some.injEq, Nat.cast_zero, add_zero,
        exists_eq_left']
      tauto

theorem setsNonempty_parseLine (y : Int) (cs : List Char) : ∀ (x : Int) (st : ParseState),
    st.initBlizzards.SetsNonempty → (parseLine y cs x st).initBlizzards.SetsNonempty := by
  induction cs with
  | nil => intro x st h; exact h
  | cons c cs ih =>
    intro x st h
    simp only [parseLine]
    apply ih
    rw [parseCell_initBlizzards]
    cases hd : charToDirection c with
    | none => exact h
    | some d => exact BlizzardMap.setsNonempty_insertAt _ _ _ h

theorem start_parseLine_of_ne (y : Int) (hy : y ≠ 0) (cs : List Char) :
    ∀ (x : Int) (st : ParseState), (parseLine y cs x st).start = st.start := by
  induction cs with
  | nil => intro x st; rfl
  | cons c cs ih =>
    intro x st
    simp only [parseLine, ih, parseCell_start]
    simp [hy]

theorem start_parseLine_of_no_dot (y : Int) (cs : List Char) :
    ∀ (x : Int) (st : ParseState), (∀ ch ∈ cs, ch ≠ '.') →
      (parseLine y cs x st).start = st.start := by
  induction cs with
  | nil => intro x st _; rfl
  | cons c cs ih =>
    intro x st h
    simp only [parseLine]
    rw [ih _ _ (fun ch hch => h ch (List.mem_cons_of_mem _ hch)), parseCell_start]
    simp [h c (List.mem_cons_self _ _)]

/-- In line 0 the last `.` becomes the start. -/
theorem start_parseLine_zero (cs : List Char) : ∀ (x : Int) (st : ParseState) (i : Nat),
    cs[i]? = some '.' → (∀ k, i < k → cs[k]? ≠ some '.') →
      (parseLine 0 cs x st).start = ⟨x + (i : Int), 0⟩ := by
  induction cs with
  | nil => intro x st i h; simp at h
  | cons c cs ih =>
    intro x st i h hlast
    simp only [parseLine]
    cases i with
    | zero =>
      simp only [List.getElem?_cons_zero, Option.some.injEq] at h
      subst h
      rw [start_parseLine_of_no_dot, parseCell_start]
      · simp
      · intro ch hch hdot
        obtain ⟨k, hk⟩ := List.mem_iff_getElem?.1 hch
        apply hlast (k + 1) (Nat.succ_pos k)
        rw [List.getElem?_cons_succ, hk, hdot]
    | succ i =>
      simp only [List.getElem?_cons_succ] at h
      rw [ih (x + 1) _ i h]
      · push_cast
        congr 1
        ring
      · intro k hk
        have := hlast (k + 1) (Nat.succ_lt_succ hk)
        simpa using this

theorem mem_walls_parseLines (lines : List String) : ∀ (y : Int) (prev : String)
    (st : ParseState) (c0 : CoordinatePair),
    c0 ∈ (parseLines lines y prev st).1.walls ↔
      c0 ∈ st.walls ∨ ∃ (j : Nat) (l : String), lines[j]? = some l ∧
        (∃ (i : Nat) (ch : Char), l.data[i]? = some ch ∧
          (ch = '#' ∧ c0 = ⟨(i : Int), y + (j : Int)⟩)) := by
  induction lines with
  | nil => intro y prev st c0; simp [parseLines]
  | cons l0 rest ih =>
    intro y prev st c0
    rw [exists_index_cons l0 rest (fun j l => ∃ (i : Nat) (ch : Char), l.data[i]? = some ch ∧
      (ch = '#' ∧ c0 = ⟨(i : Int), y + (j : Int)⟩))]
    simp only [parseLines, ih, mem_walls_parseLine]
    have hidx : ∀ (j : Nat), y + 1 + (j : Int) = y + ((j + 1 : Nat) : Int) := by
      intro j; push_cast; ring
    simp only [hidx, zero_add, Nat.cast_zero, add_zero]
    exact or_assoc

theorem holds_parseLines (lines : List String) : ∀ (y : Int) (prev : String)
    (st : ParseState) (k : CoordinatePair) (b : Blizzard),
    BlizzardMap.Holds (parseLines lines y prev st).1.initBlizzards k b ↔
      BlizzardMap.Holds st.initBlizzards k b ∨ ∃ (j : Nat) (l : String), lines[j]? = some l ∧
        (∃ (i : Nat) (ch : Char), l.data[i]? = some ch ∧
          (∃ d, charToDirection ch = some d ∧ k = ⟨(i : Int), y + (j : Int)⟩ ∧
            b = ⟨⟨(i : Int), y + (j : Int)⟩, d⟩)) := by
  induction lines with
  | nil => intro y prev st k b; simp [parseLines]
  | cons l0 rest ih =>
    intro y prev st k b
    rw [exists_index_cons l0 rest (fun j l => ∃ (i : Nat) (ch : Char), l.data[i]? = some ch ∧
      (∃ d, charToDirection ch = some d ∧ k = ⟨(i : Int), y + (j : Int)⟩ ∧
        b = ⟨⟨(i : Int), y + (j : Int)⟩, d⟩))]
    simp only [parseLines, ih, holds_parseLine]
    have hidx : ∀ (j : Nat), y + 1 + (j : Int) = y + ((j + 1 : Nat) : Int) := by
      intro j; push_cast; ring
    simp only [hidx, zero_add, Nat.cast_zero, add_zero]
    exact or_assoc

theorem setsNonempty_parseLines (lines : List String) : ∀ (y : Int) (prev : String)
    (st : ParseState), st.initBlizzards.SetsNonempty →
      (parseLines lines y prev st).1.initBlizzards.SetsNonempty := by
  induction lines with
  | nil => intro y prev st h; exact h
  | cons l0 rest ih =>
    intro y prev st h
    simp only [parseLines]
    exact ih _ _ _ (setsNonempty_parseLine _ _ _ _ h)

theorem start_parseLines_of_pos (lines : List String) : ∀ (y : Int) (prev : String)
    (st : ParseState), 0 < y → (parseLines lines y prev st).1.start = st.start := by
  induction lines with
  | nil => intro y prev st _; rfl
  | cons l0 rest ih =>
    intro y prev st hy
    simp only [parseLines]
    rw [ih _ _ _ (by omega), start_parseLine_of_ne y (by omega)]

theorem scanEnd_of_no_dot (y : Int) (cs : List Char) : ∀ (x : Int) (e : CoordinatePair),
    (∀ ch ∈ cs, ch ≠ '.') → scanEnd y cs x e = e := by
  induction cs with
  | nil => intro x e _; rfl
  | cons c cs ih =>
    intro x e h
    simp only [scanEnd]
    rw [ih _ _ (fun ch hch => h ch (List.mem_cons_of_mem _ hch))]
    simp [h c (List.mem_cons_self _ _)]

/-- The last `.` of the last line becomes the goal. -/
theorem scanEnd_last_dot (y : Int) (cs : List Char) : ∀ (x : Int) (e : CoordinatePair) (i : Nat),
    cs[i]? = some '.' → (∀ k, i < k → cs[k]? ≠ some '.') →
      scanEnd y cs x e = ⟨x + (i : Int), y⟩ := by
  induction cs with
  | nil => intro x e i h; simp at h
  | cons c cs ih =>
    intro x e i h hlast
    simp only [scanEnd]
    cases i with
    | zero =>
      simp only [List.getElem?_cons_zero, Option.some.injEq] at h
      subst h
      rw [scanEnd_of_no_dot]
      · simp
      · intro ch hch hdot
        obtain ⟨k, hk⟩ := List.mem_iff_getElem?.1 hch
        apply hlast (k + 1) (Nat.succ_pos k)
        rw [List.getElem?_cons_succ, hk, hdot]
    | succ i =>
      simp only [List.getElem?_cons_succ] at h
      rw [ih (x + 1) _ i h]
      · push_cast
        congr 1
        ring
      · intro k hk
        have := hlast (k + 1) (Nat.succ_lt_succ hk)
        simpa using this

/-- Characters of the input by index: the link between list positions and `charAt`. -/
theorem charAt_eq (lines : List String) (i j : Nat) (l : String) (ch : Char)
    (hl : lines[j]? = some l) (hc : l.data[i]? = some ch) :
    j < lines.length ∧ i < (lines.getD j "").length ∧ charAt lines i j = ch := by
  have hj : j < lines.length := (List.getElem?_eq_some.1 hl).1
  have hi : i < l.data.length := (List.getElem?_eq_some.1 hc).1
  have hget : lines.getD j "" = l := by
    rw [List.getD_eq_getElem?_getD, hl]; rfl
  refine ⟨hj, ?_, ?_⟩
  · rw [hget]; exact hi
  · rw [charAt, hget, List.getD_eq_getElem?_getD, hc]; rfl

theorem charAt_inv (lines : List String) (i j : Nat) (hj : j < lines.length)
    (hi : i < (lines.getD j "").length) :
    ∃ l, lines[j]? = some l ∧ l.data[i]? = some (charAt lines i j) := by
  have hget : lines.getD j "" = lines[j] := by
    rw [List.getD_eq_getElem?_getD, List.getElem?_eq_getElem hj]; rfl
  refine ⟨lines[j], List.getElem?_eq_getElem hj, ?_⟩
  rw [hget] at hi
  have hi2 : i < (lines[j]).data.length := hi
  rw [charAt, hget, List.getD_eq_getElem?_getD, List.getElem?_eq_getElem hi2]; rfl

theorem GameBoard.parse_initial (lines : List String) :
    (GameBoard.parse lines).initial
      = (parseLines lines 0 "" ⟨⟨0, 0⟩, [], []⟩).1.initBlizzards := by
  simp [GameBoard.parse, GameBoard.initial, SnapshotCache.assign, SnapshotCache.find]

/-- The walls of the parsed board are the cells of the `#` characters of the input. -/
theorem GameBoard.parse_walls_iff (lines : List String) (c : CoordinatePair) :
    c ∈ (GameBoard.parse lines)._walls ↔
      ∃ (i j : Nat), j < lines.length ∧ i < (lines.getD j "").length ∧
        charAt lines i j = '#' ∧ c = ⟨(i : Int), (j : Int)⟩ := by
  have h := mem_walls_parseLines lines 0 "" ⟨⟨0, 0⟩, [], []⟩ c
  simp only [List.not_mem_nil, false_or, zero_add] at h
  show c ∈ (parseLines lines 0 "" ⟨⟨0, 0⟩, [], []⟩).1.walls ↔ _
  rw [h]
  constructor
  · rintro ⟨j, l, hl, i, ch, hc, hch, hc0⟩
    obtain ⟨h1, h2, h3⟩ := charAt_eq lines i j l ch hl hc
    exact ⟨i, j, h1, h2, by rw [h3, hch], hc0⟩
  · rintro ⟨i, j, h1, h2, h3, hc0⟩
    obtain ⟨l, hl, hc⟩ := charAt_inv lines i j h1 h2
    exact ⟨j, l, hl, i, _, hc, h3, hc0⟩

/-- The snapshot of minute 0 of the parsed board holds one obstacle for every obstacle
character of the input, under the cell of the character. -/
theorem GameBoard.parse_holds_iff (lines : List String) (k : CoordinatePair) (b : Blizzard) :
    BlizzardMap.Holds (GameBoard.parse lines).initial k b ↔
      ∃ (i j : Nat), j < lines.length ∧ i < (lines.getD j "").length ∧
        ∃ d, charToDirection (charAt lines i j) = some d ∧ k = ⟨(i : Int), (j : Int)⟩ ∧
          b = ⟨⟨(i : Int), (j : Int)⟩, d⟩ := by
  have h := holds_parseLines lines 0 "" ⟨⟨0, 0⟩, [], []⟩ k b
  have h0 : ¬ BlizzardMap.Holds [] k b := by simp [BlizzardMap.Holds]
  simp only [h0, false_or, zero_add] at h
  rw [GameBoard.parse_initial, h]
  constructor
  · rintro ⟨j, l, hl, i, ch, hc, d, hd, hk, hb⟩
    obtain ⟨h1, h2, h3⟩ := charAt_eq lines i j l ch hl hc
    exact ⟨i, j, h1, h2, d, by rw [h3, hd], hk, hb⟩
  · rintro ⟨i, j, h1, h2, d, hd, hk, hb⟩
    obtain ⟨l, hl, hc⟩ := charAt_inv lines i j h1 h2
    exact ⟨j, l, hl, i, _, hc, d, hd, hk, hb⟩

theorem GameBoard.parse_initial_setsNonempty (lines : List String) :
    (GameBoard.parse lines).initial.SetsNonempty := by
  rw [GameBoard.parse_initial]
  apply setsNonempty_parseLines
  intro e he
  exact absurd he (List.not_mem_nil _)

theorem getElem?_data_of_valid (lines : List String) (i j : Nat)
    (l : String) (hl : lines.getD j "" = l) :
    l.data[i]? = if i < l.length then some (charAt lines i j) else none := by
  by_cases hi : i < l.length
  · rw [if_pos hi]
    have hi2 : i < l.data.length := hi
    rw [charAt, hl, List.getD_eq_getElem?_getD, List.getElem?_eq_getElem hi2]; rfl
  · rw [if_neg hi]
    have hi2 : l.data.length ≤ i := Nat.le_of_not_lt hi
    exact List.getElem?_eq_none hi2

/-- The start of a validated grid is the `.` of its first line. -/
theorem GameBoard.parse_start (lines : List String) (sx : Nat)
    (hlen : 1 ≤ lines.length)
    (hdot : sx < (lines.getD 0 "").length)
    (hrow : ∀ x, x < (lines.getD 0 "").length →
      charAt lines x 0 = if x = sx then '.' else '#') :
    (GameBoard.parse lines)._start = ⟨(sx : Int), 0⟩ := by
  cases lines with
  | nil => simp at hlen
  | cons l0 rest =>
    show (parseLines (l0 :: rest) 0 "" ⟨⟨0, 0⟩, [], []⟩).1.start = _
    simp only [parseLines]
    rw [start_parseLines_of_pos _ _ _ _ (by omega)]
    have hl : (l0 :: rest).getD 0 "" = l0 := rfl
    rw [hl] at hdot hrow
    have hget := fun i => getElem?_data_of_valid (l0 :: rest) i 0 l0 hl
    rw [start_parseLine_zero l0.data 0 _ sx]
    · simp
    · rw [hget sx, if_pos hdot, hrow sx hdot, if_pos rfl]
    · intro k hk
      rw [hget k]
      by_cases hkl : k < l0.length
      · rw [if_pos hkl, hrow k hkl, if_neg (by omega)]
        decide
      · rw [if_neg hkl]; simp

/-- The goal of a validated grid is the `.` of its last line. -/
theorem GameBoard.parse_end (lines : List String) (gx : Nat)
    (hdot : gx < (lines.getD (lines.length - 1) "").length)
    (hrow : ∀ x, x < (lines.getD (lines.length - 1) "").length →
      charAt lines x (lines.length - 1) = if x = gx then '.' else '#') :
    (GameBoard.parse lines)._end = ⟨(gx : Int), (lines.length : Int) - 1⟩ := by
  have hlast : (lines.getLast?).getD "" = lines.getD (lines.length - 1) "" := by
    rw [List.getLast?_eq_getElem?, List.getD_eq_getElem?_getD]
  show scanEnd ((parseLines lines 0 "" ⟨⟨0, 0⟩, [], []⟩).2.2 - 1)
    (parseLines lines 0 "" ⟨⟨0, 0⟩, [], []⟩).2.1.data 0 ⟨0, 0⟩ = _
  rw [parseLines_height, parseLines_prevLine, hlast]
  have hget := fun i => getElem?_data_of_valid lines i (lines.length - 1) _ rfl
  rw [scanEnd_last_dot _ _ 0 _ gx]
  · simp
  · rw [hget gx, if_pos hdot, hrow gx hdot, if_pos rfl]
  · intro k hk
    rw [hget k]
    by_cases hkl : k < (lines.getD (lines.length - 1) "").length
    · rw [if_pos hkl, hrow k hkl, if_neg (by omega)]
      decide
    · rw [if_neg hkl]; simp

theorem gridWidth_eq (lines : List String) :
    gridWidth lines = (lines.getD (lines.length - 1) "").length := by
  rw [gridWidth, List.getLast?_eq_getElem?, List.getD_eq_getElem?_getD]

theorem charToDirection_some (ch : Char) (d : Direction) (h : charToDirection ch = some d) :
    ch ≠ '#' ∧ ch ≠ '.' := by
  have h1 : charToDirection '#' = none := by decide
  have h2 : charToDirection '.' = none := by decide
  constructor
  · intro hc; rw [hc, h1] at h; exact absurd h (by simp)
  · intro hc; rw [hc, h2] at h; exact absurd h (by simp)

/-- A validated grid is parsed into a board whose walls are its border without the
two openings. -/
theorem GameBoard.parse_borderWalls (lines : List String) (hv : ValidGrid lines) :
    (GameBoard.parse lines).BorderWalls := by
  obtain ⟨hH, hW, hrect, ⟨sx, hsx, htop⟩, ⟨gx, hgx, hbot⟩, hmid⟩ := hv
  have hw := GameBoard.parse_width lines
  have hh := GameBoard.parse_height lines
  have hwid : (GameBoard.parse lines)._width = (gridWidth lines : Int) := hw
  have hstart : (GameBoard.parse lines)._start = ⟨(sx : Int), 0⟩ := by
    apply GameBoard.parse_start lines sx (by omega)
    · rw [hrect 0 (by omega)]; exact hsx
    · intro x hx
      rw [hrect 0 (by omega)] at hx
      exact htop x hx
  have hend : (GameBoard.parse lines)._end = ⟨(gx : Int), (lines.length : Int) - 1⟩ := by
    apply GameBoard.parse_end lines gx
    · rw [hrect _ (by omega)]; exact hgx
    · intro x hx
      rw [hrect _ (by omega)] at hx
      exact hbot x hx
  refine ⟨by rw [hwid]; exact_mod_cast hW, by rw [hh]; exact_mod_cast hH, ?_, ?_, ?_, ?_, ?_,
    ?_, ?_⟩
  · rw [hstart]; rfl
  · rw [hstart]; exact Int.natCast_nonneg sx
  · rw [hstart, hwid]
    show (sx : Int) ≤ (gridWidth lines : Int) - 1
    omega
  · rw [hend, hh]; rfl
  · rw [hend]; exact Int.natCast_nonneg gx
  · rw [hend, hwid]
    show (gx : Int) ≤ (gridWidth lines : Int) - 1
    omega
  · intro c
    rw [GameBoard.parse_walls_iff, hstart, hend, hwid, hh]
    obtain ⟨cx, cy⟩ := c
    simp only [CoordinatePair.x, CoordinatePair.y, CoordinatePair.mk.injEq, ne_eq]
    constructor
    · rintro ⟨i, j, hj, hi, hch, rfl, rfl⟩
      rw [hrect j hj] at hi
      by_cases hj0 : j = 0
      · subst hj0
        have hne : i ≠ sx := by
          intro h
          rw [htop i hi, if_pos h] at hch
          exact absurd hch (by decide)
        refine ⟨by omega, by omega, by omega, by omega, by omega, by omega, by omega⟩
      · by_cases hjl : j = lines.length - 1
        · subst hjl
          have hne : i ≠ gx := by
            intro h
            rw [hbot i hi, if_pos h] at hch
            exact absurd hch (by decide)
          refine ⟨by omega, by omega, by omega, by omega, by omega, by omega, by omega⟩
        · obtain ⟨-, -, h3⟩ := hmid j (by omega) (by omega)
          have hborder : i = 0 ∨ i = gridWidth lines - 1 := by
            by_contra hcon
            exact h3 i (by omega) (by omega) hch
          refine ⟨by omega, by omega, by omega, by omega, by omega, by omega, by omega⟩
    · rintro ⟨h1, h2, h3, h4, h5, h6, h7⟩
      lift cx to ℕ using h1
      lift cy to ℕ using h3
      have hi : cx < gridWidth lines := by omega
      have hj : cy < lines.length := by omega
      refine ⟨cx, cy, hj, by rw [hrect cy hj]; exact hi, ?_, rfl, rfl⟩
      by_cases hj0 : cy = 0
      · subst hj0
        rw [htop cx hi, if_neg]
        intro h
        exact h6 ⟨by rw [h], rfl⟩
      · by_cases hjl : cy = lines.length - 1
        · subst hjl
          rw [hbot cx hi, if_neg]
          intro h
          exact h7 ⟨by rw [h], by omega⟩
        · obtain ⟨h8, h9, -⟩ := hmid cy (by omega) (by omega)
          have hborder : cx = 0 ∨ cx = gridWidth lines - 1 := by omega
          rcases hborder with h | h
          · rw [h]; exact h8
          · rw [h]; exact h9

/-- In a validated grid every obstacle starts in the interior, under its own cell. -/
theorem GameBoard.parse_initial_interior (lines : List String) (hv : ValidGrid lines)
    (k : CoordinatePair) (b : Blizzard)
    (h : BlizzardMap.Holds (GameBoard.parse lines).initial k b) :
    k = b._coord ∧ (GameBoard.parse lines).InInterior b._coord := by
  obtain ⟨hH, hW, hrect, ⟨sx, hsx, htop⟩, ⟨gx, hgx, hbot⟩, hmid⟩ := hv
  obtain ⟨i, j, hj, hi, d, hd, hk, hb⟩ := (GameBoard.parse_holds_iff lines k b).1 h
  obtain ⟨hn1, hn2⟩ := charToDirection_some _ _ hd
  rw [hrect j hj] at hi
  have hj0 : j ≠ 0 := by
    intro h0
    subst h0
    have := htop i hi
    by_cases hs : i = sx
    · rw [if_pos hs] at this; exact hn2 this
    · rw [if_neg hs] at this; exact hn1 this
  have hjl : j ≠ lines.length - 1 := by
    intro h0
    subst h0
    have := hbot i hi
    by_cases hs : i = gx
    · rw [if_pos hs] at this; exact hn2 this
    · rw [if_neg hs] at this; exact hn1 this
  obtain ⟨h8, h9, -⟩ := hmid j (by omega) (by omega)
  have hi0 : i ≠ 0 := by
    intro h0; subst h0; exact hn1 h8
  have hil : i ≠ gridWidth lines - 1 := by
    intro h0; subst h0; exact hn1 h9
  have hw : (GameBoard.parse lines)._width = (gridWidth lines : Int) :=
    GameBoard.parse_width lines
  have hh := GameBoard.parse_height lines
  refine ⟨by rw [hk, hb], ?_⟩
  rw [hb]
  simp only [GameBoard.InInterior, CoordinatePair.x, CoordinatePair.y, hw, hh]
  refine ⟨by omega, by omega, by omega, by omega⟩

/-! ## One step of an obstacle on a board with border walls -/

theorem coordinatePair_ne_iff (a b : CoordinatePair) : a ≠ b ↔ a.x ≠ b.x ∨ a.y ≠ b.y := by
  obtain ⟨ax, ay⟩ := a
  obtain ⟨bx, b_y⟩ := b
  simp only [ne_eq, CoordinatePair.mk.injEq, CoordinatePair.x, CoordinatePair.y]
  tauto

theorem Blizzard.move_of_not_wall (b : Blizzard) (height width : Int) (walls : WallSet)
    (h : b.ahead ∉ walls) :
    b.move height width walls = { b with _coord := b.ahead } := by
  have hc : walls.contains (b._coord.add (directionToForceVector b._direction)) = false := by
    cases hw : walls.contains (b._coord.add (directionToForceVector b._direction)) with
    | false => rfl
    | true => exact absurd ((wallSet_contains_iff _ _).1 hw) h
  simp only [Blizzard.move, hc]
  rfl

theorem Blizzard.move_of_wall (b : Blizzard) (height width : Int) (walls : WallSet)
    (h : b.ahead ∈ walls) :
    b.move height width walls =
      match b._direction with
      | Direction.Up => { b with _coord := ⟨b.x, height - 2⟩ }
      | Direction.Down => { b with _coord := ⟨b.x, 1⟩ }
      | Direction.Left => { b with _coord := ⟨width - 2, b.y⟩ }
      | Direction.Right => { b with _coord := ⟨1, b.y⟩ } := by
  have hc : walls.contains (b._coord.add (directionToForceVector b._direction)) = true :=
    (wallSet_contains_iff _ _).2 h
  simp only [Blizzard.move, hc]
  rfl

theorem Blizzard.move_direction (b : Blizzard) (height width : Int) (walls : WallSet) :
    (b.move height width walls)._direction = b._direction := by
  by_cases h : b.ahead ∈ walls
  · rw [Blizzard.move_of_wall b height width walls h]
    cases b._direction <;> rfl
  · rw [Blizzard.move_of_not_wall b height width walls h]

/-- On a board with border walls, the cell ahead of an interior obstacle is a wall
exactly when it is outside the interior and is not an opening. -/
theorem GameBoard.ahead_wall_iff (g : GameBoard) (hb : g.BorderWalls) (b : Blizzard)
    (hi : g.InInterior b._coord) :
    b.ahead ∈ g._walls ↔ ¬ g.InInterior b.ahead ∧ b.ahead ≠ g._start ∧ b.ahead ≠ g._end := by
  obtain ⟨hW, hH, hs1, hs2, hs3, he1, he2, he3, hwalls⟩ := hb
  obtain ⟨h1, h2, h3, h4⟩ := hi
  rw [hwalls]
  obtain ⟨⟨bx, b_y⟩, d⟩ := b
  simp only [CoordinatePair.x, CoordinatePair.y] at h1 h2 h3 h4
  cases d <;>
    simp only [Blizzard.ahead, directionToForceVector, CoordinatePair.add, GameBoard.InInterior,
      coordinatePair_ne_iff, CoordinatePair.x, CoordinatePair.y] <;>
    simp only [CoordinatePair.x, CoordinatePair.y] at hs1 hs2 hs3 he1 he2 he3 <;>
    omega

theorem wrap_mod_stay (n x : Int) (h1 : 1 ≤ x) (h2 : x ≤ n) : 1 + (x - 1 + 0) % n = x := by
  rw [add_zero, Int.emod_eq_of_lt (by omega) (by omega)]
  omega

theorem wrap_mod_succ (n x : Int) (h1 : 1 ≤ x) (h2 : x ≤ n) :
    1 + (x - 1 + 1) % n = if x + 1 ≤ n then x + 1 else 1 := by
  by_cases h : x + 1 ≤ n
  · rw [if_pos h, Int.emod_eq_of_lt (by omega) (by omega)]
    omega
  · rw [if_neg h]
    have : x - 1 + 1 = n := by omega
    rw [this, Int.emod_self]
    rfl

theorem wrap_mod_pred (n x : Int) (h1 : 1 ≤ x) (h2 : x ≤ n) :
    1 + (x - 1 + -1) % n = if 1 ≤ x - 1 then x - 1 else n := by
  by_cases h : 1 ≤ x - 1
  · rw [if_pos h, Int.emod_eq_of_lt (by omega) (by omega)]
    omega
  · rw [if_neg h]
    have : x - 1 + -1 = (n - 1) + (-1) * n := by
      have hx : x = 1 := by omega
      rw [hx]; ring
    rw [this, Int.add_mul_emod_self, Int.emod_eq_of_lt (by omega) (by omega)]
    omega

theorem GameBoard.closedFormPosition_interior (g : GameBoard) (hW : 3 ≤ g._width)
    (hH : 3 ≤ g._height) (b : Blizzard) (t : Nat) :
    g.InInterior (g.closedFormPosition b t) := by
  simp only [GameBoard.InInterior, GameBoard.closedFormPosition, CoordinatePair.x,
    CoordinatePair.y]
  have hw : (0 : Int) < g._width - 2 := by omega
  have hh : (0 : Int) < g._height - 2 := by omega
  have a1 := Int.emod_nonneg
    (b._coord.first - 1 + (t : Int) * (directionToForceVector b._direction).first) (ne_of_gt hw)
  have a2 := Int.emod_lt_of_pos
    (b._coord.first - 1 + (t : Int) * (directionToForceVector b._direction).first) hw
  have a3 := Int.emod_nonneg
    (b._coord.second - 1 + (t : Int) * (directionToForceVector b._direction).second) (ne_of_gt hh)
  have a4 := Int.emod_lt_of_pos
    (b._coord.second - 1 + (t : Int) * (directionToForceVector b._direction).second) hh
  simp only [Blizzard.x, Blizzard.y, CoordinatePair.x, CoordinatePair.y]
  refine ⟨by omega, by omega, by omega, by omega⟩

/-- One step of an interior obstacle that does not head for an opening: the closed form
at `t = 1`. -/
theorem GameBoard.move_closedForm (g : GameBoard) (hb : g.BorderWalls) (b : Blizzard)
    (hi : g.InInterior b._coord) (hne : ¬ g.Escapes b) :
    (b.move g._height g._width g._walls)._coord = g.closedFormPosition b 1 := by
  have hwall := GameBoard.ahead_wall_iff g hb b hi
  obtain ⟨hW, hH, hs1, hs2, hs3, he1, he2, he3, -⟩ := hb
  obtain ⟨h1, h2, h3, h4⟩ := hi
  obtain ⟨⟨bx, b_y⟩, d⟩ := b
  simp only [CoordinatePair.x, CoordinatePair.y] at h1 h2 h3 h4 hs1 hs2 hs3 he1 he2 he3
  simp only [GameBoard.Escapes, Blizzard.x, CoordinatePair.x, CoordinatePair.y] at hne
  simp only [GameBoard.InInterior, coordinatePair_ne_iff, CoordinatePair.x,
    CoordinatePair.y] at hwall
  by_cases hw : (Blizzard.mk ⟨bx, b_y⟩ d).ahead ∈ g._walls
  · have hfacts := hwall.1 hw
    rw [Blizzard.move_of_wall _ _ _ _ hw]
    cases d <;>
      simp only [Blizzard.ahead, directionToForceVector, CoordinatePair.add] at hfacts <;>
      simp only [GameBoard.closedFormPosition, directionToForceVector, Blizzard.x, Blizzard.y,
        CoordinatePair.x, CoordinatePair.y, Nat.cast_one, one_mul, CoordinatePair.mk.injEq]
    · rw [wrap_mod_stay _ _ h1 h2, wrap_mod_pred _ _ h3 h4, if_neg (by omega)]
      exact ⟨rfl, rfl⟩
    · rw [wrap_mod_stay _ _ h1 h2, wrap_mod_succ _ _ h3 h4, if_neg (by omega)]
      exact ⟨rfl, rfl⟩
    · rw [wrap_mod_stay _ _ h3 h4, wrap_mod_pred _ _ h1 h2, if_neg (by omega)]
      exact ⟨rfl, rfl⟩
    · rw [wrap_mod_stay _ _ h3 h4, wrap_mod_succ _ _ h1 h2, if_neg (by omega)]
      exact ⟨rfl, rfl⟩
  · have hfacts : ¬ _ := fun h => hw (hwall.2 h)
    rw [Blizzard.move_of_not_wall _ _ _ _ hw]
    cases d <;>
      simp only [Blizzard.ahead, directionToForceVector, CoordinatePair.add, reduceCtorEq,
        false_and, and_false, or_false, false_or, true_and] at hfacts hne <;>
      simp only [GameBoard.closedFormPosition, directionToForceVector, Blizzard.x, Blizzard.y,
        Blizzard.ahead, CoordinatePair.add,
        CoordinatePair.x, CoordinatePair.y, Nat.cast_one, one_mul, CoordinatePair.mk.injEq]
    · rw [wrap_mod_stay _ _ h1 h2, wrap_mod_pred _ _ h3 h4, if_pos (by omega)]
      exact ⟨by omega, by omega⟩
    · rw [wrap_mod_stay _ _ h1 h2, wrap_mod_succ _ _ h3 h4, if_pos (by omega)]
      exact ⟨by omega, by omega⟩
    · rw [wrap_mod_stay _ _ h3 h4, wrap_mod_pred _ _ h1 h2, if_pos (by omega)]
      exact ⟨by omega, by omega⟩
    · rw [wrap_mod_stay _ _ h3 h4, wrap_mod_succ _ _ h1 h2, if_pos (by omega)]
      exact ⟨by omega, by omega⟩

theorem mod_step (n a d : Int) : 1 + ((1 + a % n) - 1 + 1 * d) % n = 1 + (a + d) % n := by
  have : (1 + a % n) - 1 + 1 * d = a % n + d := by ring
  rw [this, Int.emod_add_emod]

theorem GameBoard.escapes_congr (g : GameBoard) (b1 b2 : Blizzard)
    (hd : b1._direction = b2._direction) (hx : b1._coord.first = b2._coord.first) :
    g.Escapes b1 ↔ g.Escapes b2 := by
  simp only [GameBoard.Escapes, Blizzard.x, CoordinatePair.x, hd, hx]

/-- The incremental simulation agrees with the closed form, for an interior obstacle
that does not head for an opening. -/
theorem GameBoard.moveN_closedForm (g : GameBoard) (hb : g.BorderWalls) (b : Blizzard)
    (hi : g.InInterior b._coord) (hne : ¬ g.Escapes b) (t : Nat) :
    (g.moveN b t)._coord = g.closedFormPosition b t ∧
      (g.moveN b t)._direction = b._direction := by
  have hW := hb.1
  have hH := hb.2.1
  induction t with
  | zero =>
    refine ⟨?_, rfl⟩
    obtain ⟨h1, h2, h3, h4⟩ := hi
    show b._coord = _
    obtain ⟨⟨bx, b_y⟩, d⟩ := b
    simp only [CoordinatePair.x, CoordinatePair.y] at h1 h2 h3 h4
    simp only [GameBoard.closedFormPosition, Blizzard.x, Blizzard.y, CoordinatePair.x,
      CoordinatePair.y, Nat.cast_zero, zero_mul, CoordinatePair.mk.injEq]
    exact ⟨(wrap_mod_stay _ _ h1 h2).symm, (wrap_mod_stay _ _ h3 h4).symm⟩
  | succ t ih =>
    obtain ⟨ihc, ihd⟩ := ih
    have hi2 : g.InInterior (g.moveN b t)._coord := by
      rw [ihc]; exact GameBoard.closedFormPosition_interior g hW hH b t
    have hx : b._direction = Direction.Up ∨ b._direction = Direction.Down →
        (g.moveN b t)._coord.first = b._coord.first := by
      intro hdir
      rw [ihc]
      obtain ⟨h1, h2, -, -⟩ := hi
      simp only [CoordinatePair.x] at h1 h2
      have := wrap_mod_stay (g._width - 2) b._coord.first h1 h2
      rcases hdir with hdir | hdir <;>
        simpa [GameBoard.closedFormPosition, hdir, directionToForceVector, Blizzard.x,
          CoordinatePair.x] using this
    have hne2 : ¬ g.Escapes (g.moveN b t) := by
      intro hesc
      apply hne
      simp only [GameBoard.Escapes, Blizzard.x, CoordinatePair.x, ihd] at hesc ⊢
      rcases hesc with ⟨h1, h2⟩ | ⟨h1, h2⟩
      · exact Or.inl ⟨h1, by rw [← hx (Or.inl h1)]; exact h2⟩
      · exact Or.inr ⟨h1, by rw [← hx (Or.inr h1)]; exact h2⟩
    refine ⟨?_, ?_⟩
    · show ((g.moveN b t).move g._height g._width g._walls)._coord = _
      rw [GameBoard.move_closedForm g hb _ hi2 hne2]
      simp only [GameBoard.closedFormPosition, Blizzard.x, Blizzard.y, CoordinatePair.x,
        CoordinatePair.y, ihd, Nat.cast_one, CoordinatePair.mk.injEq]
      rw [ihc]
      simp only [GameBoard.closedFormPosition, Blizzard.x, Blizzard.y, CoordinatePair.x,
        CoordinatePair.y]
      rw [mod_step, mod_step]
      constructor
      · congr 2; push_cast; ring
      · congr 2; push_cast; ring
    · show ((g.moveN b t).move g._height g._width g._walls)._direction = _
      rw [Blizzard.move_direction, ihd]

/-- The snapshot of minute `t` holds exactly the obstacles of minute 0 moved `t` times,
each under its own cell. -/
theorem GameBoard.holds_snapshot_iff (g : GameBoard) (init : BlizzardMap)
    (hkey : ∀ k b, init.Holds k b → k = b._coord) (t : Nat) :
    ∀ (k : CoordinatePair) (b : Blizzard), BlizzardMap.Holds (g.snapshot init t) k b ↔
      ∃ b0, init.Holds b0._coord b0 ∧ b = g.moveN b0 t ∧ k = b._coord := by
  induction t with
  | zero =>
    intro k b
    constructor
    · intro h
      have hk := hkey k b h
      exact ⟨b, by rw [← hk]; exact h, rfl, hk⟩
    · rintro ⟨b0, h0, hb, hk⟩
      have : b = b0 := hb
      rw [hk, this]; exact h0
  | succ t ih =>
    intro k b
    show BlizzardMap.Holds (g.moveAll (g.snapshot init t)) k b ↔ _
    rw [GameBoard.holds_moveAll]
    constructor
    · rintro ⟨c1, b1, h1, hb, hk⟩
      obtain ⟨b0, h0, hb1, -⟩ := (ih c1 b1).1 h1
      exact ⟨b0, h0, by rw [hb, hb1]; rfl, hk⟩
    · rintro ⟨b0, h0, hb, hk⟩
      refine ⟨(g.moveN b0 t)._coord, g.moveN b0 t, (ih _ _).2 ⟨b0, h0, rfl, rfl⟩, hb, hk⟩

/-! ## The obstacle field: the claims -/

theorem GameBoard.noEscape_iff (g : GameBoard) :
    g.NoEscape ↔ ∀ k b, g.initial.Holds k b → ¬ g.Escapes b := by
  constructor
  · rintro h k b ⟨e, he, -, hb⟩
    exact h e he b hb
  · intro h e he b hb
    exact h e.1 b ⟨e, he, rfl, hb⟩

theorem GameBoard.closedFormPosition_periodic (g : GameBoard) (b : Blizzard) (t : Nat) :
    g.closedFormPosition b (t + Int.lcm (g._width - 2) (g._height - 2))
      = g.closedFormPosition b t := by
  obtain ⟨q1, hq1⟩ :=
    (Int.dvd_lcm_left : g._width - 2 ∣ (Int.lcm (g._width - 2) (g._height - 2) : Int))
  obtain ⟨q2, hq2⟩ :=
    (Int.dvd_lcm_right : g._height - 2 ∣ (Int.lcm (g._width - 2) (g._height - 2) : Int))
  simp only [GameBoard.closedFormPosition, CoordinatePair.mk.injEq]
  constructor
  · congr 1
    have : b.x - 1 + ((t + Int.lcm (g._width - 2) (g._height - 2) : Nat) : Int)
          * (directionToForceVector b._direction).x
        = (b.x - 1 + (t : Int) * (directionToForceVector b._direction).x)
          + (g._width - 2) * (q1 * (directionToForceVector b._direction).x) := by
      push_cast
      rw [hq1]; ring
    rw [this, Int.add_mul_emod_self_left]
  · congr 1
    have : b.y - 1 + ((t + Int.lcm (g._width - 2) (g._height - 2) : Nat) : Int)
          * (directionToForceVector b._direction).y
        = (b.y - 1 + (t : Int) * (directionToForceVector b._direction).y)
          + (g._height - 2) * (q2 * (directionToForceVector b._direction).y) := by
      push_cast
      rw [hq2]; ring
    rw [this, Int.add_mul_emod_self_left]

theorem blizzard_ext (b1 b2 : Blizzard) (h1 : b1._coord = b2._coord)
    (h2 : b1._direction = b2._direction) : b1 = b2 := by
  cases b1; cases b2
  simp only [Blizzard.mk.injEq]
  exact ⟨h1, h2⟩

theorem GameBoard.moveN_periodic (g : GameBoard) (hb : g.BorderWalls) (b : Blizzard)
    (hi : g.InInterior b._coord) (hne : ¬ g.Escapes b) (t : Nat) :
    g.moveN b (t + Int.lcm (g._width - 2) (g._height - 2)) = g.moveN b t := by
  obtain ⟨h1, h2⟩ := GameBoard.moveN_closedForm g hb b hi hne
    (t + Int.lcm (g._width - 2) (g._height - 2))
  obtain ⟨h3, h4⟩ := GameBoard.moveN_closedForm g hb b hi hne t
  apply blizzard_ext
  · rw [h1, h3, GameBoard.closedFormPosition_periodic]
  · rw [h2, h4]

theorem GameBoard.parse_key_eq_coord (lines : List String) (k : CoordinatePair) (b : Blizzard)
    (h : BlizzardMap.Holds (GameBoard.parse lines).initial k b) : k = b._coord := by
  obtain ⟨i, j, -, -, d, -, hk, hb⟩ := (GameBoard.parse_holds_iff lines k b).1 h
  rw [hk, hb]

theorem BlizzardMap.contains_congr (m1 m2 : BlizzardMap) (h1 : m1.SetsNonempty)
    (h2 : m2.SetsNonempty) (h : ∀ k b, m1.Holds k b ↔ m2.Holds k b) (k : CoordinatePair) :
    m1.contains k = m2.contains k := by
  rw [Bool.eq_iff_iff, blizzardMap_contains_iff_occupied m1 h1,
    blizzardMap_contains_iff_occupied m2 h2, BlizzardMap.occupied_iff_holds,
    BlizzardMap.occupied_iff_holds]
  constructor
  · rintro ⟨b, hb⟩; exact ⟨b, (h k b).1 hb⟩
  · rintro ⟨b, hb⟩; exact ⟨b, (h k b).2 hb⟩

/-- C6, as it holds on the code (periodicity of the obstacle field).  For every
validated grid in which no obstacle heads for an opening of the border (none moves `Up`
in the column of the start, none moves `Down` in the column of the goal) and every
`t`, the snapshots `getBlizzardsByMinute(t + lcm(W-2, H-2))` and
`getBlizzardsByMinute(t)` hold the same obstacles under the same keys. -/
theorem snapshot_periodic_when_no_obstacle_escapes (lines : List String) (t : Nat)
    (hv : ValidGrid lines) (hne : (GameBoard.parse lines).NoEscape) :
    ∃ m1 m2 g1 g2,
      (GameBoard.parse lines).getBlizzardsByMinute
          (t + Int.lcm ((GameBoard.parse lines)._width - 2) ((GameBoard.parse lines)._height - 2))
        = some (m1, g1) ∧
      (GameBoard.parse lines).getBlizzardsByMinute t = some (m2, g2) ∧
      (∀ k b, m1.Holds k b ↔ m2.Holds k b) ∧
      (∀ k, m1.contains k = m2.contains k) := by
  have hok := GameBoard.parse_cacheOK lines
  have hb := GameBoard.parse_borderWalls lines hv
  have hne2 := (GameBoard.noEscape_iff _).1 hne
  obtain ⟨c1, hget1, -⟩ := GameBoard.getBlizzardsByMinute_spec _ _ hok
    (t + Int.lcm ((GameBoard.parse lines)._width - 2) ((GameBoard.parse lines)._height - 2))
  obtain ⟨c2, hget2, -⟩ := GameBoard.getBlizzardsByMinute_spec _ _ hok t
  have hkey := GameBoard.parse_key_eq_coord lines
  have hholds : ∀ k b, BlizzardMap.Holds ((GameBoard.parse lines).snapshot
        (GameBoard.parse lines).initial
        (t + Int.lcm ((GameBoard.parse lines)._width - 2) ((GameBoard.parse lines)._height - 2)))
        k b ↔
      BlizzardMap.Holds ((GameBoard.parse lines).snapshot (GameBoard.parse lines).initial t)
        k b := by
    intro k b
    rw [GameBoard.holds_snapshot_iff _ _ hkey, GameBoard.holds_snapshot_iff _ _ hkey]
    constructor
    · rintro ⟨b0, h0, hb0, hk⟩
      refine ⟨b0, h0, ?_, hk⟩
      rw [hb0]
      exact GameBoard.moveN_periodic _ hb b0
        (GameBoard.parse_initial_interior lines hv _ _ h0).2 (hne2 _ _ h0) t
    · rintro ⟨b0, h0, hb0, hk⟩
      refine ⟨b0, h0, ?_, hk⟩
      rw [hb0]
      exact (GameBoard.moveN_periodic _ hb b0
        (GameBoard.parse_initial_interior lines hv _ _ h0).2 (hne2 _ _ h0) t).symm
  have hsets := GameBoard.setsNonempty_snapshot (GameBoard.parse lines) _
    (GameBoard.parse_initial_setsNonempty lines)
  exact ⟨_, _, _, _, hget1, hget2, hholds,
    BlizzardMap.contains_congr _ _ (hsets _) (hsets _) hholds⟩

/-- C7, as it holds on the code (closed-form obstacle position).  For every validated
grid, every obstacle in the interior that does not head for an opening of the border
(it neither moves `Up` in the column of the start nor `Down` in the column of the goal)
and every `t`, `t` incremental applications of `Blizzard::move` lead to the cell
`(1 + ((x0 - 1 + t*dx) mod (W-2)), 1 + ((y0 - 1 + t*dy) mod (H-2)))` with the heading
unchanged; and when the obstacle is one of the grid, `getBlizzardsByMinute(t)` holds it
at that cell. -/
theorem moves_agree_with_closed_form_unless_escaping (lines : List String) (b : Blizzard)
    (t : Nat) (hv : ValidGrid lines)
    (hi : (GameBoard.parse lines).InInterior b._coord)
    (hne : ¬ (GameBoard.parse lines).Escapes b) :
    ((GameBoard.parse lines).moveN b t)._coord = (GameBoard.parse lines).closedFormPosition b t ∧
      ((GameBoard.parse lines).moveN b t)._direction = b._direction ∧
      ((GameBoard.parse lines).initial.Holds b._coord b →
        ∃ m g2, (GameBoard.parse lines).getBlizzardsByMinute t = some (m, g2) ∧
          m.Holds ((GameBoard.parse lines).closedFormPosition b t)
            ⟨(GameBoard.parse lines).closedFormPosition b t, b._direction⟩) := by
  have hb := GameBoard.parse_borderWalls lines hv
  obtain ⟨h1, h2⟩ := GameBoard.moveN_closedForm _ hb b hi hne t
  refine ⟨h1, h2, ?_⟩
  intro hinit
  obtain ⟨c, hget, -⟩ := GameBoard.getBlizzardsByMinute_spec _ _
    (GameBoard.parse_cacheOK lines) t
  refine ⟨_, _, hget, ?_⟩
  rw [GameBoard.holds_snapshot_iff _ _ (GameBoard.parse_key_eq_coord lines)]
  refine ⟨b, hinit, ?_, rfl⟩
  apply blizzard_ext
  · exact h1.symm
  · exact h2.symm

/-- C8, as it holds on the code (wraparound step rule).  For every validated grid and
every obstacle in the interior, `move` keeps the heading, returns the cell one unit
along the heading when that cell is inside the interior or is the start or the goal
opening (it is then not a wall), and in every other case returns the cell on the
opposite interior edge: `Up` wraps to `y = H-2`, `Down` to `y = 1`, `Left` to
`x = W-2`, `Right` to `x = 1`. -/
theorem move_steps_unless_wall_ahead_then_wraps (lines : List String) (b : Blizzard)
    (hv : ValidGrid lines) (hi : (GameBoard.parse lines).InInterior b._coord) :
    (b.move (GameBoard.parse lines)._height (GameBoard.parse lines)._width
        (GameBoard.parse lines)._walls)._direction = b._direction ∧
      (((GameBoard.parse lines).InInterior b.ahead ∨ b.ahead = (GameBoard.parse lines)._start ∨
          b.ahead = (GameBoard.parse lines)._end) →
        (b.move (GameBoard.parse lines)._height (GameBoard.parse lines)._width
          (GameBoard.parse lines)._walls)._coord = b.ahead) ∧
      (¬ (GameBoard.parse lines).InInterior b.ahead →
        b.ahead ≠ (GameBoard.parse lines)._start → b.ahead ≠ (GameBoard.parse lines)._end →
        (b.move (GameBoard.parse lines)._height (GameBoard.parse lines)._width
          (GameBoard.parse lines)._walls)._coord = (GameBoard.parse lines).wrapTarget b) := by
  have hb := GameBoard.parse_borderWalls lines hv
  have hwall := GameBoard.ahead_wall_iff _ hb b hi
  refine ⟨Blizzard.move_direction _ _ _ _, ?_, ?_⟩
  · intro h
    have hnw : b.ahead ∉ (GameBoard.parse lines)._walls := by
      intro hw
      obtain ⟨h1, h2, h3⟩ := hwall.1 hw
      rcases h with h | h | h
      · exact h1 h
      · exact h2 h
      · exact h3 h
    rw [Blizzard.move_of_not_wall _ _ _ _ hnw]
  · intro h1 h2 h3
    have hw := hwall.2 ⟨h1, h2, h3⟩
    rw [Blizzard.move_of_wall _ _ _ _ hw]
    unfold GameBoard.wrapTarget
    cases b._direction <;> rfl

/-- C9, as it holds on the code (obstacles stay in the interior).  For every validated
grid in which no obstacle heads for an opening of the border (none moves `Up` in the
column of the start, none moves `Down` in the column of the goal) and every `t`, every
obstacle stored in `getBlizzardsByMinute(t)` is stored under its own cell and has
`1 ≤ x ≤ W-2` and `1 ≤ y ≤ H-2`. -/
theorem obstacles_stay_in_interior_when_none_escapes (lines : List String) (t : Nat)
    (hv : ValidGrid lines) (hne : (GameBoard.parse lines).NoEscape) :
    ∃ m g2, (GameBoard.parse lines).getBlizzardsByMinute t = some (m, g2) ∧
      ∀ k b, m.Holds k b → k = b._coord ∧
        1 ≤ b.x ∧ b.x ≤ (GameBoard.parse lines)._width - 2 ∧
        1 ≤ b.y ∧ b.y ≤ (GameBoard.parse lines)._height - 2 := by
  have hb := GameBoard.parse_borderWalls lines hv
  have hne2 := (GameBoard.noEscape_iff _).1 hne
  obtain ⟨c, hget, -⟩ := GameBoard.getBlizzardsByMinute_spec _ _
    (GameBoard.parse_cacheOK lines) t
  refine ⟨_, _, hget, ?_⟩
  intro k b hkb
  obtain ⟨b0, h0, hb0, hk⟩ :=
    (GameBoard.holds_snapshot_iff _ _ (GameBoard.parse_key_eq_coord lines) t k b).1 hkb
  obtain ⟨h1, -⟩ := GameBoard.moveN_closedForm _ hb b0
    (GameBoard.parse_initial_interior lines hv _ _ h0).2 (hne2 _ _ h0) t
  have hint := GameBoard.closedFormPosition_interior (GameBoard.parse lines) hb.1 hb.2.1 b0 t
  rw [← h1, ← hb0] at hint
  exact ⟨hk, hint⟩

/-- C10 (snapshot recurrence).  For every input grid `getBlizzardsByMinute(0)` is the
snapshot built by the constructor, and for every `t` the snapshot
`getBlizzardsByMinute(t + 1)` holds obstacle `b` under key `k` if and only if
`b = b0.move(H, W, walls)` for some obstacle `b0` held by `getBlizzardsByMinute(t)` and
`k` is the cell of `b`; it has no key without an obstacle. -/
theorem snapshot_is_parser_snapshot_then_moved_obstacles (lines : List String) :
    (∃ g2, (GameBoard.parse lines).getBlizzardsByMinute 0
        = some ((parseLines lines 0 "" ⟨⟨0, 0⟩, [], []⟩).1.initBlizzards, g2)) ∧
      ∀ t, ∃ m0 m1 g1 g2,
        (GameBoard.parse lines).getBlizzardsByMinute t = some (m0, g1) ∧
        (GameBoard.parse lines).getBlizzardsByMinute (t + 1) = some (m1, g2) ∧
        (∀ k b, m1.Holds k b ↔ ∃ k0 b0, m0.Holds k0 b0 ∧
          b = b0.move (GameBoard.parse lines)._height (GameBoard.parse lines)._width
            (GameBoard.parse lines)._walls ∧ k = b._coord) ∧
        (∀ k, m1.contains k = true ↔ ∃ b, m1.Holds k b) := by
  have hok := GameBoard.parse_cacheOK lines
  constructor
  · obtain ⟨c, hget, -⟩ := GameBoard.getBlizzardsByMinute_spec _ _ hok 0
    refine ⟨(GameBoard.parse lines).withCache c, ?_⟩
    rw [hget, ← GameBoard.parse_initial]
    rfl
  · intro t
    obtain ⟨c1, hget1, -⟩ := GameBoard.getBlizzardsByMinute_spec _ _ hok t
    obtain ⟨c2, hget2, -⟩ := GameBoard.getBlizzardsByMinute_spec _ _ hok (t + 1)
    refine ⟨_, _, _, _, hget1, hget2, ?_, ?_⟩
    · intro k b
      exact GameBoard.holds_moveAll _ _ k b
    · intro k
      rw [blizzardMap_contains_iff_occupied _
        (GameBoard.setsNonempty_snapshot _ _ (GameBoard.parse_initial_setsNonempty lines) _),
        BlizzardMap.occupied_iff_holds]

/-- Counterexample to C6 as stated: in the validated grid with one `^` directly below
the start, the period `lcm(W-2, H-2)` is 1, and the snapshot of minute `0 + 1` holds
the obstacle on the start opening `(1,0)`, which the snapshot of minute 0 does not. -/
theorem snapshot_not_periodic_when_obstacle_escapes :
    ValidGrid ["#.#", "#^#", "#.#"] ∧
      Int.lcm ((GameBoard.parse ["#.#", "#^#", "#.#"])._width - 2)
        ((GameBoard.parse ["#.#", "#^#", "#.#"])._height - 2) = 1 ∧
      ∃ m1 m2 g1 g2,
        (GameBoard.parse ["#.#", "#^#", "#.#"]).getBlizzardsByMinute (0 + 1) = some (m1, g1) ∧
        (GameBoard.parse ["#.#", "#^#", "#.#"]).getBlizzardsByMinute 0 = some (m2, g2) ∧
        m1.Holds ⟨1, 0⟩ ⟨⟨1, 0⟩, Direction.Up⟩ ∧ ¬ m2.Holds ⟨1, 0⟩ ⟨⟨1, 0⟩, Direction.Up⟩ :=
  ⟨by decide, by decide, _, _, _, _, rfl, rfl, by decide, by decide⟩

theorem snapshot_periodic_when_no_obstacle_escapes_witness :
    ∃ m1 m2 g1 g2,
      (GameBoard.parse ["#.###", "#>.<#", "#.^.#", "###.#"]).getBlizzardsByMinute
          (3 + Int.lcm ((GameBoard.parse ["#.###", "#>.<#", "#.^.#", "###.#"])._width - 2)
            ((GameBoard.parse ["#.###", "#>.<#", "#.^.#", "###.#"])._height - 2))
        = some (m1, g1) ∧
      (GameBoard.parse ["#.###", "#>.<#", "#.^.#", "###.#"]).getBlizzardsByMinute 3
        = some (m2, g2) ∧
      (∀ k b, m1.Holds k b ↔ m2.Holds k b) ∧
      (∀ k, m1.contains k = m2.contains k) :=
  snapshot_periodic_when_no_obstacle_escapes ["#.###", "#>.<#", "#.^.#", "###.#"] 3
    (by decide) (by decide)

/-- Counterexample to C7 as stated: in the validated grid with one `^` directly below
the start, one application of `move` takes the obstacle from `(1,1)` to the start
opening `(1,0)`, while the closed form gives `(1,1)`. -/
theorem closed_form_fails_when_obstacle_escapes :
    ValidGrid ["#.#", "#^#", "#.#"] ∧
      (GameBoard.parse ["#.#", "#^#", "#.#"]).initial.Holds ⟨1, 1⟩ ⟨⟨1, 1⟩, Direction.Up⟩ ∧
      (GameBoard.parse ["#.#", "#^#", "#.#"]).InInterior ⟨1, 1⟩ ∧
      ((GameBoard.parse ["#.#", "#^#", "#.#"]).moveN ⟨⟨1, 1⟩, Direction.Up⟩ 1)._coord = ⟨1, 0⟩ ∧
      (GameBoard.parse ["#.#", "#^#", "#.#"]).closedFormPosition ⟨⟨1, 1⟩, Direction.Up⟩ 1
        = ⟨1, 1⟩ := by
  decide

theorem moves_agree_with_closed_form_unless_escaping_witness :
    ((GameBoard.parse ["#.###", "#>.<#", "#.^.#", "###.#"]).moveN
          ⟨⟨2, 2⟩, Direction.Up⟩ 5)._coord
        = (GameBoard.parse ["#.###", "#>.<#", "#.^.#", "###.#"]).closedFormPosition
          ⟨⟨2, 2⟩, Direction.Up⟩ 5 ∧
      ((GameBoard.parse ["#.###", "#>.<#", "#.^.#", "###.#"]).moveN
          ⟨⟨2, 2⟩, Direction.Up⟩ 5)._direction = Direction.Up ∧
      ((GameBoard.parse ["#.###", "#>.<#", "#.^.#", "###.#"]).initial.Holds ⟨2, 2⟩
          ⟨⟨2, 2⟩, Direction.Up⟩ →
        ∃ m g2, (GameBoard.parse ["#.###", "#>.<#", "#.^.#", "###.#"]).getBlizzardsByMinute 5
            = some (m, g2) ∧
          m.Holds ((GameBoard.parse ["#.###", "#>.<#", "#.^.#", "###.#"]).closedFormPosition
              ⟨⟨2, 2⟩, Direction.Up⟩ 5)
            ⟨(GameBoard.parse ["#.###", "#>.<#", "#.^.#", "###.#"]).closedFormPosition
              ⟨⟨2, 2⟩, Direction.Up⟩ 5, Direction.Up⟩) :=
  moves_agree_with_closed_form_unless_escaping ["#.###", "#>.<#", "#.^.#", "###.#"]
    ⟨⟨2, 2⟩, Direction.Up⟩ 5 (by decide) (by decide) (by decide)

/-- Counterexample to C8 as stated: in the validated grid with one `^` directly below
the start, the cell ahead of the interior obstacle at `(1,1)` is outside the interior,
yet `move` returns that cell `(1,0)` and not the opposite interior edge `(1, H-2)`. -/
theorem move_does_not_wrap_at_opening :
    ValidGrid ["#.#", "#^#", "#.#"] ∧
      (GameBoard.parse ["#.#", "#^#", "#.#"]).InInterior ⟨1, 1⟩ ∧
      ¬ (GameBoard.parse ["#.#", "#^#", "#.#"]).InInterior
        (Blizzard.ahead ⟨⟨1, 1⟩, Direction.Up⟩) ∧
      (Blizzard.move ⟨⟨1, 1⟩, Direction.Up⟩ (GameBoard.parse ["#.#", "#^#", "#.#"])._height
        (GameBoard.parse ["#.#", "#^#", "#.#"])._width
        (GameBoard.parse ["#.#", "#^#", "#.#"])._walls)._coord = ⟨1, 0⟩ ∧
      (GameBoard.parse ["#.#", "#^#", "#.#"]).wrapTarget ⟨⟨1, 1⟩, Direction.Up⟩ = ⟨1, 1⟩ := by
  decide

theorem move_steps_unless_wall_ahead_then_wraps_witness :
    (Blizzard.move ⟨⟨3, 1⟩, Direction.Right⟩
        (GameBoard.parse ["#.###", "#>.<#", "#.^.#", "###.#"])._height
        (GameBoard.parse ["#.###", "#>.<#", "#.^.#", "###.#"])._width
        (GameBoard.parse ["#.###", "#>.<#", "#.^.#", "###.#"])._walls)._direction
        = Direction.Right ∧
      (((GameBoard.parse ["#.###", "#>.<#", "#.^.#", "###.#"]).InInterior
            (Blizzard.ahead ⟨⟨3, 1⟩, Direction.Right⟩) ∨
          Blizzard.ahead ⟨⟨3, 1⟩, Direction.Right⟩
            = (GameBoard.parse ["#.###", "#>.<#", "#.^.#", "###.#"])._start ∨
          Blizzard.ahead ⟨⟨3, 1⟩, Direction.Right⟩
            = (GameBoard.parse ["#.###", "#>.<#", "#.^.#", "###.#"])._end) →
        (Blizzard.move ⟨⟨3, 1⟩, Direction.Right⟩
          (GameBoard.parse ["#.###", "#>.<#", "#.^.#", "###.#"])._height
          (GameBoard.parse ["#.###", "#>.<#", "#.^.#", "###.#"])._width
          (GameBoard.parse ["#.###", "#>.<#", "#.^.#", "###.#"])._walls)._coord
          = Blizzard.ahead ⟨⟨3, 1⟩, Direction.Right⟩) ∧
      (¬ (GameBoard.parse ["#.###", "#>.<#", "#.^.#", "###.#"]).InInterior
            (Blizzard.ahead ⟨⟨3, 1⟩, Direction.Right⟩) →
        Blizzard.ahead ⟨⟨3, 1⟩, Direction.Right⟩
          ≠ (GameBoard.parse ["#.###", "#>.<#", "#.^.#", "###.#"])._start →
        Blizzard.ahead ⟨⟨3, 1⟩, Direction.Right⟩
          ≠ (GameBoard.parse ["#.###", "#>.<#", "#.^.#", "###.#"])._end →
        (Blizzard.move ⟨⟨3, 1⟩, Direction.Right⟩
          (GameBoard.parse ["#.###", "#>.<#", "#.^.#", "###.#"])._height
          (GameBoard.parse ["#.###", "#>.<#", "#.^.#", "###.#"])._width
          (GameBoard.parse ["#.###", "#>.<#", "#.^.#", "###.#"])._walls)._coord
          = (GameBoard.parse ["#.###", "#>.<#", "#.^.#", "###.#"]).wrapTarget
            ⟨⟨3, 1⟩, Direction.Right⟩) :=
  move_steps_unless_wall_ahead_then_wraps ["#.###", "#>.<#", "#.^.#", "###.#"]
    ⟨⟨3, 1⟩, Direction.Right⟩ (by decide) (by decide)

/-- Counterexample to C9 as stated: in the validated grid with one `^` directly below
the start every obstacle starts in the interior, and the snapshot of minute 1 holds an
obstacle at the start opening `(1,0)`, on the border. -/
theorem obstacle_leaves_interior_through_start :
    ValidGrid ["#.#", "#^#", "#.#"] ∧
      (∀ e ∈ (GameBoard.parse ["#.#", "#^#", "#.#"]).initial, ∀ b ∈ e.2,
        (GameBoard.parse ["#.#", "#^#", "#.#"]).InInterior b._coord) ∧
      ∃ m g2, (GameBoard.parse ["#.#", "#^#", "#.#"]).getBlizzardsByMinute 1 = some (m, g2) ∧
        m.Holds ⟨1, 0⟩ ⟨⟨1, 0⟩, Direction.Up⟩ ∧
        ¬ (GameBoard.parse ["#.#", "#^#", "#.#"]).InInterior ⟨1, 0⟩ :=
  ⟨by decide, by decide, _, _, rfl, by decide, by decide⟩

theorem obstacles_stay_in_interior_when_none_escapes_witness :
    ∃ m g2, (GameBoard.parse ["#.###", "#>.<#", "#.^.#", "###.#"]).getBlizzardsByMinute 7
        = some (m, g2) ∧
      ∀ k b, m.Holds k b → k = b._coord ∧
        1 ≤ b.x ∧ b.x ≤ (GameBoard.parse ["#.###", "#>.<#", "#.^.#", "###.#"])._width - 2 ∧
        1 ≤ b.y ∧ b.y ≤ (GameBoard.parse ["#.###", "#>.<#", "#.^.#", "###.#"])._height - 2 :=
  obstacles_stay_in_interior_when_none_escapes ["#.###", "#>.<#", "#.^.#", "###.#"] 7
    (by decide) (by decide)

/-! ## Identity of cells and states, and the snapshot cache: the claims -/

theorem GameBoard.afterRequests_spec (g : GameBoard) (init : BlizzardMap) (ts : List Nat) :
    ∀ (cache : SnapshotCache), (g.withCache cache).CacheOK init →
      ∃ cache2, (g.withCache cache).afterRequests ts = some (g.withCache cache2) ∧
        (g.withCache cache2).CacheOK init := by
  induction ts with
  | nil => intro cache hok; exact ⟨cache, rfl, hok⟩
  | cons t ts ih =>
    intro cache hok
    obtain ⟨c1, hget, hok1⟩ := GameBoard.getBlizzardsByMinute_spec _ init hok t
    rw [GameBoard.withCache_withCache] at hget hok1
    obtain ⟨c2, h2, hok2⟩ := ih c1 hok1
    refine ⟨c2, ?_, hok2⟩
    simp only [GameBoard.afterRequests, hget, h2]

/-- C11 (determinism of the snapshot cache).  For every input grid and every `t` there
is one snapshot that `getBlizzardsByMinute(t)` returns on the board whatever minutes
`ts` were requested before, in whatever order; so two calls for the same `t`, with any
requests in between, return equal snapshots. -/
theorem snapshot_of_minute_independent_of_earlier_requests (lines : List String) (t : Nat) :
    ∃ m, ∀ ts : List Nat, ∃ g1 g2,
      (GameBoard.parse lines).afterRequests ts = some g1 ∧
      g1.getBlizzardsByMinute t = some (m, g2) := by
  have hok := GameBoard.parse_cacheOK lines
  refine ⟨(GameBoard.parse lines).snapshot (GameBoard.parse lines).initial t, ?_⟩
  intro ts
  have hok0 : ((GameBoard.parse lines).withCache
      (GameBoard.parse lines)._blizzardsByTimeMap).CacheOK (GameBoard.parse lines).initial := by
    rw [GameBoard.withCache_self]; exact hok
  obtain ⟨c1, h1, hok1⟩ := GameBoard.afterRequests_spec _ _ ts _ hok0
  rw [GameBoard.withCache_self] at h1
  obtain ⟨c2, h2, -⟩ := GameBoard.getBlizzardsByMinute_spec _ _ hok1 t
  rw [GameBoard.snapshot_withCache] at h2
  exact ⟨_, _, h1, h2⟩

/-- The text "x,y" determines the cell. -/
theorem CoordinatePair.hashText_inj (a b : CoordinatePair) (h : a.hashText = b.hashText) :
    a = b := by
  obtain ⟨lx, hlx, hcx, hvx⟩ := intRepr_spec a.x
  obtain ⟨ly, hly, -, hvy⟩ := intRepr_spec a.y
  obtain ⟨lx2, hlx2, hcx2, hvx2⟩ := intRepr_spec b.x
  obtain ⟨ly2, hly2, -, hvy2⟩ := intRepr_spec b.y
  simp only [CoordinatePair.hashText, hlx, hly, hlx2, hly2] at h
  have h1 : lx ++ ',' :: ly = lx2 ++ ',' :: ly2 := by
    have := congrArg String.data h
    simpa [String.data_append] using this
  obtain ⟨e1, e2⟩ := append_sep_inj lx lx2 _ _ (fun hc => (hcx _ hc).1 rfl)
    (fun hc => (hcx2 _ hc).1 rfl) h1
  have ex : a.x = b.x := by rw [← hvx, ← hvx2, e1]
  have ey : a.y = b.y := by rw [← hvy, ← hvy2, e2]
  obtain ⟨ax, ay⟩ := a
  obtain ⟨bx, b_y⟩ := b
  simp only [CoordinatePair.x, CoordinatePair.y] at ex ey
  rw [ex, ey]

/-- C16 (search-state identity).  For all states `a` and `b`, `a == b` holds if and
only if their minutes are equal and their positions compare equal with
`CoordinatePair::operator==`, whatever `numWaited` and the wall and snapshot pointers
are; the rendering "(x,y,minute)" is injective on the three numbers; and equal states
have equal hashes, for every string hash. -/
theorem state_equality_is_minute_and_position (a b : State) :
    (a.eqOp b = true ↔
      a.minute = b.minute ∧ a.playerPosition.eqOp b.playerPosition = true) ∧
    (a.toString = b.toString ↔ a.minute = b.minute ∧ a.playerPosition = b.playerPosition) ∧
    (∀ (walls1 walls2 : WallSet) (bl1 bl2 : BlizzardMap) (n1 n2 : Int),
      (State.mk a._minute a._playerPosition walls1 bl1 n1).eqOp
        (State.mk a._minute a._playerPosition walls2 bl2 n2) = true) ∧
    (∀ strHash : String → Nat, a.eqOp b = true → a.hash strHash = b.hash strHash) := by
  have hiff := state_eqOp_iff a b
  refine ⟨?_, ?_, ?_, ?_⟩
  · rw [hiff, coordinatePair_eqOp_iff]
    exact ⟨fun h => ⟨h.2, h.1⟩, fun h => ⟨h.2, h.1⟩⟩
  · constructor
    · intro h
      obtain ⟨h1, h2⟩ := State.toString_inj a b h
      exact ⟨h2, h1⟩
    · rintro ⟨h1, h2⟩
      have h3 : a._minute = b._minute := h1
      have h4 : a._playerPosition = b._playerPosition := h2
      simp only [State.toString, h3, h4]
  · intro walls1 walls2 bl1 bl2 n1 n2
    exact (state_eqOp_iff _ _).2 ⟨rfl, rfl⟩
  · intro strHash h
    have : a.toString = b.toString := of_decide_eq_true h
    simp only [State.hash, this]

/-- C19 (cell equality and hashing are structural).  For all cells `a` and `b`,
`a == b` holds if and only if `a.x() == b.x()` and `a.y() == b.y()`; `operator+` adds
componentwise; the text "x,y" hashed by `std::hash<CoordinatePair>` is the same for two
cells if and only if the cells are equal; and equal cells have equal hashes, for every
string hash. -/
theorem cell_equality_and_hash_text_are_structural (a b : CoordinatePair) :
    (a.eqOp b = true ↔ a.x = b.x ∧ a.y = b.y) ∧
    (a.eqOp b = true ↔ a = b) ∧
    ((a.add b).x = a.x + b.x ∧ (a.add b).y = a.y + b.y) ∧
    (a.hashText = b.hashText ↔ a = b) ∧
    (∀ strHash : String → Nat, a.eqOp b = true → a.hash strHash = b.hash strHash) := by
  have hiff := coordinatePair_eqOp_iff a b
  refine ⟨?_, hiff, ⟨rfl, rfl⟩, ?_, ?_⟩
  · rw [hiff]
    constructor
    · intro h; rw [h]; exact ⟨rfl, rfl⟩
    · rintro ⟨h1, h2⟩
      obtain ⟨ax, ay⟩ := a
      obtain ⟨bx, b_y⟩ := b
      simp only [CoordinatePair.x, CoordinatePair.y] at h1 h2
      rw [h1, h2]
  · exact ⟨CoordinatePair.hashText_inj a b, fun h => by rw [h]⟩
  · intro strHash h
    rw [hiff.1 h]

/-! ## The constructor: the claims -/

theorem charToDirection_iff (ch : Char) (d : Direction) :
    charToDirection ch = some d ↔ SymbolHeading ch d := by
  unfold charToDirection SymbolHeading
  by_cases h1 : ch = '^'
  · subst h1; simp; exact eq_comm
  · by_cases h2 : ch = 'v'
    · subst h2; simp; exact eq_comm
    · by_cases h3 : ch = '<'
      · subst h3; simp; exact eq_comm
      · by_cases h4 : ch = '>'
        · subst h4; simp; exact eq_comm
        · simp [h1, h2, h3, h4]

theorem blizzardSetInsert_nodup (s : List Blizzard) (b : Blizzard) (h : s.Nodup) :
    (blizzardSetInsert s b).Nodup := by
  unfold blizzardSetInsert
  split
  · exact h
  · rename_i hnot
    rw [List.nodup_append]
    refine ⟨h, List.nodup_singleton b, ?_⟩
    intro a ha hb
    rw [List.mem_singleton] at hb
    subst hb
    exact hnot (List.any_eq_true.2 ⟨a, ha, (blizzard_eqOp_iff a a).2 rfl⟩)

theorem BlizzardMap.keys_insertAt (m : BlizzardMap) (key : CoordinatePair) (b : Blizzard) :
    (m.insertAt key b).map Prod.fst =
      if key ∈ m.map Prod.fst then m.map Prod.fst else m.map Prod.fst ++ [key] := by
  induction m with
  | nil => simp [BlizzardMap.insertAt]
  | cons e rest ih =>
    unfold BlizzardMap.insertAt
    by_cases hk : e.1.eqOp key = true
    · have hk2 : e.1 = key := (coordinatePair_eqOp_iff _ _).1 hk
      rw [if_pos hk]
      simp [hk2]
    · have hk2 : ¬ e.1 = key := fun h => hk ((coordinatePair_eqOp_iff _ _).2 h)
      have hk3 : ¬ key = e.1 := fun h => hk2 h.symm
      rw [if_neg hk]
      simp only [List.map_cons, ih, List.mem_cons, hk3, false_or]
      split <;> simp

theorem BlizzardMap.noRepetition_insertAt (m : BlizzardMap) (key : CoordinatePair)
    (b : Blizzard) (h : m.NoRepetition) : (m.insertAt key b).NoRepetition := by
  constructor
  · rw [BlizzardMap.keys_insertAt]
    split
    · exact h.1
    · rename_i hnot
      rw [List.nodup_append]
      refine ⟨h.1, List.nodup_singleton key, ?_⟩
      intro a ha hb
      rw [List.mem_singleton] at hb
      subst hb
      exact hnot ha
  · have h2 := h.2
    clear h
    induction m with
    | nil =>
      intro e he
      simp only [BlizzardMap.insertAt, List.mem_singleton] at he
      subst he
      exact blizzardSetInsert_nodup [] b List.nodup_nil
    | cons e0 rest ih =>
      unfold BlizzardMap.insertAt
      split
      · intro e he
        rcases List.mem_cons.1 he with he | he
        · subst he
          exact blizzardSetInsert_nodup e0.2 b (h2 e0 (List.mem_cons_self _ _))
        · exact h2 e (List.mem_cons_of_mem _ he)
      · intro e he
        rcases List.mem_cons.1 he with he | he
        · subst he
          exact h2 _ (List.mem_cons_self _ _)
        · exact ih (fun e3 he3 => h2 e3 (List.mem_cons_of_mem _ he3)) e he

theorem noRepetition_parseLine (y : Int) (cs : List Char) : ∀ (x : Int) (st : ParseState),
    st.initBlizzards.NoRepetition → (parseLine y cs x st).initBlizzards.NoRepetition := by
  induction cs with
  | nil => intro x st h; exact h
  | cons c cs ih =>
    intro x st h
    simp only [parseLine]
    apply ih
    rw [parseCell_initBlizzards]
    cases hd : charToDirection c with
    | none => exact h
    | some d => exact BlizzardMap.noRepetition_insertAt _ _ _ h

theorem noRepetition_parseLines (lines : List String) : ∀ (y : Int) (prev : String)
    (st : ParseState), st.initBlizzards.NoRepetition →
      (parseLines lines y prev st).1.initBlizzards.NoRepetition := by
  induction lines with
  | nil => intro y prev st h; exact h
  | cons l0 rest ih =>
    intro y prev st h
    simp only [parseLines]
    exact ih _ _ _ (noRepetition_parseLine _ _ _ _ h)

theorem GameBoard.parse_initial_noRepetition (lines : List String) :
    (GameBoard.parse lines).initial.NoRepetition := by
  rw [GameBoard.parse_initial]
  apply noRepetition_parseLines
  exact ⟨List.nodup_nil, fun e he => absurd he (List.not_mem_nil _)⟩

theorem list_eq_singleton_of_nodup {α : Type} (l : List α) (b : α) (hne : l ≠ [])
    (hnd : l.Nodup) (hall : ∀ a ∈ l, a = b) : l = [b] := by
  cases l with
  | nil => exact absurd rfl hne
  | cons x rest =>
    have hx : x = b := hall x (List.mem_cons_self _ _)
    cases rest with
    | nil => rw [hx]
    | cons y rest2 =>
      have hy : y = b := hall y (List.mem_cons_of_mem _ (List.mem_cons_self _ _))
      rw [hx, hy] at hnd
      exact absurd (List.mem_cons_self _ _) (List.nodup_cons.1 hnd).1

/-- The entries of the snapshot of minute 0: one entry for every obstacle symbol of
the input, holding the one obstacle of that cell. -/
theorem GameBoard.parse_initial_entries (lines : List String) :
    (∀ e ∈ (GameBoard.parse lines).initial, ∃ (i j : Nat) (d : Direction),
      j < lines.length ∧ i < (lines.getD j "").length ∧ SymbolHeading (charAt lines i j) d ∧
        e = (⟨(i : Int), (j : Int)⟩, [⟨⟨(i : Int), (j : Int)⟩, d⟩])) ∧
    (∀ (i j : Nat) (d : Direction), j < lines.length → i < (lines.getD j "").length →
      SymbolHeading (charAt lines i j) d →
        ((⟨(i : Int), (j : Int)⟩, [⟨⟨(i : Int), (j : Int)⟩, d⟩]) : CoordinatePair × List Blizzard)
          ∈ (GameBoard.parse lines).initial) := by
  have hne := GameBoard.parse_initial_setsNonempty lines
  have hnr := GameBoard.parse_initial_noRepetition lines
  have hentry : ∀ e ∈ (GameBoard.parse lines).initial, ∃ (i j : Nat) (d : Direction),
      j < lines.length ∧ i < (lines.getD j "").length ∧ SymbolHeading (charAt lines i j) d ∧
        e = (⟨(i : Int), (j : Int)⟩, [⟨⟨(i : Int), (j : Int)⟩, d⟩]) := by
    intro e he
    obtain ⟨b, hb⟩ := List.exists_mem_of_ne_nil _ (hne e he)
    obtain ⟨i, j, hj, hi, d, hd, hk, hbe⟩ :=
      (GameBoard.parse_holds_iff lines e.1 b).1 ⟨e, he, rfl, hb⟩
    refine ⟨i, j, d, hj, hi, (charToDirection_iff _ _).1 hd, ?_⟩
    have hall : ∀ a ∈ e.2, a = b := by
      intro a ha
      obtain ⟨i2, j2, -, -, d2, hd2, hk2, ha2⟩ :=
        (GameBoard.parse_holds_iff lines e.1 a).1 ⟨e, he, rfl, ha⟩
      rw [hk] at hk2
      simp only [CoordinatePair.mk.injEq, Nat.cast_inj] at hk2
      obtain ⟨e1, e2⟩ := hk2
      subst e1; subst e2
      rw [hd] at hd2
      rw [ha2, hbe, Option.some.inj hd2]
    have hsingle := list_eq_singleton_of_nodup e.2 b (hne e he) (hnr.2 e he) hall
    rw [← hbe, ← hk, ← hsingle]
  refine ⟨hentry, ?_⟩
  intro i j d hj hi hs
  have hholds := (GameBoard.parse_holds_iff lines ⟨(i : Int), (j : Int)⟩
    ⟨⟨(i : Int), (j : Int)⟩, d⟩).2 ⟨i, j, hj, hi, d, (charToDirection_iff _ _).2 hs, rfl, rfl⟩
  obtain ⟨e, he, hk, hb⟩ := hholds
  obtain ⟨i2, j2, d2, -, -, -, heq⟩ := hentry e he
  rw [heq] at hk hb
  simp only [List.mem_singleton] at hb
  simp only at hk
  have hd : d = d2 := (Blizzard.mk.injEq _ _ _ _ ▸ hb).2
  rw [hk, ← hd] at heq
  rw [← heq]
  exact he

/-- The start is the last `.` of the first line. -/
theorem GameBoard.parse_start_of_last_dot (lines : List String) (sx : Nat)
    (hlen : 1 ≤ lines.length)
    (hsx : sx < (lines.getD 0 "").length)
    (hdot : charAt lines sx 0 = '.')
    (hlast : ∀ x, sx < x → x < (lines.getD 0 "").length → charAt lines x 0 ≠ '.') :
    (GameBoard.parse lines)._start = ⟨(sx : Int), 0⟩ := by
  cases lines with
  | nil => simp at hlen
  | cons l0 rest =>
    show (parseLines (l0 :: rest) 0 "" ⟨⟨0, 0⟩, [], []⟩).1.start = _
    simp only [parseLines]
    rw [start_parseLines_of_pos _ _ _ _ (by omega)]
    have hl : (l0 :: rest).getD 0 "" = l0 := rfl
    rw [hl] at hsx hlast
    have hget := fun i => getElem?_data_of_valid (l0 :: rest) i 0 l0 hl
    rw [start_parseLine_zero l0.data 0 _ sx]
    · simp
    · rw [hget sx, if_pos hsx, hdot]
    · intro k hk
      rw [hget k]
      by_cases hkl : k < l0.length
      · rw [if_pos hkl]
        intro h
        exact hlast k hk hkl (Option.some.inj h)
      · rw [if_neg hkl]; simp

/-- The goal is the last `.` of the last line. -/
theorem GameBoard.parse_end_of_last_dot (lines : List String) (gx : Nat)
    (hgx : gx < (lines.getD (lines.length - 1) "").length)
    (hdot : charAt lines gx (lines.length - 1) = '.')
    (hlast : ∀ x, gx < x → x < (lines.getD (lines.length - 1) "").length →
      charAt lines x (lines.length - 1) ≠ '.') :
    (GameBoard.parse lines)._end = ⟨(gx : Int), (lines.length : Int) - 1⟩ := by
  have hl : (lines.getLast?).getD "" = lines.getD (lines.length - 1) "" := by
    rw [List.getLast?_eq_getElem?, List.getD_eq_getElem?_getD]
  show scanEnd ((parseLines lines 0 "" ⟨⟨0, 0⟩, [], []⟩).2.2 - 1)
    (parseLines lines 0 "" ⟨⟨0, 0⟩, [], []⟩).2.1.data 0 ⟨0, 0⟩ = _
  rw [parseLines_height, parseLines_prevLine, hl]
  have hget := fun i => getElem?_data_of_valid lines i (lines.length - 1) _ rfl
  rw [scanEnd_last_dot _ _ 0 _ gx]
  · simp
  · rw [hget gx, if_pos hgx, hdot]
  · intro k hk
    rw [hget k]
    by_cases hkl : k < (lines.getD (lines.length - 1) "").length
    · rw [if_pos hkl]
      intro h
      exact hlast k hk hkl (Option.some.inj h)
    · rw [if_neg hkl]; simp

/-- C12 (round trip of the parsed obstacle set).  For every input grid the snapshot
`getBlizzardsByMinute(0)` has, for each character among `^`, `v`, `<`, `>` at column
`x` of line `y`, exactly one entry: its key is `(x, y)` and its set holds the one
obstacle with position `(x, y)` and heading `Up`, `Down`, `Left`, `Right` respectively;
the snapshot has no other entry, and no key twice. -/
theorem initial_snapshot_has_one_obstacle_per_symbol (lines : List String) :
    ∃ m g2, (GameBoard.parse lines).getBlizzardsByMinute 0 = some (m, g2) ∧
      (m.map Prod.fst).Nodup ∧
      (∀ e ∈ m, ∃ (i j : Nat) (d : Direction),
        j < lines.length ∧ i < (lines.getD j "").length ∧ SymbolHeading (charAt lines i j) d ∧
          e = (⟨(i : Int), (j : Int)⟩, [⟨⟨(i : Int), (j : Int)⟩, d⟩])) ∧
      (∀ (i j : Nat) (d : Direction), j < lines.length → i < (lines.getD j "").length →
        SymbolHeading (charAt lines i j) d →
          ((⟨(i : Int), (j : Int)⟩, [⟨⟨(i : Int), (j : Int)⟩, d⟩]) :
            CoordinatePair × List Blizzard) ∈ m) := by
  obtain ⟨c, hget, -⟩ := GameBoard.getBlizzardsByMinute_spec _ _
    (GameBoard.parse_cacheOK lines) 0
  have hentries := GameBoard.parse_initial_entries lines
  exact ⟨_, _, hget, (GameBoard.parse_initial_noRepetition lines).1, hentries.1, hentries.2⟩

/-- C13 (open-cell test).  For every board, every cell `p` and every snapshot `s` (a
map in which every key holds at least one obstacle), `isValidPlayerPosition(p, s)` is
true if and only if `0 ≤ p.x ≤ W-1`, `0 ≤ p.y ≤ H-1`, `p` is not in the wall set and
`s` holds no obstacle at `p`; every out-of-range cell yields false, among them the cell
directly above a start in row 0 and the cell directly below a goal in row `H-1`. -/
theorem isValidPlayerPosition_iff_in_bounds_open_and_free (g : GameBoard)
    (p : CoordinatePair) (s : BlizzardMap) (hs : s.SetsNonempty) :
    (g.isValidPlayerPosition p s = true ↔
      0 ≤ p.x ∧ p.x ≤ g._width - 1 ∧ 0 ≤ p.y ∧ p.y ≤ g._height - 1 ∧ p ∉ g._walls ∧
        ¬ ∃ b, s.Holds p b) ∧
    (g.isValidPlayerPosition p s = true ↔
      0 ≤ p.x ∧ p.x ≤ g._width - 1 ∧ 0 ≤ p.y ∧ p.y ≤ g._height - 1 ∧ p ∉ g._walls ∧
        s.contains p = false) ∧
    ((p.x < 0 ∨ p.x > g._width - 1 ∨ p.y < 0 ∨ p.y > g._height - 1) →
      g.isValidPlayerPosition p s = false) ∧
    (g._start.y = 0 → g.isValidPlayerPosition ⟨g._start.x, g._start.y - 1⟩ s = false) ∧
    (g._end.y = g._height - 1 →
      g.isValidPlayerPosition ⟨g._end.x, g._end.y + 1⟩ s = false) := by
  have hiff := GameBoard.isValidPlayerPosition_iff g p s
  have hout : ∀ q : CoordinatePair,
      (q.x < 0 ∨ q.x > g._width - 1 ∨ q.y < 0 ∨ q.y > g._height - 1) →
        g.isValidPlayerPosition q s = false := by
    intro q hq
    unfold GameBoard.isValidPlayerPosition
    rw [if_pos hq]
  have hocc : s.contains p = false ↔ ¬ ∃ b, s.Holds p b := by
    rw [← BlizzardMap.occupied_iff_holds, ← blizzardMap_contains_iff_occupied s hs]
    simp
  refine ⟨?_, ?_, hout p, ?_, ?_⟩
  · rw [hiff, hocc]
    unfold GameBoard.WallFree
    tauto
  · rw [hiff]
    unfold GameBoard.WallFree
    tauto
  · intro h
    apply hout
    simp only [CoordinatePair.x, CoordinatePair.y] at h ⊢
    omega
  · intro h
    apply hout
    simp only [CoordinatePair.x, CoordinatePair.y] at h ⊢
    omega

theorem isValidPlayerPosition_iff_in_bounds_open_and_free_witness :
    ((GameBoard.parse ["#.#", "#>#", "#.#"]).isValidPlayerPosition ⟨1, 1⟩
        [(⟨1, 1⟩, [⟨⟨1, 1⟩, Direction.Right⟩])] = true ↔
      0 ≤ (⟨1, 1⟩ : CoordinatePair).x ∧
        (⟨1, 1⟩ : CoordinatePair).x ≤ (GameBoard.parse ["#.#", "#>#", "#.#"])._width - 1 ∧
        0 ≤ (⟨1, 1⟩ : CoordinatePair).y ∧
        (⟨1, 1⟩ : CoordinatePair).y ≤ (GameBoard.parse ["#.#", "#>#", "#.#"])._height - 1 ∧
        (⟨1, 1⟩ : CoordinatePair) ∉ (GameBoard.parse ["#.#", "#>#", "#.#"])._walls ∧
        ¬ ∃ b, BlizzardMap.Holds [(⟨1, 1⟩, [⟨⟨1, 1⟩, Direction.Right⟩])] ⟨1, 1⟩ b) :=
  (isValidPlayerPosition_iff_in_bounds_open_and_free (GameBoard.parse ["#.#", "#>#", "#.#"])
    ⟨1, 1⟩ [(⟨1, 1⟩, [⟨⟨1, 1⟩, Direction.Right⟩])] (by decide)).1

/-- C17 (input symbol mapping).  For every input grid, a cell `(x, y)` is in the wall
set if and only if character `x` of line `y` is `#`; a cell whose character is `.` is
neither a wall nor the key or position of an obstacle of `getBlizzardsByMinute(0)`;
`^`, `v`, `<`, `>` are translated to `Up`, `Down`, `Left`, `Right`, whose unit vectors
are `(0,-1)`, `(0,1)`, `(-1,0)`, `(1,0)`, lines being numbered downwards; and an
obstacle character at `(x, y)` gives the obstacle with that heading at `(x, y)`. -/
theorem input_symbols_map_to_walls_and_headings (lines : List String) :
    (∀ c : CoordinatePair, c ∈ (GameBoard.parse lines)._walls ↔
      ∃ (i j : Nat), j < lines.length ∧ i < (lines.getD j "").length ∧
        charAt lines i j = '#' ∧ c = ⟨(i : Int), (j : Int)⟩) ∧
    (∃ g2, (GameBoard.parse lines).getBlizzardsByMinute 0
      = some ((GameBoard.parse lines).initial, g2)) ∧
    (∀ (i j : Nat), j < lines.length → i < (lines.getD j "").length →
      charAt lines i j = '.' →
        (⟨(i : Int), (j : Int)⟩ : CoordinatePair) ∉ (GameBoard.parse lines)._walls ∧
        ∀ k b, (GameBoard.parse lines).initial.Holds k b →
          k ≠ ⟨(i : Int), (j : Int)⟩ ∧ b._coord ≠ ⟨(i : Int), (j : Int)⟩) ∧
    (∀ (i j : Nat) (d : Direction), j < lines.length → i < (lines.getD j "").length →
      charToDirection (charAt lines i j) = some d →
        (GameBoard.parse lines).initial.Holds ⟨(i : Int), (j : Int)⟩
          ⟨⟨(i : Int), (j : Int)⟩, d⟩) ∧
    (charToDirection '^' = some Direction.Up ∧ charToDirection 'v' = some Direction.Down ∧
      charToDirection '<' = some Direction.Left ∧ charToDirection '>' = some Direction.Right) ∧
    (directionToForceVector Direction.Up = ⟨0, -1⟩ ∧
      directionToForceVector Direction.Down = ⟨0, 1⟩ ∧
      directionToForceVector Direction.Left = ⟨-1, 0⟩ ∧
      directionToForceVector Direction.Right = ⟨1, 0⟩) := by
  refine ⟨GameBoard.parse_walls_iff lines, ?_, ?_, ?_, ⟨by decide, by decide, by decide,
    by decide⟩, ⟨rfl, rfl, rfl, rfl⟩⟩
  · obtain ⟨c, hget, -⟩ := GameBoard.getBlizzardsByMinute_spec _ _
      (GameBoard.parse_cacheOK lines) 0
    exact ⟨_, hget⟩
  · intro i j hj hi hdot
    constructor
    · intro hw
      obtain ⟨i2, j2, -, -, hch, heq⟩ := (GameBoard.parse_walls_iff lines _).1 hw
      simp only [CoordinatePair.mk.injEq, Nat.cast_inj] at heq
      rw [← heq.1, ← heq.2, hdot] at hch
      exact absurd hch (by decide)
    · intro k b hkb
      obtain ⟨i2, j2, -, -, d, hd, hk, hb⟩ := (GameBoard.parse_holds_iff lines k b).1 hkb
      have hne : ¬ (i2 = i ∧ j2 = j) := by
        rintro ⟨rfl, rfl⟩
        exact (charToDirection_some _ _ hd).2 hdot
      rw [hk, hb]
      simp only [ne_eq, CoordinatePair.mk.injEq, Nat.cast_inj]
      exact ⟨hne, hne⟩
  · intro i j d hj hi hd
    exact (GameBoard.parse_holds_iff lines _ _).2 ⟨i, j, hj, hi, d, hd, rfl, rfl⟩

/-- C18 (grid invariant after parsing).  For every input of at least one line that is
rectangular with exactly one `.` in its first line, at column `sx`, and exactly one `.`
in its last line, at column `gx`, the parsed start is `(sx, 0)`, the parsed goal is
`(gx, H-1)`, `W` is the line length and `H` the number of lines, and neither the start
nor the goal is in the wall set. -/
theorem parsed_grid_has_start_goal_and_size (lines : List String) (W sx gx : Nat)
    (hlen : 1 ≤ lines.length)
    (hrect : ∀ y, y < lines.length → (lines.getD y "").length = W)
    (hsx : sx < W) (hstart : charAt lines sx 0 = '.')
    (hsuniq : ∀ x, x < W → charAt lines x 0 = '.' → x = sx)
    (hgx : gx < W) (hgoal : charAt lines gx (lines.length - 1) = '.')
    (hguniq : ∀ x, x < W → charAt lines x (lines.length - 1) = '.' → x = gx) :
    (GameBoard.parse lines)._start = ⟨(sx : Int), 0⟩ ∧
      (GameBoard.parse lines)._end = ⟨(gx : Int), (lines.length : Int) - 1⟩ ∧
      (GameBoard.parse lines)._width = (W : Int) ∧
      (GameBoard.parse lines)._height = (lines.length : Int) ∧
      (GameBoard.parse lines)._start ∉ (GameBoard.parse lines)._walls ∧
      (GameBoard.parse lines)._end ∉ (GameBoard.parse lines)._walls := by
  have h0 := hrect 0 (by omega)
  have hl := hrect (lines.length - 1) (by omega)
  have hstart2 : (GameBoard.parse lines)._start = ⟨(sx : Int), 0⟩ := by
    apply GameBoard.parse_start_of_last_dot lines sx hlen (by rw [h0]; exact hsx) hstart
    intro x hx hxw hdot
    rw [h0] at hxw
    have := hsuniq x hxw hdot
    omega
  have hend2 : (GameBoard.parse lines)._end = ⟨(gx : Int), (lines.length : Int) - 1⟩ := by
    apply GameBoard.parse_end_of_last_dot lines gx (by rw [hl]; exact hgx) hgoal
    intro x hx hxw hdot
    rw [hl] at hxw
    have := hguniq x hxw hdot
    omega
  have hwidth : (GameBoard.parse lines)._width = (W : Int) := by
    rw [GameBoard.parse_width]
    have : ((lines.getLast?).getD "").length = W := by
      rw [← hl, List.getLast?_eq_getElem?, List.getD_eq_getElem?_getD]
    rw [this]
  refine ⟨hstart2, hend2, hwidth, GameBoard.parse_height lines, ?_, ?_⟩
  · rw [hstart2]
    intro hw
    obtain ⟨i, j, -, -, hch, heq⟩ := (GameBoard.parse_walls_iff lines _).1 hw
    simp only [CoordinatePair.mk.injEq] at heq
    have hi : i = sx := by omega
    have hj : j = 0 := by omega
    rw [hi, hj, hstart] at hch
    exact absurd hch (by decide)
  · rw [hend2]
    intro hw
    obtain ⟨i, j, -, -, hch, heq⟩ := (GameBoard.parse_walls_iff lines _).1 hw
    simp only [CoordinatePair.mk.injEq] at heq
    have hi : i = gx := by omega
    have hj : j = lines.length - 1 := by omega
    rw [hi, hj, hgoal] at hch
    exact absurd hch (by decide)

theorem parsed_grid_has_start_goal_and_size_witness :
    (GameBoard.parse ["#.###", "#>.<#", "#.^.#", "###.#"])._start = ⟨((1 : Nat) : Int), 0⟩ ∧
      (GameBoard.parse ["#.###", "#>.<#", "#.^.#", "###.#"])._end
        = ⟨((3 : Nat) : Int), ((["#.###", "#>.<#", "#.^.#", "###.#"].length : Nat) : Int) - 1⟩ ∧
      (GameBoard.parse ["#.###", "#>.<#", "#.^.#", "###.#"])._width = ((5 : Nat) : Int) ∧
      (GameBoard.parse ["#.###", "#>.<#", "#.^.#", "###.#"])._height
        = ((["#.###", "#>.<#", "#.^.#", "###.#"].length : Nat) : Int) ∧
      (GameBoard.parse ["#.###", "#>.<#", "#.^.#", "###.#"])._start
        ∉ (GameBoard.parse ["#.###", "#>.<#", "#.^.#", "###.#"])._walls ∧
      (GameBoard.parse ["#.###", "#>.<#", "#.^.#", "###.#"])._end
        ∉ (GameBoard.parse ["#.###", "#>.<#", "#.^.#", "###.#"])._walls :=
  parsed_grid_has_start_goal_and_size ["#.###", "#>.<#", "#.^.#", "###.#"] 5 1 3
    (by decide) (by decide) (by decide) (by decide) (by decide) (by decide) (by decide)
    (by decide)

/-! ## Building one layer: the claims -/

theorem state_eqOp_self (s : State) : s.eqOp s = true :=
  (state_eqOp_iff s s).2 ⟨rfl, rfl⟩

/-- After the loop over `states`, `visited` still holds what it held, and holds a state
equal to each state of `states`. -/
theorem GameBoard.expandLayer_visited (states : List State) :
    ∀ (g : GameBoard) (next visited : List State) (r : List State × List State × GameBoard),
    GameBoard.expandLayer states g next visited = some r →
      (∀ v ∈ visited, v ∈ r.2.1) ∧ (∀ s ∈ states, ∃ v ∈ r.2.1, v.eqOp s = true) := by
  induction states with
  | nil =>
    intro g next visited r h
    simp only [GameBoard.expandLayer, Option.some.injEq] at h
    subst h
    exact ⟨fun v hv => hv, fun s hs => absurd hs (List.not_mem_nil _)⟩
  | cons s0 rest ih =>
    intro g next visited r h
    by_cases hvis : visited.any (fun v => v.eqOp s0) = true
    · simp only [GameBoard.expandLayer, hvis, if_true] at h
      obtain ⟨h1, h2⟩ := ih g next visited r h
      refine ⟨h1, ?_⟩
      intro s hs
      rcases List.mem_cons.1 hs with hs | hs
      · subst hs
        obtain ⟨v, hv, hveq⟩ := List.any_eq_true.1 hvis
        exact ⟨v, h1 v hv, hveq⟩
      · exact h2 s hs
    · simp only [GameBoard.expandLayer, hvis] at h
      cases hget : g.getBlizzardsByMinute (s0.minute + 1) with
      | none => simp [hget] at h
      | some res =>
        obtain ⟨nb, g1⟩ := res
        simp only [hget] at h
        obtain ⟨h1, h2⟩ := ih g1 _ _ r h
        refine ⟨fun v hv => h1 v (List.mem_append_left _ hv), ?_⟩
        intro s hs
        rcases List.mem_cons.1 hs with hs | hs
        · subst hs
          exact ⟨s, h1 s (List.mem_append_right _ (List.mem_singleton.2 rfl)),
            state_eqOp_self s⟩
        · exact h2 s hs

/-- One iteration of the loop of `breadthFirstSearch`: the loop state of minute `t`,
the `next` and `visited` that the loop over `states` builds from it, and the loop state
of minute `t + 1`. -/
theorem GameBoard.loopStateAt_step (sortBy : (State → State → Bool) → List State → List State)
    (hsort : SortContract sortBy) (g : GameBoard) (init : BlizzardMap) (hok : g.CacheOK init)
    (t : Nat) :
    ∃ states visited cache next visited2 cache2,
      g.loopStateAt sortBy t = some (states, visited, g.withCache cache) ∧
      GameBoard.expandLayer states (g.withCache cache) [] visited
        = some (next, visited2, g.withCache cache2) ∧
      g.loopStateAt sortBy (t + 1)
        = some ((g.withCache cache2).trim sortBy sizeLimit next, visited2,
            g.withCache cache2) ∧
      (∀ s ∈ states, ∃ p, s = g.stateAt init t p ∧ g.Reach init t p) ∧
      (∀ v ∈ visited, v._minute < t) ∧
      (∀ s2, s2 ∈ next ↔ ∃ s ∈ states, g.IsSuccessor init s s2) ∧
      (∀ v, v ∈ visited2 ↔ v ∈ visited ∨ v ∈ states) := by
  obtain ⟨states, visited, cache, hls, hok1, hsound, hvis, -⟩ :=
    GameBoard.loopStateAt_spec sortBy hsort g init hok t
  obtain ⟨next2, visited2, cache2, h1, h2, h3, h4, h5⟩ :=
    GameBoard.expandLayer_spec g init states cache [] visited hok1
  have hnovis : ∀ s ∈ states, ∀ v ∈ visited, v.eqOp s = false := by
    intro s hs v hv
    cases heq : v.eqOp s with
    | false => rfl
    | true =>
      obtain ⟨p, hp, -⟩ := hsound s hs
      have hm := ((state_eqOp_iff v s).1 heq).2
      have hlt := hvis v hv
      rw [hm, hp] at hlt
      exact absurd hlt (Nat.lt_irrefl _)
  refine ⟨states, visited, cache, next2, visited2, cache2, hls, h1, ?_, hsound, hvis, ?_, ?_⟩
  · simp only [GameBoard.loopStateAt, hls, h1]
  · intro s2
    rw [h3 s2]
    constructor
    · rintro (h | ⟨s, hs, -, hsucc⟩)
      · exact absurd h (List.not_mem_nil _)
      · exact ⟨s, hs, hsucc⟩
    · rintro ⟨s, hs, hsucc⟩
      exact Or.inr ⟨s, hs, hnovis s hs, hsucc⟩
  · intro v
    constructor
    · exact h4 v
    · rintro (h | h)
      · exact h5 v h
      · obtain ⟨w, hw, hweq⟩ := (GameBoard.expandLayer_visited states _ _ _ _ h1).2 v h
        have hwv : w = v := by
          rcases h4 w hw with hwold | hwst
          · rw [hnovis v h w hwold] at hweq
            exact absurd hweq (by decide)
          · obtain ⟨p, hp, -⟩ := hsound v h
            obtain ⟨q, hq, -⟩ := hsound w hwst
            have hpos := ((state_eqOp_iff w v).1 hweq).1
            rw [hp, hq] at hpos
            have hpq : q = p := hpos
            rw [hp, hq, hpq]
        rw [← hwv]; exact hw

/-- C20, as it holds on the code (candidate filtering and deduplication).  When the
loop over the frontier of minute `t` builds `next`, a cell `c` gets a state in `next`
if and only if `c` is the position of a frontier state or one of its four neighbours
and `c` is open and unoccupied at minute `t + 1`; every state of `next` has minute
`t + 1`; and `visited` receives the frontier states, not the candidates: after the
loop it holds what it held before and the states of the frontier, all of minute at
most `t`. -/
theorem next_holds_open_candidates_and_visited_holds_frontier
    (sortBy : (State → State → Bool) → List State → List State) (lines : List String) (t : Nat)
    (hsort : SortContract sortBy) :
    ∃ states visited g1 next visited1 g2,
      (GameBoard.parse lines).loopStateAt sortBy t = some (states, visited, g1) ∧
      GameBoard.expandLayer states g1 [] visited = some (next, visited1, g2) ∧
      (∀ c, (∃ s2 ∈ next, s2.playerPosition = c) ↔
        ((∃ s ∈ states, c = s.playerPosition ∨ Adjacent s.playerPosition c) ∧
          (GameBoard.parse lines).OpenAt (t + 1) c)) ∧
      (∀ s2 ∈ next, s2.minute = t + 1) ∧
      (∀ v, v ∈ visited1 ↔ v ∈ visited ∨ v ∈ states) ∧
      (∀ v ∈ visited1, v.minute ≤ t) := by
  have hok := GameBoard.parse_cacheOK lines
  obtain ⟨states, visited, cache, next, visited2, cache2, hls, hexp, -, hsound, hvis, hnext,
    hvisited⟩ := GameBoard.loopStateAt_step sortBy hsort _ _ hok t
  refine ⟨states, visited, _, next, visited2, _, hls, hexp, ?_, ?_, hvisited, ?_⟩
  · intro c
    rw [GameBoard.openAt_iff _ _ hok]
    constructor
    · rintro ⟨s2, hs2, hpos⟩
      obtain ⟨s, hs, q, hq, hvalid, hs2eq⟩ := (hnext s2).1 hs2
      obtain ⟨p, hp, -⟩ := hsound s hs
      have hcq : c = q := by rw [← hpos, hs2eq]; rfl
      have hmin : s.minute = t := by rw [hp]; rfl
      rw [hmin] at hvalid
      rw [hcq]
      exact ⟨⟨s, hs, hq⟩, hvalid⟩
    · rintro ⟨⟨s, hs, hq⟩, hvalid⟩
      obtain ⟨p, hp, -⟩ := hsound s hs
      have hmin : s.minute = t := by rw [hp]; rfl
      refine ⟨(GameBoard.parse lines).stateAt (GameBoard.parse lines).initial
        (s.minute + 1) c, ?_, rfl⟩
      exact (hnext _).2 ⟨s, hs, c, hq, by rw [hmin]; exact hvalid, rfl⟩
  · intro s2 hs2
    obtain ⟨s, hs, q, -, -, hs2eq⟩ := (hnext s2).1 hs2
    obtain ⟨p, hp, -⟩ := hsound s hs
    rw [hs2eq, hp]
    rfl
  · intro v hv
    rcases (hvisited v).1 hv with h | h
    · exact Nat.le_of_lt (hvis v h)
    · obtain ⟨p, hp, -⟩ := hsound v h
      rw [hp]
      exact Nat.le_refl t

/-- Counterexample to C20 as stated: on the open column of four lines, the `next` built
from the frontier of minute 1 holds the state of cell `(1,1)` twice and the state of
cell `(1,0)` twice, and `visited` holds no state of minute 2 after the loop. -/
theorem next_holds_a_state_twice_and_visited_no_candidate :
    ∃ states visited g1 next visited1 g2,
      (GameBoard.parse ["#.#", "#.#", "#.#", "#.#"]).loopStateAt stableSortBy 1
        = some (states, visited, g1) ∧
      GameBoard.expandLayer states g1 [] visited = some (next, visited1, g2) ∧
      next.map (fun s => (s.playerPosition, s.minute))
        = [(⟨1, 0⟩, 2), (⟨1, 2⟩, 2), (⟨1, 1⟩, 2), (⟨1, 1⟩, 2), (⟨1, 0⟩, 2)] ∧
      visited1.map (fun s => (s.playerPosition, s.minute))
        = [(⟨1, 0⟩, 0), (⟨1, 1⟩, 1), (⟨1, 0⟩, 1)] :=
  ⟨_, _, _, _, _, _, rfl, rfl, by decide, by decide⟩

theorem next_holds_open_candidates_and_visited_holds_frontier_witness :
    ∃ states visited g1 next visited1 g2,
      (GameBoard.parse ["#.###", "#>.<#", "#.^.#", "###.#"]).loopStateAt stableSortBy 2
        = some (states, visited, g1) ∧
      GameBoard.expandLayer states g1 [] visited = some (next, visited1, g2) ∧
      (∀ c, (∃ s2 ∈ next, s2.playerPosition = c) ↔
        ((∃ s ∈ states, c = s.playerPosition ∨ Adjacent s.playerPosition c) ∧
          (GameBoard.parse ["#.###", "#>.<#", "#.^.#", "###.#"]).OpenAt (2 + 1) c)) ∧
      (∀ s2 ∈ next, s2.minute = 2 + 1) ∧
      (∀ v, v ∈ visited1 ↔ v ∈ visited ∨ v ∈ states) ∧
      (∀ v ∈ visited1, v.minute ≤ 2) :=
  next_holds_open_candidates_and_visited_holds_frontier stableSortBy
    ["#.###", "#>.<#", "#.^.#", "###.#"] 2 stableSortBy_contract

/-! ## Distances, and the two scenarios -/

theorem step_changes_coordinates_by_one (p q e : CoordinatePair)
    (h : q = p ∨ Adjacent p q) :
    q.y ≤ p.y + 1 ∧ p.y ≤ q.y + 1 ∧ (q.y = p.y + 1 → q.x = p.x) ∧
      q.distance e ≤ p.distance e + 1 ∧ p.distance e ≤ q.distance e + 1 := by
  obtain ⟨px, py⟩ := p
  obtain ⟨qx, qy⟩ := q
  obtain ⟨ex, ey⟩ := e
  simp only [Adjacent, CoordinatePair.distance, CoordinatePair.x, CoordinatePair.y,
    CoordinatePair.mk.injEq] at h ⊢
  omega

theorem distance_triangle (a b c : CoordinatePair) :
    a.distance c ≤ b.distance a + b.distance c := by
  obtain ⟨ax, ay⟩ := a
  obtain ⟨bx, b_y⟩ := b
  obtain ⟨cx, cy⟩ := c
  simp only [CoordinatePair.distance, CoordinatePair.x, CoordinatePair.y]
  omega

/-- A cell reachable at minute `t` is at distance at most `t` from the start. -/
theorem GameBoard.reach_distance (g : GameBoard) (init : BlizzardMap) (t : Nat)
    (q : CoordinatePair) (h : g.Reach init t q) : q.distance g._start ≤ (t : Int) := by
  induction h with
  | start =>
    simp only [CoordinatePair.distance, CoordinatePair.x, CoordinatePair.y]
    omega
  | step t p q _ hstep _ ih =>
    have := (step_changes_coordinates_by_one p q g._start hstep).2.2.2.1
    push_cast
    omega

/-- Along a walk the row grows by at most one per step. -/
theorem walk_row_bound (p : Nat → CoordinatePair) (t : Nat)
    (hstep : ∀ i, i < t → (p (i + 1) = p i ∨ Adjacent (p i) (p (i + 1)))) (i : Nat) :
    ∀ n, i + n ≤ t → (p (i + n)).y ≤ (p i).y + (n : Int) := by
  intro n
  induction n with
  | zero => intro _; simp
  | succ n ih =>
    intro hle
    have h1 := ih (by omega)
    have h2 := (step_changes_coordinates_by_one (p (i + n)) (p (i + n + 1)) (p 0)
      (hstep (i + n) (by omega))).1
    have e : i + (n + 1) = i + n + 1 := by omega
    rw [e]
    push_cast
    omega

/-- C15 (scenario, forced wait).  For every validated grid whose goal opening is
directly below the start opening and in which some obstacle occupies the cell directly
below the start at minute 1, every result of `breadthFirstSearch` other than `-1` is
strictly greater than `H - 1`, the Manhattan distance between start and goal. -/
theorem bfs_result_exceeds_distance_when_column_blocked_at_minute_one
    (sortBy : (State → State → Bool) → List State → List State) (lines : List String) (r : Int)
    (hsort : SortContract sortBy) (hv : ValidGrid lines)
    (hcol : (GameBoard.parse lines)._start.x = (GameBoard.parse lines)._end.x)
    (hocc : ∃ m g2, (GameBoard.parse lines).getBlizzardsByMinute 1 = some (m, g2) ∧
      m.Occupied ⟨(GameBoard.parse lines)._start.x, 1⟩)
    (hres : (GameBoard.parse lines).searchValue sortBy = some r)
    (hne : r ≠ -1) :
    (GameBoard.parse lines)._height - 1 < r ∧
      (GameBoard.parse lines)._start.distance (GameBoard.parse lines)._end
        = (GameBoard.parse lines)._height - 1 := by
  have hok := GameBoard.parse_cacheOK lines
  obtain ⟨hW, hH, hs1, hs2, hs3, he1, he2, he3, -⟩ := GameBoard.parse_borderWalls lines hv
  have hdist : (GameBoard.parse lines)._start.distance (GameBoard.parse lines)._end
      = (GameBoard.parse lines)._height - 1 := by
    simp only [CoordinatePair.distance]
    omega
  refine ⟨?_, hdist⟩
  obtain ⟨r2, hr, hcase⟩ := GameBoard.searchValue_spec sortBy hsort lines
  rw [hres] at hr
  have hrr : r = r2 := Option.some.inj hr
  subst hrr
  rcases hcase with ⟨h, -⟩ | ⟨j, hj0, -, hrj, hhit, -⟩
  · exact absurd h hne
  · have hreach := GameBoard.hits_sound sortBy hsort _ _ hok j hhit
    obtain ⟨p, h0, hj, hsteps⟩ := (GameBoard.reach_iff_walk _ _ hok j _).1 hreach
    have hstep : ∀ i, i < j → (p (i + 1) = p i ∨ Adjacent (p i) (p (i + 1))) :=
      fun i hi => (hsteps i hi).1
    have hb0 := walk_row_bound p j hstep 0 j (by omega)
    rw [Nat.zero_add, hj, h0] at hb0
    rw [hrj]
    by_contra hle
    have hjeq : (j : Int) = (GameBoard.parse lines)._height - 1 := by omega
    have hj2 : 2 ≤ j := by omega
    have hb1 := walk_row_bound p j hstep 0 1 (by omega)
    have hb2 := walk_row_bound p j hstep 1 (j - 1) (by omega)
    have e1 : 1 + (j - 1) = j := by omega
    rw [e1, hj] at hb2
    rw [h0] at hb1
    have hcast : ((j - 1 : Nat) : Int) = (j : Int) - 1 := by omega
    rw [hcast] at hb2
    have hy : (p (0 + 1)).y = 1 := by
      have e2 : (0 : Nat) + 1 = 1 := rfl
      rw [e2]
      push_cast at hb1
      omega
    have hx := (step_changes_coordinates_by_one (p 0) (p (0 + 1)) (p 0) (hstep 0 hj0)).2.2.1
    rw [h0] at hx
    have hx2 : (p (0 + 1)).x = (GameBoard.parse lines)._start.x := hx (by rw [hy, hs1]; rfl)
    have hp1 : p (0 + 1) = ⟨(GameBoard.parse lines)._start.x, 1⟩ := by
      generalize p (0 + 1) = q at hx2 hy
      obtain ⟨qx, qy⟩ := q
      simp only [CoordinatePair.x, CoordinatePair.y] at hx2 hy
      rw [hx2, hy]
      rfl
    obtain ⟨-, -, -, -, -, m, g2, hget, hfree⟩ := (hsteps 0 hj0).2
    obtain ⟨m2, g3, hget2, hocc2⟩ := hocc
    rw [hget2] at hget
    simp only [Option.some.injEq, Prod.mk.injEq] at hget
    rw [hp1, ← hget.1] at hfree
    exact hfree hocc2

theorem bfs_result_exceeds_distance_when_column_blocked_at_minute_one_witness :
    (GameBoard.parse ["##.###", "#>...#", "#....#", "#....#", "#....#", "##.###"])._height - 1
        < (6 : Int) ∧
      (GameBoard.parse ["##.###", "#>...#", "#....#", "#....#", "#....#", "##.###"])._start.distance
          (GameBoard.parse ["##.###", "#>...#", "#....#", "#....#", "#....#", "##.###"])._end
        = (GameBoard.parse ["##.###", "#>...#", "#....#", "#....#", "#....#", "##.###"])._height
          - 1 :=
  bfs_result_exceeds_distance_when_column_blocked_at_minute_one stableSortBy
    ["##.###", "#>...#", "#....#", "#....#", "#....#", "##.###"] 6 stableSortBy_contract
    (by decide) (by decide) ⟨_, _, rfl, by decide⟩ (by decide) (by decide)

/-! ## The straight way down survives the trim step -/

theorem stableSortBy_orders : SortOrders stableSortBy := by
  intro key l
  unfold stableSortBy
  haveI : IsTotal State (fun a b => decide (key b < key a) = false) :=
    ⟨fun a b => by
      simp only [decide_eq_false_iff_not, not_lt]
      exact le_total (key a) (key b)⟩
  haveI : IsTrans State (fun a b => decide (key b < key a) = false) :=
    ⟨fun a b c => by
      simp only [decide_eq_false_iff_not, not_lt]
      exact le_trans⟩
  have h := List.sorted_insertionSort (fun a b => decide (key b < key a) = false) l
  refine List.Pairwise.imp ?_ h
  intro a b hab
  simpa using hab

/-- The trim step keeps a state of the least score. -/
theorem GameBoard.trim_keeps_best (sortBy : (State → State → Bool) → List State → List State)
    (hsort : SortContract sortBy) (hord : SortOrders sortBy) (K : Nat) (hK : 1 ≤ K)
    (g : GameBoard) (next : List State) (best : State) (hmem : best ∈ next)
    (hmin : ∀ s ∈ next, best.score g._end ≤ s.score g._end) :
    ∃ h ∈ g.trim sortBy K next, h.score g._end = best.score g._end := by
  unfold GameBoard.trim
  split
  · have hperm := hsort (fun a b => decide (a.score g._end < b.score g._end)) next
    have hpair := hord (fun a => a.score g._end) next
    have hbest := hperm.symm.subset hmem
    generalize sortBy (fun a b => decide (a.score g._end < b.score g._end)) next = sorted
      at hperm hpair hbest
    cases sorted with
    | nil => exact absurd hbest (List.not_mem_nil _)
    | cons h tl =>
      refine ⟨h, ?_, ?_⟩
      · obtain ⟨K2, rfl⟩ : ∃ K2, K = K2 + 1 := ⟨K - 1, by omega⟩
        simp [List.take_succ_cons]
      · have h1 := hmin h (hperm.subset (List.mem_cons_self _ _))
        have h2 : h.score g._end ≤ best.score g._end := by
          rcases List.mem_cons.1 hbest with hb | hb
          · rw [hb]
          · exact (List.pairwise_cons.1 hpair).1 best hb
        omega
  · exact ⟨best, hmem, rfl⟩

/-! ## Obstacles that leave through an opening -/

theorem GameBoard.moveN_up_in_start_column (g : GameBoard) (hb : g.BorderWalls) (b0 : Blizzard)
    (hi : g.InInterior b0._coord) (hd : b0._direction = Direction.Up)
    (hx : b0.x = g._start.x) (t : Nat) :
    g.moveN b0 t = ⟨⟨b0.x, b0.y - (t : Int)⟩, Direction.Up⟩ := by
  obtain ⟨hW, hH, hs1, hs2, hs3, he1, he2, he3, hwalls⟩ := hb
  obtain ⟨h1, h2, h3, h4⟩ := hi
  induction t with
  | zero =>
    obtain ⟨⟨bx, b_y⟩, d⟩ := b0
    simp only at hd
    subst hd
    simp [GameBoard.moveN, Blizzard.x, Blizzard.y, CoordinatePair.x, CoordinatePair.y]
  | succ t ih =>
    show (g.moveN b0 t).move g._height g._width g._walls = _
    rw [ih]
    have hnw : (Blizzard.mk ⟨b0.x, b0.y - (t : Int)⟩ Direction.Up).ahead ∉ g._walls := by
      rw [hwalls]
      simp only [Blizzard.ahead, directionToForceVector, CoordinatePair.add,
        coordinatePair_ne_iff, CoordinatePair.x, CoordinatePair.y, Blizzard.x, Blizzard.y] at *
      omega
    rw [Blizzard.move_of_not_wall _ _ _ _ hnw]
    simp only [Blizzard.ahead, directionToForceVector, CoordinatePair.add, Blizzard.mk.injEq,
      CoordinatePair.mk.injEq, and_true]
    constructor
    · omega
    · push_cast; omega

theorem GameBoard.moveN_down_in_goal_column (g : GameBoard) (hb : g.BorderWalls)
    (b0 : Blizzard) (hi : g.InInterior b0._coord) (hd : b0._direction = Direction.Down)
    (hx : b0.x = g._end.x) (t : Nat) :
    g.moveN b0 t = ⟨⟨b0.x, b0.y + (t : Int)⟩, Direction.Down⟩ := by
  obtain ⟨hW, hH, hs1, hs2, hs3, he1, he2, he3, hwalls⟩ := hb
  obtain ⟨h1, h2, h3, h4⟩ := hi
  induction t with
  | zero =>
    obtain ⟨⟨bx, b_y⟩, d⟩ := b0
    simp only at hd
    subst hd
    simp [GameBoard.moveN, Blizzard.x, Blizzard.y, CoordinatePair.x, CoordinatePair.y]
  | succ t ih =>
    show (g.moveN b0 t).move g._height g._width g._walls = _
    rw [ih]
    have hnw : (Blizzard.mk ⟨b0.x, b0.y + (t : Int)⟩ Direction.Down).ahead ∉ g._walls := by
      rw [hwalls]
      simp only [Blizzard.ahead, directionToForceVector, CoordinatePair.add,
        coordinatePair_ne_iff, CoordinatePair.x, CoordinatePair.y, Blizzard.x, Blizzard.y] at *
      omega
    rw [Blizzard.move_of_not_wall _ _ _ _ hnw]
    simp only [Blizzard.ahead, directionToForceVector, CoordinatePair.add, Blizzard.mk.injEq,
      CoordinatePair.mk.injEq, and_true]
    constructor
    · omega
    · push_cast; omega

/-- From minute `H - 1` on no obstacle that started in the interior is on the goal. -/
theorem GameBoard.moveN_off_goal (g : GameBoard) (hb : g.BorderWalls) (b0 : Blizzard)
    (hi : g.InInterior b0._coord) (t : Nat) (ht : g._height - 1 ≤ (t : Int)) :
    (g.moveN b0 t)._coord ≠ g._end := by
  have hb2 := hb
  obtain ⟨hW, hH, hs1, hs2, hs3, he1, he2, he3, -⟩ := hb2
  have hi2 := hi
  obtain ⟨h1, h2, h3, h4⟩ := hi2
  rw [coordinatePair_ne_iff]
  by_cases hesc : g.Escapes b0
  · rcases hesc with ⟨hd, hx⟩ | ⟨hd, hx⟩
    · rw [GameBoard.moveN_up_in_start_column g hb b0 hi hd hx t]
      simp only [CoordinatePair.x, CoordinatePair.y, Blizzard.y] at *
      omega
    · rw [GameBoard.moveN_down_in_goal_column g hb b0 hi hd hx t]
      simp only [CoordinatePair.x, CoordinatePair.y, Blizzard.y] at *
      omega
  · obtain ⟨hc, -⟩ := GameBoard.moveN_closedForm g hb b0 hi hesc t
    have hint := GameBoard.closedFormPosition_interior g hW hH b0 t
    rw [← hc] at hint
    obtain ⟨-, -, -, h8⟩ := hint
    simp only [CoordinatePair.x, CoordinatePair.y] at *
    omega

/-- When start and goal are in one column and every cell `(c, k)` of that column is
valid at minute `k`, the frontier of minute `k` holds the state of cell `(c, k)`, trim
step or not. -/
theorem GameBoard.column_state_in_frontier
    (sortBy : (State → State → Bool) → List State → List State)
    (hsort : SortContract sortBy) (hord : SortOrders sortBy)
    (g : GameBoard) (init : BlizzardMap) (hok : g.CacheOK init)
    (hs1 : g._start.y = 0) (he1 : g._end.y = g._height - 1) (hcol : g._start.x = g._end.x)
    (hvalid : ∀ k : Nat, 1 ≤ k → (k : Int) ≤ g._height - 1 →
      g.isValidPlayerPosition ⟨g._start.x, (k : Int)⟩ (g.snapshot init k) = true)
    (k : Nat) :
    (k : Int) ≤ g._height - 1 →
      g.stateAt init k ⟨g._start.x, (k : Int)⟩ ∈ g.frontier sortBy k := by
  induction k with
  | zero =>
    intro _
    have hls : g.loopStateAt sortBy 0
        = some ([State.mk 0 g._start g._walls init 0], [], g) := by
      simp only [GameBoard.loopStateAt, hok.1]
    rw [GameBoard.frontier_eq sortBy g 0 _ hls]
    have hst : (⟨g._start.x, ((0 : Nat) : Int)⟩ : CoordinatePair) = g._start := by
      have := hs1
      generalize g._start = q at this ⊢
      obtain ⟨qx, qy⟩ := q
      simp only [CoordinatePair.x, CoordinatePair.y] at this ⊢
      rw [this]; rfl
    rw [hst]
    exact List.mem_singleton.2 rfl
  | succ k ih =>
    intro hle
    have hk : (k : Int) ≤ g._height - 1 := by push_cast at hle; omega
    have hin := ih hk
    obtain ⟨states, visited, cache, next, visited2, cache2, hls, -, hls2, hsound, -, hnext,
      -⟩ := GameBoard.loopStateAt_step sortBy hsort g init hok k
    rw [GameBoard.frontier_eq sortBy g k _ hls] at hin
    rw [GameBoard.frontier_eq sortBy g (k + 1) _ hls2]
    have hc : ((k + 1 : Nat) : Int) = (k : Int) + 1 := by push_cast; rfl
    have hform : ∀ s ∈ next, ∃ q, s = g.stateAt init (k + 1) q ∧ g.Reach init (k + 1) q := by
      intro s hs
      obtain ⟨s0, hs0, hsucc⟩ := (hnext s).1 hs
      obtain ⟨p, hp, hr⟩ := hsound s0 hs0
      rw [hp] at hsucc
      exact GameBoard.reach_of_isSuccessor g init k p s hr hsucc
    have hbest : g.stateAt init (k + 1) ⟨g._start.x, ((k + 1 : Nat) : Int)⟩ ∈ next := by
      refine (hnext _).2 ⟨_, hin, ⟨g._start.x, ((k + 1 : Nat) : Int)⟩, Or.inr ?_,
        hvalid (k + 1) (by omega) hle, rfl⟩
      show Adjacent (⟨g._start.x, (k : Int)⟩ : CoordinatePair)
        ⟨g._start.x, ((k + 1 : Nat) : Int)⟩
      exact Or.inl ⟨rfl, Or.inr hc⟩
    have hdist : ∀ q : CoordinatePair, g.Reach init (k + 1) q →
        (g._height - 1 - ((k : Int) + 1) ≤ q.distance g._end) ∧
        (q.distance g._end = g._height - 1 - ((k : Int) + 1) →
          q = ⟨g._start.x, ((k + 1 : Nat) : Int)⟩) := by
      intro q hq
      have h1 := GameBoard.reach_distance g init (k + 1) q hq
      obtain ⟨qx, qy⟩ := q
      simp only [CoordinatePair.distance, CoordinatePair.x, CoordinatePair.y,
        CoordinatePair.mk.injEq, hc] at h1 hs1 he1 hcol hle ⊢
      omega
    have hscore : (g.stateAt init (k + 1) ⟨g._start.x, ((k + 1 : Nat) : Int)⟩).score g._end
        = g._height - 1 - ((k : Int) + 1) := by
      simp only [State.score, GameBoard.stateAt, CoordinatePair.distance, CoordinatePair.x,
        CoordinatePair.y, hc] at hs1 he1 hcol hle ⊢
      omega
    have hmin : ∀ s ∈ next,
        (g.stateAt init (k + 1) ⟨g._start.x, ((k + 1 : Nat) : Int)⟩).score g._end
          ≤ s.score g._end := by
      intro s hs
      obtain ⟨q, hq, hr⟩ := hform s hs
      rw [hscore, hq]
      exact (hdist q hr).1
    obtain ⟨h, hh, hhs⟩ := GameBoard.trim_keeps_best sortBy hsort hord sizeLimit (by decide)
      (g.withCache cache2) next _ hbest hmin
    obtain ⟨q, hq, hr⟩ := hform h (GameBoard.mem_trim sortBy hsort _ _ _ _ hh)
    have hq2 : q = ⟨g._start.x, ((k + 1 : Nat) : Int)⟩ := by
      apply (hdist q hr).2
      have e : (g.withCache cache2)._end = g._end := rfl
      rw [e, hscore, hq] at hhs
      exact hhs
    rw [hq, hq2] at hh
    exact hh

/-- From minute `H - 1` on the goal of a validated grid is not occupied. -/
theorem GameBoard.goal_free_from_arrival (lines : List String) (hv : ValidGrid lines)
    (t : Nat) (ht : (GameBoard.parse lines)._height - 1 ≤ (t : Int)) :
    ((GameBoard.parse lines).snapshot (GameBoard.parse lines).initial t).contains
      (GameBoard.parse lines)._end = false := by
  have hb := GameBoard.parse_borderWalls lines hv
  cases hc : ((GameBoard.parse lines).snapshot (GameBoard.parse lines).initial t).contains
      (GameBoard.parse lines)._end with
  | false => rfl
  | true =>
    have hsets := GameBoard.setsNonempty_snapshot (GameBoard.parse lines) _
      (GameBoard.parse_initial_setsNonempty lines) t
    obtain ⟨b, hb2⟩ := (BlizzardMap.occupied_iff_holds _ _).1
      ((blizzardMap_contains_iff_occupied _ hsets _).1 hc)
    obtain ⟨b0, h0, hbe, hk⟩ :=
      (GameBoard.holds_snapshot_iff _ _ (GameBoard.parse_key_eq_coord lines) t _ b).1 hb2
    have hoff := GameBoard.moveN_off_goal _ hb b0
      (GameBoard.parse_initial_interior lines hv _ _ h0).2 t ht
    rw [← hbe, ← hk] at hoff
    exact absurd rfl hoff

/-- C14, as it holds on the code (scenario, no waiting needed).  For every validated
grid whose goal opening is directly below the start opening in a column `c` that is
not a corner column (`1 ≤ c ≤ W-2`) and in which no obstacle occupies cell `(c, k)` at
minute `k` for any `k` in `1 .. H-2`, `breadthFirstSearch` returns `H - 1`, the
Manhattan distance between start and goal. -/
theorem bfs_returns_distance_when_column_is_free
    (sortBy : (State → State → Bool) → List State → List State) (lines : List String)
    (hsort : SortContract sortBy) (hord : SortOrders sortBy) (hv : ValidGrid lines)
    (hcol : (GameBoard.parse lines)._start.x = (GameBoard.parse lines)._end.x)
    (hinner : 1 ≤ (GameBoard.parse lines)._start.x ∧
      (GameBoard.parse lines)._start.x ≤ (GameBoard.parse lines)._width - 2)
    (hfree : ∀ k : Nat, 1 ≤ k → (k : Int) ≤ (GameBoard.parse lines)._height - 2 →
      ∃ m g2, (GameBoard.parse lines).getBlizzardsByMinute k = some (m, g2) ∧
        ¬ m.Occupied ⟨(GameBoard.parse lines)._start.x, (k : Int)⟩) :
    (GameBoard.parse lines).searchValue sortBy = some ((GameBoard.parse lines)._height - 1) ∧
      (GameBoard.parse lines)._start.distance (GameBoard.parse lines)._end
        = (GameBoard.parse lines)._height - 1 := by
  have hok := GameBoard.parse_cacheOK lines
  have hb := GameBoard.parse_borderWalls lines hv
  obtain ⟨hW, hH, hs1, hs2, hs3, he1, he2, he3, hwalls⟩ := hb
  have hdist : (GameBoard.parse lines)._start.distance (GameBoard.parse lines)._end
      = (GameBoard.parse lines)._height - 1 := by
    simp only [CoordinatePair.distance]
    omega
  refine ⟨?_, hdist⟩
  have hvalid : ∀ k : Nat, 1 ≤ k → (k : Int) ≤ (GameBoard.parse lines)._height - 1 →
      (GameBoard.parse lines).isValidPlayerPosition ⟨(GameBoard.parse lines)._start.x, (k : Int)⟩
        ((GameBoard.parse lines).snapshot (GameBoard.parse lines).initial k) = true := by
    intro k hk1 hk2
    rw [GameBoard.isValidPlayerPosition_iff]
    by_cases hlast : (k : Int) = (GameBoard.parse lines)._height - 1
    · have hcell : (⟨(GameBoard.parse lines)._start.x, (k : Int)⟩ : CoordinatePair)
          = (GameBoard.parse lines)._end := by
        have h1 := he1
        have h2 := hcol
        generalize (GameBoard.parse lines)._end = q at h1 h2 ⊢
        obtain ⟨qx, qy⟩ := q
        simp only [CoordinatePair.x, CoordinatePair.y] at h1 h2 ⊢
        rw [h2, hlast, h1]
      rw [hcell]
      refine ⟨⟨he2, he3, by omega, by omega, ?_⟩,
        GameBoard.goal_free_from_arrival lines hv k (by omega)⟩
      rw [hwalls]
      intro hcon
      exact hcon.2.2.2.2.2.2 rfl
    · have hk3 : (k : Int) ≤ (GameBoard.parse lines)._height - 2 := by omega
      obtain ⟨m, g2, hget, hnocc⟩ := hfree k hk1 hk3
      obtain ⟨c, hget2, -⟩ := GameBoard.getBlizzardsByMinute_spec _ _ hok k
      rw [hget2] at hget
      simp only [Option.some.injEq, Prod.mk.injEq] at hget
      rw [← hget.1] at hnocc
      have hsets := GameBoard.setsNonempty_snapshot (GameBoard.parse lines) _
        (GameBoard.parse_initial_setsNonempty lines) k
      refine ⟨⟨?_, ?_, ?_, ?_, ?_⟩, ?_⟩
      · show (0 : Int) ≤ (GameBoard.parse lines)._start.x
        omega
      · show (GameBoard.parse lines)._start.x ≤ (GameBoard.parse lines)._width - 1
        omega
      · show (0 : Int) ≤ (k : Int)
        omega
      · show (k : Int) ≤ (GameBoard.parse lines)._height - 1
        omega
      · rw [hwalls]
        simp only [CoordinatePair.x, CoordinatePair.y]
        simp only [CoordinatePair.x] at hinner
        omega
      · cases hcon : ((GameBoard.parse lines).snapshot (GameBoard.parse lines).initial
            k).contains ⟨(GameBoard.parse lines)._start.x, (k : Int)⟩ with
        | false => rfl
        | true => exact absurd ((blizzardMap_contains_iff_occupied _ hsets _).1 hcon) hnocc
  obtain ⟨n, hn⟩ : ∃ n : Nat, (n : Int) = (GameBoard.parse lines)._height - 1 :=
    ⟨((GameBoard.parse lines)._height - 1).toNat, by omega⟩
  have hcolumn := GameBoard.column_state_in_frontier sortBy hsort hord _ _ hok hs1 he1 hcol
    hvalid n (by omega)
  have hhitn : (GameBoard.parse lines).Hits sortBy n := by
    refine ⟨_, hcolumn, ?_⟩
    show (⟨(GameBoard.parse lines)._start.x, (n : Int)⟩ : CoordinatePair)
      = (GameBoard.parse lines)._end
    have h1 := he1
    have h2 := hcol
    generalize (GameBoard.parse lines)._end = q at h1 h2 ⊢
    obtain ⟨qx, qy⟩ := q
    simp only [CoordinatePair.x, CoordinatePair.y] at h1 h2 ⊢
    rw [h2, hn, h1]
  have hlim : n ≤ (GameBoard.parse lines).getSearchMinuteLimit := by
    have h1 := GameBoard.parse_limit lines
    have h2 : 3 * (GameBoard.parse lines)._height
        ≤ (GameBoard.parse lines)._width * (GameBoard.parse lines)._height :=
      Int.mul_le_mul_of_nonneg_right hW (by omega)
    have h3 : 5 * (GameBoard.parse lines)._width * (GameBoard.parse lines)._height
        = 5 * ((GameBoard.parse lines)._width * (GameBoard.parse lines)._height) := by ring
    omega
  obtain ⟨r, hr, hcase⟩ := GameBoard.searchValue_spec sortBy hsort lines
  rcases hcase with ⟨-, hnone⟩ | ⟨j, hj0, -, hrj, hhit, hfirst⟩
  · exact absurd hhitn (hnone n (by omega) hlim)
  · have hjn : j ≤ n := by
      by_contra hgt
      exact hfirst n (by omega) (by omega) hhitn
    have hreach := GameBoard.hits_sound sortBy hsort _ _ hok j hhit
    have hd := GameBoard.reach_distance _ _ j _ hreach
    have hd2 : (GameBoard.parse lines)._end.distance (GameBoard.parse lines)._start
        = (GameBoard.parse lines)._height - 1 := by
      simp only [CoordinatePair.distance]
      omega
    rw [hr, hrj]
    congr 1
    omega

/-- Counterexample to C14 as stated: in the validated grid whose two openings are the
left corners, the goal is directly below the start in column 0 and no obstacle exists,
yet `breadthFirstSearch` returns `-1`, not `H - 1 = 2`: the corner cell has walls on
both sides inside the grid. -/
theorem bfs_fails_when_openings_are_corners :
    ValidGrid [".##", "#.#", ".##"] ∧
      (GameBoard.parse [".##", "#.#", ".##"])._start = ⟨0, 0⟩ ∧
      (GameBoard.parse [".##", "#.#", ".##"])._end = ⟨0, 2⟩ ∧
      (GameBoard.parse [".##", "#.#", ".##"])._height - 1 = 2 ∧
      (GameBoard.parse [".##", "#.#", ".##"]).initial = [] ∧
      (∃ m g2, (GameBoard.parse [".##", "#.#", ".##"]).getBlizzardsByMinute 1 = some (m, g2) ∧
        ¬ m.Occupied ⟨0, 1⟩) ∧
      (GameBoard.parse [".##", "#.#", ".##"]).searchValue stableSortBy = some (-1) :=
  ⟨by decide, by decide, by decide, by decide, by decide, ⟨_, _, rfl, by decide⟩, by decide⟩

theorem bfs_returns_distance_when_column_is_free_witness :
    (GameBoard.parse ["#.####", "#>...#", "#....#", "#....#", "#....#", "#.####"]).searchValue
        stableSortBy
        = some ((GameBoard.parse
            ["#.####", "#>...#", "#....#", "#....#", "#....#", "#.####"])._height - 1) ∧
      (GameBoard.parse ["#.####", "#>...#", "#....#", "#....#", "#....#", "#.####"])._start.distance
          (GameBoard.parse ["#.####", "#>...#", "#....#", "#....#", "#....#", "#.####"])._end
        = (GameBoard.parse ["#.####", "#>...#", "#....#", "#....#", "#....#", "#.####"])._height
          - 1 :=
  bfs_returns_distance_when_column_is_free stableSortBy
    ["#.####", "#>...#", "#....#", "#....#", "#....#", "#.####"]
    stableSortBy_contract stableSortBy_orders (by decide) (by decide) (by decide)
    (by
      intro k h1 h2
      have h3 : (GameBoard.parse
          ["#.####", "#>...#", "#....#", "#....#", "#....#", "#.####"])._height = 6 := by
        decide
      rw [h3] at h2
      have hk : k = 1 ∨ k = 2 ∨ k = 3 ∨ k = 4 := by omega
      rcases hk with rfl | rfl | rfl | rfl
      · exact ⟨_, _, rfl, by decide⟩
      · exact ⟨_, _, rfl, by decide⟩
      · exact ⟨_, _, rfl, by decide⟩
      · exact ⟨_, _, rfl, by decide⟩)

/-! ## The states that one layer expands -/

theorem GameBoard.expandState_append (g : GameBoard) (state : State) (nb : BlizzardMap)
    (next : List State) :
    g.expandState state nb next = next ++ g.expandState state nb [] := by
  simp only [GameBoard.expandState, allDirections, List.foldl_cons, List.foldl_nil]
  split_ifs <;> simp

theorem GameBoard.expandState_length (g : GameBoard) (state : State) (nb : BlizzardMap) :
    (g.expandState state nb []).length ≤ 5 := by
  simp only [GameBoard.expandState, allDirections, List.foldl_cons, List.foldl_nil]
  split_ifs <;> simp

theorem GameBoard.expandState_withCache (g : GameBoard) (cache : SnapshotCache) (state : State)
    (nb : BlizzardMap) (next : List State) :
    (g.withCache cache).expandState state nb next = g.expandState state nb next := rfl

/-- The loop over `states`, with the list `expanded` of the states whose successors it
generates: these are the states appended to `visited`, in this order, and `next`
receives their successors and nothing else.  No expanded state equals a state visited
before or another expanded state. -/
theorem GameBoard.expandLayer_trace (g : GameBoard) (init : BlizzardMap) (states : List State) :
    ∀ (cache : SnapshotCache) (next visited : List State),
    (g.withCache cache).CacheOK init →
    ∃ expanded next2 visited2 cache2,
      GameBoard.expandLayer states (g.withCache cache) next visited
        = some (next2, visited2, g.withCache cache2) ∧
      (g.withCache cache2).CacheOK init ∧
      visited2 = visited ++ expanded ∧
      next2 = next ++ expanded.flatMap
        (fun s => g.expandState s (g.snapshot init (s.minute + 1)) []) ∧
      expanded.Sublist states ∧
      (∀ e ∈ expanded, ∀ v ∈ visited, v.eqOp e = false) ∧
      expanded.Pairwise (fun a b => a.eqOp b = false) := by
  induction states with
  | nil =>
    intro cache next visited hok
    exact ⟨[], next, visited, cache, rfl, hok, by simp, by simp, List.Sublist.refl _,
      fun e he => absurd he (List.not_mem_nil _), List.Pairwise.nil⟩
  | cons s0 rest ih =>
    intro cache next visited hok
    by_cases hvis : visited.any (fun v => v.eqOp s0) = true
    · obtain ⟨expanded, next2, visited2, cache2, h1, h2, h3, h4, h5, h6, h7⟩ :=
        ih cache next visited hok
      refine ⟨expanded, next2, visited2, cache2, ?_, h2, h3, h4, List.Sublist.cons _ h5, h6, h7⟩
      simp only [GameBoard.expandLayer, hvis, if_true, h1]
    · obtain ⟨c1, hget, hok1⟩ :=
        GameBoard.getBlizzardsByMinute_spec (g.withCache cache) init hok (s0.minute + 1)
      rw [GameBoard.withCache_withCache] at hget hok1
      rw [GameBoard.snapshot_withCache] at hget
      obtain ⟨expanded, next2, visited2, cache2, h1, h2, h3, h4, h5, h6, h7⟩ :=
        ih c1 ((g.withCache c1).expandState s0 (g.snapshot init (s0.minute + 1)) next)
          (visited ++ [s0]) hok1
      have hnv : ∀ v ∈ visited, v.eqOp s0 = false := by
        intro v hv
        cases hveq : v.eqOp s0 with
        | false => rfl
        | true => exact absurd (List.any_eq_true.2 ⟨v, hv, hveq⟩) hvis
      refine ⟨s0 :: expanded, next2, visited2, cache2, ?_, h2, ?_, ?_, List.Sublist.cons₂ _ h5,
        ?_, ?_⟩
      · simp only [GameBoard.expandLayer, hvis, hget, h1]
        simp
      · rw [h3]; simp
      · rw [h4, GameBoard.expandState_withCache, GameBoard.expandState_append g s0 _ next]
        simp
      · intro e he v hv
        rcases List.mem_cons.1 he with he | he
        · rw [he]; exact hnv v hv
        · exact h6 e he v (List.mem_append_left _ hv)
      · refine List.Pairwise.cons ?_ h7
        intro e he
        exact h6 e he s0 (List.mem_append_right _ (List.mem_singleton.2 rfl))

/-- In every iteration of the loop `visited` holds no two equal states. -/
theorem GameBoard.loopStateAt_visited_pairwise
    (sortBy : (State → State → Bool) → List State → List State)
    (hsort : SortContract sortBy) (g : GameBoard) (init : BlizzardMap) (hok : g.CacheOK init)
    (t : Nat) :
    ∀ r, g.loopStateAt sortBy t = some r → r.2.1.Pairwise (fun a b => a.eqOp b = false) := by
  induction t with
  | zero =>
    intro r hr
    simp only [GameBoard.loopStateAt, hok.1, Option.some.injEq] at hr
    rw [← hr]
    exact List.Pairwise.nil
  | succ t ih =>
    intro r hr
    obtain ⟨states, visited, cache, hls, hok1, -, -, -⟩ :=
      GameBoard.loopStateAt_spec sortBy hsort g init hok t
    obtain ⟨expanded, next2, visited2, cache2, h1, -, h3, -, -, h6, h7⟩ :=
      GameBoard.expandLayer_trace g init states cache [] visited hok1
    simp only [GameBoard.loopStateAt, hls, h1, Option.some.injEq] at hr
    rw [← hr]
    show visited2.Pairwise (fun a b => a.eqOp b = false)
    rw [h3]
    exact List.pairwise_append.2 ⟨ih _ hls, h7, fun v hv e he => h6 e he v hv⟩

/-- The states added to `next` by the loop over `states` are one minute later than a
state of `states`. -/
theorem GameBoard.expandLayer_minute (states : List State) :
    ∀ (g : GameBoard) (next visited : List State) (r : List State × List State × GameBoard),
    GameBoard.expandLayer states g next visited = some r →
      ∀ s2 ∈ r.1, s2 ∈ next ∨ ∃ s ∈ states, s2.minute = s.minute + 1 := by
  induction states with
  | nil =>
    intro g next visited r h
    simp only [GameBoard.expandLayer, Option.some.injEq] at h
    subst h
    exact fun s2 hs2 => Or.inl hs2
  | cons s0 rest ih =>
    intro g next visited r h
    by_cases hvis : visited.any (fun v => v.eqOp s0) = true
    · simp only [GameBoard.expandLayer, hvis, if_true] at h
      intro s2 hs2
      rcases ih g next visited r h s2 hs2 with h1 | ⟨s, hs, h1⟩
      · exact Or.inl h1
      · exact Or.inr ⟨s, List.mem_cons_of_mem _ hs, h1⟩
    · simp only [GameBoard.expandLayer, hvis] at h
      cases hget : g.getBlizzardsByMinute (s0.minute + 1) with
      | none => simp [hget] at h
      | some res =>
        obtain ⟨nb, g1⟩ := res
        simp only [hget] at h
        intro s2 hs2
        rcases ih g1 _ _ r h s2 hs2 with h1 | ⟨s, hs, h1⟩
        · rcases (GameBoard.mem_expandState g1 s0 nb next s2).1 h1 with h2 | ⟨p, -, -, h2⟩
          · exact Or.inl h2
          · exact Or.inr ⟨s0, List.mem_cons_self _ _, by rw [h2]; rfl⟩
        · exact Or.inr ⟨s, List.mem_cons_of_mem _ hs, h1⟩

/-! ## Claims about `visited` and the minute of a layer -/

/-- C21 (monotone visited growth).  In every iteration `t` of the loop of
`breadthFirstSearch` on a parsed board, the loop over the frontier only appends to
`visited`: the set after the layer is the set before it followed by the list `expanded`
of the states whose successors the iteration generated (`next` is exactly the list of
the successors of these states, each state taken from the frontier).  `visited` is empty
at the start of the search, so it lists every state expanded so far; it never holds two
states with the same position and minute, that is, no state is expanded more than
once. -/
theorem visited_only_grows_and_no_state_is_expanded_twice
    (sortBy : (State → State → Bool) → List State → List State) (lines : List String) (t : Nat)
    (hsort : SortContract sortBy) :
    ∃ states visited g1 next visited1 g2 expanded,
      (GameBoard.parse lines).loopStateAt sortBy t = some (states, visited, g1) ∧
      GameBoard.expandLayer states g1 [] visited = some (next, visited1, g2) ∧
      (t = 0 → visited = []) ∧
      visited1 = visited ++ expanded ∧
      (∀ v ∈ visited, v ∈ visited1) ∧
      expanded.Sublist states ∧
      next = expanded.flatMap (fun s => (GameBoard.parse lines).expandState s
        ((GameBoard.parse lines).snapshot (GameBoard.parse lines).initial (s.minute + 1)) []) ∧
      visited1.Pairwise
        (fun a b => ¬ (a.playerPosition = b.playerPosition ∧ a.minute = b.minute)) := by
  have hok := GameBoard.parse_cacheOK lines
  obtain ⟨states, visited, cache, hls, hok1, -, -, -⟩ :=
    GameBoard.loopStateAt_spec sortBy hsort _ _ hok t
  obtain ⟨expanded, next2, visited2, cache2, h1, -, h3, h4, h5, h6, h7⟩ :=
    GameBoard.expandLayer_trace _ _ states cache [] visited hok1
  have hpw := GameBoard.loopStateAt_visited_pairwise sortBy hsort _ _ hok t _ hls
  refine ⟨states, visited, _, next2, visited2, _, expanded, hls, h1, ?_, h3, ?_, h5, ?_, ?_⟩
  · intro ht
    subst ht
    simp only [GameBoard.loopStateAt, hok.1, Option.some.injEq, Prod.mk.injEq] at hls
    exact hls.2.1.symm
  · intro v hv
    rw [h3]
    exact List.mem_append_left _ hv
  · rw [h4]; rfl
  · rw [h3]
    have hall : (visited ++ expanded).Pairwise (fun a b => a.eqOp b = false) :=
      List.pairwise_append.2 ⟨hpw, h7, fun v hv e he => h6 e he v hv⟩
    refine hall.imp ?_
    intro a b hab hpm
    rw [(state_eqOp_iff a b).2 ⟨hpm.1, hpm.2⟩] at hab
    exact absurd hab (by decide)

/-- C22 (the layer index is the elapsed time).  At the start of iteration `m` of the
loop of `breadthFirstSearch` on a parsed board every state of the frontier has minute
`m`, every state placed in `next` has minute `m + 1`, the trimmed `next` is the
frontier of iteration `m + 1`, and when the goal is found in this iteration the loop
returns `m + 1`.  So every result other than `-1` is `m + 1` for the first iteration
`m` whose layer holds the goal. -/
theorem layer_index_is_elapsed_time
    (sortBy : (State → State → Bool) → List State → List State) (lines : List String) (m : Nat)
    (hsort : SortContract sortBy) :
    (∃ states visited g1 next visited1 g2,
      (GameBoard.parse lines).loopStateAt sortBy m = some (states, visited, g1) ∧
      GameBoard.expandLayer states g1 [] visited = some (next, visited1, g2) ∧
      (∀ s ∈ states, s.minute = m) ∧
      (∀ s ∈ next, s.minute = m + 1) ∧
      (GameBoard.parse lines).loopStateAt sortBy (m + 1)
        = some (g2.trim sortBy sizeLimit next, visited1, g2) ∧
      (∀ left found,
        (g2.trim sortBy sizeLimit next).find? (fun state => state.playerPosition.eqOp g2._end)
          = some found →
        GameBoard.searchLoop sortBy (left + 1) g1 states visited
          = some (((m + 1 : Nat) : Int), g2))) ∧
    (∀ r, (GameBoard.parse lines).searchValue sortBy = some r → r ≠ -1 →
      ∃ k, k < (GameBoard.parse lines).getSearchMinuteLimit ∧ r = ((k + 1 : Nat) : Int) ∧
        (GameBoard.parse lines).Hits sortBy (k + 1) ∧
        ∀ i, i < k → ¬ (GameBoard.parse lines).Hits sortBy (i + 1)) := by
  have hok := GameBoard.parse_cacheOK lines
  constructor
  · obtain ⟨states, visited, cache, next, visited2, cache2, hls, hexp, hls2, hsound, -, hnext, -⟩ :=
      GameBoard.loopStateAt_step sortBy hsort _ _ hok m
    have hmin : ∀ s ∈ next, s.minute = m + 1 := by
      intro s2 hs2
      obtain ⟨s, hs, p, -, -, hp⟩ := (hnext s2).1 hs2
      obtain ⟨q, hq, -⟩ := hsound s hs
      rw [hp, hq]; rfl
    refine ⟨states, visited, _, next, visited2, _, hls, hexp, ?_, hmin, hls2, ?_⟩
    · intro s hs
      obtain ⟨q, hq, -⟩ := hsound s hs
      rw [hq]; rfl
    · intro left found hfind
      have hmem := GameBoard.mem_trim sortBy hsort _ _ _ _ (List.mem_of_find?_eq_some hfind)
      simp only [GameBoard.searchLoop, hexp, hfind, hmin found hmem]
  · intro r hr hne
    obtain ⟨r2, hr2, hcase⟩ := GameBoard.searchValue_spec sortBy hsort lines
    rw [hr] at hr2
    have hrr : r = r2 := Option.some.inj hr2
    subst hrr
    rcases hcase with ⟨h1, -⟩ | ⟨j, h1, h2, h3, h4, h5⟩
    · exact absurd h1 hne
    · obtain ⟨k, rfl⟩ : ∃ k, j = k + 1 := ⟨j - 1, by omega⟩
      exact ⟨k, by omega, h3, h4, fun i hi => h5 (i + 1) (by omega) (by omega)⟩

theorem visited_only_grows_and_no_state_is_expanded_twice_witness :
    ∃ states visited g1 next visited1 g2 expanded,
      (GameBoard.parse ["#.#", "#.#", "#.#", "#.#"]).loopStateAt stableSortBy 2
        = some (states, visited, g1) ∧
      GameBoard.expandLayer states g1 [] visited = some (next, visited1, g2) ∧
      (2 = 0 → visited = []) ∧
      visited1 = visited ++ expanded ∧
      (∀ v ∈ visited, v ∈ visited1) ∧
      expanded.Sublist states ∧
      next = expanded.flatMap (fun s => (GameBoard.parse ["#.#", "#.#", "#.#", "#.#"]).expandState s
        ((GameBoard.parse ["#.#", "#.#", "#.#", "#.#"]).snapshot
          (GameBoard.parse ["#.#", "#.#", "#.#", "#.#"]).initial (s.minute + 1)) []) ∧
      visited1.Pairwise
        (fun a b => ¬ (a.playerPosition = b.playerPosition ∧ a.minute = b.minute)) :=
  visited_only_grows_and_no_state_is_expanded_twice stableSortBy ["#.#", "#.#", "#.#", "#.#"] 2
    stableSortBy_contract

theorem layer_index_is_elapsed_time_witness :
    (GameBoard.parse ["#.#", "#.#", "#.#"]).searchValue stableSortBy = some 2 ∧
    ∃ k, k < (GameBoard.parse ["#.#", "#.#", "#.#"]).getSearchMinuteLimit ∧
      (2 : Int) = ((k + 1 : Nat) : Int) ∧
      (GameBoard.parse ["#.#", "#.#", "#.#"]).Hits stableSortBy (k + 1) ∧
      ∀ i, i < k → ¬ (GameBoard.parse ["#.#", "#.#", "#.#"]).Hits stableSortBy (i + 1) :=
  ⟨by decide,
    (layer_index_is_elapsed_time stableSortBy ["#.#", "#.#", "#.#"] 1 stableSortBy_contract).2
      2 (by decide) (by decide)⟩

/-! ## The trim step, the goal test and the empty frontier -/

theorem GameBoard.searchLoopWithCap_sizeLimit
    (sortBy : (State → State → Bool) → List State → List State) (left : Nat) :
    ∀ (g : GameBoard) (states visited : List State),
      GameBoard.searchLoopWithCap sortBy sizeLimit left g states visited
        = GameBoard.searchLoop sortBy left g states visited := by
  induction left with
  | zero => intro g states visited; rfl
  | succ left ih =>
    intro g states visited
    simp only [GameBoard.searchLoopWithCap, GameBoard.searchLoop, ih]

theorem distance_eq_zero_iff (a b : CoordinatePair) : a.distance b = 0 ↔ a = b := by
  obtain ⟨ax, ay⟩ := a
  obtain ⟨bx, b_y⟩ := b
  simp only [CoordinatePair.distance, CoordinatePair.x, CoordinatePair.y,
    CoordinatePair.mk.injEq]
  omega

theorem distance_nonneg (a b : CoordinatePair) : 0 ≤ a.distance b := by
  simp only [CoordinatePair.distance]
  omega

/-- C23 (bounded-frontier pruning, the cap as a parameter `K`).  When `next` holds more
than `K` states, the trimmed `next` has exactly `K` states, it is a sub-multiset of
`next`, it and the discarded states together are a rearrangement of `next`, and no
retained state is farther from the goal than a discarded one.  When `next` holds at
most `K` states the trim step leaves it unchanged. -/
theorem trim_keeps_exactly_the_nearest_states
    (sortBy : (State → State → Bool) → List State → List State)
    (hsort : SortContract sortBy) (hord : SortOrders sortBy)
    (K : Nat) (g : GameBoard) (next : List State) :
    (K < next.length →
      (g.trim sortBy K next).length = K ∧
      (g.trim sortBy K next).Subperm next ∧
      ∃ discarded, (g.trim sortBy K next ++ discarded).Perm next ∧
        ∀ a ∈ g.trim sortBy K next, ∀ b ∈ discarded,
          a.playerPosition.distance g._end ≤ b.playerPosition.distance g._end) ∧
    (next.length ≤ K → g.trim sortBy K next = next) := by
  refine ⟨?_, GameBoard.trim_of_le sortBy K g next⟩
  intro hlen
  unfold GameBoard.trim
  rw [if_pos hlen]
  have hperm := hsort (fun a b => decide (a.score g._end < b.score g._end)) next
  have hpair := hord (fun a => a.score g._end) next
  generalize sortBy (fun a b => decide (a.score g._end < b.score g._end)) next = sorted
    at hperm hpair
  have hsplit : sorted.take K ++ sorted.drop K = sorted := List.take_append_drop K sorted
  refine ⟨?_, ?_, sorted.drop K, ?_, ?_⟩
  · rw [List.length_take, hperm.length_eq]
    omega
  · exact (List.take_sublist K sorted).subperm.trans hperm.subperm
  · rw [hsplit]; exact hperm
  · rw [← hsplit] at hpair
    exact (List.pairwise_append.1 hpair).2.2

/-- When the loop over the frontier has placed in `next` a state whose position is the
goal, the trimmed `next` still holds a state at the goal, for every cap `K ≥ 1`, and
the loop returns in this iteration the minute after that of its frontier states. -/
theorem GameBoard.goal_in_next_returns
    (sortBy : (State → State → Bool) → List State → List State)
    (hsort : SortContract sortBy) (hord : SortOrders sortBy)
    (K : Nat) (hK : 1 ≤ K) (g : GameBoard) (states visited : List State) (m left : Nat)
    (next visited1 : List State) (g1 : GameBoard)
    (hminute : ∀ s ∈ states, s.minute = m)
    (hexp : GameBoard.expandLayer states g [] visited = some (next, visited1, g1))
    (hgoal : ∃ s ∈ next, s.playerPosition = g1._end) :
    (∃ s ∈ g1.trim sortBy K next, s.playerPosition = g1._end) ∧
      GameBoard.searchLoopWithCap sortBy K (left + 1) g states visited
        = some (((m + 1 : Nat) : Int), g1) ∧
      (K = sizeLimit →
        GameBoard.searchLoop sortBy (left + 1) g states visited
          = some (((m + 1 : Nat) : Int), g1)) := by
  obtain ⟨s, hs, hsg⟩ := hgoal
  have hs0 : s.score g1._end = 0 := by
    unfold State.score
    exact (distance_eq_zero_iff _ _).2 hsg
  obtain ⟨h, hh, hh0⟩ := GameBoard.trim_keeps_best sortBy hsort hord K hK g1 next s hs
    (fun s2 _ => by rw [hs0]; exact distance_nonneg _ _)
  have hhg : h.playerPosition = g1._end := by
    rw [hs0] at hh0
    exact (distance_eq_zero_iff _ _).1 hh0
  have hloop : GameBoard.searchLoopWithCap sortBy K (left + 1) g states visited
      = some (((m + 1 : Nat) : Int), g1) := by
    cases hfind : (g1.trim sortBy K next).find?
        (fun state => state.playerPosition.eqOp g1._end) with
    | none =>
      have := List.find?_eq_none.1 hfind h hh
      rw [hhg] at this
      exact absurd ((coordinatePair_eqOp_iff _ _).2 rfl) this
    | some found =>
      have hmem := GameBoard.mem_trim sortBy hsort _ _ _ _ (List.mem_of_find?_eq_some hfind)
      have hmin : found.minute = m + 1 := by
        rcases GameBoard.expandLayer_minute states g [] visited _ hexp found hmem with
          h1 | ⟨s1, hs1, h1⟩
        · exact absurd h1 (List.not_mem_nil _)
        · rw [h1, hminute s1 hs1]
      simp only [GameBoard.searchLoopWithCap, hexp, hfind, hmin]
  refine ⟨⟨h, hh, hhg⟩, hloop, ?_⟩
  intro hKs
  rw [← GameBoard.searchLoopWithCap_sizeLimit, ← hKs]
  exact hloop

/-- C25 (an empty frontier means failure).  On a parsed board, when the loop reaches
minute `t` (no earlier layer holds the goal) and the frontier of minute `t` is empty,
every later frontier is empty and `breadthFirstSearch` returns `-1`. -/
theorem empty_frontier_stays_empty_and_search_fails
    (sortBy : (State → State → Bool) → List State → List State) (lines : List String) (t : Nat)
    (hsort : SortContract sortBy)
    (hreach : ∀ k, 1 ≤ k → k < t → ¬ (GameBoard.parse lines).Hits sortBy k)
    (hempty : (GameBoard.parse lines).frontier sortBy t = []) :
    (∀ t2, t ≤ t2 → (GameBoard.parse lines).frontier sortBy t2 = []) ∧
      (GameBoard.parse lines).searchValue sortBy = some (-1) := by
  have hok := GameBoard.parse_cacheOK lines
  have hlater : ∀ n, (GameBoard.parse lines).frontier sortBy (t + n) = [] := by
    intro n
    induction n with
    | zero => exact hempty
    | succ n ih =>
      obtain ⟨states, visited, cache, next, visited2, cache2, hls, -, hls2, -, -, hnext, -⟩ :=
        GameBoard.loopStateAt_step sortBy hsort _ _ hok (t + n)
      rw [GameBoard.frontier_eq sortBy _ _ _ hls] at ih
      simp only at ih
      have hnil : next = [] := by
        apply List.eq_nil_iff_forall_not_mem.2
        intro s2 hs2
        obtain ⟨s, hs, -⟩ := (hnext s2).1 hs2
        rw [ih] at hs
        exact absurd hs (List.not_mem_nil _)
      have hfr := GameBoard.frontier_eq sortBy _ _ _ hls2
      simp only at hfr
      rw [show t + (n + 1) = t + n + 1 from rfl, hfr, hnil]
      exact GameBoard.trim_of_le sortBy _ _ _ (Nat.zero_le _)
  have hall : ∀ t2, t ≤ t2 → (GameBoard.parse lines).frontier sortBy t2 = [] := by
    intro t2 ht2
    obtain ⟨n, rfl⟩ : ∃ n, t2 = t + n := ⟨t2 - t, by omega⟩
    exact hlater n
  refine ⟨hall, ?_⟩
  obtain ⟨r, hr, hcase⟩ := GameBoard.searchValue_spec sortBy hsort lines
  rcases hcase with ⟨h1, -⟩ | ⟨j, h1, -, -, ⟨s, hs, hsg⟩, h5⟩
  · rw [hr, h1]
  · by_cases hj : j < t
    · exact absurd ⟨s, hs, hsg⟩ (hreach j h1 hj)
    · rw [hall j (by omega)] at hs
      exact absurd hs (List.not_mem_nil _)

theorem trim_keeps_exactly_the_nearest_states_witness :
    ((GameBoard.parse ["#.#", "#.#"]).trim stableSortBy 1
        [State.mk 1 ⟨1, 0⟩ [] [] 0, State.mk 1 ⟨1, 1⟩ [] [] 0]).map State.playerPosition
        = [⟨1, 1⟩] ∧
      ((GameBoard.parse ["#.#", "#.#"]).trim stableSortBy 1
        [State.mk 1 ⟨1, 0⟩ [] [] 0, State.mk 1 ⟨1, 1⟩ [] [] 0]).length = 1 ∧
      ((GameBoard.parse ["#.#", "#.#"]).trim stableSortBy 1
        [State.mk 1 ⟨1, 0⟩ [] [] 0, State.mk 1 ⟨1, 1⟩ [] [] 0]).Subperm
        [State.mk 1 ⟨1, 0⟩ [] [] 0, State.mk 1 ⟨1, 1⟩ [] [] 0] ∧
      ∃ discarded,
        ((GameBoard.parse ["#.#", "#.#"]).trim stableSortBy 1
          [State.mk 1 ⟨1, 0⟩ [] [] 0, State.mk 1 ⟨1, 1⟩ [] [] 0] ++ discarded).Perm
          [State.mk 1 ⟨1, 0⟩ [] [] 0, State.mk 1 ⟨1, 1⟩ [] [] 0] ∧
        ∀ a ∈ (GameBoard.parse ["#.#", "#.#"]).trim stableSortBy 1
            [State.mk 1 ⟨1, 0⟩ [] [] 0, State.mk 1 ⟨1, 1⟩ [] [] 0],
          ∀ b ∈ discarded,
            a.playerPosition.distance (GameBoard.parse ["#.#", "#.#"])._end
              ≤ b.playerPosition.distance (GameBoard.parse ["#.#", "#.#"])._end :=
  ⟨by decide,
    (trim_keeps_exactly_the_nearest_states stableSortBy stableSortBy_contract
      stableSortBy_orders 1 (GameBoard.parse ["#.#", "#.#"])
      [State.mk 1 ⟨1, 0⟩ [] [] 0, State.mk 1 ⟨1, 1⟩ [] [] 0]).1 (by decide)⟩

theorem empty_frontier_stays_empty_and_search_fails_witness :
    (∀ t2, 1 ≤ t2 →
      (GameBoard.parse ["#.#", "#^#", "#^#", "#.#"]).frontier stableSortBy t2 = []) ∧
      (GameBoard.parse ["#.#", "#^#", "#^#", "#.#"]).searchValue stableSortBy = some (-1) :=
  empty_frontier_stays_empty_and_search_fails stableSortBy ["#.#", "#^#", "#^#", "#.#"] 1
    stableSortBy_contract (fun k h1 h2 => absurd h1 (by omega)) rfl

/-! ## The cache only grows -/

theorem SnapshotCache.find_append (c added : SnapshotCache) (k : Nat) :
    SnapshotCache.find (c ++ added) k
      = match c.find k with
        | some v => some v
        | none => added.find k := by
  induction c with
  | nil => simp [SnapshotCache.find]
  | cons e rest ih =>
    rw [List.cons_append]
    simp only [SnapshotCache.find]
    by_cases h : e.1 = k
    · simp [h]
    · simp only [h, if_false]
      exact ih

theorem SnapshotCache.find_eq_none_of_keys (c : SnapshotCache) (k : Nat)
    (h : ∀ e ∈ c, e.1 ≠ k) : c.find k = none := by
  induction c with
  | nil => rfl
  | cons e rest ih =>
    simp only [SnapshotCache.find]
    rw [if_neg (h e (List.mem_cons_self _ _))]
    exact ih (fun e2 he2 => h e2 (List.mem_cons_of_mem _ he2))

theorem SnapshotCache.assign_of_find_none (c : SnapshotCache) (k : Nat) (v : BlizzardMap)
    (h : c.find k = none) : c.assign k v = c ++ [(k, v)] := by
  induction c with
  | nil => rfl
  | cons e rest ih =>
    simp only [SnapshotCache.find] at h
    by_cases hk : e.1 = k
    · simp [hk] at h
    · simp only [hk, if_false] at h
      simp only [SnapshotCache.assign, hk, if_false, ih h, List.cons_append]

theorem GameBoard.extendsCache_refl (g : GameBoard) : g.ExtendsCache g :=
  ⟨[], by simp [GameBoard.withCache], fun e he => absurd he (List.not_mem_nil _)⟩

theorem GameBoard.extendsCache_find (g g2 : GameBoard) (h : g.ExtendsCache g2) (k : Nat)
    (v : BlizzardMap) (hk : g._blizzardsByTimeMap.find k = some v) :
    g2._blizzardsByTimeMap.find k = some v := by
  obtain ⟨added, rfl, -⟩ := h
  show SnapshotCache.find (g._blizzardsByTimeMap ++ added) k = some v
  rw [SnapshotCache.find_append, hk]

theorem GameBoard.extendsCache_trans (g g1 g2 : GameBoard) (h1 : g.ExtendsCache g1)
    (h2 : g1.ExtendsCache g2) : g.ExtendsCache g2 := by
  obtain ⟨a1, rfl, ha1⟩ := h1
  obtain ⟨a2, rfl, ha2⟩ := h2
  refine ⟨a1 ++ a2, ?_, ?_⟩
  · simp [GameBoard.withCache, List.append_assoc]
  · intro e he
    rcases List.mem_append.1 he with he | he
    · exact ha1 e he
    · have := ha2 e he
      change SnapshotCache.find (g._blizzardsByTimeMap ++ a1) e.1 = none at this
      rw [SnapshotCache.find_append] at this
      cases hf : g._blizzardsByTimeMap.find e.1 with
      | none => rfl
      | some v => rw [hf] at this; exact absurd this (by simp)

/-- A call `getBlizzardsByMinute(t)` that returns has appended to the cache entries
under missing keys up to `t`, and the returned snapshot is the entry under key `t`. -/
theorem GameBoard.getBlizzardsByMinute_appends (t : Nat) :
    ∀ (g : GameBoard) (m : BlizzardMap) (g2 : GameBoard),
    g.getBlizzardsByMinute t = some (m, g2) →
      (∃ added : SnapshotCache, g2 = g.withCache (g._blizzardsByTimeMap ++ added) ∧
        ∀ e ∈ added, e.1 ≤ t ∧ g._blizzardsByTimeMap.find e.1 = none) ∧
      g2._blizzardsByTimeMap.find t = some m := by
  induction t with
  | zero =>
    intro g m g2 h
    simp only [GameBoard.getBlizzardsByMinute] at h
    cases hf : g._blizzardsByTimeMap.find 0 with
    | none => simp [hf] at h
    | some v =>
      simp only [hf, Option.some.injEq, Prod.mk.injEq] at h
      obtain ⟨rfl, rfl⟩ := h
      exact ⟨⟨[], by simp [GameBoard.withCache], fun e he => absurd he (List.not_mem_nil _)⟩, hf⟩
  | succ t ih =>
    intro g m g2 h
    simp only [GameBoard.getBlizzardsByMinute] at h
    cases hf : g._blizzardsByTimeMap.find (t + 1) with
    | some v =>
      simp only [hf, Option.some.injEq, Prod.mk.injEq] at h
      obtain ⟨rfl, rfl⟩ := h
      exact ⟨⟨[], by simp [GameBoard.withCache], fun e he => absurd he (List.not_mem_nil _)⟩, hf⟩
    | none =>
      simp only [hf] at h
      cases hrec : g.getBlizzardsByMinute t with
      | none => simp [hrec] at h
      | some res =>
        obtain ⟨old, g1⟩ := res
        simp only [hrec, Option.some.injEq, Prod.mk.injEq] at h
        obtain ⟨hm, hg2⟩ := h
        obtain ⟨⟨a1, hg1, ha1⟩, -⟩ := ih g old g1 hrec
        have hnone : g1._blizzardsByTimeMap.find (t + 1) = none := by
          rw [hg1]
          show SnapshotCache.find (g._blizzardsByTimeMap ++ a1) (t + 1) = none
          rw [SnapshotCache.find_append, hf]
          exact SnapshotCache.find_eq_none_of_keys _ _
            (fun e he => by have := (ha1 e he).1; omega)
        rw [SnapshotCache.assign_of_find_none _ _ _ hnone] at hg2
        refine ⟨⟨a1 ++ [(t + 1, m)], ?_, ?_⟩, ?_⟩
        · rw [← hg2, ← hm, hg1]
          simp [GameBoard.withCache, List.append_assoc]
        · intro e he
          rcases List.mem_append.1 he with he | he
          · exact ⟨Nat.le_succ_of_le (ha1 e he).1, (ha1 e he).2⟩
          · rw [List.mem_singleton.1 he]
            exact ⟨Nat.le_refl _, hf⟩
        · rw [← hg2, ← hm]
          show SnapshotCache.find (g1._blizzardsByTimeMap ++ [(t + 1, g1.moveAll old)]) (t + 1)
            = some (g1.moveAll old)
          rw [SnapshotCache.find_append, hnone]
          simp [SnapshotCache.find]

theorem GameBoard.getBlizzardsByMinute_extends (g : GameBoard) (t : Nat) (m : BlizzardMap)
    (g2 : GameBoard) (h : g.getBlizzardsByMinute t = some (m, g2)) : g.ExtendsCache g2 := by
  obtain ⟨⟨added, h1, h2⟩, -⟩ := GameBoard.getBlizzardsByMinute_appends t g m g2 h
  exact ⟨added, h1, fun e he => (h2 e he).2⟩

theorem GameBoard.expandLayer_extends (states : List State) :
    ∀ (g : GameBoard) (next visited : List State) (r : List State × List State × GameBoard),
    GameBoard.expandLayer states g next visited = some r → g.ExtendsCache r.2.2 := by
  induction states with
  | nil =>
    intro g next visited r h
    simp only [GameBoard.expandLayer, Option.some.injEq] at h
    subst h
    exact GameBoard.extendsCache_refl g
  | cons s0 rest ih =>
    intro g next visited r h
    by_cases hvis : visited.any (fun v => v.eqOp s0) = true
    · simp only [GameBoard.expandLayer, hvis, if_true] at h
      exact ih g next visited r h
    · simp only [GameBoard.expandLayer, hvis] at h
      cases hget : g.getBlizzardsByMinute (s0.minute + 1) with
      | none => simp [hget] at h
      | some res =>
        obtain ⟨nb, g1⟩ := res
        simp only [hget] at h
        exact GameBoard.extendsCache_trans g g1 _
          (GameBoard.getBlizzardsByMinute_extends g _ nb g1 hget) (ih g1 _ _ r h)

theorem GameBoard.searchLoop_extends
    (sortBy : (State → State → Bool) → List State → List State) (left : Nat) :
    ∀ (g : GameBoard) (states visited : List State) (r : Int) (g2 : GameBoard),
    GameBoard.searchLoop sortBy left g states visited = some (r, g2) → g.ExtendsCache g2 := by
  induction left with
  | zero =>
    intro g states visited r g2 h
    simp only [GameBoard.searchLoop, Option.some.injEq, Prod.mk.injEq] at h
    rw [← h.2]
    exact GameBoard.extendsCache_refl g
  | succ left ih =>
    intro g states visited r g2 h
    simp only [GameBoard.searchLoop] at h
    cases hexp : GameBoard.expandLayer states g [] visited with
    | none => simp [hexp] at h
    | some res =>
      obtain ⟨next, visited1, g1⟩ := res
      have h1 := GameBoard.expandLayer_extends states g [] visited _ hexp
      simp only [hexp] at h
      cases hfind : (g1.trim sortBy sizeLimit next).find?
          (fun state => state.playerPosition.eqOp g1._end) with
      | some found =>
        simp only [hfind, Option.some.injEq, Prod.mk.injEq] at h
        rw [← h.2]
        exact h1
      | none =>
        simp only [hfind] at h
        exact GameBoard.extendsCache_trans g g1 g2 h1 (ih g1 _ _ r g2 h)

theorem GameBoard.breadthFirstSearch_extends
    (sortBy : (State → State → Bool) → List State → List State) (g : GameBoard) (r : Int)
    (g2 : GameBoard) (h : g.breadthFirstSearch sortBy = some (r, g2)) : g.ExtendsCache g2 := by
  unfold GameBoard.breadthFirstSearch at h
  cases hf : g._blizzardsByTimeMap.find 0 with
  | none => simp [hf] at h
  | some v =>
    simp only [hf] at h
    exact GameBoard.searchLoop_extends sortBy _ g _ _ r g2 h

/-! ## A second search on the same board -/

theorem GameBoard.trim_withCache (sortBy : (State → State → Bool) → List State → List State)
    (K : Nat) (g : GameBoard) (cache : SnapshotCache) (next : List State) :
    (g.withCache cache).trim sortBy K next = g.trim sortBy K next := rfl

theorem GameBoard.end_withCache (g : GameBoard) (cache : SnapshotCache) :
    (g.withCache cache)._end = g._end := rfl

/-- The loop over `states` builds the same `next` and `visited` whatever sound cache the
board holds. -/
theorem GameBoard.expandLayer_congr (g : GameBoard) (init : BlizzardMap) (states : List State) :
    ∀ (c c' : SnapshotCache) (next visited : List State),
    (g.withCache c).CacheOK init → (g.withCache c').CacheOK init →
    ∃ next2 visited2 c2 c2',
      GameBoard.expandLayer states (g.withCache c) next visited
        = some (next2, visited2, g.withCache c2) ∧
      GameBoard.expandLayer states (g.withCache c') next visited
        = some (next2, visited2, g.withCache c2') ∧
      (g.withCache c2).CacheOK init ∧ (g.withCache c2').CacheOK init := by
  induction states with
  | nil =>
    intro c c' next visited hok hok'
    exact ⟨next, visited, c, c', rfl, rfl, hok, hok'⟩
  | cons s0 rest ih =>
    intro c c' next visited hok hok'
    by_cases hvis : visited.any (fun v => v.eqOp s0) = true
    · obtain ⟨next2, visited2, c2, c2', h1, h2, h3, h4⟩ := ih c c' next visited hok hok'
      refine ⟨next2, visited2, c2, c2', ?_, ?_, h3, h4⟩
      · simp only [GameBoard.expandLayer, hvis, if_true, h1]
      · simp only [GameBoard.expandLayer, hvis, if_true, h2]
    · obtain ⟨c1, hget, hok1⟩ :=
        GameBoard.getBlizzardsByMinute_spec (g.withCache c) init hok (s0.minute + 1)
      obtain ⟨c1', hget', hok1'⟩ :=
        GameBoard.getBlizzardsByMinute_spec (g.withCache c') init hok' (s0.minute + 1)
      rw [GameBoard.withCache_withCache] at hget hok1 hget' hok1'
      rw [GameBoard.snapshot_withCache] at hget hget'
      obtain ⟨next2, visited2, c2, c2', h1, h2, h3, h4⟩ :=
        ih c1 c1' (g.expandState s0 (g.snapshot init (s0.minute + 1)) next)
          (visited ++ [s0]) hok1 hok1'
      refine ⟨next2, visited2, c2, c2', ?_, ?_, h3, h4⟩
      · simp only [GameBoard.expandLayer, hvis, hget, GameBoard.expandState_withCache, h1]
        simp
      · simp only [GameBoard.expandLayer, hvis, hget', GameBoard.expandState_withCache, h2]
        simp

/-- The loop of `breadthFirstSearch` returns the same number whatever sound cache the
board holds. -/
theorem GameBoard.searchLoop_congr
    (sortBy : (State → State → Bool) → List State → List State) (g : GameBoard)
    (init : BlizzardMap) (left : Nat) :
    ∀ (c c' : SnapshotCache) (states visited : List State),
    (g.withCache c).CacheOK init → (g.withCache c').CacheOK init →
    ∃ r c2 c2',
      GameBoard.searchLoop sortBy left (g.withCache c) states visited
        = some (r, g.withCache c2) ∧
      GameBoard.searchLoop sortBy left (g.withCache c') states visited
        = some (r, g.withCache c2') ∧
      (g.withCache c2).CacheOK init ∧ (g.withCache c2').CacheOK init := by
  induction left with
  | zero =>
    intro c c' states visited hok hok'
    exact ⟨-1, c, c', rfl, rfl, hok, hok'⟩
  | succ left ih =>
    intro c c' states visited hok hok'
    obtain ⟨next2, visited2, c2, c2', h1, h2, h3, h4⟩ :=
      GameBoard.expandLayer_congr g init states c c' [] visited hok hok'
    cases hfind : (g.trim sortBy sizeLimit next2).find?
        (fun state => state.playerPosition.eqOp g._end) with
    | some found =>
      refine ⟨(found.minute : Int), c2, c2', ?_, ?_, h3, h4⟩
      · simp only [GameBoard.searchLoop, h1, GameBoard.trim_withCache,
          GameBoard.end_withCache, hfind]
      · simp only [GameBoard.searchLoop, h2, GameBoard.trim_withCache,
          GameBoard.end_withCache, hfind]
    | none =>
      obtain ⟨r, c3, c3', h5, h6, h7, h8⟩ :=
        ih c2 c2' (g.trim sortBy sizeLimit next2) visited2 h3 h4
      refine ⟨r, c3, c3', ?_, ?_, h7, h8⟩
      · simp only [GameBoard.searchLoop, h1, GameBoard.trim_withCache,
          GameBoard.end_withCache, hfind, h5]
      · simp only [GameBoard.searchLoop, h2, GameBoard.trim_withCache,
          GameBoard.end_withCache, hfind, h6]

/-- On a board with a sound cache `breadthFirstSearch` returns, leaves a sound cache,
and returns the same number when it is run on the board it leaves. -/
theorem GameBoard.breadthFirstSearch_twice
    (sortBy : (State → State → Bool) → List State → List State) (g : GameBoard)
    (init : BlizzardMap) (hok : g.CacheOK init) :
    ∃ r g2 g3, g.breadthFirstSearch sortBy = some (r, g2) ∧ g2.CacheOK init ∧
      g2.breadthFirstSearch sortBy = some (r, g3) := by
  have hok0 : (g.withCache g._blizzardsByTimeMap).CacheOK init := by
    rw [GameBoard.withCache_self]; exact hok
  obtain ⟨r, c2, c2', h1, -, h3, -⟩ :=
    GameBoard.searchLoop_congr sortBy g init g.getSearchMinuteLimit g._blizzardsByTimeMap
      g._blizzardsByTimeMap [State.mk 0 g._start g._walls init 0] [] hok0 hok0
  obtain ⟨r', c3, c3', h4, h5, -, -⟩ :=
    GameBoard.searchLoop_congr sortBy g init g.getSearchMinuteLimit g._blizzardsByTimeMap
      c2 [State.mk 0 g._start g._walls init 0] [] hok0 h3
  rw [h1] at h4
  simp only [Option.some.injEq, Prod.mk.injEq] at h4
  rw [← h4.1] at h5
  rw [GameBoard.withCache_self] at h1
  refine ⟨r, g.withCache c2, g.withCache c3', ?_, h3, ?_⟩
  · simp only [GameBoard.breadthFirstSearch, hok.1, h1]
  · have h0 : (g.withCache c2)._blizzardsByTimeMap.find 0 = some init := h3.1
    simp only [GameBoard.breadthFirstSearch, h0]
    exact h5

/-! ## Claims about the cache -/

/-- C26 (the snapshot cache is append-only).  A call `getBlizzardsByMinute(t)` that
returns leaves the board unchanged except that entries are appended to the cache, all
of them under keys up to `t` that were missing; so no entry is removed and no snapshot
stored under a key already present is changed.  The same holds for a whole run of
`breadthFirstSearch`, which only passes the snapshots to `isValidPlayerPosition`: every
entry present before the search is the same after it.  On a parsed board both calls
return, and the cache after the search still holds under every key the snapshot of that
minute. -/
theorem snapshot_cache_is_append_only :
    (∀ (g : GameBoard) (t : Nat) (m : BlizzardMap) (g2 : GameBoard),
      g.getBlizzardsByMinute t = some (m, g2) →
        (∃ added : SnapshotCache, g2 = g.withCache (g._blizzardsByTimeMap ++ added) ∧
          ∀ e ∈ added, e.1 ≤ t ∧ g._blizzardsByTimeMap.find e.1 = none) ∧
        (∀ k v, g._blizzardsByTimeMap.find k = some v →
          g2._blizzardsByTimeMap.find k = some v)) ∧
    (∀ (sortBy : (State → State → Bool) → List State → List State) (g : GameBoard) (r : Int)
      (g2 : GameBoard), g.breadthFirstSearch sortBy = some (r, g2) →
        (∃ added : SnapshotCache, g2 = g.withCache (g._blizzardsByTimeMap ++ added) ∧
          ∀ e ∈ added, g._blizzardsByTimeMap.find e.1 = none) ∧
        (∀ k v, g._blizzardsByTimeMap.find k = some v →
          g2._blizzardsByTimeMap.find k = some v)) ∧
    (∀ (lines : List String) (t : Nat),
      ∃ m g2, (GameBoard.parse lines).getBlizzardsByMinute t = some (m, g2)) ∧
    (∀ (sortBy : (State → State → Bool) → List State → List State) (lines : List String),
      ∃ r g2, (GameBoard.parse lines).breadthFirstSearch sortBy = some (r, g2) ∧
        ∀ k v, g2._blizzardsByTimeMap.find k = some v →
          v = (GameBoard.parse lines).snapshot (GameBoard.parse lines).initial k) := by
  refine ⟨?_, ?_, ?_, ?_⟩
  · intro g t m g2 h
    exact ⟨(GameBoard.getBlizzardsByMinute_appends t g m g2 h).1,
      GameBoard.extendsCache_find g g2 (GameBoard.getBlizzardsByMinute_extends g t m g2 h)⟩
  · intro sortBy g r g2 h
    exact ⟨GameBoard.breadthFirstSearch_extends sortBy g r g2 h,
      GameBoard.extendsCache_find g g2 (GameBoard.breadthFirstSearch_extends sortBy g r g2 h)⟩
  · intro lines t
    obtain ⟨cache, h, -⟩ :=
      GameBoard.getBlizzardsByMinute_spec _ _ (GameBoard.parse_cacheOK lines) t
    exact ⟨_, _, h⟩
  · intro sortBy lines
    obtain ⟨r, g2, g3, h1, h2, -⟩ :=
      GameBoard.breadthFirstSearch_twice sortBy _ _ (GameBoard.parse_cacheOK lines)
    refine ⟨r, g2, h1, ?_⟩
    intro k v hk
    have hext := GameBoard.breadthFirstSearch_extends sortBy _ r g2 h1
    obtain ⟨added, hg2, -⟩ := hext
    have := h2.2 k v hk
    rw [this, hg2]
    exact GameBoard.snapshot_withCache _ _ _ _

/-- C27 (a second search with the retained cache).  For every input,
`breadthFirstSearch` on the parsed board returns a number and leaves the board with
its cache extended; `breadthFirstSearch` run again on that board returns the same
number. -/
theorem second_search_with_retained_cache_returns_same_value
    (sortBy : (State → State → Bool) → List State → List State) (lines : List String) :
    ∃ r g2 g3, (GameBoard.parse lines).breadthFirstSearch sortBy = some (r, g2) ∧
      (GameBoard.parse lines).ExtendsCache g2 ∧
      g2.breadthFirstSearch sortBy = some (r, g3) := by
  obtain ⟨r, g2, g3, h1, -, h3⟩ :=
    GameBoard.breadthFirstSearch_twice sortBy _ _ (GameBoard.parse_cacheOK lines)
  exact ⟨r, g2, g3, h1, GameBoard.breadthFirstSearch_extends sortBy _ r g2 h1, h3⟩

/-! ## The period of one obstacle -/

theorem emod_shift_return (n a : Int) (h0 : 0 ≤ a) (h1 : a < n) :
    (a + n * 1) % n = a ∧ (a + n * -1) % n = a := by
  constructor
  · rw [Int.add_mul_emod_self_left]; exact Int.emod_eq_of_lt h0 h1
  · rw [Int.add_mul_emod_self_left]; exact Int.emod_eq_of_lt h0 h1

theorem emod_shift_ne (n a k : Int) (h0 : 0 ≤ a) (h1 : a < n) (hk : 0 < k) (hkn : k < n) :
    (a + k * 1) % n ≠ a ∧ (a + k * -1) % n ≠ a := by
  have ha : a % n = a := Int.emod_eq_of_lt h0 h1
  have hkk : k % n = k := Int.emod_eq_of_lt (le_of_lt hk) hkn
  constructor
  · intro h
    have h2 : (a + k * 1) % n = a % n := by rw [h, ha]
    rw [Int.emod_eq_emod_iff_emod_sub_eq_zero] at h2
    have h3 : a + k * 1 - a = k := by ring
    rw [h3, hkk] at h2
    omega
  · intro h
    have h2 : (a + k * -1) % n = a % n := by rw [h, ha]
    rw [Int.emod_eq_emod_iff_emod_sub_eq_zero] at h2
    have h3 : a + k * -1 - a = -k := by ring
    rw [h3] at h2
    have h4 : n ∣ k := (Int.dvd_neg).1 (Int.dvd_of_emod_eq_zero h2)
    have h5 := Int.emod_eq_zero_of_dvd h4
    rw [hkk] at h5
    omega

theorem emod_shift_zero (n a : Int) (k : Int) (h0 : 0 ≤ a) (h1 : a < n) :
    (a + k * 0) % n = a := by
  rw [mul_zero, add_zero]; exact Int.emod_eq_of_lt h0 h1

theorem coordinatePair_ext (p q : CoordinatePair) (hx : p.x = q.x) (hy : p.y = q.y) : p = q := by
  obtain ⟨px, py⟩ := p
  obtain ⟨qx, qy⟩ := q
  simp only [CoordinatePair.x, CoordinatePair.y] at hx hy
  rw [hx, hy]

/-- An obstacle heading `Left` or `Right` in the interior is back in its cell after
`W-2` moves, and not before. -/
theorem GameBoard.moveN_row_period (g : GameBoard) (hb : g.BorderWalls) (b : Blizzard)
    (hi : g.InInterior b._coord)
    (hd : b._direction = Direction.Left ∨ b._direction = Direction.Right) :
    g.moveN b (g._width - 2).toNat = b ∧
      ∀ k : Nat, 0 < k → (k : Int) < g._width - 2 → g.moveN b k ≠ b := by
  have hW := hb.1
  have hne : ¬ g.Escapes b := by
    rintro (⟨h, -⟩ | ⟨h, -⟩) <;> rcases hd with hd | hd <;> rw [hd] at h <;> cases h
  have hx0 : 0 ≤ b._coord.first - 1 := by
    have := hi.1; simp only [CoordinatePair.x] at this; omega
  have hx1 : b._coord.first - 1 < g._width - 2 := by
    have := hi.2.1; simp only [CoordinatePair.x] at this; omega
  have hy0 : 0 ≤ b._coord.second - 1 := by
    have := hi.2.2.1; simp only [CoordinatePair.y] at this; omega
  have hy1 : b._coord.second - 1 < g._height - 2 := by
    have := hi.2.2.2; simp only [CoordinatePair.y] at this; omega
  have ht : (((g._width - 2).toNat : Nat) : Int) = g._width - 2 :=
    Int.toNat_of_nonneg (by omega)
  have hcf : ∀ t : Nat, (g.closedFormPosition b t).y = b._coord.y := by
    intro t
    rcases hd with hd | hd <;>
      simp only [GameBoard.closedFormPosition, hd, directionToForceVector, CoordinatePair.y,
        CoordinatePair.x, Blizzard.y] <;>
      rw [emod_shift_zero _ _ _ hy0 hy1] <;> ring
  constructor
  · obtain ⟨hc, hdir⟩ := GameBoard.moveN_closedForm g hb b hi hne (g._width - 2).toNat
    apply blizzard_ext _ _ _ hdir
    rw [hc]
    apply coordinatePair_ext _ _ _ (hcf _)
    rcases hd with hd | hd <;>
      simp only [GameBoard.closedFormPosition, hd, directionToForceVector, CoordinatePair.y,
        CoordinatePair.x, Blizzard.x, ht]
    · rw [(emod_shift_return (g._width - 2) (b._coord.first - 1) hx0 hx1).2]
      ring
    · rw [(emod_shift_return (g._width - 2) (b._coord.first - 1) hx0 hx1).1]
      ring
  · intro k hk0 hk hret
    obtain ⟨hc, -⟩ := GameBoard.moveN_closedForm g hb b hi hne k
    rw [hret] at hc
    have hx : (g.closedFormPosition b k).x ≠ b._coord.x := by
      rcases hd with hd | hd <;>
        simp only [GameBoard.closedFormPosition, hd, directionToForceVector, CoordinatePair.y,
          CoordinatePair.x, Blizzard.x]
      · have := (emod_shift_ne (g._width - 2) (b._coord.first - 1) (k : Int)
          hx0 hx1 (by omega) hk).2
        omega
      · have := (emod_shift_ne (g._width - 2) (b._coord.first - 1) (k : Int)
          hx0 hx1 (by omega) hk).1
        omega
    exact hx (by rw [← hc])

/-- An obstacle heading `Up` or `Down` in the interior that does not head for an
opening is back in its cell after `H-2` moves, and not before. -/
theorem GameBoard.moveN_column_period (g : GameBoard) (hb : g.BorderWalls) (b : Blizzard)
    (hi : g.InInterior b._coord)
    (hd : b._direction = Direction.Up ∨ b._direction = Direction.Down)
    (hne : ¬ g.Escapes b) :
    g.moveN b (g._height - 2).toNat = b ∧
      ∀ k : Nat, 0 < k → (k : Int) < g._height - 2 → g.moveN b k ≠ b := by
  have hH := hb.2.1
  have hx0 : 0 ≤ b._coord.first - 1 := by
    have := hi.1; simp only [CoordinatePair.x] at this; omega
  have hx1 : b._coord.first - 1 < g._width - 2 := by
    have := hi.2.1; simp only [CoordinatePair.x] at this; omega
  have hy0 : 0 ≤ b._coord.second - 1 := by
    have := hi.2.2.1; simp only [CoordinatePair.y] at this; omega
  have hy1 : b._coord.second - 1 < g._height - 2 := by
    have := hi.2.2.2; simp only [CoordinatePair.y] at this; omega
  have ht : (((g._height - 2).toNat : Nat) : Int) = g._height - 2 :=
    Int.toNat_of_nonneg (by omega)
  have hcf : ∀ t : Nat, (g.closedFormPosition b t).x = b._coord.x := by
    intro t
    rcases hd with hd | hd <;>
      simp only [GameBoard.closedFormPosition, hd, directionToForceVector, CoordinatePair.y,
        CoordinatePair.x, Blizzard.x] <;>
      rw [emod_shift_zero _ _ _ hx0 hx1] <;> ring
  constructor
  · obtain ⟨hc, hdir⟩ := GameBoard.moveN_closedForm g hb b hi hne (g._height - 2).toNat
    apply blizzard_ext _ _ _ hdir
    rw [hc]
    apply coordinatePair_ext _ _ (hcf _)
    rcases hd with hd | hd <;>
      simp only [GameBoard.closedFormPosition, hd, directionToForceVector, CoordinatePair.y,
        CoordinatePair.x, Blizzard.y, ht]
    · rw [(emod_shift_return (g._height - 2) (b._coord.second - 1) hy0 hy1).2]
      ring
    · rw [(emod_shift_return (g._height - 2) (b._coord.second - 1) hy0 hy1).1]
      ring
  · intro k hk0 hk hret
    obtain ⟨hc, -⟩ := GameBoard.moveN_closedForm g hb b hi hne k
    rw [hret] at hc
    have hy : (g.closedFormPosition b k).y ≠ b._coord.y := by
      rcases hd with hd | hd <;>
        simp only [GameBoard.closedFormPosition, hd, directionToForceVector, CoordinatePair.y,
          CoordinatePair.x, Blizzard.y]
      · have := (emod_shift_ne (g._height - 2) (b._coord.second - 1) (k : Int)
          hy0 hy1 (by omega) hk).2
        omega
      · have := (emod_shift_ne (g._height - 2) (b._coord.second - 1) (k : Int)
          hy0 hy1 (by omega) hk).1
        omega
    exact hy (by rw [← hc])

/-- One application of `move` keeps the heading and the coordinate across the heading,
whatever the walls are. -/
theorem Blizzard.move_keeps_heading_and_cross_coordinate (b : Blizzard) (height width : Int)
    (walls : WallSet) :
    (b.move height width walls)._direction = b._direction ∧
      ((b._direction = Direction.Up ∨ b._direction = Direction.Down) →
        (b.move height width walls).x = b.x) ∧
      ((b._direction = Direction.Left ∨ b._direction = Direction.Right) →
        (b.move height width walls).y = b.y) := by
  obtain ⟨⟨bx, b_y⟩, d⟩ := b
  cases d <;>
    simp only [Blizzard.move, Blizzard.x, Blizzard.y, CoordinatePair.x, CoordinatePair.y,
      CoordinatePair.add, directionToForceVector] <;>
    split_ifs <;> simp

/-- C28 (the period of one obstacle along its axis).  On a board whose walls are
exactly the one-cell border without the two openings: an obstacle in the interior
heading `Left` or `Right` is back in its own cell, with its heading, after `W-2`
applications of `move` and after no smaller positive number of them; an obstacle in
the interior heading `Up` or `Down` whose column is neither the start column nor the
goal column is back after `H-2` applications and after no smaller positive number.
One application of `move` never changes the heading nor the coordinate across the
heading, for any obstacle and any walls. -/
theorem obstacle_returns_after_interior_extent_of_its_axis (g : GameBoard) (b : Blizzard)
    (hb : g.BorderWalls) (hi : g.InInterior b._coord) :
    ((b._direction = Direction.Left ∨ b._direction = Direction.Right) →
      g.moveN b (g._width - 2).toNat = b ∧
        ∀ k : Nat, 0 < k → (k : Int) < g._width - 2 → g.moveN b k ≠ b) ∧
    ((b._direction = Direction.Up ∨ b._direction = Direction.Down) →
      b.x ≠ g._start.x → b.x ≠ g._end.x →
      g.moveN b (g._height - 2).toNat = b ∧
        ∀ k : Nat, 0 < k → (k : Int) < g._height - 2 → g.moveN b k ≠ b) ∧
    (∀ (b2 : Blizzard) (height width : Int) (walls : WallSet),
      (b2.move height width walls)._direction = b2._direction ∧
      ((b2._direction = Direction.Up ∨ b2._direction = Direction.Down) →
        (b2.move height width walls).x = b2.x) ∧
      ((b2._direction = Direction.Left ∨ b2._direction = Direction.Right) →
        (b2.move height width walls).y = b2.y)) := by
  refine ⟨GameBoard.moveN_row_period g hb b hi, ?_,
    Blizzard.move_keeps_heading_and_cross_coordinate⟩
  intro hd hs he
  apply GameBoard.moveN_column_period g hb b hi hd
  rintro (⟨-, h⟩ | ⟨-, h⟩)
  · exact hs h
  · exact he h

theorem obstacle_returns_after_interior_extent_of_its_axis_witness :
    (GameBoard.parse ["#.#####", "#.>...#", "#.....#", "#.^...#", "#####.#"]).moveN
        ⟨⟨2, 1⟩, Direction.Right⟩ 5 = ⟨⟨2, 1⟩, Direction.Right⟩ ∧
      (GameBoard.parse ["#.#####", "#.>...#", "#.....#", "#.^...#", "#####.#"]).moveN
        ⟨⟨2, 3⟩, Direction.Up⟩ 3 = ⟨⟨2, 3⟩, Direction.Up⟩ ∧
      ((GameBoard.parse ["#.#####", "#.>...#", "#.....#", "#.^...#", "#####.#"]).moveN
          ⟨⟨2, 1⟩, Direction.Right⟩
          ((GameBoard.parse ["#.#####", "#.>...#", "#.....#", "#.^...#", "#####.#"])._width
            - 2).toNat = ⟨⟨2, 1⟩, Direction.Right⟩ ∧
        ∀ k : Nat, 0 < k →
          (k : Int) < (GameBoard.parse
            ["#.#####", "#.>...#", "#.....#", "#.^...#", "#####.#"])._width - 2 →
          (GameBoard.parse ["#.#####", "#.>...#", "#.....#", "#.^...#", "#####.#"]).moveN
            ⟨⟨2, 1⟩, Direction.Right⟩ k ≠ ⟨⟨2, 1⟩, Direction.Right⟩) :=
  ⟨by decide, by decide,
    (obstacle_returns_after_interior_extent_of_its_axis
      (GameBoard.parse ["#.#####", "#.>...#", "#.....#", "#.^...#", "#####.#"])
      ⟨⟨2, 1⟩, Direction.Right⟩
      (GameBoard.parse_borderWalls _ (by decide)) (by decide)).1 (Or.inr rfl)⟩

/-! ## The distance as a lower bound -/

theorem distance_symm (a b : CoordinatePair) : a.distance b = b.distance a := by
  simp only [CoordinatePair.distance]
  omega

/-- C30 (lower bound on the answer).  `distance` is symmetric, not negative, zero
exactly for equal cells, and changes by at most 1 under a wait or a step to an
orthogonal neighbour; and every result of `breadthFirstSearch` other than `-1` is at
least the distance from the start to the goal. -/
theorem bfs_result_is_at_least_distance_from_start_to_goal
    (sortBy : (State → State → Bool) → List State → List State) (lines : List String) (r : Int)
    (hsort : SortContract sortBy)
    (hres : (GameBoard.parse lines).searchValue sortBy = some r)
    (hne : r ≠ -1) :
    (∀ a b : CoordinatePair, a.distance b = b.distance a) ∧
      (∀ a b : CoordinatePair, 0 ≤ a.distance b) ∧
      (∀ a b : CoordinatePair, a.distance b = 0 ↔ a = b) ∧
      (∀ p q e : CoordinatePair, (q = p ∨ Adjacent p q) →
        q.distance e ≤ p.distance e + 1 ∧ p.distance e ≤ q.distance e + 1) ∧
      (GameBoard.parse lines)._start.distance (GameBoard.parse lines)._end ≤ r := by
  refine ⟨distance_symm, distance_nonneg, distance_eq_zero_iff,
    fun p q e h => (step_changes_coordinates_by_one p q e h).2.2.2, ?_⟩
  obtain ⟨r2, hr2, hcase⟩ := GameBoard.searchValue_spec sortBy hsort lines
  rw [hres] at hr2
  have hrr : r = r2 := Option.some.inj hr2
  subst hrr
  rcases hcase with ⟨h1, -⟩ | ⟨j, -, -, h3, ⟨s, hs, hsg⟩, -⟩
  · exact absurd h1 hne
  · obtain ⟨states, visited, cache, hls, -, hsound, -, -⟩ :=
      GameBoard.loopStateAt_spec sortBy hsort _ _ (GameBoard.parse_cacheOK lines) j
    rw [GameBoard.frontier_eq sortBy _ _ _ hls] at hs
    obtain ⟨p, hp, hreach⟩ := hsound s hs
    have hpe : p = (GameBoard.parse lines)._end := by
      rw [← hsg, hp]; rfl
    have := GameBoard.reach_distance _ _ j p hreach
    rw [hpe, distance_symm] at this
    rw [h3]
    exact this

theorem bfs_result_is_at_least_distance_from_start_to_goal_witness :
    (GameBoard.parse ["#.###", "#>.<#", "#.^.#", "###.#"]).searchValue stableSortBy = some 5 ∧
      (GameBoard.parse ["#.###", "#>.<#", "#.^.#", "###.#"])._start.distance
        (GameBoard.parse ["#.###", "#>.<#", "#.^.#", "###.#"])._end = 5 ∧
      (GameBoard.parse ["#.###", "#>.<#", "#.^.#", "###.#"])._start.distance
        (GameBoard.parse ["#.###", "#>.<#", "#.^.#", "###.#"])._end ≤ (5 : Int) :=
  ⟨by decide, by decide,
    (bfs_result_is_at_least_distance_from_start_to_goal stableSortBy
      ["#.###", "#>.<#", "#.^.#", "###.#"] 5 stableSortBy_contract (by decide)
      (by decide)).2.2.2.2⟩

/-! ## The size of `next` -/

theorem flatMap_length_le_five (f : State → List State) (h : ∀ s, (f s).length ≤ 5)
    (l : List State) : (l.flatMap f).length ≤ 5 * l.length := by
  induction l with
  | nil => simp
  | cons a rest ih =>
    simp only [List.flatMap_cons, List.length_append, List.length_cons]
    have := h a
    omega

/-- A list of distinct cells of the rectangle `0 ≤ x ≤ W-1`, `0 ≤ y ≤ H-1` has at most
`W * H` elements. -/
theorem box_count (W H : Int) (hW : 0 ≤ W) (hH : 0 ≤ H) (l : List CoordinatePair)
    (hnd : l.Nodup)
    (hbox : ∀ c ∈ l, 0 ≤ c.x ∧ c.x ≤ W - 1 ∧ 0 ≤ c.y ∧ c.y ≤ H - 1) :
    (l.length : Int) ≤ W * H := by
  have hinj : Function.Injective (fun c : CoordinatePair => (c.first, c.second)) := by
    intro a b hab
    obtain ⟨ax, ay⟩ := a
    obtain ⟨bx, b_y⟩ := b
    simp only [Prod.mk.injEq] at hab
    rw [hab.1, hab.2]
  have hnd2 : (l.map (fun c : CoordinatePair => (c.first, c.second))).Nodup :=
    hnd.map hinj
  have hsub : (l.map (fun c : CoordinatePair => (c.first, c.second))).toFinset
      ⊆ Finset.Icc (0 : Int) (W - 1) ×ˢ Finset.Icc (0 : Int) (H - 1) := by
    intro x hx
    rw [List.mem_toFinset, List.mem_map] at hx
    obtain ⟨c, hc, rfl⟩ := hx
    have := hbox c hc
    simp only [CoordinatePair.x, CoordinatePair.y] at this
    simp only [Finset.mem_product, Finset.mem_Icc]
    omega
  have hcard := Finset.card_le_card hsub
  rw [List.toFinset_card_of_nodup hnd2, List.length_map, Finset.card_product,
    Int.card_Icc, Int.card_Icc] at hcard
  have h1 : ((W - 1 + 1 - 0).toNat : Int) = W := by
    rw [Int.toNat_of_nonneg (by omega)]; ring
  have h2 : ((H - 1 + 1 - 0).toNat : Int) = H := by
    rw [Int.toNat_of_nonneg (by omega)]; ring
  have h3 : ((l.length : Nat) : Int) ≤ (((W - 1 + 1 - 0).toNat * (H - 1 + 1 - 0).toNat : Nat) : Int) :=
    Int.ofNat_le.2 hcard
  rw [Nat.cast_mul, h1, h2] at h3
  exact h3

theorem GameBoard.valid_in_bounds (g : GameBoard) (p : CoordinatePair) (m : BlizzardMap)
    (h : g.isValidPlayerPosition p m = true) :
    0 ≤ p.x ∧ p.x ≤ g._width - 1 ∧ 0 ≤ p.y ∧ p.y ≤ g._height - 1 := by
  obtain ⟨⟨h1, h2, h3, h4, -⟩, -⟩ := (GameBoard.isValidPlayerPosition_iff g p m).1 h
  exact ⟨h1, h2, h3, h4⟩

/-- In every iteration of the loop on a parsed board `next` holds at most `5 * W * H`
states before the trim step: at most five for each state that is expanded, and the
expanded states of one layer are at distinct cells of the grid. -/
theorem GameBoard.parse_nextSize_le
    (sortBy : (State → State → Bool) → List State → List State)
    (hsort : SortContract sortBy) (lines : List String) (m : Nat) :
    ∃ states visited g1 next visited1 g2,
      (GameBoard.parse lines).loopStateAt sortBy m = some (states, visited, g1) ∧
      GameBoard.expandLayer states g1 [] visited = some (next, visited1, g2) ∧
      (GameBoard.parse lines).nextSize sortBy m = some next.length ∧
      (next.length : Int)
        ≤ 5 * (GameBoard.parse lines)._width * (GameBoard.parse lines)._height := by
  have hok := GameBoard.parse_cacheOK lines
  have hW : 0 ≤ (GameBoard.parse lines)._width := by
    rw [GameBoard.parse_width]; exact Int.ofNat_nonneg _
  have hH : 0 ≤ (GameBoard.parse lines)._height := by
    rw [GameBoard.parse_height]; exact Int.ofNat_nonneg _
  obtain ⟨states, visited, cache, hls, hok1, hsound, -, -⟩ :=
    GameBoard.loopStateAt_spec sortBy hsort _ _ hok m
  obtain ⟨expanded, next2, visited2, cache2, h1, -, -, h4, h5, -, h7⟩ :=
    GameBoard.expandLayer_trace _ _ states cache [] visited hok1
  refine ⟨states, visited, _, next2, visited2, _, hls, h1, ?_, ?_⟩
  · simp only [GameBoard.nextSize, hls, h1]
  rw [List.nil_append] at h4
  have hlen : next2.length ≤ 5 * expanded.length := by
    rw [h4]
    exact flatMap_length_le_five _ (fun s => GameBoard.expandState_length _ s _) expanded
  have hWH : 0 ≤ (GameBoard.parse lines)._width * (GameBoard.parse lines)._height :=
    Int.mul_nonneg hW hH
  have hcount : (expanded.length : Int)
      ≤ (GameBoard.parse lines)._width * (GameBoard.parse lines)._height ∨ next2 = [] := by
    cases m with
    | zero =>
      have hst : states.length = 1 := by
        simp only [GameBoard.loopStateAt, hok.1, Option.some.injEq, Prod.mk.injEq] at hls
        rw [← hls.1]; rfl
      have hle := h5.length_le
      rw [hst] at hle
      cases hn : next2 with
      | nil => exact Or.inr rfl
      | cons s2 tl =>
        left
        have hs2 : s2 ∈ next2 := by rw [hn]; exact List.mem_cons_self _ _
        rw [h4, List.mem_flatMap] at hs2
        obtain ⟨e, -, he⟩ := hs2
        rcases (GameBoard.mem_expandState _ e _ [] s2).1 he with h | ⟨p, -, hv, -⟩
        · exact absurd h (List.not_mem_nil _)
        · obtain ⟨b1, b2, b3, b4⟩ := GameBoard.valid_in_bounds _ p _ hv
          have : (1 : Int) * 1 ≤ (GameBoard.parse lines)._width * (GameBoard.parse lines)._height :=
            Int.mul_le_mul (by omega) (by omega) (by norm_num) hW
          have hle2 : (expanded.length : Int) ≤ 1 := by exact_mod_cast hle
          omega
    | succ k =>
      left
      have hpos : ∀ e ∈ expanded, e.minute = k + 1 ∧
          0 ≤ e.playerPosition.x ∧
          e.playerPosition.x ≤ (GameBoard.parse lines)._width - 1 ∧
          0 ≤ e.playerPosition.y ∧
          e.playerPosition.y ≤ (GameBoard.parse lines)._height - 1 := by
        intro e he
        obtain ⟨p, hp, hr⟩ := hsound e (h5.subset he)
        rw [hp]
        refine ⟨rfl, ?_⟩
        cases hr with
        | step _ p0 _ _ _ hv => exact GameBoard.valid_in_bounds _ p _ hv
      have hnd : (expanded.map State.playerPosition).Nodup := by
        rw [List.Nodup, List.pairwise_map]
        refine List.Pairwise.imp_of_mem ?_ h7
        intro a b ha hb hab heq
        rw [(state_eqOp_iff a b).2 ⟨heq, by
          have h1 := (hpos a ha).1
          have h2 := (hpos b hb).1
          simp only [State.minute] at h1 h2
          rw [h1, h2]⟩] at hab
        exact absurd hab (by decide)
      have := box_count _ _ hW hH _ hnd (by
        intro c hc
        obtain ⟨e, he, rfl⟩ := List.mem_map.1 hc
        exact (hpos e he).2)
      rw [List.length_map] at this
      exact this
  rcases hcount with h | h
  · have h2 : (next2.length : Int) ≤ 5 * (expanded.length : Int) := by exact_mod_cast hlen
    have h3 : 5 * (GameBoard.parse lines)._width * (GameBoard.parse lines)._height
        = 5 * ((GameBoard.parse lines)._width * (GameBoard.parse lines)._height) := by ring
    rw [h3]
    omega
  · rw [h]
    have h3 : 5 * (GameBoard.parse lines)._width * (GameBoard.parse lines)._height
        = 5 * ((GameBoard.parse lines)._width * (GameBoard.parse lines)._height) := by ring
    rw [h3]
    simp only [List.length_nil, Nat.cast_zero]
    omega

/-- C29 (pruning cannot trigger on grids of ordinary size).  For every input with
`5 * W * H ≤ 100,000,000` and every iteration `m` of the loop of `breadthFirstSearch`:
`next` holds at most `5 * W * H` states (at most five for each expanded state, the
expanded states of a layer being at distinct cells of the grid), so its size does not
exceed `sizeLimit`, the trim step leaves it unchanged and it is the frontier of minute
`m + 1`; and the search is exact: the cells of the frontier of minute `m` are exactly
the cells that can be reached at minute `m`. -/
theorem trim_is_never_executed_on_grids_of_ordinary_size
    (sortBy : (State → State → Bool) → List State → List State) (lines : List String) (m : Nat)
    (hsort : SortContract sortBy)
    (hsize : 5 * (GameBoard.parse lines)._width * (GameBoard.parse lines)._height
      ≤ 100000000) :
    ∃ states visited g1 next visited1 g2,
      (GameBoard.parse lines).loopStateAt sortBy m = some (states, visited, g1) ∧
      GameBoard.expandLayer states g1 [] visited = some (next, visited1, g2) ∧
      (next.length : Int)
        ≤ 5 * (GameBoard.parse lines)._width * (GameBoard.parse lines)._height ∧
      ¬ (next.length > sizeLimit) ∧
      g2.trim sortBy sizeLimit next = next ∧
      (GameBoard.parse lines).frontier sortBy (m + 1) = next ∧
      (∀ p, (∃ s ∈ (GameBoard.parse lines).frontier sortBy m, s.playerPosition = p) ↔
        (GameBoard.parse lines).Reach (GameBoard.parse lines).initial m p) := by
  have hok := GameBoard.parse_cacheOK lines
  have hall : ∀ k n, (GameBoard.parse lines).nextSize sortBy k = some n → n ≤ sizeLimit := by
    intro k n hn
    obtain ⟨_, _, _, next, _, _, -, -, h3, h4⟩ :=
      GameBoard.parse_nextSize_le sortBy hsort lines k
    rw [h3] at hn
    have hnn : next.length = n := Option.some.inj hn
    unfold sizeLimit
    omega
  obtain ⟨states, visited, g1, next, visited1, g2, hls, hexp, h3, h4⟩ :=
    GameBoard.parse_nextSize_le sortBy hsort lines m
  have hle : next.length ≤ sizeLimit := hall m _ h3
  have htrim := GameBoard.trim_of_le sortBy sizeLimit g2 next hle
  refine ⟨states, visited, g1, next, visited1, g2, hls, hexp, h4, by omega, htrim, ?_, ?_⟩
  · have hls2 : (GameBoard.parse lines).loopStateAt sortBy (m + 1)
        = some (g2.trim sortBy sizeLimit next, visited1, g2) := by
      simp only [GameBoard.loopStateAt, hls, hexp]
    rw [GameBoard.frontier_eq sortBy _ _ _ hls2]
    exact htrim
  · obtain ⟨states2, visited2, cache, hls3, -, hsound, -, hcomplete⟩ :=
      GameBoard.loopStateAt_spec sortBy hsort _ _ hok m
    rw [GameBoard.frontier_eq sortBy _ _ _ hls3]
    intro p
    constructor
    · rintro ⟨s, hs, hsp⟩
      obtain ⟨q, hq, hr⟩ := hsound s hs
      have : q = p := by rw [← hsp, hq]; rfl
      rw [← this]
      exact hr
    · intro hr
      exact ⟨_, hcomplete (fun k _ n hn => hall k n hn) p hr, rfl⟩

theorem trim_is_never_executed_on_grids_of_ordinary_size_witness :
    5 * (GameBoard.parse ["#.###", "#>.<#", "#.^.#", "###.#"])._width
        * (GameBoard.parse ["#.###", "#>.<#", "#.^.#", "###.#"])._height = 100 ∧
    ∃ states visited g1 next visited1 g2,
      (GameBoard.parse ["#.###", "#>.<#", "#.^.#", "###.#"]).loopStateAt stableSortBy 2
        = some (states, visited, g1) ∧
      GameBoard.expandLayer states g1 [] visited = some (next, visited1, g2) ∧
      (next.length : Int)
        ≤ 5 * (GameBoard.parse ["#.###", "#>.<#", "#.^.#", "###.#"])._width
          * (GameBoard.parse ["#.###", "#>.<#", "#.^.#", "###.#"])._height ∧
      ¬ (next.length > sizeLimit) ∧
      g2.trim stableSortBy sizeLimit next = next ∧
      (GameBoard.parse ["#.###", "#>.<#", "#.^.#", "###.#"]).frontier stableSortBy (2 + 1)
        = next ∧
      (∀ p, (∃ s ∈ (GameBoard.parse ["#.###", "#>.<#", "#.^.#", "###.#"]).frontier
            stableSortBy 2, s.playerPosition = p) ↔
        (GameBoard.parse ["#.###", "#>.<#", "#.^.#", "###.#"]).Reach
          (GameBoard.parse ["#.###", "#>.<#", "#.^.#", "###.#"]).initial 2 p) :=
  ⟨by decide,
    trim_is_never_executed_on_grids_of_ordinary_size stableSortBy
      ["#.###", "#>.<#", "#.^.#", "###.#"] 2 stableSortBy_contract (by decide)⟩

/-! ## The goal as a neighbour of a frontier cell -/

/-- On a validated grid an obstacle is on the goal at minute `t + 1` only when an
obstacle is on the cell above the goal at minute `t`. -/
theorem GameBoard.goal_free_after_free_above (lines : List String) (hv : ValidGrid lines)
    (t : Nat)
    (hfree : ((GameBoard.parse lines).snapshot (GameBoard.parse lines).initial t).contains
      ⟨(GameBoard.parse lines)._end.x, (GameBoard.parse lines)._height - 2⟩ = false) :
    ((GameBoard.parse lines).snapshot (GameBoard.parse lines).initial (t + 1)).contains
      (GameBoard.parse lines)._end = false := by
  have hb := GameBoard.parse_borderWalls lines hv
  cases hc : ((GameBoard.parse lines).snapshot (GameBoard.parse lines).initial (t + 1)).contains
      (GameBoard.parse lines)._end with
  | false => rfl
  | true =>
    exfalso
    have hsets := GameBoard.setsNonempty_snapshot (GameBoard.parse lines) _
      (GameBoard.parse_initial_setsNonempty lines) (t + 1)
    obtain ⟨b, hb2⟩ := (BlizzardMap.occupied_iff_holds _ _).1
      ((blizzardMap_contains_iff_occupied _ hsets _).1 hc)
    obtain ⟨b0, h0, hbe, hk⟩ :=
      (GameBoard.holds_snapshot_iff _ _ (GameBoard.parse_key_eq_coord lines) (t + 1) _ b).1 hb2
    have hi := (GameBoard.parse_initial_interior lines hv _ _ h0).2
    have hend : ((GameBoard.parse lines).moveN b0 (t + 1))._coord = (GameBoard.parse lines)._end := by
      rw [← hbe, ← hk]
    have hb3 := hb
    obtain ⟨hW, hH, hs1, hs2, hs3, he1, he2, he3, -⟩ := hb3
    have hi2 := hi
    obtain ⟨h1, h2, h3, h4⟩ := hi2
    have hc1 : ((t + 1 : Nat) : Int) = (t : Int) + 1 := by push_cast; rfl
    by_cases hesc : (GameBoard.parse lines).Escapes b0
    · rcases hesc with ⟨hd, hx⟩ | ⟨hd, hx⟩
      · rw [GameBoard.moveN_up_in_start_column _ hb b0 hi hd hx (t + 1)] at hend
        have := congrArg CoordinatePair.y hend
        simp only [CoordinatePair.y, Blizzard.y, hc1] at *
        omega
      · have hprev := GameBoard.moveN_down_in_goal_column _ hb b0 hi hd hx t
        rw [GameBoard.moveN_down_in_goal_column _ hb b0 hi hd hx (t + 1)] at hend
        have hy := congrArg CoordinatePair.y hend
        have hxx := congrArg CoordinatePair.x hend
        simp only [CoordinatePair.y, CoordinatePair.x, Blizzard.y, Blizzard.x, hc1] at hy hxx
        have hcell : ((GameBoard.parse lines).moveN b0 t)._coord
            = ⟨(GameBoard.parse lines)._end.x, (GameBoard.parse lines)._height - 2⟩ := by
          rw [hprev]
          apply coordinatePair_ext
          · simp only [CoordinatePair.x, Blizzard.x]; exact hxx
          · simp only [CoordinatePair.y, Blizzard.y] at he1 ⊢; omega
        have hholds : BlizzardMap.Holds
            ((GameBoard.parse lines).snapshot (GameBoard.parse lines).initial t)
            ⟨(GameBoard.parse lines)._end.x, (GameBoard.parse lines)._height - 2⟩
            ((GameBoard.parse lines).moveN b0 t) :=
          (GameBoard.holds_snapshot_iff _ _ (GameBoard.parse_key_eq_coord lines) t _ _).2
            ⟨b0, h0, rfl, hcell.symm⟩
        obtain ⟨e, he, hek, -⟩ := hholds
        have := (blizzardMap_contains_iff _ _).2 ⟨e, he, hek⟩
        rw [hfree] at this
        exact absurd this (by decide)
    · obtain ⟨hcf, -⟩ := GameBoard.moveN_closedForm _ hb b0 hi hesc (t + 1)
      have hint := GameBoard.closedFormPosition_interior _ hW hH b0 (t + 1)
      rw [← hcf, hend] at hint
      obtain ⟨-, -, -, h8⟩ := hint
      omega

/-- On a validated grid, a cell reached at minute `m` that is an orthogonal neighbour
of the goal is the cell above the goal, and the goal passes `isValidPlayerPosition` at
minute `m + 1`. -/
theorem GameBoard.goal_valid_next_to_reached_cell (lines : List String) (hv : ValidGrid lines)
    (m : Nat) (p : CoordinatePair)
    (hr : (GameBoard.parse lines).Reach (GameBoard.parse lines).initial m p)
    (hadj : Adjacent p (GameBoard.parse lines)._end) :
    (GameBoard.parse lines).isValidPlayerPosition (GameBoard.parse lines)._end
      ((GameBoard.parse lines).snapshot (GameBoard.parse lines).initial (m + 1)) = true := by
  have hb := GameBoard.parse_borderWalls lines hv
  have hb3 := hb
  obtain ⟨hW, hH, hs1, hs2, hs3, he1, he2, he3, hwalls⟩ := hb3
  have hgoalfree : (GameBoard.parse lines).WallFree (GameBoard.parse lines)._end := by
    refine ⟨he2, he3, by omega, by omega, ?_⟩
    intro hw
    exact ((hwalls _).1 hw).2.2.2.2.2.2 rfl
  rw [GameBoard.isValidPlayerPosition_iff]
  refine ⟨hgoalfree, ?_⟩
  apply GameBoard.goal_free_after_free_above lines hv m
  cases hr with
  | start =>
    exfalso
    simp only [Adjacent] at hadj
    omega
  | step k p0 _ _ _ hvalid =>
    obtain ⟨⟨b1, b2, b3, b4, hnw⟩, hfree⟩ :=
      (GameBoard.isValidPlayerPosition_iff _ p _).1 hvalid
    have hcell : p = ⟨(GameBoard.parse lines)._end.x, (GameBoard.parse lines)._height - 2⟩ := by
      have hnot := fun h => hnw ((hwalls p).2 h)
      have hne1 : p.y = (GameBoard.parse lines)._height - 1 → p ≠ (GameBoard.parse lines)._start := by
        intro hy heq
        rw [heq] at hy
        omega
      have hne2 : p.x ≠ (GameBoard.parse lines)._end.x → p ≠ (GameBoard.parse lines)._end := by
        intro hx heq
        rw [heq] at hx
        exact hx rfl
      apply coordinatePair_ext
      · simp only [Adjacent] at hadj
        show p.x = (GameBoard.parse lines)._end.x
        rcases hadj with ⟨hx, hy | hy⟩ | ⟨hy, hx | hx⟩
        · exact hx.symm
        · exact hx.symm
        · exfalso
          exact hnot ⟨b1, b2, b3, b4, Or.inr (Or.inr (Or.inr (by omega))),
            hne1 (by omega), hne2 (by omega)⟩
        · exfalso
          exact hnot ⟨b1, b2, b3, b4, Or.inr (Or.inr (Or.inr (by omega))),
            hne1 (by omega), hne2 (by omega)⟩
      · simp only [Adjacent] at hadj
        show p.y = (GameBoard.parse lines)._height - 2
        rcases hadj with ⟨hx, hy | hy⟩ | ⟨hy, hx | hx⟩
        · omega
        · omega
        · exfalso
          exact hnot ⟨b1, b2, b3, b4, Or.inr (Or.inr (Or.inr (by omega))),
            hne1 (by omega), hne2 (by omega)⟩
        · exfalso
          exact hnot ⟨b1, b2, b3, b4, Or.inr (Or.inr (Or.inr (by omega))),
            hne1 (by omega), hne2 (by omega)⟩
    rw [← hcell]
    exact hfree

/-- C24 (a goal hit returns at once, for every cap `K ≥ 1`).  In an iteration of the
loop whose frontier states have minute `m`: when the loop over the frontier has placed
in `next` a state whose position is the goal, the trimmed `next` still holds a state
at the goal (a goal state has the least possible score, 0), and the loop run with cap
`K` returns `m + 1` in this iteration; with `K = sizeLimit` this is the loop of
`breadthFirstSearch`.  On a validated grid the same holds as soon as the goal is an
orthogonal neighbour of a cell of the frontier: the goal is then open and free at
minute `m + 1`, so its state is placed in `next`.  (A frontier state at the goal itself
does not occur in an iteration that is executed, the loop having returned before.) -/
theorem goal_state_survives_trim_and_search_returns_its_minute
    (sortBy : (State → State → Bool) → List State → List State)
    (hsort : SortContract sortBy) (hord : SortOrders sortBy) (K : Nat) (hK : 1 ≤ K) :
    (∀ (g : GameBoard) (states visited : List State) (m left : Nat),
      (∀ s ∈ states, s.minute = m) →
      (∃ r, GameBoard.expandLayer states g [] visited = some r ∧
        ∃ s ∈ r.1, s.playerPosition = r.2.2._end) →
      ∃ next visited1 g1,
        GameBoard.expandLayer states g [] visited = some (next, visited1, g1) ∧
        (∃ s ∈ g1.trim sortBy K next, s.playerPosition = g1._end) ∧
        GameBoard.searchLoopWithCap sortBy K (left + 1) g states visited
          = some (((m + 1 : Nat) : Int), g1) ∧
        (K = sizeLimit →
          GameBoard.searchLoop sortBy (left + 1) g states visited
            = some (((m + 1 : Nat) : Int), g1))) ∧
    (∀ (lines : List String) (m left : Nat), ValidGrid lines →
      (∃ s ∈ (GameBoard.parse lines).frontier sortBy m,
        Adjacent s.playerPosition (GameBoard.parse lines)._end) →
      ∃ states visited g1 next visited1 g2,
        (GameBoard.parse lines).loopStateAt sortBy m = some (states, visited, g1) ∧
        GameBoard.expandLayer states g1 [] visited = some (next, visited1, g2) ∧
        (∃ s2 ∈ next, s2.playerPosition = g2._end) ∧
        (∃ s2 ∈ g2.trim sortBy K next, s2.playerPosition = g2._end) ∧
        GameBoard.searchLoopWithCap sortBy K (left + 1) g1 states visited
          = some (((m + 1 : Nat) : Int), g2) ∧
        (K = sizeLimit →
          GameBoard.searchLoop sortBy (left + 1) g1 states visited
            = some (((m + 1 : Nat) : Int), g2))) := by
  constructor
  · intro g states visited m left hminute hgoal
    obtain ⟨⟨next, visited1, g1⟩, hexp, hg⟩ := hgoal
    exact ⟨next, visited1, g1, hexp,
      GameBoard.goal_in_next_returns sortBy hsort hord K hK g states visited m left next
        visited1 g1 hminute hexp hg⟩
  · intro lines m left hv hcand
    obtain ⟨states, visited, cache, next, visited2, cache2, hls, hexp, -, hsound, -, hnext, -⟩ :=
      GameBoard.loopStateAt_step sortBy hsort _ _ (GameBoard.parse_cacheOK lines) m
    obtain ⟨s, hs, hadj⟩ := hcand
    rw [GameBoard.frontier_eq sortBy _ _ _ hls] at hs
    obtain ⟨p, hp, hr⟩ := hsound s hs
    have hpp : s.playerPosition = p := by rw [hp]; rfl
    have hmm : s.minute = m := by rw [hp]; rfl
    rw [hpp] at hadj
    have hvalid := GameBoard.goal_valid_next_to_reached_cell lines hv m p hr hadj
    have hin : (GameBoard.parse lines).stateAt (GameBoard.parse lines).initial (s.minute + 1)
        (GameBoard.parse lines)._end ∈ next := by
      refine (hnext _).2 ⟨s, hs, (GameBoard.parse lines)._end, Or.inr (by rw [hpp]; exact hadj),
        by rw [hmm]; exact hvalid, rfl⟩
    have hg : ∃ s2 ∈ next, s2.playerPosition
        = ((GameBoard.parse lines).withCache cache2)._end := ⟨_, hin, rfl⟩
    have hminute : ∀ s ∈ states, s.minute = m := by
      intro s1 hs1
      obtain ⟨q, hq, -⟩ := hsound s1 hs1
      rw [hq]; rfl
    exact ⟨states, visited, _, next, visited2, _, hls, hexp, hg,
      GameBoard.goal_in_next_returns sortBy hsort hord K hK _ states visited m left next
        visited2 _ hminute hexp hg⟩

theorem goal_state_survives_trim_and_search_returns_its_minute_witness :
    (∃ next visited1 g1,
      GameBoard.expandLayer [State.mk 0 ⟨1, 0⟩ [] [] 0] (GameBoard.parse ["#.#", "#.#"]) [] []
        = some (next, visited1, g1) ∧
      (∃ s ∈ g1.trim stableSortBy 1 next, s.playerPosition = g1._end) ∧
      GameBoard.searchLoopWithCap stableSortBy 1 (29 + 1) (GameBoard.parse ["#.#", "#.#"])
          [State.mk 0 ⟨1, 0⟩ [] [] 0] []
        = some (((0 + 1 : Nat) : Int), g1) ∧
      (1 = sizeLimit →
        GameBoard.searchLoop stableSortBy (29 + 1) (GameBoard.parse ["#.#", "#.#"])
            [State.mk 0 ⟨1, 0⟩ [] [] 0] []
          = some (((0 + 1 : Nat) : Int), g1))) ∧
    (∃ states visited g1 next visited1 g2,
      (GameBoard.parse ["#.#", "#.#", "#.#"]).loopStateAt stableSortBy 1
        = some (states, visited, g1) ∧
      GameBoard.expandLayer states g1 [] visited = some (next, visited1, g2) ∧
      (∃ s2 ∈ next, s2.playerPosition = g2._end) ∧
      (∃ s2 ∈ g2.trim stableSortBy 1 next, s2.playerPosition = g2._end) ∧
      GameBoard.searchLoopWithCap stableSortBy 1 (43 + 1) g1 states visited
        = some (((1 + 1 : Nat) : Int), g2) ∧
      (1 = sizeLimit →
        GameBoard.searchLoop stableSortBy (43 + 1) g1 states visited
          = some (((1 + 1 : Nat) : Int), g2))) :=
  ⟨(goal_state_survives_trim_and_search_returns_its_minute stableSortBy stableSortBy_contract
      stableSortBy_orders 1 (by decide)).1 (GameBoard.parse ["#.#", "#.#"])
      [State.mk 0 ⟨1, 0⟩ [] [] 0] [] 0 29 (by decide) ⟨_, rfl, by decide⟩,
    (goal_state_survives_trim_and_search_returns_its_minute stableSortBy stableSortBy_contract
      stableSortBy_orders 1 (by decide)).2 ["#.#", "#.#", "#.#"] 1 43 (by decide)
      (by decide)⟩

/-! ## The recursion of `getBlizzardsByMinute` -/

/-- On a board whose cache keys are `0 .. n`, `getBlizzardsByMinute(t)` returns and
leaves the keys `0 .. max n t`. -/
theorem GameBoard.getBlizzardsByMinute_keys (t : Nat) : ∀ (g : GameBoard) (n : Nat),
    g.KeysUpTo n →
    ∃ m g2, g.getBlizzardsByMinute t = some (m, g2) ∧ g2.KeysUpTo (max n t) := by
  induction t with
  | zero =>
    intro g n hk
    cases hf : g._blizzardsByTimeMap.find 0 with
    | none => exact absurd hf ((hk 0).2 (Nat.zero_le _))
    | some v =>
      refine ⟨v, g, by simp only [GameBoard.getBlizzardsByMinute, hf], ?_⟩
      rw [Nat.max_eq_left (Nat.zero_le _)]
      exact hk
  | succ t ih =>
    intro g n hk
    cases hf : g._blizzardsByTimeMap.find (t + 1) with
    | some v =>
      refine ⟨v, g, by simp only [GameBoard.getBlizzardsByMinute, hf], ?_⟩
      have hle : t + 1 ≤ n := (hk (t + 1)).1 (by rw [hf]; simp)
      rw [Nat.max_eq_left hle]
      exact hk
    | none =>
      have hlt : n < t + 1 := by
        by_contra hcon
        exact (hk (t + 1)).2 (by omega) hf
      obtain ⟨old, g1, hget, hk1⟩ := ih g n hk
      rw [Nat.max_eq_right (by omega)] at hk1
      refine ⟨g1.moveAll old,
        { g1 with _blizzardsByTimeMap :=
            g1._blizzardsByTimeMap.assign (t + 1) (g1.moveAll old) },
        by simp only [GameBoard.getBlizzardsByMinute, hf, hget], ?_⟩
      rw [Nat.max_eq_right (by omega)]
      intro k
      show SnapshotCache.find (g1._blizzardsByTimeMap.assign (t + 1) (g1.moveAll old)) k ≠ none
        ↔ k ≤ t + 1
      rw [SnapshotCache.find_assign]
      by_cases hkt : k = t + 1
      · simp [hkt]
      · rw [if_neg hkt, hk1 k]
        omega

theorem GameBoard.recursionDepth_of_keys (g : GameBoard) (n : Nat) (hk : g.KeysUpTo n)
    (t : Nat) : g.recursionDepth t = some (t - n) := by
  induction t with
  | zero =>
    cases hf : g._blizzardsByTimeMap.find 0 with
    | none => exact absurd hf ((hk 0).2 (Nat.zero_le _))
    | some v => simp only [GameBoard.recursionDepth, hf, Nat.zero_sub]
  | succ t ih =>
    cases hf : g._blizzardsByTimeMap.find (t + 1) with
    | some v =>
      have hle : t + 1 ≤ n := (hk (t + 1)).1 (by rw [hf]; simp)
      simp only [GameBoard.recursionDepth, hf]
      congr 1
      omega
    | none =>
      have hlt : n < t + 1 := by
        by_contra hcon
        exact (hk (t + 1)).2 (by omega) hf
      simp only [GameBoard.recursionDepth, hf, ih]
      congr 1
      omega

theorem GameBoard.expandLayer_keys (states : List State) :
    ∀ (g : GameBoard) (next visited : List State) (r : List State × List State × GameBoard),
    GameBoard.expandLayer states g next visited = some r →
    (∃ n, g.KeysUpTo n) → ∃ n, r.2.2.KeysUpTo n := by
  induction states with
  | nil =>
    intro g next visited r h hk
    simp only [GameBoard.expandLayer, Option.some.injEq] at h
    subst h
    exact hk
  | cons s0 rest ih =>
    intro g next visited r h hk
    by_cases hvis : visited.any (fun v => v.eqOp s0) = true
    · simp only [GameBoard.expandLayer, hvis, if_true] at h
      exact ih g next visited r h hk
    · simp only [GameBoard.expandLayer, hvis] at h
      obtain ⟨n, hn⟩ := hk
      obtain ⟨m, g1, hget, hk1⟩ := GameBoard.getBlizzardsByMinute_keys (s0.minute + 1) g n hn
      simp only [hget] at h
      exact ih g1 _ _ r h ⟨_, hk1⟩

theorem GameBoard.searchLoop_keys
    (sortBy : (State → State → Bool) → List State → List State) (left : Nat) :
    ∀ (g : GameBoard) (states visited : List State) (r : Int) (g2 : GameBoard),
    GameBoard.searchLoop sortBy left g states visited = some (r, g2) →
    (∃ n, g.KeysUpTo n) → ∃ n, g2.KeysUpTo n := by
  induction left with
  | zero =>
    intro g states visited r g2 h hk
    simp only [GameBoard.searchLoop, Option.some.injEq, Prod.mk.injEq] at h
    rw [← h.2]
    exact hk
  | succ left ih =>
    intro g states visited r g2 h hk
    simp only [GameBoard.searchLoop] at h
    cases hexp : GameBoard.expandLayer states g [] visited with
    | none => simp [hexp] at h
    | some res =>
      obtain ⟨next, visited1, g1⟩ := res
      have h1 := GameBoard.expandLayer_keys states g [] visited _ hexp hk
      simp only [hexp] at h
      cases hfind : (g1.trim sortBy sizeLimit next).find?
          (fun state => state.playerPosition.eqOp g1._end) with
      | some found =>
        simp only [hfind, Option.some.injEq, Prod.mk.injEq] at h
        rw [← h.2]
        exact h1
      | none =>
        simp only [hfind] at h
        exact ih g1 _ _ r g2 h h1

/-- Every board that the program can hold has the cache keys `0 .. n` for some `n`. -/
theorem GameBoard.reachable_keys (lines : List String) (g : GameBoard)
    (hr : GameBoard.Reachable lines g) : ∃ n, g.KeysUpTo n := by
  induction hr with
  | constructed =>
    refine ⟨0, ?_⟩
    intro k
    have h1 : (GameBoard.parse lines)._blizzardsByTimeMap
        = [(0, (GameBoard.parse lines).initial)] := by
      simp [GameBoard.parse, GameBoard.initial, SnapshotCache.assign, SnapshotCache.find]
    rw [h1]
    by_cases hk : 0 = k
    · simp [SnapshotCache.find, ← hk]
    · simp only [SnapshotCache.find, hk, if_false, ne_eq, not_true_eq_false, false_iff]
      omega
  | afterSnapshot g t m g2 _ hget ih =>
    obtain ⟨n, hn⟩ := ih
    obtain ⟨m2, g3, hget2, hk⟩ := GameBoard.getBlizzardsByMinute_keys t g n hn
    rw [hget] at hget2
    simp only [Option.some.injEq, Prod.mk.injEq] at hget2
    rw [hget2.2]
    exact ⟨_, hk⟩
  | afterSearch sortBy g r g2 _ hbfs ih =>
    unfold GameBoard.breadthFirstSearch at hbfs
    cases hf : g._blizzardsByTimeMap.find 0 with
    | none => simp [hf] at hbfs
    | some v =>
      simp only [hf] at hbfs
      exact GameBoard.searchLoop_keys sortBy _ g _ _ r g2 hbfs ih

/-- C38 (the snapshot recursion terminates).  Every board that the program can hold -
the board built by the constructor, or the board after any calls of
`getBlizzardsByMinute` and `breadthFirstSearch` - has key 0 in its cache and the key
set `{0, ..., n}` for some `n`.  On such a board, for every minute `t`, the call
`getBlizzardsByMinute(t)` returns: the recursion makes `t - n` nested calls (none for
`t ≤ n`), at most `t`, before it finds a cached key, it never arrives at minute 0 with
key 0 missing, and it leaves the key set `{0, ..., max n t}`. -/
theorem snapshot_recursion_reaches_a_cached_key (lines : List String) (g : GameBoard)
    (hr : GameBoard.Reachable lines g) :
    ∃ n, g.KeysUpTo n ∧ g._blizzardsByTimeMap.find 0 ≠ none ∧
      ∀ t, ∃ m g2, g.getBlizzardsByMinute t = some (m, g2) ∧
        g.recursionDepth t = some (t - n) ∧ t - n ≤ t ∧ g2.KeysUpTo (max n t) := by
  obtain ⟨n, hn⟩ := GameBoard.reachable_keys lines g hr
  refine ⟨n, hn, (hn 0).2 (Nat.zero_le _), ?_⟩
  intro t
  obtain ⟨m, g2, hget, hk⟩ := GameBoard.getBlizzardsByMinute_keys t g n hn
  exact ⟨m, g2, hget, GameBoard.recursionDepth_of_keys g n hn t, Nat.sub_le _ _, hk⟩

theorem snapshot_recursion_reaches_a_cached_key_witness :
    (∃ m g, (GameBoard.parse ["#.###", "#>.<#", "#.^.#", "###.#"]).getBlizzardsByMinute 3
        = some (m, g) ∧ g.recursionDepth 5 = some 2 ∧ g.recursionDepth 2 = some 0) ∧
    ∀ (m : BlizzardMap) (g : GameBoard),
      (GameBoard.parse ["#.###", "#>.<#", "#.^.#", "###.#"]).getBlizzardsByMinute 3
        = some (m, g) →
      ∃ n, g.KeysUpTo n ∧ g._blizzardsByTimeMap.find 0 ≠ none ∧
        ∀ t, ∃ m2 g2, g.getBlizzardsByMinute t = some (m2, g2) ∧
          g.recursionDepth t = some (t - n) ∧ t - n ≤ t ∧ g2.KeysUpTo (max n t) :=
  ⟨⟨_, _, rfl, by decide, by decide⟩,
    fun m g h => snapshot_recursion_reaches_a_cached_key
      ["#.###", "#>.<#", "#.^.#", "###.#"] g
      (GameBoard.Reachable.afterSnapshot _ 3 m g GameBoard.Reachable.constructed h)⟩

/-! ## Counting the obstacles -/

theorem BlizzardMap.total_eq_length_obstacles (m : BlizzardMap) :
    m.total = m.obstacles.length := by
  induction m with
  | nil => rfl
  | cons e rest ih =>
    simp only [BlizzardMap.total, BlizzardMap.obstacles, List.map_cons, List.sum_cons,
      List.flatMap_cons, List.length_append] at ih ⊢
    rw [ih]

theorem BlizzardMap.mem_obstacles (m : BlizzardMap) (b : Blizzard) :
    b ∈ m.obstacles ↔ ∃ k, m.Holds k b := by
  simp only [BlizzardMap.obstacles, List.mem_flatMap, BlizzardMap.Holds]
  constructor
  · rintro ⟨e, he, hb⟩; exact ⟨e.1, e, he, rfl, hb⟩
  · rintro ⟨k, e, he, -, hb⟩; exact ⟨e, he, hb⟩

/-- Inserting an obstacle that the snapshot does not hold under the key adds one to the
number of obstacles. -/
theorem BlizzardMap.total_insertAt (m : BlizzardMap) (key : CoordinatePair) (b : Blizzard)
    (h : ¬ m.Holds key b) : (m.insertAt key b).total = m.total + 1 := by
  induction m with
  | nil => simp [BlizzardMap.insertAt, BlizzardMap.total, blizzardSetInsert]
  | cons e rest ih =>
    by_cases hk : e.1.eqOp key = true
    · have hek : e.1 = key := (coordinatePair_eqOp_iff _ _).1 hk
      have hnot : b ∉ e.2 := fun hb => h ⟨e, List.mem_cons_self _ _, hek, hb⟩
      have hany : e.2.any (fun a => a.eqOp b) = false := by
        cases hc : e.2.any (fun a => a.eqOp b) with
        | false => rfl
        | true =>
          obtain ⟨a, ha, hab⟩ := List.any_eq_true.1 hc
          rw [(blizzard_eqOp_iff a b).1 hab] at ha
          exact absurd ha hnot
      simp only [BlizzardMap.insertAt, hk, if_true, BlizzardMap.total, List.map_cons,
        List.sum_cons, blizzardSetInsert, hany, Bool.false_eq_true, if_false,
        List.length_append, List.length_singleton]
      omega
    · have hrest : ¬ BlizzardMap.Holds rest key b := by
        rintro ⟨e2, he2, h1, h2⟩
        exact h ⟨e2, List.mem_cons_of_mem _ he2, h1, h2⟩
      have := ih hrest
      simp only [BlizzardMap.total] at this
      simp only [BlizzardMap.insertAt, hk, Bool.false_eq_true, if_false, BlizzardMap.total,
        List.map_cons, List.sum_cons, this]
      omega

theorem isObstacleSymbol_iff (c : Char) :
    isObstacleSymbol c = true ↔ ∃ d, charToDirection c = some d := by
  unfold isObstacleSymbol charToDirection
  by_cases h1 : c = '^'
  · simp [h1]
  by_cases h2 : c = 'v'
  · simp [h2]
  by_cases h3 : c = '<'
  · simp [h3]
  by_cases h4 : c = '>'
  · simp [h4]
  simp [h1, h2, h3, h4]

theorem total_parseLine (y : Int) (cs : List Char) : ∀ (x : Int) (st : ParseState),
    (∀ k b, st.initBlizzards.Holds k b → b._coord.second ≠ y ∨ b._coord.first < x) →
    (parseLine y cs x st).initBlizzards.total
      = st.initBlizzards.total + cs.countP isObstacleSymbol := by
  induction cs with
  | nil => intro x st _; simp [parseLine]
  | cons c cs ih =>
    intro x st hfresh
    have hfresh2 : ∀ k b, (parseCell x y c st).initBlizzards.Holds k b →
        b._coord.second ≠ y ∨ b._coord.first < x + 1 := by
      intro k b hb
      rw [parseCell_initBlizzards] at hb
      cases hd : charToDirection c with
      | none =>
        rw [hd] at hb
        rcases hfresh k b hb with h | h
        · exact Or.inl h
        · exact Or.inr (by omega)
      | some d =>
        rw [hd] at hb
        rcases (BlizzardMap.holds_insertAt _ _ _ _ _).1 hb with hb | ⟨-, hb⟩
        · rcases hfresh k b hb with h | h
          · exact Or.inl h
          · exact Or.inr (by omega)
        · rw [hb]; exact Or.inr (by simp)
    simp only [parseLine]
    rw [ih (x + 1) _ hfresh2, parseCell_initBlizzards, List.countP_cons]
    cases hd : charToDirection c with
    | none =>
      have hno : isObstacleSymbol c = false := by
        cases hc : isObstacleSymbol c with
        | false => rfl
        | true =>
          obtain ⟨d, hd2⟩ := (isObstacleSymbol_iff c).1 hc
          rw [hd] at hd2
          exact absurd hd2 (by simp)
      simp [hno]
    | some d =>
      have hyes : isObstacleSymbol c = true := (isObstacleSymbol_iff c).2 ⟨d, hd⟩
      have hnot : ¬ st.initBlizzards.Holds ⟨x, y⟩ ⟨⟨x, y⟩, d⟩ := by
        intro hb
        rcases hfresh _ _ hb with h | h
        · exact h rfl
        · simp at h
      simp only [hyes, if_true]
      rw [BlizzardMap.total_insertAt _ _ _ hnot]
      omega

theorem total_parseLines (lines : List String) : ∀ (y : Int) (prev : String)
    (st : ParseState),
    (∀ k b, st.initBlizzards.Holds k b → b._coord.second < y) →
    (parseLines lines y prev st).1.initBlizzards.total
      = st.initBlizzards.total + obstacleSymbolCount lines := by
  induction lines with
  | nil => intro y prev st _; simp [parseLines, obstacleSymbolCount]
  | cons line rest ih =>
    intro y prev st hfresh
    have hfresh2 : ∀ k b, (parseLine y line.data 0 st).initBlizzards.Holds k b →
        b._coord.second < y + 1 := by
      intro k b hb
      rcases (holds_parseLine y line.data 0 st k b).1 hb with hb | ⟨i, ch, -, d, -, -, hb⟩
      · have := hfresh k b hb
        omega
      · rw [hb]; simp
    simp only [parseLines]
    rw [ih (y + 1) line _ hfresh2, total_parseLine y line.data 0 st
      (fun k b hb => Or.inl (by have := hfresh k b hb; omega))]
    simp only [obstacleSymbolCount, List.map_cons, List.sum_cons]
    omega

/-- The snapshot of minute 0 holds as many obstacles as the input has obstacle
symbols. -/
theorem GameBoard.parse_initial_total (lines : List String) :
    (GameBoard.parse lines).initial.total = obstacleSymbolCount lines := by
  rw [GameBoard.parse_initial, total_parseLines lines 0 "" _
    (fun k b hb => by
      obtain ⟨e, he, -, -⟩ := hb
      exact absurd he (List.not_mem_nil _))]
  simp [BlizzardMap.total]

theorem foldl_preserves {α β : Type} (P : β → Prop) (f : β → α → β)
    (hf : ∀ b a, P b → P (f b a)) (l : List α) : ∀ b, P b → P (l.foldl f b) := by
  induction l with
  | nil => intro b hb; exact hb
  | cons a rest ih => intro b hb; exact ih _ (hf b a hb)

theorem GameBoard.noRepetition_moveAll (g : GameBoard) (old : BlizzardMap) :
    (g.moveAll old).NoRepetition := by
  unfold GameBoard.moveAll
  apply foldl_preserves BlizzardMap.NoRepetition
  · intro acc entry hacc
    apply foldl_preserves BlizzardMap.NoRepetition _ _ _ _ hacc
    intro acc2 blizzard hacc2
    exact BlizzardMap.noRepetition_insertAt _ _ _ hacc2
  · exact ⟨List.nodup_nil, fun e he => absurd he (List.not_mem_nil _)⟩

theorem GameBoard.noRepetition_snapshot (g : GameBoard) (init : BlizzardMap)
    (h : init.NoRepetition) (t : Nat) : (g.snapshot init t).NoRepetition := by
  cases t with
  | zero => exact h
  | succ t => exact GameBoard.noRepetition_moveAll g _

/-- A snapshot without repetition whose keys are the cells of the obstacles lists no
obstacle twice. -/
theorem BlizzardMap.obstacles_nodup (m : BlizzardMap) (h : m.NoRepetition)
    (hkey : ∀ k b, m.Holds k b → k = b._coord) : m.obstacles.Nodup := by
  unfold BlizzardMap.obstacles
  rw [List.nodup_flatMap]
  refine ⟨h.2, ?_⟩
  have hkeys : m.Pairwise (fun a b => a.1 ≠ b.1) := by
    have := h.1
    rw [List.Nodup, List.pairwise_map] at this
    exact this
  refine List.Pairwise.imp_of_mem ?_ hkeys
  intro a b ha hb hab
  show List.Disjoint a.2 b.2
  intro x hxa hxb
  have h1 := hkey a.1 x ⟨a, ha, rfl, hxa⟩
  have h2 := hkey b.1 x ⟨b, hb, rfl, hxb⟩
  exact hab (by rw [h1, h2])

/-! ## Distinct obstacles stay distinct -/

theorem emod_shift_inj (n a1 a2 c : Int) (h1 : 0 ≤ a1) (h2 : a1 < n) (h3 : 0 ≤ a2)
    (h4 : a2 < n) (h : (a1 + c) % n = (a2 + c) % n) : a1 = a2 := by
  rw [Int.emod_eq_emod_iff_emod_sub_eq_zero] at h
  have h5 : a1 + c - (a2 + c) = a1 - a2 := by ring
  rw [h5] at h
  have h6 : n ∣ a1 - a2 := Int.dvd_of_emod_eq_zero h
  have h7 : a1 - a2 = 0 := Int.eq_zero_of_abs_lt_dvd h6 (by rw [abs_lt]; constructor <;> omega)
  omega

theorem GameBoard.closedFormPosition_inj (g : GameBoard) (b1 b2 : Blizzard) (t : Nat)
    (hi1 : g.InInterior b1._coord) (hi2 : g.InInterior b2._coord)
    (hd : b1._direction = b2._direction)
    (h : g.closedFormPosition b1 t = g.closedFormPosition b2 t) : b1._coord = b2._coord := by
  simp only [GameBoard.closedFormPosition, hd, CoordinatePair.mk.injEq, Blizzard.x, Blizzard.y,
    CoordinatePair.x, CoordinatePair.y] at h
  obtain ⟨hx, hy⟩ := h
  obtain ⟨a1, a2, a3, a4⟩ := hi1
  obtain ⟨c1, c2, c3, c4⟩ := hi2
  simp only [CoordinatePair.x, CoordinatePair.y] at a1 a2 a3 a4 c1 c2 c3 c4
  have ex := emod_shift_inj (g._width - 2) (b1._coord.first - 1) (b2._coord.first - 1) _
    (by omega) (by omega) (by omega) (by omega) (Int.add_left_cancel hx)
  have ey := emod_shift_inj (g._height - 2) (b1._coord.second - 1) (b2._coord.second - 1) _
    (by omega) (by omega) (by omega) (by omega) (Int.add_left_cancel hy)
  apply coordinatePair_ext
  · simp only [CoordinatePair.x]; omega
  · simp only [CoordinatePair.y]; omega

theorem GameBoard.closedFormPosition_x_of_vertical (g : GameBoard) (b : Blizzard) (t : Nat)
    (hi : g.InInterior b._coord)
    (hd : b._direction = Direction.Up ∨ b._direction = Direction.Down) :
    (g.closedFormPosition b t).x = b.x := by
  obtain ⟨a1, a2, -, -⟩ := hi
  simp only [CoordinatePair.x] at a1 a2
  rcases hd with hd | hd <;>
    simp only [GameBoard.closedFormPosition, hd, directionToForceVector, CoordinatePair.x,
      Blizzard.x] <;>
    rw [emod_shift_zero _ _ _ (by omega) (by omega)] <;> ring

/-- An obstacle that leaves through the start opening is, at every minute, on no cell
and heading of another obstacle of the interior. -/
theorem GameBoard.moveN_inj_of_up_escape (g : GameBoard) (hb : g.BorderWalls)
    (b1 b2 : Blizzard) (hi1 : g.InInterior b1._coord) (hi2 : g.InInterior b2._coord)
    (hd1 : b1._direction = Direction.Up) (hx1 : b1.x = g._start.x) (t : Nat)
    (h : g.moveN b1 t = g.moveN b2 t) : b1 = b2 := by
  rw [GameBoard.moveN_up_in_start_column g hb b1 hi1 hd1 hx1 t] at h
  by_cases hesc : g.Escapes b2
  · rcases hesc with ⟨hd2, hx2⟩ | ⟨hd2, hx2⟩
    · rw [GameBoard.moveN_up_in_start_column g hb b2 hi2 hd2 hx2 t] at h
      simp only [Blizzard.mk.injEq, CoordinatePair.mk.injEq, and_true] at h
      apply blizzard_ext _ _ _ (by rw [hd1, hd2])
      apply coordinatePair_ext
      · exact h.1
      · have := h.2
        simp only [Blizzard.y] at this
        omega
    · rw [GameBoard.moveN_down_in_goal_column g hb b2 hi2 hd2 hx2 t] at h
      simp at h
  · obtain ⟨hc, hdir⟩ := GameBoard.moveN_closedForm g hb b2 hi2 hesc t
    have hd2 : b2._direction = Direction.Up := by
      rw [← hdir, ← h]
    have hx := GameBoard.closedFormPosition_x_of_vertical g b2 t hi2 (Or.inl hd2)
    rw [← hc, ← h] at hx
    exact absurd (Or.inl ⟨hd2, by rw [← hx1, ← hx]; rfl⟩) hesc

/-- An obstacle that leaves through the goal opening is, at every minute, on no cell
and heading of another obstacle of the interior. -/
theorem GameBoard.moveN_inj_of_down_escape (g : GameBoard) (hb : g.BorderWalls)
    (b1 b2 : Blizzard) (hi1 : g.InInterior b1._coord) (hi2 : g.InInterior b2._coord)
    (hd1 : b1._direction = Direction.Down) (hx1 : b1.x = g._end.x) (t : Nat)
    (h : g.moveN b1 t = g.moveN b2 t) : b1 = b2 := by
  rw [GameBoard.moveN_down_in_goal_column g hb b1 hi1 hd1 hx1 t] at h
  by_cases hesc : g.Escapes b2
  · rcases hesc with ⟨hd2, hx2⟩ | ⟨hd2, hx2⟩
    · rw [GameBoard.moveN_up_in_start_column g hb b2 hi2 hd2 hx2 t] at h
      simp at h
    · rw [GameBoard.moveN_down_in_goal_column g hb b2 hi2 hd2 hx2 t] at h
      simp only [Blizzard.mk.injEq, CoordinatePair.mk.injEq, and_true] at h
      apply blizzard_ext _ _ _ (by rw [hd1, hd2])
      apply coordinatePair_ext
      · exact h.1
      · have := h.2
        simp only [Blizzard.y] at this
        omega
  · obtain ⟨hc, hdir⟩ := GameBoard.moveN_closedForm g hb b2 hi2 hesc t
    have hd2 : b2._direction = Direction.Down := by
      rw [← hdir, ← h]
    have hx := GameBoard.closedFormPosition_x_of_vertical g b2 t hi2 (Or.inr hd2)
    rw [← hc, ← h] at hx
    exact absurd (Or.inr ⟨hd2, by rw [← hx1, ← hx]; rfl⟩) hesc

/-- Two obstacles of the interior that are on one cell with one heading at minute `t`
are the same obstacle. -/
theorem GameBoard.moveN_inj (g : GameBoard) (hb : g.BorderWalls) (b1 b2 : Blizzard)
    (hi1 : g.InInterior b1._coord) (hi2 : g.InInterior b2._coord) (t : Nat)
    (h : g.moveN b1 t = g.moveN b2 t) : b1 = b2 := by
  by_cases hesc1 : g.Escapes b1
  · rcases hesc1 with ⟨hd1, hx1⟩ | ⟨hd1, hx1⟩
    · exact GameBoard.moveN_inj_of_up_escape g hb b1 b2 hi1 hi2 hd1 hx1 t h
    · exact GameBoard.moveN_inj_of_down_escape g hb b1 b2 hi1 hi2 hd1 hx1 t h
  · by_cases hesc2 : g.Escapes b2
    · rcases hesc2 with ⟨hd2, hx2⟩ | ⟨hd2, hx2⟩
      · exact (GameBoard.moveN_inj_of_up_escape g hb b2 b1 hi2 hi1 hd2 hx2 t h.symm).symm
      · exact (GameBoard.moveN_inj_of_down_escape g hb b2 b1 hi2 hi1 hd2 hx2 t h.symm).symm
    · obtain ⟨hc1, hdir1⟩ := GameBoard.moveN_closedForm g hb b1 hi1 hesc1 t
      obtain ⟨hc2, hdir2⟩ := GameBoard.moveN_closedForm g hb b2 hi2 hesc2 t
      have hd : b1._direction = b2._direction := by rw [← hdir1, ← hdir2, h]
      apply blizzard_ext _ _ _ hd
      apply GameBoard.closedFormPosition_inj g b1 b2 t hi1 hi2 hd
      rw [← hc1, ← hc2, h]

/-- On a validated grid the snapshot of minute `t` lists the obstacles of minute 0,
each moved `t` times, in some order. -/
theorem GameBoard.obstacles_snapshot_perm (lines : List String) (hv : ValidGrid lines)
    (t : Nat) :
    (((GameBoard.parse lines).snapshot (GameBoard.parse lines).initial t).obstacles).Perm
      ((GameBoard.parse lines).initial.obstacles.map
        (fun b => (GameBoard.parse lines).moveN b t)) := by
  have hb := GameBoard.parse_borderWalls lines hv
  have hkey := GameBoard.parse_key_eq_coord lines
  have hnr0 := GameBoard.parse_initial_noRepetition lines
  have hnd0 := BlizzardMap.obstacles_nodup _ hnr0 hkey
  have hkeyt : ∀ k b, BlizzardMap.Holds
      ((GameBoard.parse lines).snapshot (GameBoard.parse lines).initial t) k b →
      k = b._coord := by
    intro k b hkb
    obtain ⟨b0, -, -, hk⟩ := (GameBoard.holds_snapshot_iff _ _ hkey t k b).1 hkb
    exact hk
  have hndt := BlizzardMap.obstacles_nodup _
    (GameBoard.noRepetition_snapshot _ _ hnr0 t) hkeyt
  have hinit : ∀ b0, b0 ∈ (GameBoard.parse lines).initial.obstacles ↔
      (GameBoard.parse lines).initial.Holds b0._coord b0 := by
    intro b0
    rw [BlizzardMap.mem_obstacles]
    constructor
    · rintro ⟨k, hk⟩
      rw [← hkey k b0 hk]
      exact hk
    · intro h0; exact ⟨_, h0⟩
  have hndm : ((GameBoard.parse lines).initial.obstacles.map
      (fun b => (GameBoard.parse lines).moveN b t)).Nodup := by
    apply List.Nodup.map_on _ hnd0
    intro x hx y hy hxy
    exact GameBoard.moveN_inj _ hb x y
      (GameBoard.parse_initial_interior lines hv _ _ ((hinit x).1 hx)).2
      (GameBoard.parse_initial_interior lines hv _ _ ((hinit y).1 hy)).2 t hxy
  rw [List.perm_ext_iff_of_nodup hndt hndm]
  intro b
  rw [BlizzardMap.mem_obstacles, List.mem_map]
  constructor
  · rintro ⟨k, hk⟩
    obtain ⟨b0, h0, hbe, -⟩ := (GameBoard.holds_snapshot_iff _ _ hkey t k b).1 hk
    exact ⟨b0, (hinit b0).2 h0, hbe.symm⟩
  · rintro ⟨b0, h0, hbe⟩
    exact ⟨b._coord, (GameBoard.holds_snapshot_iff _ _ hkey t _ b).2
      ⟨b0, (hinit b0).1 h0, hbe.symm, rfl⟩⟩

/-- C31 (the number of obstacles is conserved).  For every validated grid and every
`t`, the sizes of the sets of all cells of `getBlizzardsByMinute(t)`, added up, give
the number of obstacle symbols of the input: two distinct obstacles of the input are
never on one cell with one heading, and every obstacle of the input is held, moved `t`
times, under its cell.  Every key of the snapshot holds a non-empty set, so a key is
present exactly when its cell is occupied. -/
theorem obstacle_count_is_conserved (lines : List String) (t : Nat) (hv : ValidGrid lines) :
    ∃ m g2, (GameBoard.parse lines).getBlizzardsByMinute t = some (m, g2) ∧
      m.total = obstacleSymbolCount lines ∧
      (∀ b1 b2, (GameBoard.parse lines).initial.Holds b1._coord b1 →
        (GameBoard.parse lines).initial.Holds b2._coord b2 →
        (GameBoard.parse lines).moveN b1 t = (GameBoard.parse lines).moveN b2 t → b1 = b2) ∧
      (∀ b0, (GameBoard.parse lines).initial.Holds b0._coord b0 →
        m.Holds ((GameBoard.parse lines).moveN b0 t)._coord
          ((GameBoard.parse lines).moveN b0 t)) ∧
      m.SetsNonempty ∧
      (∀ c, m.contains c = true ↔ m.Occupied c) := by
  obtain ⟨cache, hget, -⟩ :=
    GameBoard.getBlizzardsByMinute_spec _ _ (GameBoard.parse_cacheOK lines) t
  have hb := GameBoard.parse_borderWalls lines hv
  have hkey := GameBoard.parse_key_eq_coord lines
  have hsets := GameBoard.setsNonempty_snapshot (GameBoard.parse lines) _
    (GameBoard.parse_initial_setsNonempty lines) t
  refine ⟨_, _, hget, ?_, ?_, ?_, hsets, blizzardMap_contains_iff_occupied _ hsets⟩
  · rw [BlizzardMap.total_eq_length_obstacles,
      (GameBoard.obstacles_snapshot_perm lines hv t).length_eq, List.length_map,
      ← BlizzardMap.total_eq_length_obstacles, GameBoard.parse_initial_total]
  · intro b1 b2 h1 h2 h
    exact GameBoard.moveN_inj _ hb b1 b2
      (GameBoard.parse_initial_interior lines hv _ _ h1).2
      (GameBoard.parse_initial_interior lines hv _ _ h2).2 t h
  · intro b0 h0
    exact (GameBoard.holds_snapshot_iff _ _ hkey t _ _).2 ⟨b0, h0, rfl, rfl⟩

theorem obstacle_count_is_conserved_witness :
    obstacleSymbolCount ["#.###", "#>.<#", "#.^.#", "###.#"] = 3 ∧
    (∃ m g2, (GameBoard.parse ["#.###", "#>.<#", "#.^.#", "###.#"]).getBlizzardsByMinute 7
        = some (m, g2) ∧ m.total = 3) ∧
    ∃ m g2, (GameBoard.parse ["#.###", "#>.<#", "#.^.#", "###.#"]).getBlizzardsByMinute 7
        = some (m, g2) ∧
      m.total = obstacleSymbolCount ["#.###", "#>.<#", "#.^.#", "###.#"] ∧
      (∀ b1 b2,
        (GameBoard.parse ["#.###", "#>.<#", "#.^.#", "###.#"]).initial.Holds b1._coord b1 →
        (GameBoard.parse ["#.###", "#>.<#", "#.^.#", "###.#"]).initial.Holds b2._coord b2 →
        (GameBoard.parse ["#.###", "#>.<#", "#.^.#", "###.#"]).moveN b1 7
          = (GameBoard.parse ["#.###", "#>.<#", "#.^.#", "###.#"]).moveN b2 7 → b1 = b2) ∧
      (∀ b0,
        (GameBoard.parse ["#.###", "#>.<#", "#.^.#", "###.#"]).initial.Holds b0._coord b0 →
        m.Holds ((GameBoard.parse ["#.###", "#>.<#", "#.^.#", "###.#"]).moveN b0 7)._coord
          ((GameBoard.parse ["#.###", "#>.<#", "#.^.#", "###.#"]).moveN b0 7)) ∧
      m.SetsNonempty ∧
      (∀ c, m.contains c = true ↔ m.Occupied c) :=
  ⟨by decide, ⟨_, _, rfl, by decide⟩,
    obstacle_count_is_conserved ["#.###", "#>.<#", "#.^.#", "###.#"] 7 (by decide)⟩

end Day24

namespace Day04

/-- C37 (range overlap test, day 4 part 2).  For ranges `A = [a1, a2]` and
`B = [b1, b2]` with `a1 ≤ a2` and `b1 ≤ b2`, the condition counted by `main`,
`A.overlaps(B) || B.overlaps(A)`, holds exactly when the two intervals share an
integer, that is when `max a1 b1 ≤ min a2 b2`.  One direction alone is not equivalent
to that: `[2, 3]` and `[1, 4]` share `2`, and `[2, 3].overlaps([1, 4])` is false. -/
theorem overlap_either_way_iff_intervals_intersect (a1 a2 b1 b2 : Int)
    (ha : a1 ≤ a2) (hb : b1 ≤ b2) :
    (countedByMain ⟨a1, a2⟩ ⟨b1, b2⟩ = true ↔ ∃ n : Int, a1 ≤ n ∧ n ≤ a2 ∧ b1 ≤ n ∧ n ≤ b2) ∧
    (countedByMain ⟨a1, a2⟩ ⟨b1, b2⟩ = true ↔ max a1 b1 ≤ min a2 b2) ∧
    (∃ c1 c2 d1 d2 : Int, c1 ≤ c2 ∧ d1 ≤ d2 ∧ max c1 d1 ≤ min c2 d2 ∧
      Range.overlaps ⟨c1, c2⟩ ⟨d1, d2⟩ = false) := by
  have hiff : countedByMain ⟨a1, a2⟩ ⟨b1, b2⟩ = true ↔ max a1 b1 ≤ min a2 b2 := by
    simp only [countedByMain, Range.overlaps, Range.inRange, Bool.or_eq_true,
      Bool.and_eq_true, decide_eq_true_eq, le_min_iff, max_le_iff]
    constructor
    · rintro ((⟨h1, h2⟩ | ⟨h1, h2⟩) | (⟨h1, h2⟩ | ⟨h1, h2⟩)) <;> omega
    · rintro ⟨⟨h1, h2⟩, h3, h4⟩
      by_cases h : a1 ≤ b1
      · exact Or.inl (Or.inl ⟨h, h2⟩)
      · exact Or.inr (Or.inl ⟨by omega, h3⟩)
  refine ⟨?_, hiff, ⟨2, 3, 1, 4, by decide, by decide, by decide, by decide⟩⟩
  rw [hiff]
  constructor
  · intro h
    exact ⟨max a1 b1, le_max_left _ _, le_trans h (min_le_left _ _), le_max_right _ _,
      le_trans h (min_le_right _ _)⟩
  · rintro ⟨n, h1, h2, h3, h4⟩
    exact le_trans (max_le h1 h3) (le_min h2 h4)

theorem overlap_either_way_iff_intervals_intersect_witness :
    countedByMain ⟨2, 3⟩ ⟨1, 4⟩ = true ∧ Range.overlaps ⟨2, 3⟩ ⟨1, 4⟩ = false ∧
      (countedByMain ⟨2, 3⟩ ⟨1, 4⟩ = true ↔ max (2 : Int) 1 ≤ min 3 4) :=
  ⟨by decide, by decide,
    (overlap_either_way_iff_intervals_intersect 2 3 1 4 (by decide) (by decide)).2.1⟩

end Day04

namespace Day06

/-! ## The marker search -/

/-- The loop returns the first window of `markerSize` distinct characters among the
windows that end at the positions `iter, ..., iter + left - 1`. -/
theorem searchLoop_eq_some_iff (signal : List Char) (w : String) (k : Nat) (left : Nat) :
    ∀ iter : Nat, searchLoop signal left iter = some (w, k) ↔
      iter ≤ k ∧ k < iter + left ∧
        ((signal.drop (k - markerSize)).take markerSize).dedup.length = markerSize ∧
        w = String.mk ((signal.drop (k - markerSize)).take markerSize) ∧
        ∀ j, iter ≤ j → j < k →
          ((signal.drop (j - markerSize)).take markerSize).dedup.length ≠ markerSize := by
  induction left with
  | zero =>
    intro iter
    simp only [searchLoop, Nat.add_zero]
    constructor
    · intro h; exact absurd h (by simp)
    · rintro ⟨h1, h2, -⟩; omega
  | succ left ih =>
    intro iter
    simp only [searchLoop]
    by_cases hw : ((signal.drop (iter - markerSize)).take markerSize).dedup.length = markerSize
    · rw [if_pos hw]
      simp only [Option.some.injEq, Prod.mk.injEq]
      constructor
      · rintro ⟨h1, h2⟩
        subst h2
        exact ⟨le_refl _, by omega, hw, h1.symm, fun j hj1 hj2 => absurd hj1 (by omega)⟩
      · rintro ⟨h1, h2, h3, h4, h5⟩
        have hk : k = iter := by
          by_contra hne
          exact h5 iter (le_refl _) (by omega) hw
        subst hk
        exact ⟨h4.symm, rfl⟩
    · rw [if_neg hw, ih (iter + 1)]
      constructor
      · rintro ⟨h1, h2, h3, h4, h5⟩
        refine ⟨by omega, by omega, h3, h4, ?_⟩
        intro j hj1 hj2
        by_cases hj : j = iter
        · rw [hj]; exact hw
        · exact h5 j (by omega) hj2
      · rintro ⟨h1, h2, h3, h4, h5⟩
        have hk : k ≠ iter := by
          intro hk
          rw [hk] at h3
          exact hw h3
        exact ⟨by omega, by omega, h3, h4, fun j hj1 hj2 => h5 j (by omega) hj2⟩

/-- What `findStartOfPacketMarker` returns: the first window of 14 distinct characters
among the windows that end before the last character of the signal, with the number of
characters up to the end of the window. -/
theorem findStartOfPacketMarker_eq_some_iff (signal : String) (w : String) (k : Nat) :
    findStartOfPacketMarker signal = some (w, k) ↔
      markerSize ≤ k ∧ k < signal.length ∧
        ((signal.data.drop (k - markerSize)).take markerSize).dedup.length = markerSize ∧
        w = String.mk ((signal.data.drop (k - markerSize)).take markerSize) ∧
        ∀ j, markerSize ≤ j → j < k →
          ((signal.data.drop (j - markerSize)).take markerSize).dedup.length ≠ markerSize := by
  unfold findStartOfPacketMarker
  by_cases hlen : signal.length < markerSize
  · rw [if_pos hlen]
    constructor
    · intro h; exact absurd h (by simp)
    · rintro ⟨h1, h2, -⟩; omega
  · rw [if_neg hlen, searchLoop_eq_some_iff]
    have : markerSize + (signal.length - markerSize) = signal.length := by omega
    rw [this]

/-- C36 (start-of-message marker), the code at the failing input.  The signal
`abcdefghijklmn` consists of 14 pairwise distinct characters, yet
`findStartOfPacketMarker` returns no value for it: the loop condition
`iter < signal.end()` never lets the window end at the end of the signal.  With one
more character after the window the same window is found and reported with the
count 14. -/
theorem marker_ending_the_signal_is_not_found :
    "abcdefghijklmn".length = 14 ∧ "abcdefghijklmn".data.Nodup ∧
      findStartOfPacketMarker "abcdefghijklmn" = none ∧
      findStartOfPacketMarker "abcdefghijklmna" = some ("abcdefghijklmn", 14) := by
  decide

end Day06

namespace Day09

/-! ## The rope stays connected -/

theorem Position.touching_iff (p other : Position) :
    p.touching other = true ↔ p.Near other := by
  unfold Position.touching Position.Near
  split_ifs with h1 h2
  · simp only [true_iff]; omega
  · simp only [Bool.false_eq_true, false_iff]; omega
  · simp only [Bool.false_eq_true, false_iff]; omega

theorem Position.near_applyDirection (p : Position) (d : Direction) :
    (p.applyDirection d).Near p := by
  cases d <;> simp only [Position.applyDirection, Position.Near] <;> omega

/-- A knot in the same row or column as the knot before it, not touching it and at most
2 away on each axis, is moved by `reconnect` to a position that touches. -/
theorem Position.reconnect_spec (p other : Position)
    (hfar : p.touching other = false) (hsame : p.sameRowOrCol other = true)
    (hx1 : -2 ≤ p._x - other._x) (hx2 : p._x - other._x ≤ 2)
    (hy1 : -2 ≤ p._y - other._y) (hy2 : p._y - other._y ≤ 2) :
    ∃ q, p.reconnect other = some q ∧ q.touching other = true ∧ q.Near p := by
  have hnn : ¬ p.Near other := by
    rw [← Position.touching_iff, hfar]; decide
  simp only [Position.sameRowOrCol, Bool.or_eq_true, decide_eq_true_eq] at hsame
  unfold Position.reconnect
  by_cases h1 : (p.applyDirection Direction.up).touching other = true
  · exact ⟨_, by simp [Position.reconnectLoop, h1], h1,
      Position.near_applyDirection _ _⟩
  by_cases h2 : (p.applyDirection Direction.down).touching other = true
  · exact ⟨_, by simp [Position.reconnectLoop, h1, h2], h2,
      Position.near_applyDirection _ _⟩
  by_cases h3 : (p.applyDirection Direction.left).touching other = true
  · exact ⟨_, by simp [Position.reconnectLoop, h1, h2, h3], h3,
      Position.near_applyDirection _ _⟩
  by_cases h4 : (p.applyDirection Direction.right).touching other = true
  · exact ⟨_, by simp [Position.reconnectLoop, h1, h2, h3, h4], h4,
      Position.near_applyDirection _ _⟩
  exfalso
  rw [Position.touching_iff] at h1 h2 h3 h4
  simp only [Position.applyDirection, Position.Near] at h1 h2 h3 h4 hnn
  omega

/-- A knot not touching the knot before it and at most 2 away from it on each axis is
moved by `reconnectDiag` to a position that touches. -/
theorem Position.reconnectDiag_spec (p other : Position)
    (hfar : p.touching other = false)
    (hx1 : -2 ≤ p._x - other._x) (hx2 : p._x - other._x ≤ 2)
    (hy1 : -2 ≤ p._y - other._y) (hy2 : p._y - other._y ≤ 2) :
    ∃ q, p.reconnectDiag other = some q ∧ q.touching other = true ∧ q.Near p := by
  have hnn : ¬ p.Near other := by
    rw [← Position.touching_iff, hfar]; decide
  have hnear : ∀ a b : Direction, (a = Direction.up ∨ a = Direction.down) →
      (b = Direction.left ∨ b = Direction.right) →
      ((p.applyDirection a).applyDirection b).Near p := by
    intro a b ha hb
    rcases ha with ha | ha <;> rcases hb with hb | hb <;> subst ha <;> subst hb <;>
      simp only [Position.applyDirection, Position.Near] <;> omega
  unfold Position.reconnectDiag
  by_cases h1 : ((p.applyDirection Direction.up).applyDirection Direction.left).touching other
      = true
  · exact ⟨_, by simp [Position.reconnectDiagOuter, Position.reconnectDiagInner, h1], h1, hnear _ _ (Or.inl rfl) (Or.inl rfl)⟩
  by_cases h2 : ((p.applyDirection Direction.up).applyDirection Direction.right).touching other
      = true
  · exact ⟨_, by simp [Position.reconnectDiagOuter, Position.reconnectDiagInner, h1, h2], h2, hnear _ _ (Or.inl rfl) (Or.inr rfl)⟩
  by_cases h3 : ((p.applyDirection Direction.down).applyDirection Direction.left).touching other
      = true
  · exact ⟨_, by simp [Position.reconnectDiagOuter, Position.reconnectDiagInner, h1, h2, h3], h3, hnear _ _ (Or.inr rfl) (Or.inl rfl)⟩
  by_cases h4 : ((p.applyDirection Direction.down).applyDirection Direction.right).touching
      other = true
  · exact ⟨_, by simp [Position.reconnectDiagOuter, Position.reconnectDiagInner, h1, h2, h3, h4], h4, hnear _ _ (Or.inr rfl) (Or.inr rfl)⟩
  exfalso
  rw [Position.touching_iff] at h1 h2 h3 h4
  simp only [Position.applyDirection, Position.Near] at h1 h2 h3 h4 hnn
  omega

/-- The inner loop of `applyMotion`: when the knot before the first knot of `rest` has
moved by at most 1 on each axis and the knots were connected, every knot finds its new
position and the knots are connected again. -/
theorem Rope.propagate_spec (rest : List Position) : ∀ (prev prev2 : Position),
    prev2.Near prev →
    List.Chain (fun a b => b.touching a = true) prev rest →
    ∃ rest2, Rope.propagate prev2 rest = some rest2 ∧
      List.Chain (fun a b => b.touching a = true) prev2 rest2 ∧
      rest2.length = rest.length := by
  induction rest with
  | nil =>
    intro prev prev2 _ _
    exact ⟨[], rfl, List.Chain.nil, rfl⟩
  | cons curr rest ih =>
    intro prev prev2 hnear hchain
    obtain ⟨htouch, hrest⟩ := List.chain_cons.1 hchain
    have hcp : curr.Near prev := (Position.touching_iff _ _).1 htouch
    have hmoved : ∃ curr2,
        (if !curr.touching prev2 then
          if curr.sameRowOrCol prev2 then curr.reconnect prev2
          else curr.reconnectDiag prev2
        else some curr) = some curr2 ∧ curr2.touching prev2 = true ∧ curr2.Near curr := by
      cases ht : curr.touching prev2 with
      | true =>
        refine ⟨curr, by simp, ht, ?_⟩
        simp only [Position.Near]; omega
      | false =>
        have hb : -2 ≤ curr._x - prev2._x ∧ curr._x - prev2._x ≤ 2 ∧
            -2 ≤ curr._y - prev2._y ∧ curr._y - prev2._y ≤ 2 := by
          simp only [Position.Near] at hcp hnear
          omega
        cases hs : curr.sameRowOrCol prev2 with
        | true =>
          obtain ⟨q, h1, h2, h3⟩ :=
            Position.reconnect_spec curr prev2 ht hs hb.1 hb.2.1 hb.2.2.1 hb.2.2.2
          exact ⟨q, by simp [h1], h2, h3⟩
        | false =>
          obtain ⟨q, h1, h2, h3⟩ :=
            Position.reconnectDiag_spec curr prev2 ht hb.1 hb.2.1 hb.2.2.1 hb.2.2.2
          exact ⟨q, by simp [h1], h2, h3⟩
    obtain ⟨curr2, hm1, hm2, hm3⟩ := hmoved
    obtain ⟨rest2, hr1, hr2, hr3⟩ := ih curr curr2 hm3 hrest
    refine ⟨curr2 :: rest2, ?_, List.Chain.cons hm2 hr2, by simp [hr3]⟩
    simp only [Rope.propagate, hm1, hr1]

theorem Rope.recordTail_spec (r : Rope) (h : r._knots ≠ []) :
    ∃ r2, r.recordTail = some r2 ∧ r2._knots = r._knots := by
  unfold Rope.recordTail
  cases hl : r._knots.getLast? with
  | none => exact absurd (List.getLast?_eq_none_iff.1 hl) h
  | some tail => exact ⟨_, rfl, rfl⟩

/-- One step of the head: a connected rope with at least one knot stays connected, and
no `std::terminate` branch is reached. -/
theorem Rope.applyStep_spec (r : Rope) (direction : Direction) (hc : r.Connected)
    (hne : r._knots ≠ []) :
    ∃ r2, r.applyStep direction = some r2 ∧ r2.Connected ∧
      r2._knots.length = r._knots.length := by
  unfold Rope.applyStep
  cases hk : r._knots with
  | nil => exact absurd hk hne
  | cons head rest =>
    have hchain : List.Chain (fun a b => b.touching a = true) head rest := by
      have := hc
      unfold Rope.Connected at this
      rw [hk] at this
      exact this
    obtain ⟨rest2, h1, h2, h3⟩ := Rope.propagate_spec rest head
      (head.applyDirection direction) (Position.near_applyDirection _ _) hchain
    obtain ⟨r2, h4, h5⟩ := Rope.recordTail_spec
      { r with _knots := head.applyDirection direction :: rest2 } (by simp)
    refine ⟨r2, by simp only [h1, h4], ?_, ?_⟩
    · unfold Rope.Connected
      rw [h5]
      exact h2
    · rw [h5]
      simp [h3]

theorem Rope.applySteps_spec (direction : Direction) (n : Nat) : ∀ (r : Rope),
    r.Connected → r._knots ≠ [] →
    ∃ r2, Rope.applySteps direction n r = some r2 ∧ r2.Connected ∧
      r2._knots.length = r._knots.length := by
  induction n with
  | zero => intro r hc _; exact ⟨r, rfl, hc, rfl⟩
  | succ n ih =>
    intro r hc hne
    obtain ⟨r1, h1, h2, h3⟩ := Rope.applyStep_spec r direction hc hne
    have hne1 : r1._knots ≠ [] := by
      intro h
      rw [h] at h3
      exact hne (List.length_eq_zero.1 h3.symm)
    obtain ⟨r2, h4, h5, h6⟩ := ih r1 h2 hne1
    exact ⟨r2, by simp only [Rope.applySteps, h1, h4], h5, by rw [h6, h3]⟩

theorem Rope.applyMotions_spec (motions : List Motion) : ∀ (r : Rope),
    r.Connected → r._knots ≠ [] →
    ∃ r2, r.applyMotions motions = some r2 ∧ r2.Connected ∧
      r2._knots.length = r._knots.length := by
  induction motions with
  | nil => intro r hc _; exact ⟨r, rfl, hc, rfl⟩
  | cons motion rest ih =>
    intro r hc hne
    obtain ⟨r1, h1, h2, h3⟩ := Rope.applySteps_spec motion.1 motion.2.toNat r hc hne
    have hne1 : r1._knots ≠ [] := by
      intro h
      rw [h] at h3
      exact hne (List.length_eq_zero.1 h3.symm)
    obtain ⟨r2, h4, h5, h6⟩ := ih r1 h2 hne1
    refine ⟨r2, ?_, h5, by rw [h6, h3]⟩
    simp only [Rope.applyMotions, Rope.applyMotion, h1, h4]

theorem chain_replicate_origin (n : Nat) :
    List.Chain (fun a b : Position => b.touching a = true) Position.origin
      (List.replicate n Position.origin) := by
  induction n with
  | zero => exact List.Chain.nil
  | succ n ih => exact List.Chain.cons (by decide) ih

theorem Rope.new_spec (size : Nat) (hsize : 1 ≤ size) :
    ∃ r, Rope.new size = some r ∧ r.Connected ∧ r._knots.length = size := by
  obtain ⟨n, rfl⟩ : ∃ n, size = n + 1 := ⟨size - 1, by omega⟩
  obtain ⟨r, h1, h2⟩ := Rope.recordTail_spec ⟨List.replicate (n + 1) Position.origin, []⟩
    (by simp [List.replicate])
  refine ⟨r, h1, ?_, by rw [h2]; simp⟩
  unfold Rope.Connected
  rw [h2]
  exact chain_replicate_origin n

/-- C35 (the knots of the rope stay connected).  For every rope of at least one knot
and every sequence of motions the program runs through without reaching a
`std::terminate` branch, and in the rope it ends with every knot is touching the knot
before it.  The same holds after each single step of the head: one step on a connected
rope returns a connected rope of the same length.  (The rope after `k` steps of a
motion is the rope at the end of the motions with that motion cut to `k` steps.) -/
theorem rope_knots_stay_touching (size : Nat) (motions : List Motion) (hsize : 1 ≤ size) :
    (∃ rope r, Rope.new size = some rope ∧ rope.applyMotions motions = some r ∧
      r.Connected ∧ r._knots.length = size ∧
      ∀ direction, ∃ r2, r.applyStep direction = some r2 ∧ r2.Connected ∧
        r2._knots.length = size) ∧
    (∃ n, answer size motions = some n) := by
  obtain ⟨rope, h1, h2, h3⟩ := Rope.new_spec size hsize
  have hne : rope._knots ≠ [] := by
    intro h
    rw [h] at h3
    simp at h3
    omega
  obtain ⟨r, h4, h5, h6⟩ := Rope.applyMotions_spec motions rope h2 hne
  have hne2 : r._knots ≠ [] := by
    intro h
    rw [h] at h6
    exact hne (List.length_eq_zero.1 h6.symm)
  refine ⟨⟨rope, r, h1, h4, h5, by rw [h6, h3], ?_⟩, ?_⟩
  · intro direction
    obtain ⟨r2, h7, h8, h9⟩ := Rope.applyStep_spec r direction h5 hne2
    exact ⟨r2, h7, h8, by rw [h9, h6, h3]⟩
  · refine ⟨r.tailPositions.length, ?_⟩
    simp only [answer, h1, h4, Option.map_some']

theorem rope_knots_stay_touching_witness :
    answer 10 [(Direction.right, 5), (Direction.up, 8), (Direction.left, 8),
        (Direction.down, 3), (Direction.right, 17), (Direction.down, 10),
        (Direction.left, 25), (Direction.up, 20)] = some 36 ∧
    ∃ rope r, Rope.new 10 = some rope ∧
      rope.applyMotions [(Direction.right, 5), (Direction.up, 8), (Direction.left, 8),
        (Direction.down, 3), (Direction.right, 17), (Direction.down, 10),
        (Direction.left, 25), (Direction.up, 20)] = some r ∧
      r.Connected ∧ r._knots.length = 10 ∧
      ∀ direction, ∃ r2, r.applyStep direction = some r2 ∧ r2.Connected ∧
        r2._knots.length = 10 :=
  ⟨by decide,
    (rope_knots_stay_touching 10 [(Direction.right, 5), (Direction.up, 8), (Direction.left, 8),
        (Direction.down, 3), (Direction.right, 17), (Direction.down, 10),
        (Direction.left, 25), (Direction.up, 20)] (by decide)).1⟩

end Day09

namespace Day13

/-! ## The packet comparison -/

theorem TriBool.opposite_ne_indeterminate (r : TriBool) :
    r.opposite ≠ TriBool.Indeterminate ↔ r ≠ TriBool.Indeterminate := by
  cases r <;> simp [TriBool.opposite]

/-- Exchanging the two packets exchanges the answers `True` and `False`. -/
theorem isRightOrder_exchange (a b : PacketArray) :
    isRightOrder b a = (isRightOrder a b).opposite := by
  induction a, b using isRightOrder.induct with
  | case1 head tail => simp [isRightOrder, TriBool.opposite]
  | case2 head tail => simp [isRightOrder, TriBool.opposite]
  | case3 => simp [isRightOrder, TriBool.opposite]
  | case4 leftRest rightRest leftInt rightInt h =>
    have h2 : ¬ rightInt < leftInt := by omega
    simp [isRightOrder, h, h2, TriBool.opposite]
  | case5 leftRest rightRest leftInt rightInt h1 h2 =>
    have h3 : rightInt < leftInt := h2
    simp [isRightOrder, h1, h3, TriBool.opposite]
  | case6 leftRest rightRest leftInt rightInt h1 h2 ih =>
    have h3 : ¬ rightInt < leftInt := h2
    simp [isRightOrder, h1, h3, ih]
  | case7 leftRest rightRest leftArr rightArr result h ih =>
    have hr : isRightOrder leftArr rightArr ≠ TriBool.Indeterminate := h
    have hr2 : isRightOrder rightArr leftArr ≠ TriBool.Indeterminate := by
      rw [ih]; exact (TriBool.opposite_ne_indeterminate _).2 hr
    rw [isRightOrder, isRightOrder]
    simp only [hr, ne_eq, not_false_eq_true, if_true, ih]
    rw [ih] at hr2
    exact if_pos hr2
  | case8 leftRest rightRest leftArr rightArr result h ih1 ih2 =>
    have hr : isRightOrder leftArr rightArr = TriBool.Indeterminate := not_not.1 h
    have hr2 : isRightOrder rightArr leftArr = TriBool.Indeterminate := by
      rw [ih1, hr]; rfl
    rw [isRightOrder, isRightOrder]
    simp only [hr, hr2, ne_eq, not_true_eq_false, if_false, ih2]
  | case9 leftRest rightRest leftInt rightArr result h ih =>
    have hr : isRightOrder [PacketData.integer leftInt] rightArr ≠ TriBool.Indeterminate := h
    have hr2 : isRightOrder rightArr [PacketData.integer leftInt] ≠ TriBool.Indeterminate := by
      rw [ih]; exact (TriBool.opposite_ne_indeterminate _).2 hr
    rw [isRightOrder, isRightOrder]
    simp only [hr, ne_eq, not_false_eq_true, if_true, ih]
    rw [ih] at hr2
    exact if_pos hr2
  | case10 leftRest rightRest leftInt rightArr result h ih1 ih2 =>
    have hr : isRightOrder [PacketData.integer leftInt] rightArr = TriBool.Indeterminate :=
      not_not.1 h
    have hr2 : isRightOrder rightArr [PacketData.integer leftInt] = TriBool.Indeterminate := by
      rw [ih1, hr]; rfl
    rw [isRightOrder, isRightOrder]
    simp only [hr, hr2, ne_eq, not_true_eq_false, if_false, ih2]
  | case11 leftRest rightRest leftArr rightInt result h ih =>
    have hr : isRightOrder leftArr [PacketData.integer rightInt] ≠ TriBool.Indeterminate := h
    have hr2 : isRightOrder [PacketData.integer rightInt] leftArr ≠ TriBool.Indeterminate := by
      rw [ih]; exact (TriBool.opposite_ne_indeterminate _).2 hr
    rw [isRightOrder, isRightOrder]
    simp only [hr, ne_eq, not_false_eq_true, if_true, ih]
    rw [ih] at hr2
    exact if_pos hr2
  | case12 leftRest rightRest leftArr rightInt result h ih1 ih2 =>
    have hr : isRightOrder leftArr [PacketData.integer rightInt] = TriBool.Indeterminate :=
      not_not.1 h
    have hr2 : isRightOrder [PacketData.integer rightInt] leftArr = TriBool.Indeterminate := by
      rw [ih1, hr]; rfl
    rw [isRightOrder, isRightOrder]
    simp only [hr, hr2, ne_eq, not_true_eq_false, if_false, ih2]

/-- A packet compared with itself gives `Indeterminate`. -/
theorem isRightOrder_same (a b : PacketArray) :
    a = b → isRightOrder a b = TriBool.Indeterminate := by
  induction a, b using isRightOrder.induct with
  | case1 head tail => intro h; simp at h
  | case2 head tail => intro h; simp at h
  | case3 => intro _; simp [isRightOrder]
  | case4 leftRest rightRest leftInt rightInt h =>
    intro heq
    simp only [List.cons.injEq, PacketData.integer.injEq] at heq
    omega
  | case5 leftRest rightRest leftInt rightInt h1 h2 =>
    intro heq
    simp only [List.cons.injEq, PacketData.integer.injEq] at heq
    omega
  | case6 leftRest rightRest leftInt rightInt h1 h2 ih =>
    intro heq
    simp only [List.cons.injEq, PacketData.integer.injEq] at heq
    simp [isRightOrder, h1, h2, ih heq.2]
  | case7 leftRest rightRest leftArr rightArr result h ih =>
    intro heq
    simp only [List.cons.injEq, PacketData.array.injEq] at heq
    exact absurd (ih heq.1) h
  | case8 leftRest rightRest leftArr rightArr result h ih1 ih2 =>
    intro heq
    simp only [List.cons.injEq, PacketData.array.injEq] at heq
    rw [isRightOrder]
    simp only [ih1 heq.1, ne_eq, not_true_eq_false, if_false, ih2 heq.2]
  | case9 leftRest rightRest leftInt rightArr result h ih => intro heq; simp at heq
  | case10 leftRest rightRest leftInt rightArr result h ih1 ih2 => intro heq; simp at heq
  | case11 leftRest rightRest leftArr rightInt result h ih => intro heq; simp at heq
  | case12 leftRest rightRest leftArr rightInt result h ih1 ih2 => intro heq; simp at heq

/-- C34 (the packet comparison is antisymmetric and irreflexive).  `isRightOrder` is a
total function of two finite packets, and for all packets `a` and `b`:
`isRightOrder(a, b)` is `True` exactly when `isRightOrder(b, a)` is `False`, it is
`Indeterminate` exactly when `isRightOrder(b, a)` is, and `isRightOrder(a, a)` is
`Indeterminate`.  So the comparison that part 2 hands to `std::sort`
(`result == True`) is irreflexive and asymmetric. -/
theorem isRightOrder_is_antisymmetric_and_irreflexive (a b : PacketArray) :
    (isRightOrder a b = TriBool.True ↔ isRightOrder b a = TriBool.False) ∧
      (isRightOrder a b = TriBool.False ↔ isRightOrder b a = TriBool.True) ∧
      (isRightOrder a b = TriBool.Indeterminate ↔ isRightOrder b a = TriBool.Indeterminate) ∧
      isRightOrder a a = TriBool.Indeterminate ∧
      sortComparator a a = false ∧
      (sortComparator a b = true → sortComparator b a = false) := by
  have hx := isRightOrder_exchange a b
  have hs := isRightOrder_same a a rfl
  refine ⟨?_, ?_, ?_, hs, ?_, ?_⟩
  · rw [hx]; cases isRightOrder a b <;> simp [TriBool.opposite]
  · rw [hx]; cases isRightOrder a b <;> simp [TriBool.opposite]
  · rw [hx]; cases isRightOrder a b <;> simp [TriBool.opposite]
  · simp [sortComparator, hs]
  · simp only [sortComparator, decide_eq_true_eq, decide_eq_false_iff_not]
    intro h
    rw [hx, h]
    simp [TriBool.opposite]

end Day13

namespace Day25

/-! ## Conversions to `double` -/

/-- A magnitude below `2 ^ 53` is a `double`. -/
theorem roundNat_of_lt (m : Nat) (h : m < 2 ^ 53) : roundNat m = m := by
  have hs : doubleSpacing 971 m 1 = 1 := by
    show (if m / 1 < 2 ^ 53 then 1 else doubleSpacing 970 m (2 * 1)) = 1
    rw [Nat.div_one, if_pos h]
  simp [roundNat, hs, Nat.mod_one]

/-- An integer between `-2 ^ 53` and `2 ^ 53` converts to `double` without a change. -/
theorem toDouble_of_lt (v : Int) (h1 : -(2 ^ 53) < v) (h2 : v < 2 ^ 53) : toDouble v = v := by
  have hm : v.natAbs < 2 ^ 53 := by omega
  simp only [toDouble, roundNat_of_lt _ hm]
  split_ifs <;> omega

theorem toDouble_two_pow_53 : toDouble (2 ^ 53) = 2 ^ 53 := by decide

theorem toDouble_of_le (v : Int) (h1 : 0 ≤ v) (h2 : v ≤ 2 ^ 53) : toDouble v = v := by
  by_cases h : v = 2 ^ 53
  · rw [h]; exact toDouble_two_pow_53
  · exact toDouble_of_lt v (by omega) (by omega)

theorem doubleInfinity_gt : (2 : Int) ^ 63 < doubleInfinity := by decide

theorem five_pow_odd (L : Nat) : ((5 : Int) ^ L) % 2 = 1 := by
  induction L with
  | zero => rfl
  | succ L ih => rw [pow_succ]; omega

theorem five_pow_pos (L : Nat) : (1 : Int) ≤ 5 ^ L := by
  induction L with
  | zero => exact le_refl _
  | succ L ih => rw [pow_succ]; omega

theorem five_pow_le (a b : Nat) (h : a ≤ b) : (5 : Int) ^ a ≤ 5 ^ b :=
  pow_le_pow_right₀ (by decide) h

/-! ## SNAFU numbers -/

theorem SnafuDigit.ofChar_eq_some_iff (c : Char) (d : SnafuDigit) :
    SnafuDigit.ofChar c = some d ↔ IsSnafuChar c ∧ d = ⟨c⟩ := by
  unfold SnafuDigit.ofChar
  by_cases h : IsSnafuChar c
  · have hv : SnafuDigit.isValidSnafuDigit c = true := by
      rcases h with h | h | h | h | h <;> subst h <;> decide
    simp only [hv, Bool.not_true, Bool.false_eq_true, if_false, Option.some.injEq, h, true_and]
    exact eq_comm
  · have hv : SnafuDigit.isValidSnafuDigit c = false := by
      unfold SnafuDigit.isValidSnafuDigit SnafuDigit.snafuDigits
      simp only [IsSnafuChar, not_or] at h
      obtain ⟨h1, h2, h3, h4, h5⟩ := h
      simp [List.find?, Ne.symm h1, Ne.symm h2, Ne.symm h3, Ne.symm h4, Ne.symm h5]
    simp [hv, h]

theorem SnafuDigit.decimalValue_of_snafuChar (c : Char) (h : IsSnafuChar c) :
    SnafuDigit.decimalValue ⟨c⟩ = some (charValue c) := by
  rcases h with h | h | h | h | h <;> subst h <;> decide

theorem charValue_range (c : Char) (h : IsSnafuChar c) :
    -2 ≤ charValue c ∧ charValue c ≤ 2 := by
  rcases h with h | h | h | h | h <;> subst h <;> decide

theorem snafuValue_append_singleton (ds : List SnafuDigit) (d : SnafuDigit) :
    snafuValue (ds ++ [d]) = 5 * snafuValue ds + charValue d._digit := by
  simp [snafuValue, List.foldl_append]

/-- The value of `k` digits lies between `-(5 ^ k - 1) / 2` and `(5 ^ k - 1) / 2`. -/
theorem snafuValue_bound (ds : List SnafuDigit) :
    (∀ d ∈ ds, IsSnafuChar d._digit) →
    -((5 : Int) ^ ds.length) < 2 * snafuValue ds ∧ 2 * snafuValue ds < 5 ^ ds.length := by
  induction ds using List.reverseRecOn with
  | nil => intro _; exact ⟨by decide, by decide⟩
  | append_singleton init d ih =>
    intro hv
    have hd := charValue_range _ (hv d (List.mem_append_right _ (List.mem_singleton.2 rfl)))
    have hi := ih (fun x hx => hv x (List.mem_append_left _ hx))
    rw [snafuValue_append_singleton, List.length_append, List.length_singleton, pow_succ]
    have hodd := five_pow_odd init.length
    omega

/-- The loop of `toDecimal` adds the digits with their powers of 5, as long as no more
than 23 digits are involved: up to there every `double` in the loop is exact. -/
theorem SnafuNumber.toDecimalLoop_spec (rs : List SnafuDigit)
    (hv : ∀ d ∈ rs, IsSnafuChar d._digit) : ∀ (value i : Int), 0 ≤ i →
    i + rs.length ≤ 23 → -((5 : Int) ^ i.toNat) < 2 * value → 2 * value < 5 ^ i.toNat →
    SnafuNumber.toDecimalLoop rs value i = some (value + 5 ^ i.toNat * snafuValue rs.reverse) := by
  induction rs with
  | nil => intro value i _ _ _ _; simp [SnafuNumber.toDecimalLoop, snafuValue]
  | cons d rest ih =>
    intro value i hi hlen hlo hhi
    have hdc := hv d (List.mem_cons_self _ _)
    have hd2 : d.decimalValue = some (charValue d._digit) :=
      SnafuDigit.decimalValue_of_snafuChar d._digit hdc
    have hrange := charValue_range _ hdc
    simp only [List.length_cons, Nat.cast_add, Nat.cast_one] at hlen
    have hi22 : i.toNat ≤ 22 := by omega
    have hP22 := five_pow_le _ _ hi22
    have hP1 := five_pow_pos i.toNat
    have h22 : (5 : Int) ^ 22 = 2384185791015625 := by decide
    rw [h22] at hP22
    have hpow : (5 : Int) ^ (i + 1).toNat = 5 ^ i.toNat * 5 := by
      rw [Int.toNat_add hi (by decide)]
      exact pow_succ 5 i.toNat
    have hprodlo : -(2 * (5 : Int) ^ i.toNat) ≤ 5 ^ i.toNat * charValue d._digit := by
      nlinarith [hrange.1, hrange.2]
    have hprodhi : (5 : Int) ^ i.toNat * charValue d._digit ≤ 2 * 5 ^ i.toNat := by
      nlinarith [hrange.1, hrange.2]
    have e1 : toDouble (5 ^ i.toNat) = 5 ^ i.toNat := toDouble_of_lt _ (by omega) (by omega)
    have e2 : toDouble (charValue d._digit) = charValue d._digit :=
      toDouble_of_lt _ (by omega) (by omega)
    have e3 : toDouble (5 ^ i.toNat * charValue d._digit) = 5 ^ i.toNat * charValue d._digit :=
      toDouble_of_lt _ (by omega) (by omega)
    have e4 : toDouble value = value := toDouble_of_lt _ (by omega) (by omega)
    have e5 : toDouble (value + 5 ^ i.toNat * charValue d._digit)
        = value + 5 ^ i.toNat * charValue d._digit := toDouble_of_lt _ (by omega) (by omega)
    have hinf := doubleInfinity_gt
    simp only [SnafuNumber.toDecimalLoop, hd2, e1, e2, e3, e4, e5]
    rw [if_neg (by omega),
      ih (fun e he => hv e (List.mem_cons_of_mem _ he)) _ (i + 1) (by omega) (by omega)
        (by rw [hpow]; omega) (by rw [hpow]; omega),
      List.reverse_cons, snafuValue_append_singleton, hpow]
    congr 1
    ring

/-- For a number of at most 23 digits `toDecimal` returns the value of the digits. -/
theorem SnafuNumber.toDecimal_eq (ds : List SnafuDigit)
    (hv : ∀ d ∈ ds, IsSnafuChar d._digit) (hlen : ds.length ≤ 23) :
    SnafuNumber.toDecimal ⟨ds⟩ = some (snafuValue ds) := by
  unfold SnafuNumber.toDecimal
  rw [SnafuNumber.toDecimalLoop_spec ds.reverse
    (fun d hd => hv d (List.mem_reverse.1 hd)) 0 0 (le_refl _)
    (by rw [List.length_reverse]; omega) (by decide) (by decide)]
  simp

/-- The body of the loop of `fromDecimal` splits off the last digit: for a positive
`n = 5 * v + value of c` with `v ≤ 2 ^ 53` it yields the digit `c` and the new value
`v`. -/
theorem SnafuNumber.fromDecimalStep_of_digit (c : Char) (h : IsSnafuChar c) (v : Int)
    (hpos : 0 < 5 * v + charValue c) (hv : v ≤ 2 ^ 53) :
    SnafuNumber.fromDecimalStep (5 * v + charValue c) = some (⟨c⟩, v) := by
  have h5 : (0 : Int) ≤ 5 := by decide
  have hx : (5 * v + charValue c).tmod 5 = (5 * v + charValue c) % 5 :=
    Int.tmod_eq_emod (le_of_lt hpos) h5
  have hrange := charValue_range c h
  have htd : toDouble v = v := toDouble_of_le v (by omega) hv
  have n43 : ¬ ((4 : Int) = 3) := by decide
  have n03 : ¬ ((0 : Int) = 3) := by decide
  have n04 : ¬ ((0 : Int) = 4) := by decide
  have n13 : ¬ ((1 : Int) = 3) := by decide
  have n14 : ¬ ((1 : Int) = 4) := by decide
  have n23 : ¬ ((2 : Int) = 3) := by decide
  have n24 : ¬ ((2 : Int) = 4) := by decide
  unfold SnafuNumber.fromDecimalStep
  simp only [hx]
  rcases h with h | h | h | h | h <;> subst h
  · have e1 : charValue '=' = -2 := by decide
    rw [e1] at hpos ⊢
    have e2 : (5 * v + -2) % 5 = 3 := by omega
    have e3 : SnafuDigit.ofChar '=' = some ⟨'='⟩ := by decide
    have hdiv : (5 * v + -2 - -2).tdiv 5 = v := by
      rw [Int.tdiv_eq_ediv (by omega) h5]; omega
    simp only [e2, if_true, e3, hdiv, htd]
  · have e1 : charValue '-' = -1 := by decide
    rw [e1] at hpos ⊢
    have e2 : (5 * v + -1) % 5 = 4 := by omega
    have e3 : SnafuDigit.ofChar '-' = some ⟨'-'⟩ := by decide
    have hdiv : (5 * v + -1 - -1).tdiv 5 = v := by
      rw [Int.tdiv_eq_ediv (by omega) h5]; omega
    simp only [e2, n43, if_false, if_true, e3, hdiv, htd]
  · have e1 : charValue '0' = 0 := by decide
    rw [e1] at hpos ⊢
    have e2 : (5 * v + 0) % 5 = 0 := by omega
    have e3 : SnafuDigit.ofChar ((ToString.toString (0 : Int)).get 0) = some ⟨'0'⟩ := by decide
    have hdiv : (5 * v + 0 - 0).tdiv 5 = v := by
      rw [Int.tdiv_eq_ediv (by omega) h5]; omega
    simp only [e2, n03, n04, if_false, e3, hdiv, htd]
  · have e1 : charValue '1' = 1 := by decide
    rw [e1] at hpos ⊢
    have e2 : (5 * v + 1) % 5 = 1 := by omega
    have e3 : SnafuDigit.ofChar ((ToString.toString (1 : Int)).get 0) = some ⟨'1'⟩ := by decide
    have hdiv : (5 * v + 1 - 1).tdiv 5 = v := by
      rw [Int.tdiv_eq_ediv (by omega) h5]; omega
    simp only [e2, n13, n14, if_false, e3, hdiv, htd]
  · have e1 : charValue '2' = 2 := by decide
    rw [e1] at hpos ⊢
    have e2 : (5 * v + 2) % 5 = 2 := by omega
    have e3 : SnafuDigit.ofChar ((ToString.toString (2 : Int)).get 0) = some ⟨'2'⟩ := by decide
    have hdiv : (5 * v + 2 - 2).tdiv 5 = v := by
      rw [Int.tdiv_eq_ediv (by omega) h5]; omega
    simp only [e2, n23, n24, if_false, e3, hdiv, htd]

/-- Every positive `n` is `5 * v + value of c` for a SNAFU digit `c` and a `v` with
`0 ≤ v < n`. -/
theorem exists_last_digit (n : Int) (hn : 0 < n) :
    ∃ c v, IsSnafuChar c ∧ n = 5 * v + charValue c ∧ 0 ≤ v ∧ v < n := by
  have e0 : charValue '0' = 0 := by decide
  have e1 : charValue '1' = 1 := by decide
  have e2 : charValue '2' = 2 := by decide
  have e3 : charValue '=' = -2 := by decide
  have e4 : charValue '-' = -1 := by decide
  have h : n % 5 = 0 ∨ n % 5 = 1 ∨ n % 5 = 2 ∨ n % 5 = 3 ∨ n % 5 = 4 := by omega
  rcases h with h | h | h | h | h
  · refine ⟨'0', n / 5, by decide, ?_, by omega, by omega⟩
    rw [e0]; omega
  · refine ⟨'1', n / 5, by decide, ?_, by omega, by omega⟩
    rw [e1]; omega
  · refine ⟨'2', n / 5, by decide, ?_, by omega, by omega⟩
    rw [e2]; omega
  · refine ⟨'=', (n + 2) / 5, by decide, ?_, by omega, by omega⟩
    rw [e3]; omega
  · refine ⟨'-', (n + 1) / 5, by decide, ?_, by omega, by omega⟩
    rw [e4]; omega

theorem SnafuNumber.fromDecimalLoop_zero (digits : List SnafuDigit) :
    SnafuNumber.fromDecimalLoop 0 digits = some digits := by
  rw [SnafuNumber.fromDecimalLoop]
  simp

theorem SnafuNumber.fromDecimalLoop_step (n : Int) (hn : 0 < n) (d : SnafuDigit) (v : Int)
    (hstep : SnafuNumber.fromDecimalStep n = some (d, v)) (digits : List SnafuDigit) :
    SnafuNumber.fromDecimalLoop n digits = SnafuNumber.fromDecimalLoop v (d :: digits) := by
  rw [SnafuNumber.fromDecimalLoop]
  simp only [gt_iff_lt, hn, dif_pos]
  split
  · rename_i heq
    rw [hstep] at heq
    exact absurd heq (by simp)
  · rename_i nd n2 heq
    rw [hstep] at heq
    simp only [Option.some.injEq, Prod.mk.injEq] at heq
    rw [← heq.1, ← heq.2]

/-- The loop of `fromDecimal`, started at an `n` with `0 ≤ n ≤ 2 ^ 53`, returns: it puts
the digits of `n` in front of `digits`, no more than `L` of them when
`n ≤ (5 ^ L - 1) / 2`. -/
theorem SnafuNumber.fromDecimalLoop_spec (k : Nat) : ∀ (n : Int), 0 ≤ n → n.toNat ≤ k →
    n ≤ 2 ^ 53 →
    ∀ digits, ∃ ds, SnafuNumber.fromDecimalLoop n digits = some (ds ++ digits) ∧
      (∀ d ∈ ds, IsSnafuChar d._digit) ∧ snafuValue ds = n ∧ (n = 0 → ds = []) ∧
      ∀ L : Nat, 2 * n + 1 ≤ 5 ^ L → ds.length ≤ L := by
  induction k with
  | zero =>
    intro n h0 hk _ digits
    have hn : n = 0 := by omega
    subst hn
    exact ⟨[], SnafuNumber.fromDecimalLoop_zero digits,
      fun d hd => absurd hd (List.not_mem_nil _), rfl, fun _ => rfl, fun L _ => Nat.zero_le L⟩
  | succ k ih =>
    intro n h0 hk hle digits
    by_cases hn : n > 0
    · obtain ⟨c, v, hc, hnv, hv0, hvn⟩ := exists_last_digit n hn
      have hstep := SnafuNumber.fromDecimalStep_of_digit c hc v (by rw [← hnv]; exact hn)
        (by omega)
      rw [← hnv] at hstep
      obtain ⟨ds, h1, h2, h3, -, h5⟩ := ih v hv0 (by omega) (by omega) (⟨c⟩ :: digits)
      refine ⟨ds ++ [⟨c⟩], ?_, ?_, ?_, fun h => absurd h (by omega), ?_⟩
      · rw [SnafuNumber.fromDecimalLoop_step n hn _ _ hstep, h1]
        simp
      · intro d hd
        rcases List.mem_append.1 hd with hd | hd
        · exact h2 d hd
        · rw [List.mem_singleton.1 hd]; exact hc
      · rw [snafuValue_append_singleton, h3, hnv]
      · intro L hL
        have hrange := charValue_range c hc
        cases L with
        | zero =>
          rw [pow_zero] at hL
          omega
        | succ L =>
          rw [pow_succ] at hL
          have hodd := five_pow_odd L
          have := h5 L (by omega)
          rw [List.length_append, List.length_singleton]
          omega
    · have hn0 : n = 0 := by omega
      subst hn0
      exact ⟨[], SnafuNumber.fromDecimalLoop_zero digits,
        fun d hd => absurd hd (List.not_mem_nil _), rfl, fun _ => rfl, fun L _ => Nat.zero_le L⟩

/-- A digit sequence that starts with `1` or `2` has a positive value, and the loop of
`fromDecimal` started at that value, when it is at most `2 ^ 53`, rebuilds the
sequence. -/
theorem SnafuNumber.fromDecimalLoop_of_value (ds : List SnafuDigit) :
    (∀ d ∈ ds, IsSnafuChar d._digit) →
    (ds.head? = some ⟨'1'⟩ ∨ ds.head? = some ⟨'2'⟩) →
    0 < snafuValue ds ∧
      (snafuValue ds ≤ 2 ^ 53 →
        ∀ digits, SnafuNumber.fromDecimalLoop (snafuValue ds) digits = some (ds ++ digits)) := by
  induction ds using List.reverseRecOn with
  | nil =>
    intro _ hfirst
    rcases hfirst with h | h <;> simp at h
  | append_singleton init d ih =>
    intro hv hfirst
    have hd : IsSnafuChar d._digit := hv d (List.mem_append_right _ (List.mem_singleton.2 rfl))
    have hrange := charValue_range _ hd
    rw [snafuValue_append_singleton]
    cases init with
    | nil =>
      have hval : 0 < charValue d._digit := by
        simp only [List.nil_append, List.head?_cons, Option.some.injEq] at hfirst
        rcases hfirst with h | h <;> rw [h] <;> decide
      have hv0 : snafuValue [] = 0 := rfl
      rw [hv0]
      refine ⟨by omega, ?_⟩
      intro _ digits
      have hstep := SnafuNumber.fromDecimalStep_of_digit d._digit hd 0 (by omega) (by decide)
      rw [SnafuNumber.fromDecimalLoop_step _ (by omega) _ _ hstep,
        SnafuNumber.fromDecimalLoop_zero]
      rfl
    | cons e rest =>
      obtain ⟨hpos, hloop⟩ := ih (fun x hx => hv x (List.mem_append_left _ hx))
        (by simpa using hfirst)
      refine ⟨by omega, ?_⟩
      intro hle digits
      have hstep := SnafuNumber.fromDecimalStep_of_digit d._digit hd (snafuValue (e :: rest))
        (by omega) (by omega)
      rw [SnafuNumber.fromDecimalLoop_step _ (by omega) _ _ hstep, hloop (by omega)]
      simp

theorem SnafuNumber.transformChars_eq_some (cs : List Char) : ∀ ds,
    SnafuNumber.transformChars cs = some ds →
      (∀ c ∈ cs, IsSnafuChar c) ∧ ds = cs.map SnafuDigit.mk := by
  induction cs with
  | nil =>
    intro ds h
    simp only [SnafuNumber.transformChars, Option.some.injEq] at h
    exact ⟨fun c hc => absurd hc (List.not_mem_nil _), by rw [← h]; rfl⟩
  | cons c rest ih =>
    intro ds h
    simp only [SnafuNumber.transformChars] at h
    cases hc : SnafuDigit.ofChar c with
    | none => simp [hc] at h
    | some d =>
      cases hr : SnafuNumber.transformChars rest with
      | none => simp [hc, hr] at h
      | some ds2 =>
        simp only [hc, hr, Option.some.injEq] at h
        obtain ⟨h1, h2⟩ := ih ds2 hr
        obtain ⟨h3, h4⟩ := (SnafuDigit.ofChar_eq_some_iff c d).1 hc
        refine ⟨?_, ?_⟩
        · intro x hx
          rcases List.mem_cons.1 hx with hx | hx
          · rw [hx]; exact h3
          · exact h1 x hx
        · rw [← h, h4, h2]; rfl

theorem SnafuNumber.transformChars_of_snafuChars (cs : List Char)
    (h : ∀ c ∈ cs, IsSnafuChar c) :
    SnafuNumber.transformChars cs = some (cs.map SnafuDigit.mk) := by
  induction cs with
  | nil => rfl
  | cons c rest ih =>
    have hc : SnafuDigit.ofChar c = some ⟨c⟩ :=
      (SnafuDigit.ofChar_eq_some_iff c ⟨c⟩).2 ⟨h c (List.mem_cons_self _ _), rfl⟩
    simp only [SnafuNumber.transformChars, hc,
      ih (fun x hx => h x (List.mem_cons_of_mem _ hx)), List.map_cons]

/-! ## The two round trips -/

/-- Decimal to SNAFU and back, up to 23 digits.  For every `n` with
`0 ≤ n ≤ 5960464477539062 = (5 ^ 23 - 1) / 2`, the largest number of 23 digits,
`fromDecimal(n)` returns a number whose `toDecimal()` is `n`; each of its digits is one of
`=`, `-`, `0`, `1`, `2`; for `n = 0` the digit sequence is empty; and for `n > 0` the
body of the loop replaces `n` by a value `v` with `0 ≤ v < n`. -/
theorem SnafuNumber.fromDecimal_toDecimal_of_le (n : Int) (hn : 0 ≤ n)
    (hle : n ≤ 5960464477539062) :
    ∃ s, SnafuNumber.fromDecimal n = some s ∧ s.toDecimal = some n ∧
      (∀ d ∈ s._snafuDigits, d.digit = '=' ∨ d.digit = '-' ∨ d.digit = '0' ∨ d.digit = '1' ∨
        d.digit = '2') ∧
      (n = 0 → s._snafuDigits = []) ∧
      (0 < n → ∃ d v, SnafuNumber.fromDecimalStep n = some (d, v) ∧ 0 ≤ v ∧ v < n) := by
  obtain ⟨ds, h1, h2, h3, h4, h5⟩ :=
    SnafuNumber.fromDecimalLoop_spec n.toNat n hn (le_refl _) (by omega) []
  rw [List.append_nil] at h1
  have h23 : (5 : Int) ^ 23 = 11920928955078125 := by decide
  have hlen : ds.length ≤ 23 := h5 23 (by rw [h23]; omega)
  refine ⟨⟨ds⟩, ?_, ?_, h2, h4, ?_⟩
  · simp only [SnafuNumber.fromDecimal, h1, Option.map_some']
  · rw [SnafuNumber.toDecimal_eq ds h2 hlen, h3]
  · intro hpos
    obtain ⟨c, v, hc, hnv, hv0, hvn⟩ := exists_last_digit n hpos
    have hstep := SnafuNumber.fromDecimalStep_of_digit c hc v (by rw [← hnv]; exact hpos)
      (by omega)
    rw [← hnv] at hstep
    exact ⟨_, v, hstep, hv0, hvn⟩

/-- SNAFU to decimal and back, up to 23 digits.  For every string of at most 23 SNAFU
digits whose first digit is `1` or `2`, the constructor accepts the string,
`toDecimal` of the number built from it is positive, and `fromDecimal` of that value
returns the number with exactly the digit sequence of the string. -/
theorem SnafuNumber.toDecimal_fromDecimal_of_length_le (str : String)
    (hchars : ∀ c ∈ str.data, IsSnafuChar c)
    (hfirst : str.data.head? = some '1' ∨ str.data.head? = some '2')
    (hlen : str.data.length ≤ 23) :
    ∃ num v, SnafuNumber.ofString str = some num ∧ num.toDecimal = some v ∧ 0 < v ∧
      SnafuNumber.fromDecimal v = some num ∧ num.toString = str ∧
      num._snafuDigits.map SnafuDigit.digit = str.data := by
  have ht := SnafuNumber.transformChars_of_snafuChars str.data hchars
  have hvalid : ∀ d ∈ str.data.map SnafuDigit.mk, IsSnafuChar d._digit := by
    intro d hd
    obtain ⟨c, hc, rfl⟩ := List.mem_map.1 hd
    exact hchars c hc
  have hhead : (str.data.map SnafuDigit.mk).head? = some ⟨'1'⟩ ∨
      (str.data.map SnafuDigit.mk).head? = some ⟨'2'⟩ := by
    rw [List.head?_map]
    rcases hfirst with h | h <;> rw [h]
    · exact Or.inl rfl
    · exact Or.inr rfl
  have hlen2 : (str.data.map SnafuDigit.mk).length ≤ 23 := by
    rw [List.length_map]; exact hlen
  obtain ⟨hpos, hloop⟩ := SnafuNumber.fromDecimalLoop_of_value _ hvalid hhead
  have hbound := (snafuValue_bound _ hvalid).2
  have h23 : (5 : Int) ^ 23 = 11920928955078125 := by decide
  have hP := five_pow_le _ _ hlen2
  rw [h23] at hP
  have hmap : (str.data.map SnafuDigit.mk).map SnafuDigit.digit = str.data := by
    rw [List.map_map]
    have : (SnafuDigit.digit ∘ SnafuDigit.mk) = id := rfl
    rw [this, List.map_id]
  refine ⟨⟨str.data.map SnafuDigit.mk⟩, snafuValue (str.data.map SnafuDigit.mk), ?_,
    SnafuNumber.toDecimal_eq _ hvalid hlen2, hpos, ?_, ?_, hmap⟩
  · simp only [SnafuNumber.ofString, ht, Option.map_some']
  · simp only [SnafuNumber.fromDecimal, hloop (by omega) [], List.append_nil, Option.map_some']
  · simp only [SnafuNumber.toString, hmap]

/-- C32 (decimal to SNAFU and back), the code at the failing input.
`5960464477539063 = (5 ^ 23 + 1) / 2` is the first number of 24 digits.
`fromDecimal` turns it into `1=======================`, and `toDecimal` of that
number is `5960464477539062`, one less: `std::pow(5, 23)` is a `double`, and the
`double` nearest to `5 ^ 23` is `5 ^ 23 - 1`.  Up to `5960464477539062` the round trip
returns `n`, as the claim says. -/
theorem decimal_round_trip_is_one_off_at_first_number_of_24_digits :
    SnafuNumber.fromDecimal 5960464477539063
        = some ⟨"1=======================".data.map SnafuDigit.mk⟩ ∧
      (SnafuNumber.mk ("1=======================".data.map SnafuDigit.mk)).toDecimal
        = some 5960464477539062 ∧
      ((SnafuNumber.fromDecimal 5960464477539063).bind SnafuNumber.toDecimal)
        ≠ some 5960464477539063 ∧
      toDouble (5 ^ 23) = 5 ^ 23 - 1 ∧
      ∀ n : Int, 0 ≤ n → n ≤ 5960464477539062 →
        (SnafuNumber.fromDecimal n).bind SnafuNumber.toDecimal = some n := by
  have hval : snafuValue ("1=======================".data.map SnafuDigit.mk)
      = 5960464477539063 := by decide
  have hfrom : SnafuNumber.fromDecimal 5960464477539063
      = some ⟨"1=======================".data.map SnafuDigit.mk⟩ := by
    obtain ⟨-, hloop⟩ := SnafuNumber.fromDecimalLoop_of_value
      ("1=======================".data.map SnafuDigit.mk) (by decide) (by decide)
    rw [hval] at hloop
    simp only [SnafuNumber.fromDecimal, hloop (by decide) [], List.append_nil, Option.map_some']
  have hto : (SnafuNumber.mk ("1=======================".data.map SnafuDigit.mk)).toDecimal
      = some 5960464477539062 := by decide
  refine ⟨hfrom, hto, ?_, by decide, ?_⟩
  · rw [hfrom, Option.some_bind, hto]
    decide
  · intro n hn hle
    obtain ⟨s, h1, h2, -⟩ := SnafuNumber.fromDecimal_toDecimal_of_le n hn hle
    rw [h1, Option.some_bind, h2]

/-- C33 (SNAFU to decimal and back), the code at the failing input.  The string
`1=======================` has 24 SNAFU digits and starts with `1`; its value is
`5960464477539063`.  The constructor accepts it, `toDecimal` returns
`5960464477539062`, and `fromDecimal` of that is `22222222222222222222222`, not the
digit sequence of the string.  For strings of at most 23 digits that start with `1`
or `2` the round trip gives back the digits, as the claim says. -/
theorem snafu_round_trip_gives_other_digits_for_24_digits :
    (∃ num, SnafuNumber.ofString "1=======================" = some num ∧
      snafuValue num._snafuDigits = 5960464477539063 ∧
      num.toDecimal = some 5960464477539062 ∧
      (SnafuNumber.fromDecimal 5960464477539062).map SnafuNumber.toString
        = some "22222222222222222222222" ∧
      SnafuNumber.fromDecimal 5960464477539062 ≠ some num) ∧
    ∀ str : String, (∀ c ∈ str.data, IsSnafuChar c) →
      (str.data.head? = some '1' ∨ str.data.head? = some '2') → str.data.length ≤ 23 →
      ∃ num v, SnafuNumber.ofString str = some num ∧ num.toDecimal = some v ∧ 0 < v ∧
        SnafuNumber.fromDecimal v = some num ∧ num.toString = str := by
  have hval : snafuValue ("22222222222222222222222".data.map SnafuDigit.mk)
      = 5960464477539062 := by decide
  have hfrom : SnafuNumber.fromDecimal 5960464477539062
      = some ⟨"22222222222222222222222".data.map SnafuDigit.mk⟩ := by
    obtain ⟨-, hloop⟩ := SnafuNumber.fromDecimalLoop_of_value
      ("22222222222222222222222".data.map SnafuDigit.mk) (by decide) (by decide)
    rw [hval] at hloop
    simp only [SnafuNumber.fromDecimal, hloop (by decide) [], List.append_nil, Option.map_some']
  refine ⟨⟨⟨"1=======================".data.map SnafuDigit.mk⟩, by decide, by decide,
    by decide, ?_, ?_⟩, ?_⟩
  · rw [hfrom]; decide
  · rw [hfrom]; decide
  · intro str hchars hfirst hlen
    obtain ⟨num, v, h1, h2, h3, h4, h5, -⟩ :=
      SnafuNumber.toDecimal_fromDecimal_of_length_le str hchars hfirst hlen
    exact ⟨num, v, h1, h2, h3, h4, h5⟩

end Day25
